import Mathlib

/-!
# Elliptic-curve group arithmetic of `mcl/ec.hpp`

A shallow embedding of `include/mcl/ec.hpp` (class `EcT<Fp>` and the free
functions of `mcl::ec`) over an abstract field `F`, followed by theorems about
the embedded functions.

The finite-field type `Fp` is an external collaborator of the source.  It is
modelled by an arbitrary `Field F` with decidable equality: `F::add`, `F::sub`,
`F::mul`, `F::sqr`, `F::neg`, `F::inv`, `F::div`, `F::mul2` are the field
operations, `isZero()` is `= 0` and `isOne()` is `= 1`.  Every output parameter
of the C++ code becomes the return value of the Lean function.
-/

namespace mcl

namespace ec

/-- The coordinate system, `enum Mode` of the source. -/
inductive Mode where
  | Jacobi
  | Proj
  | Affine
  deriving DecidableEq, Repr

/-- The class of the coefficient `a`, `enum ModeCoeffA` of the source. -/
inductive ModeCoeffA where
  | Zero
  | Minus3
  | GenericA
  deriving DecidableEq, Repr

/-- The class of the coefficient `b`, `enum ModeCoeffB` of the source. -/
inductive ModeCoeffB where
  | Plus1
  | Plus4
  | GenericB
  deriving DecidableEq, Repr

end ec

/-- The three coordinates `x, y, z` of `class EcT`. -/
structure EcT (F : Type) where
  x : F
  y : F
  z : F
  deriving DecidableEq, Repr

/-- The static members of `class EcT` (curve parameters, flags and hooks),
together with `sizeofF`, the compile-time constant `sizeof(F)` that
`dblJacobi` branches on.  Scalars of `Fr` are passed to the hooks as the
natural numbers that `getMpz` returns; the hook arguments are, in the order
of the source, `(xVec, yVec, n, constTime, b)`, `(xVec, yVec, n, b)` and
`(xVec, yVec, n)`, and an output parameter is the return value. -/
structure Param (F : Type) where
  mode_ : ec.Mode
  a_ : F
  b_ : F
  b3_ : F
  specialA_ : ec.ModeCoeffA
  specialB_ : ec.ModeCoeffB
  ioMode_ : Nat
  verifyOrder_ : Bool
  order_ : Int
  mulVecGLV : Option (List (EcT F) → List Nat → Nat → Bool → Nat → Option (EcT F))
  mulVecOpti : Option (List (EcT F) → List Nat → Nat → Nat → EcT F)
  mulEachOpti : Option (List (EcT F) → List Nat → Nat → List (EcT F))
  isValidOrderFast : Option (EcT F → Bool)
  sizeofF : Nat

variable {F : Type} [Field F] [DecidableEq F]

/-- The member `EcT::isZero`: `z.isZero()`. -/
def EcT.isZero (P : EcT F) : Bool := decide (P.z = 0)

/-- The member `EcT::clear`: `(0, 0, 0)` in Jacobi mode, `(0, 1, 0)` otherwise. -/
def EcT.clear (c : Param F) : EcT F :=
  if c.mode_ = ec.Mode.Jacobi then ⟨0, 0, 0⟩ else ⟨0, 1, 0⟩

namespace ec

/-- The body of `dblJacobi` after the `P.isZero()` test, with the two branch
conditions `sizeof(F) <= 32` and `isPzOne` as arguments. -/
def dblJacobiAux (c : Param F) (small isPzOne : Bool) (P : EcT F) : EcT F :=
  let x2 := P.x ^ 2
  let y2 := P.y ^ 2
  let xyy : F × F :=
    if small then
      let xy := P.x * y2
      let xy := xy + xy
      let y2 := y2 ^ 2
      (xy, y2)
    else
      let xy := P.x + y2
      let y2n := y2 ^ 2
      let xy := xy ^ 2
      let xy := xy - x2
      let xy := xy - y2n
      (xy, y2n)
  let xy := xyy.1
  let y2 := xyy.2
  let xy := xy + xy
  let x2 : F :=
    match c.specialA_ with
    | ModeCoeffA.Zero =>
      let t := 2 * x2
      x2 + t
    | ModeCoeffA.Minus3 =>
      let x2 :=
        if isPzOne then x2 - P.z
        else
          let t := P.z ^ 2
          let t := t ^ 2
          x2 - t
      let t := 2 * x2
      x2 + t
    | ModeCoeffA.GenericA =>
      let t :=
        if isPzOne then c.a_
        else
          let t := P.z ^ 2
          let t := t ^ 2
          t * c.a_
      let t := t + x2
      let x2 := 2 * x2
      x2 + t
  let Rx := x2 ^ 2
  let Rx := Rx - xy
  let Rx := Rx - xy
  let Rz := if isPzOne then P.y else P.y * P.z
  let Rz := 2 * Rz
  let Ry := xy - Rx
  let Ry := Ry * x2
  let y2 := 2 * y2
  let y2 := 2 * y2
  let y2 := 2 * y2
  let Ry := Ry - y2
  ⟨Rx, Ry, Rz⟩

/-- The function `dblJacobi` of the source. -/
def dblJacobi (c : Param F) (P : EcT F) : EcT F :=
  if P.isZero then EcT.clear c
  else dblJacobiAux c (decide (c.sizeofF ≤ 32)) (decide (P.z = 1)) P

/-- The body of `addJacobi` after the two `isZero()` tests, with the flags
`isPzOne` and `isQzOne` as arguments. -/
def addJacobiAux (c : Param F) (isPzOne isQzOne : Bool) (P Q : EcT F) : EcT F :=
  let r : F := if isPzOne then 1 else P.z ^ 2
  let U1 : F := if isQzOne then P.x else P.x * Q.z ^ 2
  let H : F := if isPzOne then Q.x else Q.x * r
  let H := H - U1
  let S1 : F :=
    if isQzOne then P.y
    else
      let S1 := Q.z ^ 2
      let S1 := S1 * Q.z
      S1 * P.y
  let r : F :=
    if isPzOne then Q.y
    else
      let r := r * P.z
      r * Q.y
  let r := r - S1
  if H = 0 then
    if r = 0 then dblJacobi c P else EcT.clear c
  else
    let Rz : F :=
      if isPzOne then
        if isQzOne then H else H * Q.z
      else
        if isQzOne then P.z * H
        else
          let Rz := P.z * Q.z
          Rz * H
    let H3 := H ^ 2
    let Ry := r ^ 2
    let U1 := U1 * H3
    let H3 := H3 * H
    let Ry := Ry - U1
    let Ry := Ry - U1
    let Rx := Ry - H3
    let U1 := U1 - Rx
    let U1 := U1 * r
    let H3 := H3 * S1
    let Ry := U1 - H3
    ⟨Rx, Ry, Rz⟩

/-- The function `addJacobi` of the source. -/
def addJacobi (c : Param F) (P Q : EcT F) : EcT F :=
  if P.isZero then Q
  else if Q.isZero then P
  else addJacobiAux c (decide (P.z = 1)) (decide (Q.z = 1)) P Q

/-- The function `dblAffine` of the source. -/
def dblAffine (c : Param F) (P : EcT F) : EcT F :=
  if P.isZero then EcT.clear c
  else if P.y = 0 then EcT.clear c
  else
    let t := P.x ^ 2
    let s := t + t
    let t := t + s
    let t := t + c.a_
    let s := P.y + P.y
    let t := t / s
    let s := t ^ 2
    let s := s - P.x
    let x3 := s - P.x
    let s := P.x - x3
    let s := s * t
    let Ry := s - P.y
    ⟨x3, Ry, 1⟩

/-- The function `addAffine` of the source. -/
def addAffine (c : Param F) (P Q : EcT F) : EcT F :=
  if P.isZero then Q
  else if Q.isZero then P
  else
    let t := Q.x - P.x
    if t = 0 then
      if P.y = Q.y then dblAffine c P else EcT.clear c
    else
      let s := Q.y - P.y
      let t := s / t
      let x3 := t ^ 2
      let x3 := x3 - P.x
      let x3 := x3 - Q.x
      let s := P.x - x3
      let s := s * t
      let Ry := s - P.y
      ⟨x3, Ry, 1⟩

/-- The body of `dblProj` after the `P.isZero()` test, with the flag `isPzOne`
as an argument. -/
def dblProjAux (c : Param F) (isPzOne : Bool) (P : EcT F) : EcT F :=
  let w : F :=
    match c.specialA_ with
    | ModeCoeffA.Zero =>
      let w := P.x ^ 2
      let t := w + w
      w + t
    | ModeCoeffA.Minus3 =>
      let w := P.x ^ 2
      let w :=
        if isPzOne then w - P.z
        else
          let t := P.z ^ 2
          w - t
      let t := w + w
      w + t
    | ModeCoeffA.GenericA =>
      let w :=
        if isPzOne then c.a_
        else
          let w := P.z ^ 2
          w * c.a_
      let t := P.x ^ 2
      let w := w + t
      let w := w + t
      w + t
  let Rz := if isPzOne then P.y else P.y * P.z
  let t := Rz * P.x
  let t := t * P.y
  let t := t + t
  let t := t + t
  let h := w ^ 2
  let h := h - t
  let h := h - t
  let Rx := h * Rz
  let t := t - h
  let t := t * w
  let w := P.y ^ 2
  let Rx := Rx + Rx
  let Rz := Rz + Rz
  let h := Rz ^ 2
  let w := w * h
  let Rz := Rz * h
  let Ry := t - w
  let Ry := Ry - w
  ⟨Rx, Ry, Rz⟩

/-- The function `dblProj` of the source. -/
def dblProj (c : Param F) (P : EcT F) : EcT F :=
  if P.isZero then EcT.clear c
  else dblProjAux c (decide (P.z = 1)) P

/-- The body of `addProj` after the two `isZero()` tests, with the flags
`isPzOne` and `isQzOne` as arguments. -/
def addProjAux (c : Param F) (isPzOne isQzOne : Bool) (P Q : EcT F) : EcT F :=
  let r : F := if isQzOne then P.x else P.x * Q.z
  let PyQz : F := if isQzOne then P.y else P.y * Q.z
  let A : F := if isPzOne then Q.y else Q.y * P.z
  let v : F := if isPzOne then Q.x else Q.x * P.z
  let v := v - r
  if v = 0 then
    if A = PyQz then dblProj c P else EcT.clear c
  else
    let Ry := A - PyQz
    let A := Ry ^ 2
    let vv := v ^ 2
    let r := r * vv
    let vv := vv * v
    let Rz : F :=
      if isQzOne then P.z
      else if isPzOne then Q.z
      else P.z * Q.z
    let ARz : F × F :=
      if isPzOne && isQzOne then (A, vv)
      else
        let A := A * Rz
        let Rz := Rz * vv
        (A, Rz)
    let A := ARz.1
    let Rz := ARz.2
    let A := A - vv
    let vv := vv * PyQz
    let A := A - r
    let A := A - r
    let Rx := v * A
    let r := r - A
    let Ry := Ry * r
    let Ry := Ry - vv
    ⟨Rx, Ry, Rz⟩

/-- The function `addProj` of the source. -/
def addProj (c : Param F) (P Q : EcT F) : EcT F :=
  if P.isZero then Q
  else if Q.isZero then P
  else addProjAux c (decide (P.z = 1)) (decide (Q.z = 1)) P Q

/-- The affine point `(X/Z^2, Y/Z^3)` that a Jacobi triple with `z ≠ 0`
stands for, written with `z = 1` (the coordinate reading of §3 of the
specification; not a function of the source). -/
def affineOfJacobi (P : EcT F) : EcT F := ⟨P.x / P.z ^ 2, P.y / P.z ^ 3, 1⟩

/-- The affine point `(X/Z, Y/Z)` that a projective triple with `z ≠ 0`
stands for, written with `z = 1` (the coordinate reading of §3 of the
specification; not a function of the source). -/
def affineOfProj (P : EcT F) : EcT F := ⟨P.x / P.z, P.y / P.z, 1⟩

end ec

/-- The static member `EcT::dbl`: dispatch on the coordinate mode. -/
def EcT.dbl (c : Param F) (P : EcT F) : EcT F :=
  match c.mode_ with
  | ec.Mode.Jacobi => ec.dblJacobi c P
  | ec.Mode.Proj => ec.dblProj c P
  | ec.Mode.Affine => ec.dblAffine c P

/-- The static member `EcT::add`: dispatch on the coordinate mode. -/
def EcT.add (c : Param F) (P Q : EcT F) : EcT F :=
  match c.mode_ with
  | ec.Mode.Jacobi => ec.addJacobi c P Q
  | ec.Mode.Proj => ec.addProj c P Q
  | ec.Mode.Affine => ec.addAffine c P Q

/-- The static member `EcT::neg`. -/
def EcT.neg (c : Param F) (P : EcT F) : EcT F :=
  if P.isZero then EcT.clear c
  else ⟨P.x, -P.y, P.z⟩

/-- The static member `EcT::sub`: `add(R, P, neg(Q))`. -/
def EcT.sub (c : Param F) (P Q : EcT F) : EcT F :=
  let nQ := EcT.neg c Q
  EcT.add c P nQ

/-- The relation between `specialA_` and `a_` that `init` establishes:
`Zero` goes with `a = 0`, `Minus3` with `a = -3`, `GenericA` with any `a`. -/
def Param.SpecialAOk (c : Param F) : Prop :=
  match c.specialA_ with
  | ec.ModeCoeffA.Zero => c.a_ = 0
  | ec.ModeCoeffA.Minus3 => c.a_ = -3
  | ec.ModeCoeffA.GenericA => True

/-- A concrete parameter set used to instantiate theorems: the curve
`y^2 = x^3 - 3x + 3` over `ℚ` (class `Minus3`, generic `b`), in the given
coordinate mode, without order verification and without hooks. -/
def exampleParam (m : ec.Mode) : Param ℚ where
  mode_ := m
  a_ := -3
  b_ := 3
  b3_ := 9
  specialA_ := ec.ModeCoeffA.Minus3
  specialB_ := ec.ModeCoeffB.GenericB
  ioMode_ := 0
  verifyOrder_ := false
  order_ := 0
  mulVecGLV := none
  mulVecOpti := none
  mulEachOpti := none
  isValidOrderFast := none
  sizeofF := 32

/-- The external collaborators of `ec.hpp` that are not part of the source file:
constants of the build and the big-integer and batch-inversion helpers.

* `unitSize` is `sizeof(Unit)`;
* `maxMulVecN` is `mcl::fp::maxMulVecN`, the size of the arrays `naf[N]` and
  `tbl[N][tblSize]` of `mulVecN`, hence positive;
* `getNAFwidth v w` is the digit array that `gmp::getNAFwidth(&b, naf, v, w)`
  leaves in `naf` (`naf[i]` is the digit of weight `2^i`);
* `invVecT zs` is the array `inv` that `invVecT<F>(inv, Pz, doneN, N)` fills
  for the `z` coordinates `zs` of a chunk. -/
structure Ext (F : Type) where
  unitSize : Nat
  maxMulVecN : Nat
  maxMulVecN_pos : 0 < maxMulVecN
  getNAFwidth : Int → Nat → List Int
  invVecT : List F → List F

namespace ec

/-- The function `isEqualJacobi` of the source. -/
def isEqualJacobi (P1 P2 : EcT F) : Bool :=
  let zero1 := P1.isZero
  let zero2 := P2.isZero
  if zero1 then zero2
  else if zero2 then false
  else
    let s1 := P1.z ^ 2
    let s2 := P2.z ^ 2
    let t1 := P1.x * s2
    let t2 := P2.x * s1
    if t1 ≠ t2 then false
    else
      let t1 := P1.y * s2
      let t2 := P2.y * s1
      let t1 := t1 * P2.z
      let t2 := t2 * P1.z
      decide (t1 = t2)

/-- The function `isEqualProj` of the source. -/
def isEqualProj (P1 P2 : EcT F) : Bool :=
  let zero1 := P1.isZero
  let zero2 := P2.isZero
  if zero1 then zero2
  else if zero2 then false
  else
    let t1 := P1.x * P2.z
    let t2 := P2.x * P1.z
    if t1 ≠ t2 then false
    else
      let t1 := P1.y * P2.z
      let t2 := P2.y * P1.z
      decide (t1 = t2)

/-- The function `addTbl` of the source: `naf[i]` selects the table entry
`tbl[(|n| - 1) >> 1]`, added for a positive digit and subtracted for a negative
one.  A read outside the list `tbl` yields `(0, 0, 0)`. -/
def addTbl (c : Param F) (Q : EcT F) (tbl : List (EcT F)) (naf : List Int) (i : Nat) : EcT F :=
  if i ≥ naf.length then Q
  else
    let n := naf.getD i 0
    if n > 0 then EcT.add c Q (tbl.getD ((n - 1) / 2).toNat ⟨0, 0, 0⟩)
    else if n < 0 then EcT.sub c Q (tbl.getD ((-n - 1) / 2).toNat ⟨0, 0, 0⟩)
    else Q

/-- The function `mulSmallInt` of the source.  `none` is the return value
`false` (the output `z` is left untouched), `some z` is `true` with output `z`. -/
def mulSmallInt (c : Param F) (x : EcT F) (y : Nat) (isNegative : Bool) : Option (EcT F) :=
  let fin (z : EcT F) : Option (EcT F) := some (if isNegative then EcT.neg c z else z)
  match y with
  | 0 => some (EcT.clear c)
  | 1 => fin x
  | 2 => fin (EcT.dbl c x)
  | 3 =>
    let t := EcT.dbl c x
    fin (EcT.add c t x)
  | 4 =>
    let z := EcT.dbl c x
    fin (EcT.dbl c z)
  | 5 =>
    let t := EcT.dbl c x
    let t := EcT.dbl c t
    fin (EcT.add c t x)
  | 6 =>
    let t := EcT.dbl c x
    let z := EcT.add c t x
    fin (EcT.dbl c z)
  | 7 =>
    let t := EcT.dbl c x
    let t := EcT.dbl c t
    let t := EcT.dbl c t
    fin (EcT.sub c t x)
  | 8 =>
    let z := EcT.dbl c x
    let z := EcT.dbl c z
    fin (EcT.dbl c z)
  | 9 =>
    let t := EcT.dbl c x
    let t := EcT.dbl c t
    let t := EcT.dbl c t
    fin (EcT.add c t x)
  | 10 =>
    let t := EcT.dbl c x
    let t := EcT.dbl c t
    let z := EcT.add c t x
    fin (EcT.dbl c z)
  | 11 =>
    let t1 := EcT.dbl c x
    let t2 := EcT.dbl c t1
    let t2 := EcT.dbl c t2
    let t2 := EcT.add c t2 t1
    fin (EcT.add c t2 x)
  | 12 =>
    let t1 := EcT.dbl c x
    let t1 := EcT.dbl c t1
    let t2 := EcT.dbl c t1
    fin (EcT.add c t1 t2)
  | 13 =>
    let t1 := EcT.dbl c x
    let t1 := EcT.dbl c t1
    let t2 := EcT.dbl c t1
    let t1 := EcT.add c t1 t2
    fin (EcT.add c t1 x)
  | 14 =>
    let t := EcT.dbl c x
    let t := EcT.dbl c t
    let t := EcT.dbl c t
    let t := EcT.sub c t x
    fin (EcT.dbl c t)
  | 15 =>
    let t := EcT.dbl c x
    let t := EcT.dbl c t
    let t := EcT.dbl c t
    let t := EcT.dbl c t
    fin (EcT.sub c t x)
  | 16 =>
    let z := EcT.dbl c x
    let z := EcT.dbl c z
    let z := EcT.dbl c z
    fin (EcT.dbl c z)
  | _ => none

end ec

/-- The member `operator==`: dispatch on the coordinate mode; in Affine mode
the three coordinates are compared. -/
def EcT.eq (c : Param F) (P rhs : EcT F) : Bool :=
  match c.mode_ with
  | ec.Mode.Jacobi => ec.isEqualJacobi P rhs
  | ec.Mode.Proj => ec.isEqualProj P rhs
  | ec.Mode.Affine => decide (P.x = rhs.x) && decide (P.y = rhs.y) && decide (P.z = rhs.z)

/-- The helper `bint::getRealSize(y, yn)` (not in `ec.hpp`): the number of
units that remain when the zero units at the high end are dropped, never less
than one. -/
def getRealSize (y : List Nat) : Nat → Nat
  | 0 => 1
  | n + 1 => if y.getD n 0 ≠ 0 then n + 1 else getRealSize y n

/-- The value that `gmp::setArray(&b, v, y, yn)` (not in `ec.hpp`) stores in
`v`: the units `y[0..yn)` read little-endian in base `2^(8 * unitSize)`. -/
def unitsValue (unitSize : Nat) (y : List Nat) : Nat → Nat
  | 0 => 0
  | n + 1 => unitsValue unitSize y n + y.getD n 0 * 2 ^ (8 * unitSize * n)

/-- The table loops `tbl[0] = first; tbl[i] = step(tbl[i - 1])` for `i < n` of
`mulArray`, `mulArrayCT` and `mulVecN`. -/
def mkTbl (step : EcT F → EcT F) (first : EcT F) : Nat → List (EcT F)
  | 0 => []
  | n + 1 => first :: mkTbl step (step first) n

/-- The static member `EcT::mulArrayCT`: the fixed window `w = 4` with the
16-entry table `tbl[0] = 0`, `tbl[1] = x`, `tbl[i] = tbl[i - 1] + x`. -/
def EcT.mulArrayCT (e : Ext F) (c : Param F) (x : EcT F) (y : List Nat) (isNegative : Bool) :
    EcT F :=
  let w := 4
  let tblSize := 2 ^ w
  let mask := tblSize - 1
  let m := e.unitSize * 8 / w
  let tbl := EcT.clear c :: mkTbl (fun t => EcT.add c t x) x (tblSize - 1)
  let yn := y.length
  let z := (List.range yn).foldl (fun z i =>
    let v := y.getD (yn - 1 - i) 0
    (List.range m).foldl (fun z j =>
      let z := (List.range w).foldl (fun z _ => EcT.dbl c z) z
      EcT.add c z (tbl.getD ((v >>> ((m - 1 - j) * w)) &&& mask) ⟨0, 0, 0⟩)) z) (EcT.clear c)
  if isNegative then EcT.neg c z else z

/-- The static member `EcT::mulArray`; `y` is the unit array and `yn` its
length. -/
def EcT.mulArray (e : Ext F) (c : Param F) (x : EcT F) (y : List Nat) (isNegative : Bool)
    (constTime : Bool) : EcT F :=
  if constTime then EcT.mulArrayCT e c x y isNegative
  else if y.length = 0 then EcT.clear c
  else
    let yn := getRealSize y y.length
    let y0 := y.getD 0 0
    match (if yn ≤ 1 then ec.mulSmallInt c x y0 isNegative else none) with
    | some z => z
    | none =>
      let v : Int := (unitsValue e.unitSize y yn : Nat)
      let v := if isNegative then -v else v
      let w := if yn = 1 ∧ y0 ≤ 2 ^ 32 then 3 else if yn * e.unitSize > 16 then 5 else 4
      let tblSize := 2 ^ (w - 2)
      let naf := e.getNAFwidth v w
      let P2 := EcT.dbl c x
      let tbl := mkTbl (fun t => EcT.add c t P2) x tblSize
      (List.range naf.length).foldl
        (fun z i => ec.addTbl c (EcT.dbl c z) tbl naf (naf.length - 1 - i)) (EcT.clear c)

/-- The affine point that a triple with `z ≠ 0` stands for in the given mode
(§3 of the specification): `(X/Z^2, Y/Z^3)`, `(X/Z, Y/Z)` or `(x, y)`. -/
def affineOf (m : ec.Mode) (P : EcT F) : EcT F :=
  match m with
  | ec.Mode.Jacobi => ec.affineOfJacobi P
  | ec.Mode.Proj => ec.affineOfProj P
  | ec.Mode.Affine => ⟨P.x, P.y, 1⟩

/-- Two triples stand for the same point of the curve in the mode of `c`
(§3 of the specification): both are the identity (`z = 0`, any `x`, `y`), or
both are finite with the same affine image. -/
def SamePoint (c : Param F) (P Q : EcT F) : Prop :=
  (P.z = 0 ∧ Q.z = 0) ∨ (P.z ≠ 0 ∧ Q.z ≠ 0 ∧ affineOf c.mode_ P = affineOf c.mode_ Q)

/-- The `n`-fold sum `((0 + x) + x) + ... + x` under `EcT::add`, starting from
the cleared identity. -/
def nfold (c : Param F) (x : EcT F) : Nat → EcT F
  | 0 => EcT.clear c
  | n + 1 => EcT.add c (nfold c x n) x

/-- The scalar multiple `k * x` of the claims: the `|k|`-fold sum of `x`,
negated with `EcT::neg` when `k` is negative. -/
def scalarMul (c : Param F) (k : Int) (x : EcT F) : EcT F :=
  if k < 0 then EcT.neg c (nfold c x k.natAbs) else nfold c x k.natAbs

/-- The value `sum d_i * 2^i` of a digit array `d_0, d_1, ...`. -/
def nafValue : List Int → Int
  | [] => 0
  | d :: ds => d + 2 * nafValue ds

/-- The contract assumed of the external routine `gmp::getNAFwidth` for width
`w`: the digits of `k` sum to `k` with weights `2^i`, and every non-zero digit
is odd and smaller than `2^(w - 1)` in absolute value. -/
def NafOk (naf : List Int) (k : Int) (w : Nat) : Prop :=
  nafValue naf = k ∧ ∀ d ∈ naf, d ≠ 0 → d % 2 = 1 ∧ d.natAbs < 2 ^ (w - 1)

/-- In Affine mode the triple is in the form that the arithmetic produces:
a finite point with `z = 1`, or the cleared identity. -/
def AffineNormal (c : Param F) (P : EcT F) : Prop :=
  c.mode_ = ec.Mode.Affine → (P.z = 1 ∨ P = EcT.clear c)

/-- The curve `y^2 = x^3 + a*x + b` as a Weierstrass curve of Mathlib
(`a₁ = a₂ = a₃ = 0`, `a₄ = a`, `a₆ = b`). -/
def shortW (a b : F) : WeierstrassCurve F := ⟨0, 0, 0, a, b⟩

/-- The triple `P` stands for the point `p` of the group of nonsingular points
of `y^2 = x^3 + a_*x + b`: `z = 0` for the point at infinity, otherwise the
affine image of `P` in the mode of `c` is the point `p`. -/
def CurveReads (c : Param F) (b : F) (P : EcT F)
    (p : (shortW c.a_ b).toAffine.Point) : Prop :=
  (P.z = 0 ∧ p = 0) ∨
  (P.z ≠ 0 ∧ ∃ (x y : F) (h : (shortW c.a_ b).toAffine.Nonsingular x y),
    affineOf c.mode_ P = ⟨x, y, 1⟩ ∧ p = WeierstrassCurve.Affine.Point.some h)

/-- The triple `P` is the identity (`g = 0`) or lies above the affine point
`(x0, 0)` (`g = 1`), read in the group with two elements. -/
def TorsionReads (c : Param F) (x0 : F) (P : EcT F) (g : ZMod 2) : Prop :=
  (P.z = 0 ∧ g = 0) ∨ (P.z ≠ 0 ∧ affineOf c.mode_ P = ⟨x0, 0, 1⟩ ∧ g = 1)

/-- A reading of triples as elements of a commutative group `G` that the
operations `clear`, `add`, `dbl` and `neg` of the code respect, and under which
two triples read as the same element stand for the same point. -/
structure GroupReading (c : Param F) (G : Type) [AddCommGroup G] where
  R : EcT F → G → Prop
  clear : R (EcT.clear c) 0
  add : ∀ P Q p q, R P p → R Q q → R (EcT.add c P Q) (p + q)
  dbl : ∀ P p, R P p → R (EcT.dbl c P) (p + p)
  neg : ∀ P p, R P p → R (EcT.neg c P) (-p)
  same : ∀ P Q p, R P p → R Q p → SamePoint c P Q

/-- A digit routine that meets the contract `NafOk` for every width from 3 on:
the binary digits of `|v|`, each with the sign of `v`.  It stands in for
`gmp::getNAFwidth` where a theorem is instantiated. -/
def exampleNaf (v : Int) (_w : Nat) : List Int :=
  (Nat.digits 2 v.natAbs).map (fun (d : Nat) => if v < 0 then -(d : Int) else (d : Int))

/-- A concrete set of external collaborators used to instantiate theorems:
64-bit units, `exampleNaf` as digit routine, and the batch inversion that
inverts every entry. -/
def exampleExt : Ext ℚ where
  unitSize := 8
  maxMulVecN := 32
  maxMulVecN_pos := by decide
  getNAFwidth := exampleNaf
  invVecT := fun zs => zs.map (fun z => z⁻¹)

namespace ec

/-- The function `local::_normalizeJacobi` of the source; every coordinate of
the output `Q` is written, so the result depends on `P` and `inv` only. -/
def _normalizeJacobi (P : EcT F) (inv : F) : EcT F :=
  let inv2 := inv ^ 2
  let Qx := P.x * inv2
  let Qy := P.y * inv2
  let Qy := Qy * inv
  ⟨Qx, Qy, 1⟩

/-- The function `local::_normalizeProj` of the source. -/
def _normalizeProj (P : EcT F) (inv : F) : EcT F :=
  let Qx := P.x * inv
  let Qy := P.y * inv
  ⟨Qx, Qy, 1⟩

/-- The function `local::_normalize` of the source: dispatch on the mode; in
Affine mode (`assert(0)`) the output `Q` is left as it was. -/
def _normalize (c : Param F) (Q P : EcT F) (inv : F) : EcT F :=
  match c.mode_ with
  | Mode.Jacobi => _normalizeJacobi P inv
  | Mode.Proj => _normalizeProj P inv
  | Mode.Affine => Q

/-- The function `normalizeJacobi` of the source. -/
def normalizeJacobi (P : EcT F) : EcT F :=
  if P.z = 0 ∨ P.z = 1 then P
  else
    let Pz := P.z⁻¹
    _normalizeJacobi ⟨P.x, P.y, Pz⟩ Pz

/-- The function `normalizeProj` of the source. -/
def normalizeProj (P : EcT F) : EcT F :=
  if P.z = 0 ∨ P.z = 1 then P
  else
    let Pz := P.z⁻¹
    _normalizeProj ⟨P.x, P.y, Pz⟩ Pz

/-- One pass of the inner loop of `local::normalizeVecT` over the first
`doneN` entries: entries with `z` zero or one are copied (left alone when `Q`
is `P`), the others are normalised with the inverse `inv[i]`. -/
def normalizeChunk (c : Param F) (PisEqualToQ : Bool) (Q P : List (EcT F)) (inv : List F)
    (doneN : Nat) : List (EcT F) :=
  (List.range doneN).map (fun i =>
    let Pi := P.getD i ⟨0, 0, 0⟩
    let Qi := Q.getD i ⟨0, 0, 0⟩
    if Pi.z = 0 ∨ Pi.z = 1 then
      if !PisEqualToQ then Pi else Qi
    else _normalize c Qi Pi (inv.getD i 0))

/-- The function `local::normalizeVecT` of the source for a chunk size
`N ≥ 1`: the returned list is the content of `Q[0..n)` at the end.  The loop
`for (;;)` ends because every pass handles `doneN = min(n, N) ≥ 1` entries
while entries remain. -/
def normalizeVecT (e : Ext F) (c : Param F) (PisEqualToQ : Bool) (Q P : List (EcT F))
    (n N : Nat) (hN : 0 < N) : List (EcT F) :=
  let doneN := if n < N then n else N
  let inv := e.invVecT ((P.take doneN).map (fun p => p.z))
  let done := normalizeChunk c PisEqualToQ Q P inv doneN
  if h : n - doneN = 0 then done
  else done ++ normalizeVecT e c PisEqualToQ (Q.drop doneN) (P.drop doneN) (n - doneN) N hN
termination_by n
decreasing_by
  simp only [doneN] at h ⊢
  split_ifs at h ⊢ <;> omega

/-- The function `ec::normalizeVec` of the source: `normalizeVecT` with the
default chunk size 256. -/
def normalizeVec (e : Ext F) (c : Param F) (PisEqualToQ : Bool) (Q P : List (EcT F))
    (n : Nat) : List (EcT F) :=
  normalizeVecT e c PisEqualToQ Q P n 256 (by decide)

end ec

/-- The member `EcT::normalize`. -/
def EcT.normalize (c : Param F) (P : EcT F) : EcT F :=
  match c.mode_ with
  | ec.Mode.Jacobi => ec.normalizeJacobi P
  | ec.Mode.Proj => ec.normalizeProj P
  | ec.Mode.Affine => P

/-- The static member `EcT::normalizeVec(y, x, n)`; `yIsX` says that the two
pointers are equal, and the result is the content of `y[0..n)` at the end. -/
def EcT.normalizeVec (e : Ext F) (c : Param F) (yIsX : Bool) (y x : List (EcT F)) (n : Nat) :
    List (EcT F) :=
  if c.mode_ = ec.Mode.Affine then
    if yIsX then y.take n
    else (List.range n).map (fun i => x.getD i ⟨0, 0, 0⟩)
  else ec.normalizeVec e c yIsX y x n

/-- The private static member `EcT::mulVecN`: the pair of the output `z` and
the returned count `min(N, n)`.  The table `tbl[N][tblSize]` is kept as the
flat array `&tbl[0][0]` that `normalizeVec` receives, and `tbl[j]` is the
pointer to its row `j`. -/
def EcT.mulVecN (e : Ext F) (c : Param F) (xVec : List (EcT F)) (yVec : List Nat) (n : Nat) :
    EcT F × Nat :=
  let N := e.maxMulVecN
  let n := if n > N then N else n
  let w := 5
  let tblSize := 2 ^ (w - 2)
  let naf : List (List Int) := (List.range n).map (fun i => e.getNAFwidth (yVec.getD i 0) w)
  let maxBit := naf.foldl (fun maxBit l => if l.length > maxBit then l.length else maxBit) 0
  let tbl : List (EcT F) := ((List.range n).map (fun i =>
    let xi := xVec.getD i ⟨0, 0, 0⟩
    let P2 := EcT.dbl c xi
    mkTbl (fun t => EcT.add c t P2) xi tblSize)).flatten
  let z := EcT.clear c
  let tbl := EcT.normalizeVec e c true tbl tbl (n * tblSize)
  let z := (List.range maxBit).foldl (fun z i =>
    let z := EcT.dbl c z
    (List.range n).foldl (fun z j =>
      ec.addTbl c z (tbl.drop (j * tblSize)) (naf.getD j []) (maxBit - 1 - i)) z) z
  (z, n)

/-- The loop `while (n > 0)` of `EcT::mulVec`; it ends because `mulVecN`
returns `min(N, n) ≥ 1`. -/
def EcT.mulVecLoop (e : Ext F) (c : Param F) (r : EcT F) (xVec : List (EcT F))
    (yVec : List Nat) (n : Nat) : EcT F :=
  if h : n = 0 then r
  else
    let td := EcT.mulVecN e c xVec yVec n
    EcT.mulVecLoop e c (EcT.add c r td.1) (xVec.drop td.2) (yVec.drop td.2) (n - td.2)
termination_by n
decreasing_by
  have := e.maxMulVecN_pos
  simp only [EcT.mulVecN]
  split_ifs <;> omega

/-- The static member `EcT::mulVec`. -/
def EcT.mulVec (e : Ext F) (c : Param F) (xVec : List (EcT F)) (yVec : List Nat) (n : Nat)
    (b : Nat) : EcT F :=
  if n = 0 then EcT.clear c
  else
    match (if n ≥ 128 then c.mulVecOpti else none) with
    | some f => f xVec yVec n b
    | none =>
      match (match c.mulVecGLV with
          | some f => f xVec yVec n false b
          | none => none) with
      | some z => z
      | none => EcT.mulVecLoop e c (EcT.clear c) xVec yVec n

/-- The sum `sum_i yVec[i] * xVec[i]` of the claims: the multiples `k * x` are
added one after the other to the cleared identity. -/
def sumMul (c : Param F) (xVec : List (EcT F)) (yVec : List Nat) : EcT F :=
  (List.zip xVec yVec).foldl (fun acc p => EcT.add c acc (scalarMul c (p.2 : Int) p.1))
    (EcT.clear c)

/-- The triple is the identity or its affine image in the mode of `c`
satisfies `y^2 = x^3 + a*x + b`. -/
def OnCurve (c : Param F) (P : EcT F) : Prop :=
  P.z = 0 ∨ (affineOf c.mode_ P).y ^ 2 =
    (affineOf c.mode_ P).x ^ 3 + c.a_ * (affineOf c.mode_ P).x + c.b_

/-- The contract assumed of the external batch inversion `invVecT`: the entry
`inv[i]` is `1 / z_i` for every `z_i` of the chunk that is neither 0 nor 1. -/
def InvOk (e : Ext F) : Prop :=
  ∀ (zs : List F) (i : Nat), i < zs.length → zs.getD i 0 ≠ 0 → zs.getD i 0 ≠ 1 →
    (e.invVecT zs).getD i 0 = (zs.getD i 0)⁻¹

/-- The collaborators of `exampleExt` with the batch bound `maxMulVecN = 1`. -/
def exampleExtSmall : Ext ℚ where
  unitSize := 8
  maxMulVecN := 1
  maxMulVecN_pos := by decide
  getNAFwidth := exampleNaf
  invVecT := fun zs => zs.map (fun z => z⁻¹)

/-- The flag tests that `ec.hpp` makes on an `ioMode` (`ioMode & IoEcProj`,
...); the remaining bits, which only the field type reads, are `base`. -/
structure IoMode where
  IoEcProj : Bool
  IoEcAffineSerialize : Bool
  IoSerialize : Bool
  IoSerializeHexStr : Bool
  IoEcCompY : Bool
  base : Nat
  deriving DecidableEq, Repr

/-- The constant `IoSerialize` passed to the field type. -/
def IoMode.serialize : IoMode := ⟨false, false, true, false, false, 0⟩

/-- The part of the field type `Fp` and of the stream helpers that `save` and
`load` use; none of it is in `ec.hpp`.  Streams are lists of bytes.

* `getByteSize`, `getBitSize`, `getETHserialization`: the static members of
  `Fp` / `Fp::BaseFp` of these names;
* `isOdd`, `isNegative`, `squareRoot` (`none` for the return value `false`);
* `save x ioMode`: the bytes that `x.save(pb, os, ioMode)` writes, `none` when
  it reports failure; `load ioMode is`: the element that `x.load(pb, is, ioMode)`
  reads and the rest of the stream; `setArray buf`: `x.setArray(pb, buf, n)`;
* `readHexStr n1 is`: the bytes that `mcl::fp::readHexStr(buf, n1, is)` stores
  (their number is the return value); `writeHexStr buf`: the bytes written by
  `mcl::fp::writeHexStr`; `skipSpace is`: the character that
  `fp::local::skipSpace(&c, is)` returns and the rest of the stream;
  `getIoSeparator ioMode`: the separator character, 0 for none. -/
structure FpIo (F : Type) where
  getByteSize : Nat
  getBitSize : Nat
  getETHserialization : Bool
  isOdd : F → Bool
  isNegative : F → Bool
  squareRoot : F → Option F
  save : F → IoMode → Option (List Nat)
  load : IoMode → List Nat → Option (F × List Nat)
  setArray : List Nat → Option F
  readHexStr : Nat → List Nat → List Nat
  writeHexStr : List Nat → Option (List Nat)
  skipSpace : List Nat → Option (Nat × List Nat)
  getIoSeparator : IoMode → Nat

namespace ec

/-- The function `get_a_flag` of the source for the base field. -/
def get_a_flag (fp : FpIo F) (x : F) : Bool := fp.isNegative x

/-- The function `local::mul3` of the source. -/
def mul3 (x : F) : F :=
  let t := x + x
  t + x

/-- The function `local::mul4` of the source. -/
def mul4 (x : F) : F :=
  let x := x + x
  x + x

/-- The function `local::mul12` of the source. -/
def mul12 (x : F) : F :=
  let t := x + x
  let x := t + x
  mul4 x

/-- The function `isValidJacobi` of the source. -/
def isValidJacobi (c : Param F) (P : EcT F) : Bool :=
  let x2 := P.x ^ 2
  let y2 := P.y ^ 2
  let z2 := P.z ^ 2
  let z4 := z2 ^ 2
  let t := z4 * c.a_
  let t := t + x2
  let t := t * P.x
  let z4 := z4 * z2
  let z4 :=
    match c.specialB_ with
    | ModeCoeffB.Plus1 => z4
    | ModeCoeffB.Plus4 => mul4 z4
    | ModeCoeffB.GenericB => z4 * c.b_
  let t := t + z4
  decide (y2 = t)

/-- The function `isValidProj` of the source. -/
def isValidProj (c : Param F) (P : EcT F) : Bool :=
  let x2 := P.x ^ 2
  let y2 := P.y ^ 2
  let z2 := P.z ^ 2
  let t := c.a_ * z2
  let t := t + x2
  let t := t * P.x
  let z2 := z2 * c.b_
  let y2 := y2 - z2
  let y2 := y2 * P.z
  decide (y2 = t)

/-- The function `isValidAffine` of the source. -/
def isValidAffine (c : Param F) (P : EcT F) : Bool :=
  let y2 := P.y ^ 2
  let t := P.x ^ 2
  let t := t + c.a_
  let t := t * P.x
  let t := t + c.b_
  decide (y2 = t)

end ec

/-- The unit array `gmp::getUnit(y)` of length `gmp::getUnitSize(y)` (not in
`ec.hpp`): the digits of `|y|` in base `2^(8 * unitSize)`, lowest first. -/
def getUnit (unitSize : Nat) (y : Int) : List Nat :=
  Nat.digits (2 ^ (8 * unitSize)) y.natAbs

/-- The static member `EcT::mulGeneric`. -/
def EcT.mulGeneric (e : Ext F) (c : Param F) (x : EcT F) (y : Int) : EcT F :=
  EcT.mulArray e c x (getUnit e.unitSize y) (decide (y < 0)) false

/-- The member `EcT::isValidOrder`. -/
def EcT.isValidOrder (e : Ext F) (c : Param F) (P : EcT F) : Bool :=
  match c.isValidOrderFast with
  | some f => f P
  | none =>
    let Q := EcT.mulGeneric e c P c.order_
    Q.isZero

/-- The member `EcT::isValid`. -/
def EcT.isValid (e : Ext F) (c : Param F) (P : EcT F) : Bool :=
  if P.z = 0 then true
  else if (if P.z = 1 then !ec.isValidAffine c P
      else if c.mode_ = ec.Mode.Jacobi then !ec.isValidJacobi c P
      else if c.mode_ = ec.Mode.Proj then !ec.isValidProj c P
      else true) then false
  else if c.verifyOrder_ then EcT.isValidOrder e c P
  else true

/-- The member `EcT::set(pb, x, y, verify)`: the pair of `*pb` and the point
afterwards. -/
def EcT.set (e : Ext F) (c : Param F) (x y : F) (verify : Bool) : Bool × EcT F :=
  let P : EcT F := ⟨x, y, 1⟩
  if !verify || (ec.isValidAffine c P && (!c.verifyOrder_ || EcT.isValidOrder e c P)) then
    (true, P)
  else (false, EcT.clear c)

/-- The static member `EcT::getWeierstrass`. -/
def EcT.getWeierstrass (c : Param F) (x : F) : F :=
  let t := x ^ 2
  let t := t + c.a_
  let t := t * x
  t + c.b_

/-- The static member `EcT::getYfromX`: the pair of the return value and the
content of `y` afterwards (the value of `getWeierstrass` when `squareRoot`
fails). -/
def EcT.getYfromX (fp : FpIo F) (c : Param F) (x : F) (isYodd : Bool) : Bool × F :=
  let y := EcT.getWeierstrass c x
  match fp.squareRoot y with
  | none => (false, y)
  | some y =>
    if xor (fp.isOdd y) isYodd then (true, -y) else (true, y)

/-- The static member `EcT::isMSBserialize`. -/
def EcT.isMSBserialize (fp : FpIo F) (c : Param F) : Bool :=
  !decide (c.b_ = 0) && decide (fp.getBitSize &&& 7 ≠ 0)

/-- The static member `EcT::getSerializedByteSize`. -/
def EcT.getSerializedByteSize (fp : FpIo F) (c : Param F) : Nat :=
  let n := fp.getByteSize
  let adj := if EcT.isMSBserialize fp c then 0 else 1
  n + adj

/-- A write of `x.save(pb, mos, IoSerialize)` into a
`cybozu::MemoryOutputStream` over the `n`-byte window `win` of `buf`: the `n`
bytes of the window afterwards, `none` when `save` fails or writes more than
`n` bytes.  Bytes of the window that are not written keep their content. -/
def saveToBuf (fp : FpIo F) (x : F) (n : Nat) (win : List Nat) : Option (List Nat) :=
  match fp.save x IoMode.serialize with
  | none => none
  | some bx => if bx.length ≤ n then some (bx ++ (win.take n).drop bx.length) else none

/-- The block `if (ioMode & (IoSerialize | IoSerializeHexStr))` of `EcT::save`
up to the final write: the content of `buf[0 .. n + adj)`, with `P` the
normalised copy of `self`.  The local array `buf` is not initialised:
`buf0 i` is the content of `buf[i]` on entry, and a byte that no statement
assigns keeps it. -/
def EcT.saveFixedBuf (buf0 : Nat → Nat) (fp : FpIo F) (c : Param F) (self P : EcT F) :
    Option (List Nat) :=
  let n := fp.getByteSize
  let adj := if EcT.isMSBserialize fp c then 0 else 1
  let buf : List Nat := (List.range (n + adj)).map buf0
  let buf : Option (List Nat) :=
    if fp.getETHserialization then
      let c_flag := 0x80
      let b_flag := 0x40
      let a_flag := 0x20
      if P.isZero then some ([c_flag ||| b_flag] ++ List.replicate (n - 1) 0 ++ buf.drop n)
      else
        match saveToBuf fp P.x n (buf.take n) with
        | none => none
        | some w =>
          let buf := w ++ buf.drop n
          let cba := c_flag
          let cba := if ec.get_a_flag fp P.y then cba ||| a_flag else cba
          some (buf.set 0 (buf.getD 0 0 ||| cba))
    else
      if self.isZero then some (List.replicate (n + adj) 0)
      else
        match saveToBuf fp P.x n (buf.drop adj) with
        | none => none
        | some w =>
          if adj ≠ 0 then some ((if fp.isOdd P.y then 3 else 2) :: w)
          else if fp.isOdd P.y then some (w.set (n - 1) (w.getD (n - 1) 0 ||| 0x80))
          else some w
  match buf with
  | none => none
  | some buf => some (buf.take (n + adj))

/-- The member `EcT::save(pb, os, ioMode)`: the bytes written to `os`, or
`none` when `*pb` is `false` at the end.  Writes of single characters and of
the buffer to `os` are taken to succeed; `buf0` is the content of the local
array `buf` on entry. -/
def EcT.save (buf0 : Nat → Nat) (fp : FpIo F) (c : Param F) (self : EcT F) (ioMode : IoMode) :
    Option (List Nat) :=
  let sep := fp.getIoSeparator ioMode
  let sepBytes : List Nat := if sep ≠ 0 then [sep] else []
  if ioMode.IoEcProj then
    match fp.save self.x ioMode, fp.save self.y ioMode, fp.save self.z ioMode with
    | some bx, some by1, some bz =>
      some ([52] ++ sepBytes ++ bx ++ sepBytes ++ by1 ++ sepBytes ++ bz)
    | _, _, _ => none
  else
    let P := EcT.normalize c self
    if ioMode.IoEcAffineSerialize then
      if c.b_ = 0 then none
      else if self.isZero then
        match fp.save P.z IoMode.serialize with
        | some b1 => some (b1 ++ b1)
        | none => none
      else
        match fp.save P.x IoMode.serialize, fp.save P.y IoMode.serialize with
        | some bx, some by1 => some (bx ++ by1)
        | _, _ => none
    else if ioMode.IoSerialize || ioMode.IoSerializeHexStr then
      match EcT.saveFixedBuf buf0 fp c self P with
      | none => none
      | some out => if ioMode.IoSerializeHexStr then fp.writeHexStr out else some out
    else if self.isZero then some [48]
    else if ioMode.IoEcCompY then
      match fp.save P.x ioMode with
      | some bx => some ([if fp.isOdd P.y then 51 else 50] ++ sepBytes ++ bx)
      | none => none
    else
      match fp.save P.x ioMode, fp.save P.y ioMode with
      | some bx, some by1 => some ([49] ++ sepBytes ++ bx ++ sepBytes ++ by1)
      | _, _ => none

/-- The label `verifyOrder:` of `EcT::load`. -/
def EcT.loadVerifyOrder (e : Ext F) (c : Param F) (P : EcT F) : Bool × EcT F :=
  if c.verifyOrder_ && !EcT.isValidOrder e c P then (false, P) else (true, P)

/-- The label `verifyValidAffine:` of `EcT::load`. -/
def EcT.loadVerifyValidAffine (e : Ext F) (c : Param F) (P : EcT F) : Bool × EcT F :=
  if !ec.isValidAffine c P then (false, P) else EcT.loadVerifyOrder e c P

/-- The block `if (ioMode & IoEcAffineSerialize)` of `EcT::load`; `P` is the
point after `z = 1`. -/
def EcT.loadAffineSerialize (fp : FpIo F) (e : Ext F) (c : Param F) (P : EcT F)
    (is : List Nat) : Bool × EcT F :=
  if c.b_ = 0 then (false, P)
  else
    match fp.load IoMode.serialize is with
    | none => (false, P)
    | some (x, is) =>
      match fp.load IoMode.serialize is with
      | none => (false, ⟨x, P.y, P.z⟩)
      | some (y, _) =>
        if x = 0 ∧ y = 0 then (true, ⟨x, y, 0⟩)
        else EcT.loadVerifyValidAffine e c ⟨x, y, P.z⟩

/-- The block `if (Fp::BaseFp::getETHserialization())` of `EcT::load`; `buf`
holds the `n1` bytes read. -/
def EcT.loadETH (fp : FpIo F) (e : Ext F) (c : Param F) (P : EcT F) (buf : List Nat) :
    Bool × EcT F :=
  let n := fp.getByteSize
  let c_flag := 0x80
  let b_flag := 0x40
  let a_flag := 0x20
  if buf.getD 0 0 &&& c_flag = 0 then (false, P)
  else if buf.getD 0 0 &&& b_flag ≠ 0 then
    if buf.getD 0 0 ≠ (c_flag ||| b_flag) then (false, P)
    else if (List.range' 1 (n - 1 - 1)).any (fun i => decide (buf.getD i 0 ≠ 0)) then (false, P)
    else (true, EcT.clear c)
  else
    let a := decide (buf.getD 0 0 &&& a_flag ≠ 0)
    let buf := buf.set 0 (buf.getD 0 0 &&& 0x1f)
    let buf := (buf.take n).reverse ++ buf.drop n
    match fp.setArray (buf.take n) with
    | none => (false, P)
    | some x =>
      let y := EcT.getWeierstrass c x
      match fp.squareRoot y with
      | none => (false, ⟨x, y, P.z⟩)
      | some y =>
        let y := if xor (ec.get_a_flag fp y) a then -y else y
        EcT.loadVerifyOrder e c ⟨x, y, P.z⟩

/-- The block `if (ioMode & (IoSerialize | IoSerializeHexStr))` of
`EcT::load`. -/
def EcT.loadFixed (fp : FpIo F) (e : Ext F) (c : Param F) (P : EcT F) (is : List Nat)
    (ioMode : IoMode) : Bool × EcT F :=
  let n := fp.getByteSize
  let adj := if EcT.isMSBserialize fp c then 0 else 1
  let n1 := n + adj
  let buf : List Nat := if ioMode.IoSerializeHexStr then fp.readHexStr n1 is else is.take n1
  let readSize := buf.length
  if readSize ≠ n1 then (false, P)
  else if fp.getETHserialization then EcT.loadETH fp e c P buf
  else if buf.all (fun b => decide (b = 0)) then (true, EcT.clear c)
  else
    let yb : Option (Bool × List Nat) :=
      if adj ≠ 0 then
        let ch := buf.getD 0 0
        if ch ≠ 2 ∧ ch ≠ 3 then none
        else some (decide (ch = 3), buf)
      else
        let isYodd := decide (buf.getD (n - 1) 0 >>> 7 ≠ 0)
        some (isYodd, buf.set (n - 1) (buf.getD (n - 1) 0 &&& 0x7f))
    match yb with
    | none => (false, P)
    | some (isYodd, buf) =>
      match fp.setArray ((buf.drop adj).take n) with
      | none => (false, P)
      | some x =>
        let r := EcT.getYfromX fp c x isYodd
        if !r.1 then (false, ⟨x, r.2, P.z⟩)
        else EcT.loadVerifyOrder e c ⟨x, r.2, P.z⟩

/-- The last block of `EcT::load`: the text formats with the tags `'0'` to
`'4'` (the character codes 48 to 52). -/
def EcT.loadText (fp : FpIo F) (e : Ext F) (c : Param F) (P : EcT F) (is : List Nat)
    (ioMode : IoMode) : Bool × EcT F :=
  match fp.skipSpace is with
  | none => (false, P)
  | some (ch, is) =>
    if ch = 48 then (true, EcT.clear c)
    else
      match fp.load ioMode is with
      | none => (false, P)
      | some (x, is) =>
        if ch = 49 then
          match fp.load ioMode is with
          | none => (false, ⟨x, P.y, P.z⟩)
          | some (y, _) => EcT.loadVerifyValidAffine e c ⟨x, y, P.z⟩
        else if ch = 50 ∨ ch = 51 then
          let isYodd := decide (ch = 51)
          let r := EcT.getYfromX fp c x isYodd
          if !r.1 then (false, ⟨x, r.2, P.z⟩)
          else EcT.loadVerifyOrder e c ⟨x, r.2, P.z⟩
        else if ch = 52 then
          match fp.load ioMode is with
          | none => (false, ⟨x, P.y, P.z⟩)
          | some (y, is) =>
            match fp.load ioMode is with
            | none => (false, ⟨x, y, P.z⟩)
            | some (z, _) =>
              if c.mode_ = ec.Mode.Affine ∧ (z ≠ 0 ∧ z ≠ 1) then (false, ⟨x, y, z⟩)
              else (EcT.isValid e c ⟨x, y, z⟩, ⟨x, y, z⟩)
        else (false, ⟨x, P.y, P.z⟩)

/-- The member `EcT::load(pb, is, ioMode)`: the pair of `*pb` and the point
afterwards; `self` is the point before the call.  A coordinate whose read
fails keeps the value it had. -/
def EcT.load (fp : FpIo F) (e : Ext F) (c : Param F) (self : EcT F) (is : List Nat)
    (ioMode : IoMode) : Bool × EcT F :=
  let P : EcT F := ⟨self.x, self.y, 1⟩
  if ioMode.IoEcAffineSerialize then EcT.loadAffineSerialize fp e c P is
  else if ioMode.IoSerialize || ioMode.IoSerializeHexStr then EcT.loadFixed fp e c P is ioMode
  else EcT.loadText fp e c P is ioMode

/-- The prime 7, for the example field `ZMod 7`. -/
instance fact_prime_seven : Fact (Nat.Prime 7) := ⟨by norm_num⟩

/-- A concrete parameter set over the prime field with 7 elements: the curve
`y^2 = x^3 + 4` (class `Zero` of `a`, class `Plus4` of `b`) in the given mode,
without order verification and without hooks. -/
def param7 (m : ec.Mode) : Param (ZMod 7) where
  mode_ := m
  a_ := 0
  b_ := 4
  b3_ := 12
  specialA_ := ec.ModeCoeffA.Zero
  specialB_ := ec.ModeCoeffB.Plus4
  ioMode_ := 0
  verifyOrder_ := false
  order_ := 0
  mulVecGLV := none
  mulVecOpti := none
  mulEachOpti := none
  isValidOrderFast := none
  sizeofF := 8

/-- External collaborators for the example field `ZMod 7`. -/
def ext7 : Ext (ZMod 7) where
  unitSize := 8
  maxMulVecN := 32
  maxMulVecN_pos := by decide
  getNAFwidth := exampleNaf
  invVecT := fun zs => zs.map (fun z => z⁻¹)

/-- A field I/O for `ZMod 7`: an element is one byte, its value in `0..6`
(3 bits, so the top bit of the byte is free); `isOdd` is the parity of that
value, `isNegative` says that it exceeds `(p - 1) / 2`, `squareRoot` is the
least root; there is no separator and blanks are skipped. -/
def fp7 : FpIo (ZMod 7) where
  getByteSize := 1
  getBitSize := 3
  getETHserialization := false
  isOdd := fun x => decide (x.val % 2 = 1)
  isNegative := fun x => decide (3 < x.val)
  squareRoot := fun x => ((List.range 7).map (fun (k : Nat) => (k : ZMod 7))).find?
    (fun y => decide (y * y = x))
  save := fun x _ => some [x.val]
  load := fun _ is =>
    match is with
    | [] => none
    | b :: rest => if b < 7 then some ((b : ZMod 7), rest) else none
  setArray := fun buf =>
    match buf with
    | [b] => if b < 7 then some (b : ZMod 7) else none
    | _ => none
  readHexStr := fun n is => is.take n
  writeHexStr := fun buf => some buf
  skipSpace := fun is =>
    match is.dropWhile (fun ch => decide (ch = 32)) with
    | [] => none
    | ch :: rest => some (ch, rest)
  getIoSeparator := fun _ => 0

/-- The `ioMode` of the text formats without `IoEcCompY`. -/
def IoMode.text : IoMode := ⟨false, false, false, false, false, 0⟩

/-- What a successful decode of an affine format leaves: the identity, or a
point with `z = 1` on the curve that passes the order check when enabled. -/
def DecodedOk (e : Ext F) (c : Param F) (P : EcT F) : Prop :=
  P.z = 0 ∨ (P.z = 1 ∧ P.y ^ 2 = P.x ^ 3 + c.a_ * P.x + c.b_ ∧
    (c.verifyOrder_ = true → EcT.isValidOrder e c P = true))

/-- Soundness of a decode result `r` (the pair of `*pb` and the point): on
success the point is `DecodedOk`, or the stream began with the tag `'4'`
(`tag4`) and the point passes `isValid`. -/
def LoadSound (e : Ext F) (c : Param F) (tag4 : Prop) (r : Bool × EcT F) : Prop :=
  r.1 = true → DecodedOk e c r.2 ∨ (tag4 ∧ EcT.isValid e c r.2 = true)

/-- The relation between `specialB_` and `b_` that `init` establishes:
`Plus1` goes with `b = 1`, `Plus4` with `b = 4`, `GenericB` with any `b`. -/
def Param.SpecialBOk (c : Param F) : Prop :=
  match c.specialB_ with
  | ec.ModeCoeffB.Plus1 => c.b_ = 1
  | ec.ModeCoeffB.Plus4 => c.b_ = 4
  | ec.ModeCoeffB.GenericB => True

/-- The static member `EcT::setOrder`: the parameters afterwards.  A non-zero
`order` sets `verifyOrder_` and stores `order_`; zero clears `verifyOrder_`
and leaves `order_` as it is. -/
def EcT.setOrder (c : Param F) (order : Int) : Param F :=
  if order ≠ 0 then { c with verifyOrder_ := true, order_ := order }
  else { c with verifyOrder_ := false }

namespace ec

/-- The multiplication by `b3` in `addCTProj` and `dblCTProj`: `mul3` when the
class of `b` is `Plus1`, `mul12` when it is `Plus4`, otherwise the field
multiplication by `b3_`. -/
def mulB3 (c : Param F) (t : F) : F :=
  match c.specialB_ with
  | ModeCoeffB.Plus1 => mul3 t
  | ModeCoeffB.Plus4 => mul12 t
  | ModeCoeffB.GenericB => t * c.b3_

/-- The function `addCTProj` of the source (the complete addition formulas
for `a = 0`; the `assert(E::a_ == 0)` is a precondition and not part of the
value). -/
def addCTProj (c : Param F) (P Q : EcT F) (mixed : Bool) : EcT F :=
  let t0 := P.x * Q.x
  let t1 := P.y * Q.y
  let t2 := if mixed then P.z else P.z * Q.z
  let t3 := P.x + P.y
  let t4 := Q.x + Q.y
  let t3 := t3 * t4
  let t4 := t0 + t1
  let t3 := t3 - t4
  let t4 := P.y + P.z
  let x3 := Q.y + Q.z
  let t4 := t4 * x3
  let x3 := t1 + t2
  let t4 := t4 - x3
  let x3 := P.x + P.z
  let y3 := Q.x + Q.z
  let x3 := x3 * y3
  let y3 := t0 + t2
  let y3 := x3 - y3
  let x3 := t0 + t0
  let t0 := t0 + x3
  let t2 := mulB3 c t2
  let Rz := t1 + t2
  let t1 := t1 - t2
  let y3 := mulB3 c y3
  let x3 := y3 * t4
  let t2 := t3 * t1
  let Rx := t2 - x3
  let y3 := y3 * t0
  let t1 := t1 * Rz
  let Ry := y3 + t1
  let t0 := t0 * t3
  let Rz := Rz * t4
  let Rz := Rz + t0
  ⟨Rx, Ry, Rz⟩

/-- The function `dblCTProj` of the source (the complete doubling formulas for
`a = 0`). -/
def dblCTProj (c : Param F) (P : EcT F) : EcT F :=
  let t0 := P.y ^ 2
  let t1 := P.y * P.z
  let t2 := P.z ^ 2
  let Rz := t0 + t0
  let Rz := Rz + Rz
  let Rz := Rz + Rz
  let t2 := mulB3 c t2
  let x3 := t2 * Rz
  let y3 := t0 + t2
  let Rz := Rz * t1
  let t1 := t2 + t2
  let t2 := t2 + t1
  let t1 := P.x * P.y
  let t0 := t0 - t2
  let Ry := y3 * t0
  let Ry := Ry + x3
  let Rx := t0 * t1
  let Rx := Rx + Rx
  ⟨Rx, Ry, Rz⟩

end ec

/-- The curve `y^2 = x^3 + 1` over the field of 7 elements (class `Zero` of
`a`, class `Plus1` of `b`), without order verification and without hooks; it
has the points `(3, 0)`, `(5, 0)`, `(6, 0)` of order two. -/
def param7b1 (m : ec.Mode) : Param (ZMod 7) where
  mode_ := m
  a_ := 0
  b_ := 1
  b3_ := 3
  specialA_ := ec.ModeCoeffA.Zero
  specialB_ := ec.ModeCoeffB.Plus1
  ioMode_ := 0
  verifyOrder_ := false
  order_ := 0
  mulVecGLV := none
  mulVecOpti := none
  mulEachOpti := none
  isValidOrderFast := none
  sizeofF := 8

/-- The three coordinates that `addCTProj` computes from the affine points
`(x1, y1)` and `(x2, y2)` taken with `z = 1`, as polynomials (for operands
`(x1 Z1, y1 Z1, Z1)` and `(x2 Z2, y2 Z2, Z2)` the coordinates are these
multiplied by `(Z1 Z2)^2`). -/
def ctX (b x1 y1 x2 y2 : F) : F :=
  (x1 * y2 + x2 * y1) * (y1 * y2 - 3 * b) - 3 * b * (x1 + x2) * (y1 + y2)

/-- See `ctX`. -/
def ctY (b x1 y1 x2 y2 : F) : F :=
  9 * b * x1 * x2 * (x1 + x2) + (y1 * y2) ^ 2 - 9 * b ^ 2

/-- See `ctX`. -/
def ctZ (b x1 y1 x2 y2 : F) : F :=
  (y1 * y2 + 3 * b) * (y1 + y2) + 3 * x1 * x2 * (x1 * y2 + x2 * y1)

/-- The `ioMode` with the flag `IoEcAffineSerialize` alone. -/
def IoMode.affineSerialize : IoMode := ⟨false, true, false, false, false, 0⟩

/-- The `ioMode` with the flag `IoEcProj` alone. -/
def IoMode.proj : IoMode := ⟨true, false, false, false, false, 0⟩

/-- A field I/O for `ZMod 7` with the ETH serialization switched on and
elements stored in `N = 3` bytes: `save` writes the value big-endian (two
zero bytes, then the value in `0..6`), `setArray` reads three bytes
little-endian; the rest is as in `fp7`. -/
def fp7eth : FpIo (ZMod 7) where
  getByteSize := 3
  getBitSize := 3
  getETHserialization := true
  isOdd := fun x => decide (x.val % 2 = 1)
  isNegative := fun x => decide (3 < x.val)
  squareRoot := fun x => ((List.range 7).map (fun (k : Nat) => (k : ZMod 7))).find?
    (fun y => decide (y * y = x))
  save := fun x _ => some [0, 0, x.val]
  load := fun _ is =>
    match is with
    | [] => none
    | b :: rest => if b < 7 then some ((b : ZMod 7), rest) else none
  setArray := fun buf =>
    match buf with
    | [b0, b1, b2] => if b0 < 7 ∧ b1 = 0 ∧ b2 = 0 then some (b0 : ZMod 7) else none
    | _ => none
  readHexStr := fun n is => is.take n
  writeHexStr := fun buf => some buf
  skipSpace := fun is =>
    match is.dropWhile (fun ch => decide (ch = 32)) with
    | [] => none
    | ch :: rest => some (ch, rest)
  getIoSeparator := fun _ => 0

/-- The static member `EcT::init(a, b, mode)`: the static members after the
call; `c` holds them before (of which only the compile-time constant
`sizeofF` remains). -/
def EcT.init (c : Param F) (a b : F) (mode : ec.Mode) : Param F where
  a_ := a
  b_ := b
  b3_ := b * 3
  specialA_ :=
    if a = 0 then ec.ModeCoeffA.Zero
    else if a = -3 then ec.ModeCoeffA.Minus3
    else ec.ModeCoeffA.GenericA
  specialB_ :=
    if b = 1 then ec.ModeCoeffB.Plus1
    else if b = 4 then ec.ModeCoeffB.Plus4
    else ec.ModeCoeffB.GenericB
  ioMode_ := 0
  verifyOrder_ := false
  order_ := 0
  mulVecGLV := none
  mulVecOpti := none
  mulEachOpti := none
  isValidOrderFast := none
  mode_ := mode
  sizeofF := c.sizeofF

/-- The static member `EcT::init(pb, astr, bstr, mode)`: the pair of `*pb` and
the static members after the call.  `setStr s` is the element that
`Fp::setStr(pb, s)` (not in `ec.hpp`) reads from the character string `s`,
`none` when it reports failure. -/
def EcT.initStr (setStr : List Nat → Option F) (c : Param F) (astr bstr : List Nat)
    (mode : ec.Mode) : Bool × Param F :=
  match setStr astr with
  | none => (false, c)
  | some a =>
    match setStr bstr with
    | none => (false, c)
    | some b => (true, EcT.init c a b mode)

/-- The window width `w` that `EcT::mulArray` chooses on its windowed-NAF
path, after `yn = bint::getRealSize(y, yn)`; `sizeof(Unit)` is
`e.unitSize`. -/
def EcT.mulArrayW (e : Ext F) (y : List Nat) : Nat :=
  let yn := getRealSize y y.length
  let y0 := y.getD 0 0
  if yn = 1 ∧ y0 ≤ 2 ^ 32 then 3 else if yn * e.unitSize > 16 then 5 else 4

/-- The constant `maxTblSize = 1 << (maxW - 2)` of `EcT::mulArray`, the size
of the array `tbl`. -/
def EcT.maxTblSize : Nat :=
  let maxW := 5
  2 ^ (maxW - 2)

namespace ec

/-- The function `isEqualOrMinusJacobi` of the source. -/
def isEqualOrMinusJacobi (P1 P2 : EcT F) : Int :=
  let zero1 := P1.isZero
  let zero2 := P2.isZero
  if zero1 then (if zero2 then 1 else 0)
  else if zero2 then 0
  else
    let s1 := P1.z ^ 2
    let s2 := P2.z ^ 2
    let t1 := P1.x * s2
    let t2 := P2.x * s1
    if t1 ≠ t2 then 0
    else
      let t1 := P1.y * s2
      let t2 := P2.y * s1
      let t1 := t1 * P2.z
      let t2 := t2 * P1.z
      if t1 = t2 then 1
      else
        let t1 := -t1
        if t1 = t2 then -1
        else 0

/-- The function `isEqualOrMinusProj` of the source. -/
def isEqualOrMinusProj (P1 P2 : EcT F) : Int :=
  let zero1 := P1.isZero
  let zero2 := P2.isZero
  if zero1 then (if zero2 then 1 else 0)
  else if zero2 then 0
  else
    let t1 := P1.x * P2.z
    let t2 := P2.x * P1.z
    if t1 ≠ t2 then 0
    else
      let t1 := P1.y * P2.z
      let t2 := P2.y * P1.z
      if t1 = t2 then 1
      else
        let t1 := -t1
        if t1 = t2 then -1
        else 0

end ec

/-- The member `EcT::isEqualOrMinus`. -/
def EcT.isEqualOrMinus (c : Param F) (P rhs : EcT F) : Int :=
  match c.mode_ with
  | ec.Mode.Jacobi => ec.isEqualOrMinusJacobi P rhs
  | ec.Mode.Proj => ec.isEqualOrMinusProj P rhs
  | ec.Mode.Affine =>
    if P.x = rhs.x ∧ P.z = rhs.z then
      if P.y = rhs.y then 1
      else if P.y = -rhs.y then -1
      else 0
    else 0

/-- A call of a group operation made by `EcT::mulArrayCT`: `tblAdd i` is
`add(tbl[i], tbl[i - 1], x)`, `dbl` is `EcT::dbl(z, z)`, `addTbl idx` is
`z += tbl[idx]`, and `neg` is `EcT::neg(z, z)`. -/
inductive CTCall where
  | tblAdd (i : Nat)
  | dbl
  | addTbl (idx : Nat)
  | neg
  deriving DecidableEq, Repr

/-- A call without the table index that it reads. -/
def CTCall.shape : CTCall → CTCall
  | CTCall.addTbl _ => CTCall.addTbl 0
  | k => k

/-- The static member `EcT::mulArrayCT`, with the sequence of the calls of
`add`, `dbl` and `neg` that it makes: the state of each loop is the pair of
the data (the table `tbl`, then the accumulator `z`) and of the calls made so
far. -/
def EcT.mulArrayCTCalls (e : Ext F) (c : Param F) (x : EcT F) (y : List Nat)
    (isNegative : Bool) : EcT F × List CTCall :=
  let w := 4
  let tblSize := 2 ^ w
  let mask := tblSize - 1
  let m := e.unitSize * 8 / w
  let st : List (EcT F) × List CTCall :=
    (List.range' 2 (tblSize - 2)).foldl (fun st i =>
      (st.1 ++ [EcT.add c (st.1.getD (i - 1) ⟨0, 0, 0⟩) x], st.2 ++ [CTCall.tblAdd i]))
      ([EcT.clear c, x], [])
  let tbl := st.1
  let yn := y.length
  let zs : EcT F × List CTCall := (List.range yn).foldl (fun zs i =>
    let v := y.getD (yn - 1 - i) 0
    (List.range m).foldl (fun zs j =>
      let zs : EcT F × List CTCall :=
        (List.range w).foldl (fun zs _ => (EcT.dbl c zs.1, zs.2 ++ [CTCall.dbl])) zs
      let idx := (v >>> ((m - 1 - j) * w)) &&& mask
      (EcT.add c zs.1 (tbl.getD idx ⟨0, 0, 0⟩), zs.2 ++ [CTCall.addTbl idx])) zs)
    (EcT.clear c, st.2)
  if isNegative then (EcT.neg c zs.1, zs.2 ++ [CTCall.neg]) else zs

/-- The offset `adj = q * i + fp::min_(i, r)` of the slice of worker `i` in
`EcT::mulVecMT`. -/
def EcT.mulVecMTadj (q r i : Nat) : Nat := q * i + min i r

/-- The length `q + (i < r)` of the slice of worker `i` in `EcT::mulVecMT`. -/
def EcT.mulVecMTlen (q r i : Nat) : Nat := q + (if i < r then 1 else 0)

/-- The static member `EcT::mulVecMT`.  `useOmp` says that `MCL_USE_OMP` is
defined and `numProcs` is the value of `omp_get_num_procs()`.  The rounds of
the `omp parallel for` loop write to distinct entries `zs[i]` and read the
inputs only, so they are listed in index order; the second loop adds the
entries in index order. -/
def EcT.mulVecMT (e : Ext F) (c : Param F) (useOmp : Bool) (numProcs : Nat)
    (xVec : List (EcT F)) (yVec : List Nat) (n cpuN : Nat) : EcT F :=
  if useOmp then
    let minN := e.maxMulVecN
    let cpuN :=
      if cpuN = 0 then
        let cpuN := numProcs
        if n < minN * cpuN then (n + minN - 1) / minN else cpuN
      else cpuN
    if cpuN ≤ 1 ∨ n ≤ cpuN then EcT.mulVec e c xVec yVec n 0
    else
      let q := n / cpuN
      let r := n % cpuN
      let zs : List (EcT F) := (List.range cpuN).map (fun i =>
        let adj := EcT.mulVecMTadj q r i
        EcT.mulVec e c (xVec.drop adj) (yVec.drop adj) (EcT.mulVecMTlen q r i) 0)
      (List.range cpuN).foldl (fun z i => EcT.add c z (zs.getD i ⟨0, 0, 0⟩)) (EcT.clear c)
  else EcT.mulVec e c xVec yVec n 0

/-- Modelled from the spec: the member `Fp::isNegative` of the field type (not
in `ec.hpp`), the sign of an element of the prime field with `p` elements that
the ETH flag transmits.  With `half = (p + 1) / 2`, as in the comment on
`get_a_flag`, the elements with `half ≤ x < p` are the negative ones. -/
def isNegativeSpec (p : Nat) (x : ZMod p) : Bool := decide ((p + 1) / 2 ≤ x.val)

/-- Modelled from the spec: an element `x = a + bi` of the degree-2 extension
field (the type `_Fp2` of the source, not in `ec.hpp`), with its two
components over the base field. -/
structure Fp2 (B : Type) where
  a : B
  b : B
  deriving DecidableEq, Repr

/-- Negation in the extension field, component by component. -/
instance Fp2.instNeg {B : Type} [Neg B] : Neg (Fp2 B) := ⟨fun x => ⟨-x.a, -x.b⟩⟩

/-- The zero of the extension field. -/
instance Fp2.instZero {B : Type} [Zero B] : Zero (Fp2 B) := ⟨⟨0, 0⟩⟩

namespace ec

/-- The overload `get_a_flag(const _Fp2& x)` of the source: the flag of the
component `b` of `x = a + bi`. -/
def get_a_flag_Fp2 {B : Type} (fp : FpIo B) (x : Fp2 B) : Bool := get_a_flag fp x.b

end ec

/-- The bytes `buf[n .. n + adj)` of the local array of `EcT::save`, which
the ETH branch never assigns: one byte when `getSerializedByteSize()` is
`n + 1`, none otherwise. -/
def EcT.saveTail (buf0 : Nat → Nat) (fp : FpIo F) (c : Param F) : List Nat :=
  ((List.range (EcT.getSerializedByteSize fp c)).map buf0).drop fp.getByteSize

/-- A parameter set with `b = 0` over the prime field with 7 elements: the
curve `y^2 = x^3 + x` (class `GenericA` of `a`, class `GenericB` of `b`) in
the given mode, without order verification and without hooks. -/
def param7b0 (m : ec.Mode) : Param (ZMod 7) where
  mode_ := m
  a_ := 1
  b_ := 0
  b3_ := 0
  specialA_ := ec.ModeCoeffA.GenericA
  specialB_ := ec.ModeCoeffB.GenericB
  ioMode_ := 0
  verifyOrder_ := false
  order_ := 0
  mulVecGLV := none
  mulVecOpti := none
  mulEachOpti := none
  isValidOrderFast := none
  sizeofF := 8

/-- The difference `P - Q`, computed in projective coordinates as
`addProj(P, neg(Q))`, is a point of order two: a finite point with `y = 0`. -/
def DiffOrderTwo (c : Param F) (P Q : EcT F) : Prop :=
  (ec.addProj c P (EcT.neg c Q)).z ≠ 0 ∧ (ec.addProj c P (EcT.neg c Q)).y = 0

instance DiffOrderTwo.decidable (c : Param F) (P Q : EcT F) : Decidable (DiffOrderTwo c P Q) :=
  inferInstanceAs
    (Decidable ((ec.addProj c P (EcT.neg c Q)).z ≠ 0 ∧ (ec.addProj c P (EcT.neg c Q)).y = 0))

/-! ## Theorems -/

set_option linter.unusedSectionVars false

open ec

@[simp] theorem isZero_iff (P : EcT F) : P.isZero = true ↔ P.z = 0 := by
  simp [EcT.isZero]

theorem clear_z (c : Param F) : (EcT.clear c).z = 0 := by
  unfold EcT.clear
  split_ifs <;> rfl

/-- A Jacobi triple with `z ≠ 0` is its affine image scaled by `(z^2, z^3)`. -/
theorem exists_jacobi_param (P : EcT F) (hP : P.z ≠ 0) :
    ∃ x y : F, P = ⟨x * P.z ^ 2, y * P.z ^ 3, P.z⟩ ∧ affineOfJacobi P = ⟨x, y, 1⟩ := by
  refine ⟨P.x / P.z ^ 2, P.y / P.z ^ 3, ?_, rfl⟩
  obtain ⟨X, Y, Z⟩ := P
  simp only [EcT.mk.injEq, and_true]
  constructor <;> field_simp

/-- The `isPzOne` / `isQzOne` shortcuts of `addJacobi` do not change the result. -/
theorem addJacobiAux_flags (c : Param F) (P Q : EcT F) (f1 f2 : Bool)
    (h1 : f1 = true → P.z = 1) (h2 : f2 = true → Q.z = 1) :
    addJacobiAux c f1 f2 P Q = addJacobiAux c false false P Q := by
  cases f1 <;> cases f2 <;> simp_all [addJacobiAux, mul_comm]

theorem addJacobi_of_ne (c : Param F) (P Q : EcT F) (hP : P.z ≠ 0) (hQ : Q.z ≠ 0) :
    addJacobi c P Q = addJacobiAux c false false P Q := by
  simp only [addJacobi, isZero_iff, hP, hQ, if_false]
  apply addJacobiAux_flags <;> simp

theorem addJacobi_chord (c : Param F) (P Q : EcT F) (hP : P.z ≠ 0) (hQ : Q.z ≠ 0)
    (hx : (affineOfJacobi P).x ≠ (affineOfJacobi Q).x) :
    (addJacobi c P Q).z ≠ 0 ∧
      affineOfJacobi (addJacobi c P Q) = addAffine c (affineOfJacobi P) (affineOfJacobi Q) := by
  rw [addJacobi_of_ne c P Q hP hQ]
  obtain ⟨x1, y1, hPe, hPa⟩ := exists_jacobi_param P hP
  obtain ⟨x2, y2, hQe, hQa⟩ := exists_jacobi_param Q hQ
  rw [hPa, hQa] at hx ⊢
  generalize P.z = Z1 at *
  generalize Q.z = Z2 at *
  subst hPe hQe
  obtain ⟨d, rfl⟩ : ∃ d, x2 = x1 + d := ⟨x2 - x1, by ring⟩
  have hd : d ≠ 0 := by
    intro h
    apply hx
    simp [h]
  have hH : (x1 + d) * Z2 ^ 2 * Z1 ^ 2 - x1 * Z1 ^ 2 * Z2 ^ 2 ≠ 0 := by
    have : (x1 + d) * Z2 ^ 2 * Z1 ^ 2 - x1 * Z1 ^ 2 * Z2 ^ 2 = d * Z1 ^ 2 * Z2 ^ 2 := by ring
    rw [this]
    exact mul_ne_zero (mul_ne_zero hd (pow_ne_zero 2 hP)) (pow_ne_zero 2 hQ)
  simp only [addJacobiAux, Bool.false_eq_true, if_false, hH]
  refine ⟨mul_ne_zero (mul_ne_zero hP hQ) hH, ?_⟩
  have hd' : x1 + d - x1 ≠ 0 := by simpa using hd
  simp only [addAffine, affineOfJacobi, isZero_iff, one_ne_zero, if_false, hd', EcT.mk.injEq,
    and_true]
  constructor
  · field_simp
    ring
  · field_simp
    ring

/-- The chord branch of `addAffine` written as in the specification. -/
theorem addAffine_chord (c : Param F) (p q : EcT F) (hp : p.z ≠ 0) (hq : q.z ≠ 0)
    (hx : p.x ≠ q.x) :
    addAffine c p q =
      ⟨((q.y - p.y) / (q.x - p.x)) ^ 2 - p.x - q.x,
       (q.y - p.y) / (q.x - p.x) * (p.x - (((q.y - p.y) / (q.x - p.x)) ^ 2 - p.x - q.x)) - p.y,
       1⟩ := by
  have hd : q.x - p.x ≠ 0 := fun h => hx (sub_eq_zero.1 h).symm
  simp only [addAffine, isZero_iff, hp, hq, hd, if_false, EcT.mk.injEq, and_true, true_and]
  ring

theorem addJacobi_same_x (c : Param F) (P Q : EcT F) (hP : P.z ≠ 0) (hQ : Q.z ≠ 0)
    (hx : (affineOfJacobi P).x = (affineOfJacobi Q).x) :
    addJacobi c P Q =
      if (affineOfJacobi P).y = (affineOfJacobi Q).y then dblJacobi c P else EcT.clear c := by
  rw [addJacobi_of_ne c P Q hP hQ]
  obtain ⟨x1, y1, hPe, hPa⟩ := exists_jacobi_param P hP
  obtain ⟨x2, y2, hQe, hQa⟩ := exists_jacobi_param Q hQ
  rw [hPa, hQa] at hx ⊢
  simp only at hx
  subst hx
  have hH : Q.x * P.z ^ 2 - P.x * Q.z ^ 2 = 0 := by
    rw [hPe, hQe]
    simp only
    ring
  have hr : P.z ^ 2 * P.z * Q.y - Q.z ^ 2 * Q.z * P.y = (y2 - y1) * (P.z ^ 3 * Q.z ^ 3) := by
    rw [hPe, hQe]
    simp only
    ring
  have hr0 : P.z ^ 2 * P.z * Q.y - Q.z ^ 2 * Q.z * P.y = 0 ↔ y1 = y2 := by
    rw [hr, mul_eq_zero, sub_eq_zero]
    constructor
    · rintro (h | h)
      · exact h.symm
      · exact absurd h (mul_ne_zero (pow_ne_zero 3 hP) (pow_ne_zero 3 hQ))
    · intro h
      exact Or.inl h.symm
  simp only [addJacobiAux, Bool.false_eq_true, if_false, hH, if_true, hr0]

/-- **C1.** `addJacobi` is affine chord-and-tangent addition.  If `P.z = 0` the
result is `Q`; otherwise, if `Q.z = 0`, the result is `P` (the coordinates are
copied; the tests are made in this order, so two identities give `Q`).  For
`P.z ≠ 0` and `Q.z ≠ 0`, with the affine images `p = (X1/Z1^2, Y1/Z1^3)` and
`q = (X2/Z2^2, Y2/Z2^3)`: if `p.x ≠ q.x` the result has `z ≠ 0` and its affine
image is `addAffine(p, q)`, which is the chord sum with
`lambda = (q.y - p.y)/(q.x - p.x)`, `x3 = lambda^2 - p.x - q.x`,
`y3 = lambda*(p.x - x3) - p.y`; if `p.x = q.x` and `p.y ≠ q.y` the result is
the cleared identity (`z = 0`); if `p = q` the result is `dblJacobi(P)`.
Whatever values the flags `isPzOne`, `isQzOne` take on the four shortcut paths
(a set flag means the coordinate is one), the result is the same. -/
theorem addJacobi_chord_and_tangent (c : Param F) (P Q : EcT F) :
    (P.z = 0 → addJacobi c P Q = Q) ∧
    (P.z ≠ 0 → Q.z = 0 → addJacobi c P Q = P) ∧
    (P.z ≠ 0 → Q.z ≠ 0 →
      ((affineOfJacobi P).x ≠ (affineOfJacobi Q).x →
        (addJacobi c P Q).z ≠ 0 ∧
        affineOfJacobi (addJacobi c P Q) = addAffine c (affineOfJacobi P) (affineOfJacobi Q) ∧
        addAffine c (affineOfJacobi P) (affineOfJacobi Q) =
          ⟨(((affineOfJacobi Q).y - (affineOfJacobi P).y) /
              ((affineOfJacobi Q).x - (affineOfJacobi P).x)) ^ 2
              - (affineOfJacobi P).x - (affineOfJacobi Q).x,
            ((affineOfJacobi Q).y - (affineOfJacobi P).y) /
              ((affineOfJacobi Q).x - (affineOfJacobi P).x) *
              ((affineOfJacobi P).x -
                ((((affineOfJacobi Q).y - (affineOfJacobi P).y) /
                  ((affineOfJacobi Q).x - (affineOfJacobi P).x)) ^ 2
                  - (affineOfJacobi P).x - (affineOfJacobi Q).x))
              - (affineOfJacobi P).y,
            1⟩) ∧
      ((affineOfJacobi P).x = (affineOfJacobi Q).x →
        (affineOfJacobi P).y ≠ (affineOfJacobi Q).y →
        addJacobi c P Q = EcT.clear c ∧ (addJacobi c P Q).z = 0) ∧
      (affineOfJacobi P = affineOfJacobi Q → addJacobi c P Q = dblJacobi c P) ∧
      (∀ f1 f2 : Bool, (f1 = true → P.z = 1) → (f2 = true → Q.z = 1) →
        addJacobi c P Q = addJacobiAux c f1 f2 P Q)) := by
  refine ⟨fun h => by simp [addJacobi, h], fun hP h => by simp [addJacobi, h, hP],
    fun hP hQ => ⟨fun hx => ?_, fun hx hy => ?_, fun hpq => ?_, fun f1 f2 h1 h2 => ?_⟩⟩
  · obtain ⟨hz, ha⟩ := addJacobi_chord c P Q hP hQ hx
    exact ⟨hz, ha, addAffine_chord c _ _ one_ne_zero one_ne_zero hx⟩
  · have h := addJacobi_same_x c P Q hP hQ hx
    rw [if_neg hy] at h
    exact ⟨h, by rw [h]; exact clear_z c⟩
  · have h := addJacobi_same_x c P Q hP hQ (by rw [hpq])
    rw [if_pos (by rw [hpq])] at h
    exact h
  · rw [addJacobi_of_ne c P Q hP hQ, addJacobiAux_flags c P Q f1 f2 h1 h2]

/-- A projective triple with `z ≠ 0` is its affine image scaled by `z`. -/
theorem exists_proj_param (P : EcT F) (hP : P.z ≠ 0) :
    ∃ x y : F, P = ⟨x * P.z, y * P.z, P.z⟩ ∧ affineOfProj P = ⟨x, y, 1⟩ := by
  refine ⟨P.x / P.z, P.y / P.z, ?_, rfl⟩
  obtain ⟨X, Y, Z⟩ := P
  simp only [EcT.mk.injEq, and_true]
  constructor <;> field_simp

/-- The `isPzOne` / `isQzOne` shortcuts of `addProj` do not change the result. -/
theorem addProjAux_flags (c : Param F) (P Q : EcT F) (f1 f2 : Bool)
    (h1 : f1 = true → P.z = 1) (h2 : f2 = true → Q.z = 1) :
    addProjAux c f1 f2 P Q = addProjAux c false false P Q := by
  cases f1 <;> cases f2 <;> simp_all [addProjAux]

theorem addProj_of_ne (c : Param F) (P Q : EcT F) (hP : P.z ≠ 0) (hQ : Q.z ≠ 0) :
    addProj c P Q = addProjAux c false false P Q := by
  simp only [addProj, isZero_iff, hP, hQ, if_false]
  apply addProjAux_flags <;> simp

theorem addProj_chord (c : Param F) (P Q : EcT F) (hP : P.z ≠ 0) (hQ : Q.z ≠ 0)
    (hx : (affineOfProj P).x ≠ (affineOfProj Q).x) :
    (addProj c P Q).z ≠ 0 ∧
      affineOfProj (addProj c P Q) = addAffine c (affineOfProj P) (affineOfProj Q) := by
  rw [addProj_of_ne c P Q hP hQ]
  obtain ⟨x1, y1, hPe, hPa⟩ := exists_proj_param P hP
  obtain ⟨x2, y2, hQe, hQa⟩ := exists_proj_param Q hQ
  rw [hPa, hQa] at hx ⊢
  generalize P.z = Z1 at *
  generalize Q.z = Z2 at *
  subst hPe hQe
  obtain ⟨d, rfl⟩ : ∃ d, x2 = x1 + d := ⟨x2 - x1, by ring⟩
  have hd : d ≠ 0 := by
    intro h
    apply hx
    simp [h]
  have hH : (x1 + d) * Z2 * Z1 - x1 * Z1 * Z2 ≠ 0 := by
    have : (x1 + d) * Z2 * Z1 - x1 * Z1 * Z2 = d * Z1 * Z2 := by ring
    rw [this]
    exact mul_ne_zero (mul_ne_zero hd hP) hQ
  simp only [addProjAux, Bool.false_eq_true, if_false, hH, Bool.and_self]
  refine ⟨mul_ne_zero (mul_ne_zero hP hQ) (mul_ne_zero (pow_ne_zero 2 hH) hH), ?_⟩
  have hd' : x1 + d - x1 ≠ 0 := by simpa using hd
  simp only [addAffine, affineOfProj, isZero_iff, one_ne_zero, if_false, hd', EcT.mk.injEq,
    and_true]
  constructor
  · field_simp
    ring
  · field_simp
    ring

theorem addProj_same_x (c : Param F) (P Q : EcT F) (hP : P.z ≠ 0) (hQ : Q.z ≠ 0)
    (hx : (affineOfProj P).x = (affineOfProj Q).x) :
    addProj c P Q =
      if (affineOfProj P).y = (affineOfProj Q).y then dblProj c P else EcT.clear c := by
  rw [addProj_of_ne c P Q hP hQ]
  obtain ⟨x1, y1, hPe, hPa⟩ := exists_proj_param P hP
  obtain ⟨x2, y2, hQe, hQa⟩ := exists_proj_param Q hQ
  rw [hPa, hQa] at hx ⊢
  simp only at hx
  subst hx
  have hH : Q.x * P.z - P.x * Q.z = 0 := by
    rw [hPe, hQe]
    simp only
    ring
  have hr0 : Q.y * P.z = P.y * Q.z ↔ y1 = y2 := by
    rw [hPe, hQe]
    simp only
    constructor
    · intro h
      have h2 : (y2 - y1) * (P.z * Q.z) = 0 := by linear_combination h
      rcases mul_eq_zero.1 h2 with h3 | h3
      · exact (sub_eq_zero.1 h3).symm
      · exact absurd h3 (mul_ne_zero hP hQ)
    · intro h
      rw [h]
      ring
  simp only [addProjAux, Bool.false_eq_true, if_false, hH, if_true, hr0]

/-- **C3.** `addProj` is affine chord-and-tangent addition.  If `P.z = 0` the
result is `Q`; otherwise, if `Q.z = 0`, the result is `P` (the tests are made in
this order, so two identities give `Q`).  For `P.z ≠ 0` and `Q.z ≠ 0`, with the
affine images `p = (X1/Z1, Y1/Z1)` and `q = (X2/Z2, Y2/Z2)`: if `p.x ≠ q.x` the
result has `z ≠ 0` and its affine image `(x/z, y/z)` is `addAffine(p, q)`, the
chord sum; if `p.x = q.x` and `p.y ≠ q.y` the result is the cleared identity;
if `p = q` the result is `dblProj(P)`.  Whatever values the flags `isPzOne`,
`isQzOne` take on the four shortcut paths (a set flag means the coordinate is
one), the result is the same. -/
theorem addProj_chord_and_tangent (c : Param F) (P Q : EcT F) :
    (P.z = 0 → addProj c P Q = Q) ∧
    (P.z ≠ 0 → Q.z = 0 → addProj c P Q = P) ∧
    (P.z ≠ 0 → Q.z ≠ 0 →
      ((affineOfProj P).x ≠ (affineOfProj Q).x →
        (addProj c P Q).z ≠ 0 ∧
        affineOfProj (addProj c P Q) = addAffine c (affineOfProj P) (affineOfProj Q) ∧
        addAffine c (affineOfProj P) (affineOfProj Q) =
          ⟨(((affineOfProj Q).y - (affineOfProj P).y) /
              ((affineOfProj Q).x - (affineOfProj P).x)) ^ 2
              - (affineOfProj P).x - (affineOfProj Q).x,
            ((affineOfProj Q).y - (affineOfProj P).y) /
              ((affineOfProj Q).x - (affineOfProj P).x) *
              ((affineOfProj P).x -
                ((((affineOfProj Q).y - (affineOfProj P).y) /
                  ((affineOfProj Q).x - (affineOfProj P).x)) ^ 2
                  - (affineOfProj P).x - (affineOfProj Q).x))
              - (affineOfProj P).y,
            1⟩) ∧
      ((affineOfProj P).x = (affineOfProj Q).x →
        (affineOfProj P).y ≠ (affineOfProj Q).y →
        addProj c P Q = EcT.clear c ∧ (addProj c P Q).z = 0) ∧
      (affineOfProj P = affineOfProj Q → addProj c P Q = dblProj c P) ∧
      (∀ f1 f2 : Bool, (f1 = true → P.z = 1) → (f2 = true → Q.z = 1) →
        addProj c P Q = addProjAux c f1 f2 P Q)) := by
  refine ⟨fun h => by simp [addProj, h], fun hP h => by simp [addProj, h, hP],
    fun hP hQ => ⟨fun hx => ?_, fun hx hy => ?_, fun hpq => ?_, fun f1 f2 h1 h2 => ?_⟩⟩
  · obtain ⟨hz, ha⟩ := addProj_chord c P Q hP hQ hx
    exact ⟨hz, ha, addAffine_chord c _ _ one_ne_zero one_ne_zero hx⟩
  · have h := addProj_same_x c P Q hP hQ hx
    rw [if_neg hy] at h
    exact ⟨h, by rw [h]; exact clear_z c⟩
  · have h := addProj_same_x c P Q hP hQ (by rw [hpq])
    rw [if_pos (by rw [hpq])] at h
    exact h
  · rw [addProj_of_ne c P Q hP hQ, addProjAux_flags c P Q f1 f2 h1 h2]

/-- The `sizeof(F) <= 32` branch and the `isPzOne` shortcut of `dblJacobi` do
not change the result. -/
theorem dblJacobiAux_flags (c : Param F) (P : EcT F) (small f1 : Bool)
    (h1 : f1 = true → P.z = 1) :
    dblJacobiAux c small f1 P = dblJacobiAux c false false P := by
  cases hA : c.specialA_ <;> cases small <;> cases f1 <;>
    simp only [dblJacobiAux, hA, Bool.false_eq_true, if_false, if_true, EcT.mk.injEq] <;>
    (try rw [h1 rfl]) <;> refine ⟨?_, ?_, ?_⟩ <;> first | trivial | ring1

theorem dblJacobi_of_ne (c : Param F) (P : EcT F) (hP : P.z ≠ 0) :
    dblJacobi c P = dblJacobiAux c false false P := by
  simp only [dblJacobi, isZero_iff, hP, if_false]
  apply dblJacobiAux_flags
  simp

/-- The tangent branch of `dblAffine` written as in the specification. -/
theorem dblAffine_tangent (c : Param F) (p : EcT F) (hp : p.z ≠ 0) (hy : p.y ≠ 0) :
    dblAffine c p =
      ⟨((3 * p.x ^ 2 + c.a_) / (2 * p.y)) ^ 2 - 2 * p.x,
       (3 * p.x ^ 2 + c.a_) / (2 * p.y) *
          (p.x - (((3 * p.x ^ 2 + c.a_) / (2 * p.y)) ^ 2 - 2 * p.x)) - p.y,
       1⟩ := by
  simp only [dblAffine, isZero_iff, hp, hy, if_false, EcT.mk.injEq, and_true]
  have e1 : p.x ^ 2 + (p.x ^ 2 + p.x ^ 2) + c.a_ = 3 * p.x ^ 2 + c.a_ := by ring
  have e2 : p.y + p.y = 2 * p.y := by ring
  rw [e1, e2]
  constructor <;> ring

theorem dblJacobi_tangent (c : Param F) (h2 : (2 : F) ≠ 0) (hA : c.SpecialAOk) (P : EcT F)
    (hP : P.z ≠ 0) (hy : P.y ≠ 0) :
    (dblJacobi c P).z ≠ 0 ∧
      affineOfJacobi (dblJacobi c P) = dblAffine c (affineOfJacobi P) := by
  rw [dblJacobi_of_ne c P hP]
  have hy' : (affineOfJacobi P).y ≠ 0 := div_ne_zero hy (pow_ne_zero 3 hP)
  rw [dblAffine_tangent c _ one_ne_zero hy']
  obtain ⟨x1, y1, hPe, hPa⟩ := exists_jacobi_param P hP
  rw [hPa] at hy' ⊢
  simp only at hy'
  generalize P.z = Z1 at *
  subst hPe
  have hz : 2 * (y1 * Z1 ^ 3 * Z1) ≠ 0 :=
    mul_ne_zero h2 (mul_ne_zero (mul_ne_zero hy' (pow_ne_zero 3 hP)) hP)
  unfold Param.SpecialAOk at hA
  cases hS : c.specialA_ <;> rw [hS] at hA <;> simp only at hA <;>
    simp only [dblJacobiAux, hS, Bool.false_eq_true, if_false, affineOfJacobi, EcT.mk.injEq,
      and_true, hA] <;>
    refine ⟨hz, ?_, ?_⟩ <;> field_simp <;> ring1


/-- The `isPzOne` shortcut of `dblProj` does not change the result. -/
theorem dblProjAux_flags (c : Param F) (P : EcT F) (f1 : Bool)
    (h1 : f1 = true → P.z = 1) :
    dblProjAux c f1 P = dblProjAux c false P := by
  cases hA : c.specialA_ <;> cases f1 <;>
    simp only [dblProjAux, hA, Bool.false_eq_true, if_false, if_true, EcT.mk.injEq] <;>
    (try rw [h1 rfl]) <;> refine ⟨?_, ?_, ?_⟩ <;> first | trivial | ring1

theorem dblProj_of_ne (c : Param F) (P : EcT F) (hP : P.z ≠ 0) :
    dblProj c P = dblProjAux c false P := by
  simp only [dblProj, isZero_iff, hP, if_false]
  apply dblProjAux_flags
  simp

theorem dblProj_tangent (c : Param F) (h2 : (2 : F) ≠ 0) (hA : c.SpecialAOk) (P : EcT F)
    (hP : P.z ≠ 0) (hy : P.y ≠ 0) :
    (dblProj c P).z ≠ 0 ∧
      affineOfProj (dblProj c P) = dblAffine c (affineOfProj P) := by
  rw [dblProj_of_ne c P hP]
  have hy' : (affineOfProj P).y ≠ 0 := div_ne_zero hy hP
  rw [dblAffine_tangent c _ one_ne_zero hy']
  obtain ⟨x1, y1, hPe, hPa⟩ := exists_proj_param P hP
  rw [hPa] at hy' ⊢
  simp only at hy'
  generalize P.z = Z1 at *
  subst hPe
  have hs : y1 * Z1 * Z1 + y1 * Z1 * Z1 ≠ 0 := by
    have : y1 * Z1 * Z1 + y1 * Z1 * Z1 = 2 * (y1 * Z1 * Z1) := by ring
    rw [this]
    exact mul_ne_zero h2 (mul_ne_zero (mul_ne_zero hy' hP) hP)
  have hz : (y1 * Z1 * Z1 + y1 * Z1 * Z1) * (y1 * Z1 * Z1 + y1 * Z1 * Z1) ^ 2 ≠ 0 :=
    mul_ne_zero hs (pow_ne_zero 2 hs)
  unfold Param.SpecialAOk at hA
  cases hS : c.specialA_ <;> rw [hS] at hA <;> simp only at hA <;>
    simp only [dblProjAux, hS, Bool.false_eq_true, if_false, affineOfProj, EcT.mk.injEq,
      and_true, hA] <;>
    refine ⟨hz, ?_, ?_⟩ <;> field_simp <;> ring1

theorem dblJacobi_y_zero (c : Param F) (P : EcT F) (hy : P.y = 0) : (dblJacobi c P).z = 0 := by
  unfold dblJacobi
  split_ifs with h
  · exact clear_z c
  · simp only [dblJacobiAux, hy]
    split_ifs <;> simp

theorem dblProj_y_zero (c : Param F) (P : EcT F) (hy : P.y = 0) : (dblProj c P).z = 0 := by
  unfold dblProj
  split_ifs with h
  · exact clear_z c
  · simp only [dblProjAux, hy]
    split_ifs <;> simp

/-- **C2.** Doubling agrees with the affine tangent formula.  Over a field with
`2 ≠ 0`, for each class of `a` (`Zero` with `a = 0`, `Minus3` with `a = -3`,
`GenericA` with any `a`) and every point `P`: `dbl` is `dblJacobi` in Jacobi
mode and `dblProj` in Proj mode; if `P.z ≠ 0` and `P.y ≠ 0` then the double has
`z ≠ 0` and its affine image is `dblAffine` of the affine image of `P`, which is
the tangent formula `lambda = (3x^2 + a)/(2y)`, `x3 = lambda^2 - 2x`,
`y3 = lambda*(x - x3) - y`; if `P.y = 0` the double has `z = 0`; the double of
an identity is the cleared identity.  In `dblJacobi` the `sizeof(F) <= 32`
branch and the other one, and the `isPzOne` shortcut and the general path, give
the same coordinates (likewise the shortcut of `dblProj`). -/
theorem dbl_affine_tangent (c : Param F) (h2 : (2 : F) ≠ 0) (hA : c.SpecialAOk) (P : EcT F) :
    (c.mode_ = Mode.Jacobi → EcT.dbl c P = dblJacobi c P) ∧
    (c.mode_ = Mode.Proj → EcT.dbl c P = dblProj c P) ∧
    (P.z ≠ 0 → P.y ≠ 0 →
      ((dblJacobi c P).z ≠ 0 ∧
        affineOfJacobi (dblJacobi c P) = dblAffine c (affineOfJacobi P)) ∧
      ((dblProj c P).z ≠ 0 ∧
        affineOfProj (dblProj c P) = dblAffine c (affineOfProj P)) ∧
      (∀ p : EcT F, p = affineOfJacobi P ∨ p = affineOfProj P →
        dblAffine c p =
          ⟨((3 * p.x ^ 2 + c.a_) / (2 * p.y)) ^ 2 - 2 * p.x,
           (3 * p.x ^ 2 + c.a_) / (2 * p.y) *
              (p.x - (((3 * p.x ^ 2 + c.a_) / (2 * p.y)) ^ 2 - 2 * p.x)) - p.y,
           1⟩)) ∧
    (P.y = 0 → (dblJacobi c P).z = 0 ∧ (dblProj c P).z = 0) ∧
    (P.z = 0 → dblJacobi c P = EcT.clear c ∧ dblProj c P = EcT.clear c ∧
      (EcT.clear c).z = 0) ∧
    (P.z ≠ 0 → ∀ small f1 : Bool, (f1 = true → P.z = 1) →
      dblJacobi c P = dblJacobiAux c small f1 P ∧ dblProj c P = dblProjAux c f1 P) := by
  refine ⟨fun h => by simp [EcT.dbl, h], fun h => by simp [EcT.dbl, h], fun hP hy => ?_,
    fun hy => ⟨dblJacobi_y_zero c P hy, dblProj_y_zero c P hy⟩,
    fun hz => ⟨by simp [dblJacobi, hz], by simp [dblProj, hz], clear_z c⟩,
    fun hP small f1 h1 => ?_⟩
  · refine ⟨dblJacobi_tangent c h2 hA P hP hy, dblProj_tangent c h2 hA P hP hy, ?_⟩
    rintro p (rfl | rfl)
    · exact dblAffine_tangent c _ one_ne_zero (div_ne_zero hy (pow_ne_zero 3 hP))
    · exact dblAffine_tangent c _ one_ne_zero (div_ne_zero hy hP)
  · rw [dblJacobi_of_ne c P hP, dblProj_of_ne c P hP, dblJacobiAux_flags c P small f1 h1,
      dblProjAux_flags c P f1 h1]
    exact ⟨rfl, rfl⟩

/-- Instance of `dbl_affine_tangent` on `y^2 = x^3 - 3x + 3` over `ℚ` at the
Jacobi triple `(4, 8, 2)`, a representative of the affine point `(1, 1)`. -/
theorem dbl_affine_tangent_witness :
    (2 : ℚ) ≠ 0 ∧ (exampleParam Mode.Jacobi).SpecialAOk ∧
      affineOfJacobi (dblJacobi (exampleParam Mode.Jacobi) ⟨4, 8, 2⟩) =
        dblAffine (exampleParam Mode.Jacobi) (affineOfJacobi ⟨4, 8, 2⟩) :=
  ⟨by norm_num, by simp [Param.SpecialAOk, exampleParam],
    ((dbl_affine_tangent (exampleParam Mode.Jacobi) (by norm_num)
      (by simp [Param.SpecialAOk, exampleParam]) ⟨4, 8, 2⟩).2.2.1
        (by norm_num) (by norm_num)).1.2⟩

/-! ### The affine formulas and the group law of the curve -/

theorem shortW_equation (a b x y : F) :
    (shortW a b).toAffine.Equation x y ↔ y ^ 2 = x ^ 3 + a * x + b := by
  rw [WeierstrassCurve.Affine.equation_iff]
  simp [shortW]

theorem shortW_nonsingular_of_y (a b x y : F) (h2 : (2 : F) ≠ 0)
    (he : y ^ 2 = x ^ 3 + a * x + b) (hy : y ≠ 0) :
    (shortW a b).toAffine.Nonsingular x y := by
  rw [WeierstrassCurve.Affine.nonsingular_iff']
  refine ⟨(shortW_equation a b x y).2 he, Or.inr ?_⟩
  simp [shortW, h2, hy]

open WeierstrassCurve.Affine in
theorem affine_chord_reads (c : Param F) (b : F) {x1 y1 x2 y2 : F}
    (h₁ : (shortW c.a_ b).toAffine.Nonsingular x1 y1)
    (h₂ : (shortW c.a_ b).toAffine.Nonsingular x2 y2) (hx : x1 ≠ x2) :
    ∃ (x y : F) (h : (shortW c.a_ b).toAffine.Nonsingular x y),
      addAffine c ⟨x1, y1, 1⟩ ⟨x2, y2, 1⟩ = ⟨x, y, 1⟩ ∧ Point.some h₁ + Point.some h₂ = Point.some h := by
  refine ⟨_, _, nonsingular_add h₁ h₂ (fun h => (hx h).elim), ?_, Point.add_of_X_ne hx⟩
  rw [addAffine_chord c _ _ one_ne_zero one_ne_zero hx]
  have hd : x1 - x2 ≠ 0 := sub_ne_zero.2 hx
  have hd' : x2 - x1 ≠ 0 := sub_ne_zero.2 (Ne.symm hx)
  simp only [EcT.mk.injEq, and_true, slope_of_X_ne hx, addX, addY, negAddY, negY, shortW]
  constructor
  · field_simp
    ring
  · field_simp
    ring

open WeierstrassCurve.Affine in
theorem affine_opposite_reads (c : Param F) (b : F) {x1 y1 x2 y2 : F}
    (h₁ : (shortW c.a_ b).toAffine.Nonsingular x1 y1)
    (h₂ : (shortW c.a_ b).toAffine.Nonsingular x2 y2) (hx : x1 = x2) (hy : y1 ≠ y2) :
    Point.some h₁ + Point.some h₂ = 0 := by
  apply Point.add_of_Y_eq hx
  have e1 := (shortW_equation _ _ _ _).1 h₁.1
  have e2 := (shortW_equation _ _ _ _).1 h₂.1
  subst hx
  have h3 : (y1 - y2) * (y1 + y2) = 0 := by linear_combination e1 - e2
  rcases mul_eq_zero.1 h3 with h | h
  · exact absurd (sub_eq_zero.1 h) hy
  · simp only [negY, shortW]
    linear_combination h

open WeierstrassCurve.Affine in
theorem affine_tangent_reads (c : Param F) (b : F) (h2 : (2 : F) ≠ 0) {x1 y1 : F}
    (h₁ : (shortW c.a_ b).toAffine.Nonsingular x1 y1) (hy : y1 ≠ 0) :
    ∃ (x y : F) (h : (shortW c.a_ b).toAffine.Nonsingular x y),
      dblAffine c ⟨x1, y1, 1⟩ = ⟨x, y, 1⟩ ∧ Point.some h₁ + Point.some h₁ = Point.some h := by
  have hne : y1 ≠ (shortW c.a_ b).toAffine.negY x1 y1 := by
    simp only [negY, shortW]
    intro h
    apply mul_ne_zero h2 hy
    linear_combination h
  refine ⟨_, _, nonsingular_add h₁ h₁ (fun _ => hne), ?_, Point.add_self_of_Y_ne hne⟩
  rw [dblAffine_tangent c _ one_ne_zero hy]
  have hs : (shortW c.a_ b).toAffine.slope x1 x1 y1 y1 = (3 * x1 ^ 2 + c.a_) / (2 * y1) := by
    rw [slope_of_Y_ne rfl hne]
    simp only [negY, shortW]
    congr 1 <;> ring
  simp only [EcT.mk.injEq, and_true, addX, addY, negAddY, negY, hs]
  simp only [shortW]
  constructor <;> ring

open WeierstrassCurve.Affine in
theorem affine_two_torsion_reads (c : Param F) (b : F) {x1 y1 : F}
    (h₁ : (shortW c.a_ b).toAffine.Nonsingular x1 y1) (hy : y1 = 0) :
    Point.some h₁ + Point.some h₁ = 0 := by
  apply Point.add_self_of_Y_eq
  simp [negY, shortW, hy]



/-! ### The arithmetic of every mode on affine images -/

theorem affineOf_z (m : Mode) (P : EcT F) : (affineOf m P).z = 1 := by
  cases m <;> rfl

theorem affineOf_y_eq_zero_iff (m : Mode) (P : EcT F) (hP : P.z ≠ 0) :
    (affineOf m P).y = 0 ↔ P.y = 0 := by
  cases m <;> simp [affineOf, affineOfJacobi, affineOfProj, hP]

theorem add_zero_left (c : Param F) (P Q : EcT F) (h : P.z = 0) : EcT.add c P Q = Q := by
  unfold EcT.add
  cases c.mode_ <;> simp [addJacobi, addProj, addAffine, h]

theorem add_zero_right (c : Param F) (P Q : EcT F) (hP : P.z ≠ 0) (h : Q.z = 0) :
    EcT.add c P Q = P := by
  unfold EcT.add
  cases c.mode_ <;> simp [addJacobi, addProj, addAffine, h, hP]

theorem addAffine_of_ne (c : Param F) (P Q : EcT F) (hP : P.z ≠ 0) (hQ : Q.z ≠ 0) :
    addAffine c P Q = addAffine c ⟨P.x, P.y, 1⟩ ⟨Q.x, Q.y, 1⟩ := by
  simp [addAffine, dblAffine, hP, hQ]

theorem add_chord (c : Param F) (P Q : EcT F) (hP : P.z ≠ 0) (hQ : Q.z ≠ 0)
    (hx : (affineOf c.mode_ P).x ≠ (affineOf c.mode_ Q).x) :
    (EcT.add c P Q).z ≠ 0 ∧
      affineOf c.mode_ (EcT.add c P Q) =
        addAffine c (affineOf c.mode_ P) (affineOf c.mode_ Q) := by
  unfold EcT.add
  cases hm : c.mode_ <;> rw [hm] at hx <;> simp only [affineOf] at hx ⊢
  · exact addJacobi_chord c P Q hP hQ hx
  · exact addProj_chord c P Q hP hQ hx
  · rw [addAffine_of_ne c P Q hP hQ,
      addAffine_chord c ⟨P.x, P.y, 1⟩ ⟨Q.x, Q.y, 1⟩ one_ne_zero one_ne_zero hx]
    exact ⟨one_ne_zero, rfl⟩

theorem add_same_x (c : Param F) (P Q : EcT F) (hP : P.z ≠ 0) (hQ : Q.z ≠ 0)
    (hx : (affineOf c.mode_ P).x = (affineOf c.mode_ Q).x) :
    EcT.add c P Q =
      if (affineOf c.mode_ P).y = (affineOf c.mode_ Q).y then EcT.dbl c P else EcT.clear c := by
  unfold EcT.add EcT.dbl
  cases hm : c.mode_ <;> rw [hm] at hx <;> simp only [affineOf] at hx ⊢
  · exact addJacobi_same_x c P Q hP hQ hx
  · exact addProj_same_x c P Q hP hQ hx
  · simp [addAffine, hP, hQ, hx]

theorem dbl_zero (c : Param F) (P : EcT F) (h : P.z = 0) : EcT.dbl c P = EcT.clear c := by
  unfold EcT.dbl
  cases c.mode_ <;> simp [dblJacobi, dblProj, dblAffine, h]

theorem dbl_tangent (c : Param F) (h2 : (2 : F) ≠ 0) (hA : c.SpecialAOk) (P : EcT F)
    (hP : P.z ≠ 0) (hy : P.y ≠ 0) :
    (EcT.dbl c P).z ≠ 0 ∧
      affineOf c.mode_ (EcT.dbl c P) = dblAffine c (affineOf c.mode_ P) := by
  unfold EcT.dbl
  cases hm : c.mode_ <;> simp only [affineOf]
  · exact dblJacobi_tangent c h2 hA P hP hy
  · exact dblProj_tangent c h2 hA P hP hy
  · simp [dblAffine, hP, hy]

theorem dbl_y_zero (c : Param F) (P : EcT F) (hy : P.y = 0) : (EcT.dbl c P).z = 0 := by
  unfold EcT.dbl
  cases hm : c.mode_ <;> simp only
  · exact dblJacobi_y_zero c P hy
  · exact dblProj_y_zero c P hy
  · unfold dblAffine
    split_ifs
    · exact clear_z c
    · exact clear_z c

theorem neg_zero (c : Param F) (P : EcT F) (h : P.z = 0) : EcT.neg c P = EcT.clear c := by
  simp [EcT.neg, h]

theorem neg_finite (c : Param F) (P : EcT F) (hP : P.z ≠ 0) :
    (EcT.neg c P).z ≠ 0 ∧
      affineOf c.mode_ (EcT.neg c P) =
        ⟨(affineOf c.mode_ P).x, -(affineOf c.mode_ P).y, 1⟩ := by
  simp only [EcT.neg, isZero_iff, hP, if_false]
  refine ⟨hP, ?_⟩
  cases c.mode_ <;> simp [affineOf, affineOfJacobi, affineOfProj, neg_div]

open WeierstrassCurve.Affine

/-! ### Readings of triples in a group -/

theorem curveReads_clear (c : Param F) (b : F) : CurveReads c b (EcT.clear c) 0 :=
  Or.inl ⟨clear_z c, rfl⟩

theorem curveReads_dbl (c : Param F) (b : F) (h2 : (2 : F) ≠ 0) (hA : c.SpecialAOk)
    (P : EcT F) (p : (shortW c.a_ b).toAffine.Point) (hP : CurveReads c b P p) :
    CurveReads c b (EcT.dbl c P) (p + p) := by
  rcases hP with ⟨hz, rfl⟩ | ⟨hz, x1, y1, h₁, ha, rfl⟩
  · rw [dbl_zero c P hz, add_zero]
    exact curveReads_clear c b
  · by_cases hy : P.y = 0
    · refine Or.inl ⟨dbl_y_zero c P hy, ?_⟩
      apply affine_two_torsion_reads c b h₁
      have := (affineOf_y_eq_zero_iff c.mode_ P hz).2 hy
      rw [ha] at this
      exact this
    · obtain ⟨hz', ha'⟩ := dbl_tangent c h2 hA P hz hy
      have hy1 : y1 ≠ 0 := by
        intro h
        apply hy
        apply (affineOf_y_eq_zero_iff c.mode_ P hz).1
        rw [ha]
        exact h
      obtain ⟨x, y, h, he, hs⟩ := affine_tangent_reads c b h2 h₁ hy1
      exact Or.inr ⟨hz', x, y, h, by rw [ha', ha, he], hs⟩

theorem curveReads_add (c : Param F) (b : F) (h2 : (2 : F) ≠ 0) (hA : c.SpecialAOk)
    (P Q : EcT F) (p q : (shortW c.a_ b).toAffine.Point)
    (hP : CurveReads c b P p) (hQ : CurveReads c b Q q) :
    CurveReads c b (EcT.add c P Q) (p + q) := by
  rcases hP with ⟨hz, rfl⟩ | ⟨hz, x1, y1, h₁, ha, rfl⟩
  · rw [add_zero_left c P Q hz, zero_add]
    exact hQ
  · rcases hQ with ⟨hz2, rfl⟩ | ⟨hz2, x2, y2, h₂, ha2, rfl⟩
    · rw [add_zero_right c P Q hz hz2, add_zero]
      exact Or.inr ⟨hz, x1, y1, h₁, ha, rfl⟩
    · by_cases hx : x1 = x2
      · have hx' : (affineOf c.mode_ P).x = (affineOf c.mode_ Q).x := by rw [ha, ha2]; exact hx
        rw [add_same_x c P Q hz hz2 hx', ha, ha2]
        simp only
        by_cases hy : y1 = y2
        · rw [if_pos hy]
          subst hx hy
          exact curveReads_dbl c b h2 hA P _ (Or.inr ⟨hz, x1, y1, h₁, ha, rfl⟩)
        · rw [if_neg hy, affine_opposite_reads c b h₁ h₂ hx hy]
          exact curveReads_clear c b
      · have hx' : (affineOf c.mode_ P).x ≠ (affineOf c.mode_ Q).x := by rw [ha, ha2]; exact hx
        obtain ⟨hz', ha'⟩ := add_chord c P Q hz hz2 hx'
        obtain ⟨x, y, h, he, hs⟩ := affine_chord_reads c b h₁ h₂ hx
        exact Or.inr ⟨hz', x, y, h, by rw [ha', ha, ha2, he], hs⟩

theorem curveReads_neg (c : Param F) (b : F)
    (P : EcT F) (p : (shortW c.a_ b).toAffine.Point) (hP : CurveReads c b P p) :
    CurveReads c b (EcT.neg c P) (-p) := by
  rcases hP with ⟨hz, rfl⟩ | ⟨hz, x1, y1, h₁, ha, rfl⟩
  · rw [neg_zero c P hz]
    exact curveReads_clear c b
  · obtain ⟨hz', ha'⟩ := neg_finite c P hz
    refine Or.inr ⟨hz', x1, (shortW c.a_ b).toAffine.negY x1 y1, nonsingular_neg h₁, ?_, rfl⟩
    rw [ha', ha]
    simp [negY, shortW]

theorem curveReads_same (c : Param F) (b : F)
    (P Q : EcT F) (p : (shortW c.a_ b).toAffine.Point)
    (hP : CurveReads c b P p) (hQ : CurveReads c b Q p) : SamePoint c P Q := by
  rcases hP with ⟨hz, rfl⟩ | ⟨hz, x1, y1, h₁, ha, rfl⟩
  · rcases hQ with ⟨hz2, -⟩ | ⟨hz2, x2, y2, h₂, ha2, he⟩
    · exact Or.inl ⟨hz, hz2⟩
    · exact absurd he.symm (Point.some_ne_zero h₂)
  · rcases hQ with ⟨hz2, he⟩ | ⟨hz2, x2, y2, h₂, ha2, he⟩
    · exact absurd he (Point.some_ne_zero h₁)
    · refine Or.inr ⟨hz, hz2, ?_⟩
      rw [ha, ha2]
      simp only [Point.some.injEq] at he
      rw [he.1, he.2]

/-- The arithmetic of the code is the group law of the nonsingular points of
`y^2 = x^3 + a_*x + b`, for every `b`, read through the affine images. -/
theorem exists_curveReading (c : Param F) (b : F) (h2 : (2 : F) ≠ 0) (hA : c.SpecialAOk) :
    ∃ rd : GroupReading c (shortW c.a_ b).toAffine.Point, rd.R = CurveReads c b :=
  ⟨⟨CurveReads c b, curveReads_clear c b, curveReads_add c b h2 hA, curveReads_dbl c b h2 hA,
    curveReads_neg c b, curveReads_same c b⟩, rfl⟩

/-- The points above an affine point `(x0, 0)` behave as an element of order
two, on or off the curve. -/
theorem exists_torsionReading (c : Param F) (x0 : F) :
    ∃ rd : GroupReading c (ZMod 2), rd.R = TorsionReads c x0 := by
  have hy0 : ∀ P : EcT F, P.z ≠ 0 → affineOf c.mode_ P = ⟨x0, 0, 1⟩ → P.y = 0 := by
    intro P hz ha
    apply (affineOf_y_eq_zero_iff c.mode_ P hz).1
    rw [ha]
  have hdbl : ∀ P g, TorsionReads c x0 P g → TorsionReads c x0 (EcT.dbl c P) (g + g) := by
    rintro P g (⟨hz, rfl⟩ | ⟨hz, ha, rfl⟩)
    · rw [dbl_zero c P hz]
      exact Or.inl ⟨clear_z c, rfl⟩
    · exact Or.inl ⟨dbl_y_zero c P (hy0 P hz ha), by decide⟩
  refine ⟨⟨TorsionReads c x0, Or.inl ⟨clear_z c, rfl⟩, ?_, hdbl, ?_, ?_⟩, rfl⟩
  · rintro P Q p q (⟨hz, rfl⟩ | ⟨hz, ha, rfl⟩) hQ
    · rw [add_zero_left c P Q hz, zero_add]
      exact hQ
    · rcases hQ with ⟨hz2, rfl⟩ | ⟨hz2, ha2, rfl⟩
      · rw [add_zero_right c P Q hz hz2, add_zero]
        exact Or.inr ⟨hz, ha, rfl⟩
      · rw [add_same_x c P Q hz hz2 (by rw [ha, ha2]), if_pos (by rw [ha, ha2])]
        exact hdbl P 1 (Or.inr ⟨hz, ha, rfl⟩)
  · rintro P g (⟨hz, rfl⟩ | ⟨hz, ha, rfl⟩)
    · rw [neg_zero c P hz]
      exact Or.inl ⟨clear_z c, by decide⟩
    · obtain ⟨hz', ha'⟩ := neg_finite c P hz
      refine Or.inr ⟨hz', ?_, by decide⟩
      rw [ha', ha]
      simp
  · rintro P Q g (⟨hz, rfl⟩ | ⟨hz, ha, rfl⟩) hQ
    · rcases hQ with ⟨hz2, -⟩ | ⟨hz2, ha2, he⟩
      · exact Or.inl ⟨hz, hz2⟩
      · exact absurd he (by decide)
    · rcases hQ with ⟨hz2, he⟩ | ⟨hz2, ha2, -⟩
      · exact absurd he (by decide)
      · exact Or.inr ⟨hz, hz2, by rw [ha, ha2]⟩

namespace GroupReading

variable {c : Param F} {G : Type} [AddCommGroup G] (rd : GroupReading c G)

theorem congr {P : EcT F} {p q : G} (h : rd.R P p) (e : p = q) : rd.R P q := e ▸ h

theorem congr' {P : EcT F} {q : G} (h : ∃ p, rd.R P p ∧ p = q) : rd.R P q := by
  obtain ⟨p, hp, rfl⟩ := h
  exact hp

theorem sub (P Q : EcT F) (p q : G) (hP : rd.R P p) (hQ : rd.R Q q) :
    rd.R (EcT.sub c P Q) (p - q) := by
  rw [sub_eq_add_neg]
  exact rd.add _ _ _ _ hP (rd.neg _ _ hQ)

theorem nfold_reads (x : EcT F) (g : G) (hx : rd.R x g) (n : Nat) :
    rd.R (nfold c x n) ((n : ℤ) • g) := by
  induction n with
  | zero => simpa [nfold] using rd.clear
  | succ n ih =>
    refine rd.congr (rd.add _ _ _ _ ih hx) ?_
    push_cast
    rw [add_smul, one_smul]

theorem scalarMul_reads (x : EcT F) (g : G) (hx : rd.R x g) (k : ℤ) :
    rd.R (scalarMul c k x) (k • g) := by
  unfold scalarMul
  split_ifs with hk
  · refine rd.congr (rd.neg _ _ (rd.nfold_reads x g hx k.natAbs)) ?_
    rw [← neg_smul]
    congr 1
    omega
  · refine rd.congr (rd.nfold_reads x g hx k.natAbs) ?_
    congr 1
    omega

theorem mulSmallInt_reads (x : EcT F) (g : G) (hx : rd.R x g) (y : Nat) (hy : y ≤ 16)
    (isNegative : Bool) :
    ∃ z, mulSmallInt c x y isNegative = some z ∧
      rd.R z ((if isNegative then -(y : ℤ) else (y : ℤ)) • g) := by
  have key : ∀ (z : EcT F) (k : ℤ), rd.R z (k • g) →
      rd.R (if isNegative then EcT.neg c z else z) ((if isNegative then -k else k) • g) := by
    intro z k hz
    cases isNegative
    · simpa using hz
    · simpa using rd.neg _ _ hz
  have h0 : rd.R (EcT.clear c) ((if isNegative then -((0 : Nat) : ℤ) else ((0 : Nat) : ℤ)) • g) := by
    cases isNegative <;> simpa using rd.clear
  interval_cases y
  · exact ⟨_, rfl, h0⟩
  all_goals
    refine ⟨_, rfl, key _ _ ?_⟩
    apply rd.congr'
    apply Exists.intro
    constructor
    · repeat (first | exact hx | apply rd.sub | apply rd.add | apply rd.dbl)
    · norm_num
      try abel

end GroupReading

theorem mkTbl_length (step : EcT F → EcT F) (first : EcT F) (n : Nat) :
    (mkTbl step first n).length = n := by
  induction n generalizing first with
  | zero => rfl
  | succ n ih => simp [mkTbl, ih]

theorem mkTbl_getD (step : EcT F → EcT F) (d : EcT F) (n : Nat) (first : EcT F) (i : Nat)
    (hi : i < n) : (mkTbl step first n).getD i d = step^[i] first := by
  induction n generalizing first i with
  | zero => omega
  | succ n ih =>
    cases i with
    | zero => simp [mkTbl]
    | succ i =>
      simp only [mkTbl, List.getD_cons_succ, Function.iterate_succ, Function.comp]
      exact ih (step first) i (by omega)

theorem unitsValue_getRealSize (us : Nat) (y : List Nat) (n : Nat) :
    unitsValue us y (getRealSize y (n + 1)) = unitsValue us y (n + 1) := by
  induction n with
  | zero =>
    simp only [getRealSize]
    split_ifs <;> rfl
  | succ n ih =>
    rw [getRealSize]
    split_ifs with h
    · rfl
    · simp only [ne_eq, not_not] at h
      rw [ih]
      conv_rhs => rw [unitsValue, h]
      simp

theorem getRealSize_pos (y : List Nat) (n : Nat) : 1 ≤ getRealSize y n := by
  induction n with
  | zero => simp [getRealSize]
  | succ n ih =>
    simp only [getRealSize]
    split_ifs <;> omega

/-- The index that `addTbl` reads stays inside the table of `2^(w - 2)` odd
multiples when the digit is odd and below `2^(w - 1)` in absolute value. -/
theorem naf_index_lt (d : Int) (w : Nat) (hw : 2 ≤ w) (hodd : d % 2 = 1)
    (hlt : d.natAbs < 2 ^ (w - 1)) :
    (d.natAbs - 1) / 2 < 2 ^ (w - 2) := by
  have e : 2 ^ (w - 1) = 2 * 2 ^ (w - 2) := by
    rw [← pow_succ']
    congr 1
    omega
  omega

namespace GroupReading

variable {c : Param F} {G : Type} [AddCommGroup G] (rd : GroupReading c G)

theorem oddTbl_reads (x P2 : EcT F) (g : G) (hx : rd.R x g) (hP2 : rd.R P2 ((2 : ℤ) • g))
    (i : Nat) : rd.R ((fun t => EcT.add c t P2)^[i] x) ((2 * (i : ℤ) + 1) • g) := by
  induction i with
  | zero => simpa using hx
  | succ i ih =>
    rw [Function.iterate_succ_apply']
    refine rd.congr (rd.add _ _ _ _ ih hP2) ?_
    have e : 2 * (i : ℤ) + 1 + 2 = 2 * ((i + 1 : ℕ) : ℤ) + 1 := by omega
    rw [← add_smul, e]

theorem addTbl_reads (g : G) (w : Nat) (hw : 2 ≤ w) (tbl : List (EcT F))
    (htbl : ∀ j, j < 2 ^ (w - 2) → rd.R (tbl.getD j ⟨0, 0, 0⟩) ((2 * (j : ℤ) + 1) • g))
    (naf : List Int) (hnaf : ∀ d ∈ naf, d ≠ 0 → d % 2 = 1 ∧ d.natAbs < 2 ^ (w - 1))
    (Q : EcT F) (q : G) (hQ : rd.R Q q) (i : Nat) (hi : i < naf.length) :
    rd.R (addTbl c Q tbl naf i) (q + naf[i] • g) := by
  have hd := hnaf naf[i] (List.getElem_mem _)
  have hget : naf.getD i 0 = naf[i] := by
    simp [List.getD_eq_getElem?_getD, List.getElem?_eq_getElem hi]
  simp only [addTbl, ge_iff_le, not_le.2 hi, if_false, hget]
  generalize naf[i] = d at hd ⊢
  split_ifs with h1 h2
  · obtain ⟨hodd, hlt⟩ := hd (by omega)
    have hidx : ((d - 1) / 2).toNat = (d.natAbs - 1) / 2 := by omega
    rw [hidx]
    refine rd.congr (rd.add _ _ _ _ hQ (htbl _ (naf_index_lt d w hw hodd hlt))) ?_
    congr 2
    omega
  · obtain ⟨hodd, hlt⟩ := hd (by omega)
    have hidx : ((-d - 1) / 2).toNat = (d.natAbs - 1) / 2 := by omega
    rw [hidx]
    refine rd.congr (rd.sub _ _ _ _ hQ (htbl _ (naf_index_lt d w hw hodd hlt))) ?_
    rw [sub_eq_add_neg, ← neg_smul]
    congr 2
    omega
  · have : d = 0 := by omega
    subst this
    simpa using hQ

theorem nafLoop_reads (g : G) (w : Nat) (hw : 2 ≤ w) (tbl : List (EcT F))
    (htbl : ∀ j, j < 2 ^ (w - 2) → rd.R (tbl.getD j ⟨0, 0, 0⟩) ((2 * (j : ℤ) + 1) • g))
    (naf : List Int) (hnaf : ∀ d ∈ naf, d ≠ 0 → d % 2 = 1 ∧ d.natAbs < 2 ^ (w - 1))
    (n : Nat) (hn : n ≤ naf.length) :
    rd.R ((List.range n).foldl
        (fun z i => addTbl c (EcT.dbl c z) tbl naf (naf.length - 1 - i)) (EcT.clear c))
      (nafValue (naf.drop (naf.length - n)) • g) := by
  induction n with
  | zero => simpa [nafValue] using rd.clear
  | succ n ih =>
    rw [List.range_succ, List.foldl_append]
    simp only [List.foldl_cons, List.foldl_nil]
    have hi : naf.length - 1 - n < naf.length := by omega
    have hstep := rd.addTbl_reads g w hw tbl htbl naf hnaf _ _
      (rd.dbl _ _ (ih (by omega))) _ hi
    refine rd.congr hstep ?_
    have hdrop : naf.drop (naf.length - (n + 1)) =
        naf[naf.length - 1 - n] :: naf.drop (naf.length - n) := by
      have e1 : naf.length - (n + 1) = naf.length - 1 - n := by omega
      have e2 : naf.length - n = naf.length - 1 - n + 1 := by omega
      rw [e1, e2]
      exact List.drop_eq_getElem_cons hi
    rw [hdrop, nafValue, ← add_smul, ← add_smul]
    congr 1
    ring

end GroupReading

theorem mulSmallInt_none (c : Param F) (x : EcT F) (y : Nat) (hy : 16 < y) (isNegative : Bool) :
    mulSmallInt c x y isNegative = none := by
  obtain ⟨k, rfl⟩ : ∃ k, y = k + 17 := ⟨y - 17, by omega⟩
  rfl

namespace GroupReading

variable {c : Param F} {G : Type} [AddCommGroup G] (rd : GroupReading c G)

theorem mulArray_reads (e : Ext F)
    (hnaf : ∀ (v : ℤ) (w : Nat), 3 ≤ w → w ≤ 5 → NafOk (e.getNAFwidth v w) v w)
    (x : EcT F) (g : G) (hx : rd.R x g) (y : List Nat) (isNegative : Bool) :
    rd.R (EcT.mulArray e c x y isNegative false)
      ((if isNegative then -(unitsValue e.unitSize y y.length : ℤ)
        else (unitsValue e.unitSize y y.length : ℤ)) • g) := by
  unfold EcT.mulArray
  simp only [Bool.false_eq_true, if_false]
  by_cases hy : y.length = 0
  · rw [if_pos hy, hy]
    cases isNegative <;> simpa [unitsValue] using rd.clear
  · rw [if_neg hy]
    obtain ⟨n, hn⟩ : ∃ n, y.length = n + 1 := ⟨y.length - 1, by omega⟩
    rw [hn]
    have hv := unitsValue_getRealSize e.unitSize y n
    have hpos := getRealSize_pos y (n + 1)
    generalize getRealSize y (n + 1) = yn at hv hpos ⊢
    rcases hs : (if yn ≤ 1 then mulSmallInt c x (y.getD 0 0) isNegative else none) with _ | z
    · simp only
      set w := (if yn = 1 ∧ y.getD 0 0 ≤ 2 ^ 32 then 3 else if yn * e.unitSize > 16 then 5 else 4)
        with hw
      have hw3 : 3 ≤ w := by rw [hw]; split_ifs <;> omega
      have hw5 : w ≤ 5 := by rw [hw]; split_ifs <;> omega
      set k : ℤ := (if isNegative then -(unitsValue e.unitSize y yn : ℤ)
        else (unitsValue e.unitSize y yn : ℤ)) with hk
      obtain ⟨hval, hdig⟩ := hnaf k w hw3 hw5
      have htbl : ∀ j, j < 2 ^ (w - 2) →
          rd.R ((mkTbl (fun t => EcT.add c t (EcT.dbl c x)) x (2 ^ (w - 2))).getD j ⟨0, 0, 0⟩)
            ((2 * (j : ℤ) + 1) • g) := by
        intro j hj
        rw [mkTbl_getD _ _ _ _ _ hj]
        exact rd.oddTbl_reads x _ g hx
          (rd.congr (rd.dbl _ _ hx) (by rw [two_smul])) j
      have hloop := rd.nafLoop_reads g w (by omega) _ htbl (e.getNAFwidth k w) hdig
        (e.getNAFwidth k w).length le_rfl
      rw [Nat.sub_self, List.drop_zero, hval] at hloop
      refine rd.congr hloop ?_
      rw [hk, hv]
    · simp only
      have hyn : yn ≤ 1 := by
        by_contra h
        rw [if_neg h] at hs
        exact absurd hs (by simp)
      rw [if_pos hyn] at hs
      have hy16 : y.getD 0 0 ≤ 16 := by
        by_contra h
        rw [mulSmallInt_none c x _ (by omega)] at hs
        exact absurd hs (by simp)
      obtain ⟨z', hz', hr⟩ := rd.mulSmallInt_reads x g hx _ hy16 isNegative
      rw [hz'] at hs
      cases hs
      have hyn1 : yn = 1 := by omega
      subst hyn1
      have : unitsValue e.unitSize y 1 = y.getD 0 0 := by simp [unitsValue]
      rw [← hv, this]
      exact hr

end GroupReading

theorem nafValue_map_sign (s : ℤ) (l : List ℕ) :
    nafValue (l.map (fun (d : ℕ) => s * (d : ℤ))) = s * (Nat.ofDigits 2 l : ℕ) := by
  induction l with
  | nil => simp [nafValue]
  | cons d ds ih =>
    simp only [List.map_cons, nafValue, ih, Nat.ofDigits_cons]
    push_cast
    ring

theorem exampleNaf_ok (v : ℤ) (w : Nat) (hw : 3 ≤ w) (_hw5 : w ≤ 5) :
    NafOk (exampleNaf v w) v w := by
  constructor
  · unfold exampleNaf
    by_cases hv : v < 0
    · have : (fun d : ℕ => if v < 0 then -(d : ℤ) else (d : ℤ)) =
          fun (d : ℕ) => (-1 : ℤ) * (d : ℤ) := by
        funext d
        simp [hv]
      rw [this, nafValue_map_sign, Nat.ofDigits_digits]
      omega
    · have : (fun d : ℕ => if v < 0 then -(d : ℤ) else (d : ℤ)) =
          fun (d : ℕ) => (1 : ℤ) * (d : ℤ) := by
        funext d
        simp [hv]
      rw [this, nafValue_map_sign, Nat.ofDigits_digits]
      omega
  · intro d hd hne
    unfold exampleNaf at hd
    obtain ⟨n, hn, rfl⟩ := List.mem_map.1 hd
    have hlt : n < 2 := Nat.digits_lt_base (by norm_num) hn
    have h4 : 2 ^ 2 ≤ 2 ^ (w - 1) := Nat.pow_le_pow_right (by norm_num) (by omega)
    have hn1 : n = 1 := by
      rcases Nat.lt_succ_iff.1 hlt with h
      interval_cases n
      · simp at hne
      · rfl
    subst hn1
    split_ifs <;> constructor <;> simp <;> omega

theorem isEqualJacobi_of_same (P Q : EcT F)
    (h : (P.z = 0 ∧ Q.z = 0) ∨ (P.z ≠ 0 ∧ Q.z ≠ 0 ∧ affineOfJacobi P = affineOfJacobi Q)) :
    isEqualJacobi P Q = true := by
  rcases h with ⟨hP, hQ⟩ | ⟨hP, hQ, ha⟩
  · simp [isEqualJacobi, hP, hQ]
  · simp only [affineOfJacobi, EcT.mk.injEq, and_true] at ha
    obtain ⟨hx, hy⟩ := ha
    rw [div_eq_div_iff (pow_ne_zero 2 hP) (pow_ne_zero 2 hQ)] at hx
    rw [div_eq_div_iff (pow_ne_zero 3 hP) (pow_ne_zero 3 hQ)] at hy
    simp only [isEqualJacobi, isZero_iff, hP, hQ, if_false, ne_eq, ite_not,
      Bool.if_false_right, Bool.and_eq_true, decide_eq_true_eq]
    exact ⟨by linear_combination hx, by linear_combination hy⟩

theorem isEqualProj_of_same (P Q : EcT F)
    (h : (P.z = 0 ∧ Q.z = 0) ∨ (P.z ≠ 0 ∧ Q.z ≠ 0 ∧ affineOfProj P = affineOfProj Q)) :
    isEqualProj P Q = true := by
  rcases h with ⟨hP, hQ⟩ | ⟨hP, hQ, ha⟩
  · simp [isEqualProj, hP, hQ]
  · simp only [affineOfProj, EcT.mk.injEq, and_true] at ha
    obtain ⟨hx, hy⟩ := ha
    rw [div_eq_div_iff hP hQ] at hx
    rw [div_eq_div_iff hP hQ] at hy
    simp only [isEqualProj, isZero_iff, hP, hQ, if_false, ne_eq, ite_not,
      Bool.if_false_right, Bool.and_eq_true, decide_eq_true_eq]
    exact ⟨by linear_combination hx, by linear_combination hy⟩

/-- Triples that stand for the same point compare equal under `operator==`;
in Affine mode this needs both in the form that the arithmetic produces. -/
theorem eq_of_samePoint (c : Param F) (P Q : EcT F) (h : SamePoint c P Q)
    (hP : AffineNormal c P) (hQ : AffineNormal c Q) : EcT.eq c P Q = true := by
  unfold SamePoint at h
  unfold EcT.eq
  cases hm : c.mode_ <;> rw [hm] at h <;> simp only [affineOf] at h ⊢
  · exact isEqualJacobi_of_same P Q h
  · exact isEqualProj_of_same P Q h
  · have hc : (EcT.clear c).z = 0 := clear_z c
    rcases h with ⟨hPz, hQz⟩ | ⟨hPz, hQz, ha⟩
    · rcases hP hm with h1 | h1
      · rw [hPz] at h1
        exact absurd h1 zero_ne_one
      · rcases hQ hm with h2 | h2
        · rw [hQz] at h2
          exact absurd h2 zero_ne_one
        · rw [h1, h2]
          simp
    · rcases hP hm with h1 | h1
      · rcases hQ hm with h2 | h2
        · simp only [EcT.mk.injEq, and_true] at ha
          simp [ha.1, ha.2, h1, h2]
        · rw [h2] at hQz
          exact absurd hc hQz
      · rw [h1] at hPz
        exact absurd hc hPz

theorem affineNormal_clear (c : Param F) : AffineNormal c (EcT.clear c) := fun _ => Or.inr rfl

theorem affineNormal_dbl (c : Param F) (P : EcT F) : AffineNormal c (EcT.dbl c P) := by
  intro hm
  simp only [EcT.dbl, hm, dblAffine]
  split_ifs
  · exact Or.inr rfl
  · exact Or.inr rfl
  · exact Or.inl rfl

theorem affineNormal_add (c : Param F) (P Q : EcT F) (hP : AffineNormal c P)
    (hQ : AffineNormal c Q) : AffineNormal c (EcT.add c P Q) := by
  intro hm
  have hd := affineNormal_dbl c P hm
  simp only [EcT.dbl, hm] at hd
  simp only [EcT.add, hm, addAffine]
  split_ifs
  · exact hQ hm
  · exact hP hm
  · exact hd
  · exact Or.inr rfl
  · exact Or.inl rfl

theorem affineNormal_neg (c : Param F) (P : EcT F) (hP : AffineNormal c P) :
    AffineNormal c (EcT.neg c P) := by
  intro hm
  simp only [EcT.neg]
  split_ifs with h
  · exact Or.inr rfl
  · rcases hP hm with h1 | h1
    · exact Or.inl h1
    · rw [isZero_iff, h1] at h
      exact absurd (clear_z c) h

/-- A reading can be refined by the form invariant of Affine mode. -/
theorem GroupReading.exists_normal {c : Param F} {G : Type} [AddCommGroup G]
    (rd : GroupReading c G) :
    ∃ rd' : GroupReading c G, rd'.R = fun P p => rd.R P p ∧ AffineNormal c P :=
  ⟨⟨fun P p => rd.R P p ∧ AffineNormal c P, ⟨rd.clear, affineNormal_clear c⟩,
    fun P Q p q hP hQ => ⟨rd.add P Q p q hP.1 hQ.1, affineNormal_add c P Q hP.2 hQ.2⟩,
    fun P p hP => ⟨rd.dbl P p hP.1, affineNormal_dbl c P⟩,
    fun P p hP => ⟨rd.neg P p hP.1, affineNormal_neg c P hP.2⟩,
    fun P Q p hP hQ => rd.same P Q p hP.1 hQ.1⟩, rfl⟩

/-- Every triple, on the curve or not, is read by some group reading: the
identity and the points with `y ≠ 0` in the group of the curve through them,
the points with `y = 0` as an element of order two. -/
theorem exists_reading_of_point (c : Param F) (h2 : (2 : F) ≠ 0) (hA : c.SpecialAOk)
    (x : EcT F) :
    ∃ (G : Type) (_ : AddCommGroup G) (rd : GroupReading c G) (g : G), rd.R x g := by
  by_cases hz : x.z = 0
  · obtain ⟨rd, hrd⟩ := exists_curveReading c c.b_ h2 hA
    exact ⟨_, _, rd, 0, by rw [hrd]; exact Or.inl ⟨hz, rfl⟩⟩
  · by_cases hy : (affineOf c.mode_ x).y = 0
    · obtain ⟨rd, hrd⟩ := exists_torsionReading c (affineOf c.mode_ x).x
      refine ⟨_, _, rd, 1, ?_⟩
      rw [hrd]
      refine Or.inr ⟨hz, ?_, rfl⟩
      have hz1 := affineOf_z c.mode_ x
      revert hy hz1
      generalize affineOf c.mode_ x = p
      obtain ⟨px, py, pz⟩ := p
      rintro rfl rfl
      rfl
    · obtain ⟨rd, hrd⟩ := exists_curveReading c
        ((affineOf c.mode_ x).y ^ 2 - (affineOf c.mode_ x).x ^ 3 - c.a_ * (affineOf c.mode_ x).x)
        h2 hA
      refine ⟨_, _, rd, WeierstrassCurve.Affine.Point.some
        (shortW_nonsingular_of_y c.a_ _ (affineOf c.mode_ x).x (affineOf c.mode_ x).y h2
          (by ring) hy), ?_⟩
      rw [hrd]
      refine Or.inr ⟨hz, _, _, _, ?_, rfl⟩
      have hz1 := affineOf_z c.mode_ x
      revert hz1
      generalize affineOf c.mode_ x = p
      obtain ⟨px, py, pz⟩ := p
      rintro rfl
      rfl

theorem scalarMul_zero (c : Param F) (x : EcT F) : scalarMul c 0 x = EcT.clear c := by
  simp [scalarMul, nfold]

theorem scalarMul_one (c : Param F) (x : EcT F) : scalarMul c 1 x = x := by
  simp [scalarMul, nfold, add_zero_left c _ x (clear_z c)]

theorem scalarMul_neg (c : Param F) (x : EcT F) (k : ℤ) (hk : k < 0) :
    scalarMul c k x = EcT.neg c (scalarMul c (-k) x) := by
  have h1 : ¬ (-k < 0) := by omega
  simp [scalarMul, hk, h1]

/-- **C4.** Variable-time scalar multiplication computes the scalar multiple.
Over a field with `2 ≠ 0`, with the class of `a` as `init` sets it and a digit
routine that meets its contract (`sum d_i 2^i = k`, non-zero digits odd and
below `2^(w-1)` in absolute value), for every triple `x`, every unit array `y`
with value `v = sum y[i] * 2^(unitBits * i)` and every sign flag:
`mulArray(z, x, y, yn, isNegative, false)` stands for the same point as `k * x`
with `k = -v` or `v`, where `k * x` is the `|k|`-fold sum of `x` under `add`,
negated for negative `k`; the two compare equal under `operator==` (in Affine
mode when `x` has `z = 1` or is the cleared identity); `0 * x` is the cleared
identity and `1 * x` is `x`; and every non-zero digit selects a table index
`(|d| - 1) / 2` below the table size `2^(w - 2)`. -/
theorem mulArray_scalar_multiple (e : Ext F) (c : Param F) (h2 : (2 : F) ≠ 0)
    (hA : c.SpecialAOk)
    (hnaf : ∀ (v : ℤ) (w : Nat), 3 ≤ w → w ≤ 5 → NafOk (e.getNAFwidth v w) v w)
    (x : EcT F) (y : List Nat) (isNegative : Bool) :
    SamePoint c (EcT.mulArray e c x y isNegative false)
      (scalarMul c (if isNegative then -(unitsValue e.unitSize y y.length : ℤ)
        else (unitsValue e.unitSize y y.length : ℤ)) x) ∧
    (AffineNormal c x →
      EcT.eq c (EcT.mulArray e c x y isNegative false)
        (scalarMul c (if isNegative then -(unitsValue e.unitSize y y.length : ℤ)
          else (unitsValue e.unitSize y y.length : ℤ)) x) = true) ∧
    scalarMul c 0 x = EcT.clear c ∧
    scalarMul c 1 x = x ∧
    (∀ k : ℤ, k < 0 → scalarMul c k x = EcT.neg c (scalarMul c (-k) x)) ∧
    (∀ (v : ℤ) (w : Nat), 3 ≤ w → w ≤ 5 → ∀ d ∈ e.getNAFwidth v w, d ≠ 0 →
      (d.natAbs - 1) / 2 < 2 ^ (w - 2)) := by
  obtain ⟨G, _, rd, g, hx⟩ := exists_reading_of_point c h2 hA x
  refine ⟨rd.same _ _ _ (rd.mulArray_reads e hnaf x g hx y isNegative)
      (rd.scalarMul_reads x g hx _), ?_, scalarMul_zero c x, scalarMul_one c x,
    scalarMul_neg c x, ?_⟩
  · intro hN
    obtain ⟨rd', hrd'⟩ := rd.exists_normal
    have hx' : rd'.R x g := by rw [hrd']; exact ⟨hx, hN⟩
    have h1 := rd'.mulArray_reads e hnaf x g hx' y isNegative
    have h3 := rd'.scalarMul_reads x g hx'
      (if isNegative then -(unitsValue e.unitSize y y.length : ℤ)
        else (unitsValue e.unitSize y y.length : ℤ))
    have hs := rd'.same _ _ _ h1 h3
    rw [hrd'] at h1 h3
    exact eq_of_samePoint c _ _ hs h1.2 h3.2
  · intro v w hw3 hw5 d hd hne
    obtain ⟨hodd, hlt⟩ := (hnaf v w hw3 hw5).2 d hd hne
    exact naf_index_lt d w (by omega) hodd hlt

/-- Instance of `mulArray_scalar_multiple` on `y^2 = x^3 - 3x + 3` over `ℚ` in
Jacobi mode: `19 * (1, 1)` computed from the one-unit array `[19]`. -/
theorem mulArray_scalar_multiple_witness :
    (2 : ℚ) ≠ 0 ∧ (exampleParam Mode.Jacobi).SpecialAOk ∧
    (∀ (v : ℤ) (w : Nat), 3 ≤ w → w ≤ 5 → NafOk (exampleExt.getNAFwidth v w) v w) ∧
    SamePoint (exampleParam Mode.Jacobi)
      (EcT.mulArray exampleExt (exampleParam Mode.Jacobi) ⟨1, 1, 1⟩ [19] false false)
      (scalarMul (exampleParam Mode.Jacobi)
        (if false then -(unitsValue exampleExt.unitSize [19] [19].length : ℤ)
          else (unitsValue exampleExt.unitSize [19] [19].length : ℤ)) ⟨1, 1, 1⟩) :=
  ⟨by norm_num, by simp [Param.SpecialAOk, exampleParam], exampleNaf_ok,
    (mulArray_scalar_multiple exampleExt (exampleParam Mode.Jacobi) (by norm_num)
      (by simp [Param.SpecialAOk, exampleParam]) exampleNaf_ok ⟨1, 1, 1⟩ [19] false).1⟩

/-! ### Batch normalisation in place -/

theorem _normalize_eq_normalize (c : Param F) (Q P : EcT F) (hm : c.mode_ ≠ Mode.Affine)
    (h0 : P.z ≠ 0) (h1 : P.z ≠ 1) : _normalize c Q P P.z⁻¹ = EcT.normalize c P := by
  unfold _normalize EcT.normalize
  cases h : c.mode_
  · simp [normalizeJacobi, _normalizeJacobi, h0, h1]
  · simp [normalizeProj, _normalizeProj, h0, h1]
  · exact absurd h hm

theorem normalize_of_normal (c : Param F) (P : EcT F) (h : P.z = 0 ∨ P.z = 1) :
    EcT.normalize c P = P := by
  unfold EcT.normalize
  cases c.mode_ <;> simp [normalizeJacobi, normalizeProj, h]

theorem normalizeChunk_inplace (e : Ext F) (c : Param F) (hinv : InvOk e)
    (hm : c.mode_ ≠ Mode.Affine) (P : List (EcT F)) (doneN : Nat) (hd : doneN ≤ P.length) :
    normalizeChunk c true P P (e.invVecT ((P.take doneN).map (fun p => p.z))) doneN =
      (P.take doneN).map (EcT.normalize c) := by
  apply List.ext_getElem
  · simp [normalizeChunk, hd]
  · intro i h1 h2
    have hi : i < doneN := by simpa [normalizeChunk] using h1
    have hiP : i < P.length := by omega
    have hget : P.getD i ⟨0, 0, 0⟩ = P[i] := by
      simp [List.getD_eq_getElem?_getD, List.getElem?_eq_getElem hiP]
    simp only [normalizeChunk, List.getElem_map, List.getElem_range, hget, List.getElem_take,
      Bool.not_true, Bool.false_eq_true, if_false]
    split_ifs with hz
    · exact (normalize_of_normal c _ hz).symm
    · push_neg at hz
      have hlen : i < ((P.take doneN).map (fun p => p.z)).length := by simp; omega
      have hzi : ((P.take doneN).map (fun p => p.z)).getD i 0 = P[i].z := by
        rw [List.getD_eq_getElem _ _ hlen]
        simp
      have := hinv _ i hlen (by rw [hzi]; exact hz.1) (by rw [hzi]; exact hz.2)
      rw [this, hzi]
      exact _normalize_eq_normalize c _ _ hm hz.1 hz.2

theorem normalizeVecT_inplace (e : Ext F) (c : Param F) (hinv : InvOk e)
    (hm : c.mode_ ≠ Mode.Affine) (N : Nat) (hN : 0 < N) (n : Nat) :
    ∀ P : List (EcT F), P.length = n →
      normalizeVecT e c true P P n N hN = P.map (EcT.normalize c) := by
  induction n using Nat.strong_induction_on with
  | _ n ih =>
    intro P hP
    rw [normalizeVecT]
    by_cases hn : n < N
    · simp only [hn, if_true, Nat.sub_self, dite_true]
      rw [normalizeChunk_inplace e c hinv hm P n (by omega), ← hP, List.take_length]
    · simp only [hn, if_false]
      have hNn : N ≤ n := by omega
      rw [normalizeChunk_inplace e c hinv hm P N (by omega)]
      split_ifs with h0
      · have : n = N := by omega
        subst this
        rw [← hP, List.take_length]
      · rw [ih (n - N) (by omega) (P.drop N) (by simp [hP]), ← List.map_append, List.take_append_drop]

theorem EcT.normalizeVec_inplace (e : Ext F) (c : Param F) (hinv : InvOk e)
    (P : List (EcT F)) :
    EcT.normalizeVec e c true P P P.length = P.map (EcT.normalize c) := by
  unfold EcT.normalizeVec
  by_cases hm : c.mode_ = Mode.Affine
  · simp only [hm, if_true, List.take_length]
    have : EcT.normalize c = id := by
      funext Q
      simp [EcT.normalize, hm]
    rw [this, List.map_id]
  · rw [if_neg hm]
    exact normalizeVecT_inplace e c hinv hm 256 (by decide) P.length P rfl

theorem affineOf_normalize (c : Param F) (P : EcT F) (hP : P.z ≠ 0) :
    (EcT.normalize c P).z ≠ 0 ∧ affineOf c.mode_ (EcT.normalize c P) = affineOf c.mode_ P := by
  by_cases h1 : P.z = 1
  · rw [normalize_of_normal c P (Or.inr h1)]
    exact ⟨hP, rfl⟩
  · unfold EcT.normalize
    cases hm : c.mode_ <;> simp only [affineOf]
    · simp only [normalizeJacobi, hP, h1, or_self, if_false, _normalizeJacobi, affineOfJacobi,
        EcT.mk.injEq, and_true]
      refine ⟨one_ne_zero, ?_, ?_⟩ <;> rw [one_pow, div_one, div_eq_mul_inv, ← inv_pow]
      ring
    · simp only [normalizeProj, hP, h1, or_self, if_false, _normalizeProj, affineOfProj,
        EcT.mk.injEq, and_true]
      refine ⟨one_ne_zero, ?_, ?_⟩ <;> rw [div_one, div_eq_mul_inv]
    · exact ⟨hP, trivial⟩

theorem curveReads_normalize (c : Param F) (b : F) (P : EcT F)
    (p : (shortW c.a_ b).toAffine.Point) (hP : CurveReads c b P p) :
    CurveReads c b (EcT.normalize c P) p := by
  rcases hP with ⟨hz, rfl⟩ | ⟨hz, x1, y1, h₁, ha, rfl⟩
  · rw [normalize_of_normal c P (Or.inl hz)]
    exact Or.inl ⟨hz, rfl⟩
  · obtain ⟨hz', ha'⟩ := affineOf_normalize c P hz
    exact Or.inr ⟨hz', x1, y1, h₁, by rw [ha', ha], rfl⟩

theorem affineNormal_normalize (c : Param F) (P : EcT F) (hP : AffineNormal c P) :
    AffineNormal c (EcT.normalize c P) := by
  intro hm
  have : EcT.normalize c P = P := by simp [EcT.normalize, hm]
  rw [this]
  exact hP hm

theorem nafValue_drop (l : List ℤ) (pos : Nat) :
    nafValue (l.drop pos) = l.getD pos 0 + 2 * nafValue (l.drop (pos + 1)) := by
  by_cases h : pos < l.length
  · rw [List.drop_eq_getElem_cons h, nafValue, List.getD_eq_getElem _ _ h]
  · have h1 : l.drop pos = [] := List.drop_eq_nil_of_le (by omega)
    have h2 : l.drop (pos + 1) = [] := List.drop_eq_nil_of_le (by omega)
    have h3 : l.getD pos 0 = 0 := by
      rw [List.getD_eq_getElem?_getD, List.getElem?_eq_none (by omega)]
      rfl
    rw [h1, h2, h3]
    simp [nafValue]

theorem flatten_drop_getD {α : Type} (k : Nat) (d : α) (rows : List (List α))
    (hlen : ∀ r ∈ rows, r.length = k) (j : Nat) (hj : j < rows.length) (i : Nat) (hi : i < k) :
    ((rows.flatten).drop (j * k)).getD i d = (rows.getD j []).getD i d := by
  induction rows generalizing j with
  | nil => simp at hj
  | cons r rs ih =>
    have hr : r.length = k := hlen r (List.mem_cons_self _ _)
    cases j with
    | zero =>
      simp only [List.flatten_cons, Nat.zero_mul, List.drop_zero, List.getD_cons_zero]
      rw [List.getD_append _ _ _ _ (by omega)]
    | succ j =>
      have e : (j + 1) * k = r.length + j * k := by rw [hr]; ring
      simp only [List.flatten_cons, List.getD_cons_succ]
      rw [e, List.drop_append]
      exact ih (fun r' hr' => hlen r' (List.mem_cons_of_mem _ hr')) j
        (by simpa using hj)

theorem foldl_max_length_le (ls : List (List ℤ)) (m0 : Nat) :
    m0 ≤ ls.foldl (fun m l => if l.length > m then l.length else m) m0 ∧
    ∀ l ∈ ls, l.length ≤ ls.foldl (fun m l => if l.length > m then l.length else m) m0 := by
  induction ls generalizing m0 with
  | nil => simp
  | cons a as ih =>
    simp only [List.foldl_cons, List.mem_cons, forall_eq_or_imp]
    obtain ⟨h1, h2⟩ := ih (if a.length > m0 then a.length else m0)
    refine ⟨?_, ?_, h2⟩
    · refine le_trans ?_ h1
      split_ifs <;> omega
    · refine le_trans ?_ h1
      split_ifs <;> omega

namespace GroupReading

variable {c : Param F} {G : Type} [AddCommGroup G] (rd : GroupReading c G)

theorem addTbl_reads_getD (g : G) (w : Nat) (hw : 2 ≤ w) (tbl : List (EcT F))
    (htbl : ∀ j, j < 2 ^ (w - 2) → rd.R (tbl.getD j ⟨0, 0, 0⟩) ((2 * (j : ℤ) + 1) • g))
    (naf : List Int) (hnaf : ∀ d ∈ naf, d ≠ 0 → d % 2 = 1 ∧ d.natAbs < 2 ^ (w - 1))
    (Q : EcT F) (q : G) (hQ : rd.R Q q) (i : Nat) :
    rd.R (addTbl c Q tbl naf i) (q + naf.getD i 0 • g) := by
  by_cases hi : i < naf.length
  · rw [List.getD_eq_getElem _ _ hi]
    exact rd.addTbl_reads g w hw tbl htbl naf hnaf Q q hQ i hi
  · have h3 : naf.getD i 0 = 0 := by
      rw [List.getD_eq_getElem?_getD, List.getElem?_eq_none (by omega)]
      rfl
    rw [h3, zero_smul, add_zero]
    simp only [addTbl, ge_iff_le, not_lt.1 hi, if_true]
    exact hQ

theorem strausInner_reads (gs : Nat → G) (w : Nat) (hw : 2 ≤ w) (n : Nat)
    (tblOf : Nat → List (EcT F)) (nafOf : Nat → List Int)
    (htbl : ∀ j, j < n → ∀ k, k < 2 ^ (w - 2) →
      rd.R ((tblOf j).getD k ⟨0, 0, 0⟩) ((2 * (k : ℤ) + 1) • gs j))
    (hnaf : ∀ j, j < n → ∀ d ∈ nafOf j, d ≠ 0 → d % 2 = 1 ∧ d.natAbs < 2 ^ (w - 1))
    (Q : EcT F) (q : G) (hQ : rd.R Q q) (pos : Nat) (m : Nat) (hm : m ≤ n) :
    rd.R ((List.range m).foldl (fun z j => addTbl c z (tblOf j) (nafOf j) pos) Q)
      (q + ∑ j in Finset.range m, (nafOf j).getD pos 0 • gs j) := by
  induction m with
  | zero => simpa using hQ
  | succ m ih =>
    rw [List.range_succ, List.foldl_append, Finset.sum_range_succ, ← add_assoc]
    simp only [List.foldl_cons, List.foldl_nil]
    exact rd.addTbl_reads_getD (gs m) w hw (tblOf m) (htbl m (by omega)) (nafOf m)
      (hnaf m (by omega)) _ _ (ih (by omega)) pos

theorem strausOuter_reads (gs : Nat → G) (w : Nat) (hw : 2 ≤ w) (n : Nat)
    (tblOf : Nat → List (EcT F)) (nafOf : Nat → List Int)
    (htbl : ∀ j, j < n → ∀ k, k < 2 ^ (w - 2) →
      rd.R ((tblOf j).getD k ⟨0, 0, 0⟩) ((2 * (k : ℤ) + 1) • gs j))
    (hnaf : ∀ j, j < n → ∀ d ∈ nafOf j, d ≠ 0 → d % 2 = 1 ∧ d.natAbs < 2 ^ (w - 1))
    (maxBit : Nat) (hmax : ∀ j, j < n → (nafOf j).length ≤ maxBit) (i : Nat) (hi : i ≤ maxBit) :
    rd.R ((List.range i).foldl (fun z i =>
        (List.range n).foldl (fun z j => addTbl c z (tblOf j) (nafOf j) (maxBit - 1 - i))
          (EcT.dbl c z)) (EcT.clear c))
      (∑ j in Finset.range n, nafValue ((nafOf j).drop (maxBit - i)) • gs j) := by
  induction i with
  | zero =>
    have : ∑ j in Finset.range n, nafValue ((nafOf j).drop (maxBit - 0)) • gs j = 0 := by
      apply Finset.sum_eq_zero
      intro j hj
      rw [List.drop_eq_nil_of_le (by simpa using hmax j (Finset.mem_range.1 hj))]
      simp [nafValue]
    rw [this]
    simpa using rd.clear
  | succ i ih =>
    rw [List.range_succ, List.foldl_append]
    simp only [List.foldl_cons, List.foldl_nil]
    have hstep := rd.strausInner_reads gs w hw n tblOf nafOf htbl hnaf _ _
      (rd.dbl _ _ (ih (by omega))) (maxBit - 1 - i) n le_rfl
    refine rd.congr hstep ?_
    rw [← Finset.sum_add_distrib, ← Finset.sum_add_distrib]
    apply Finset.sum_congr rfl
    intro j _
    have e1 : maxBit - (i + 1) = maxBit - 1 - i := by omega
    have e2 : maxBit - i = maxBit - 1 - i + 1 := by omega
    rw [e1, e2, nafValue_drop (nafOf j) (maxBit - 1 - i), ← add_smul, ← add_smul]
    congr 1
    ring

end GroupReading

theorem flatten_length_const {α : Type} (k : Nat) (rows : List (List α))
    (hlen : ∀ r ∈ rows, r.length = k) : rows.flatten.length = rows.length * k := by
  induction rows with
  | nil => simp
  | cons r rs ih =>
    simp only [List.flatten_cons, List.length_append, List.length_cons]
    rw [ih (fun r' hr' => hlen r' (List.mem_cons_of_mem _ hr')), hlen r (List.mem_cons_self _ _)]
    ring

namespace GroupReading

variable {c : Param F} {G : Type} [AddCommGroup G] (rd : GroupReading c G)

theorem mulVecN_reads (hnorm : ∀ P p, rd.R P p → rd.R (EcT.normalize c P) p) (e : Ext F)
    (hinv : InvOk e)
    (hnaf : ∀ (v : ℤ) (w : Nat), 3 ≤ w → w ≤ 5 → NafOk (e.getNAFwidth v w) v w)
    (xVec : List (EcT F)) (yVec : List Nat) (n : Nat) (gs : Nat → G)
    (hx : ∀ i, i < n → rd.R (xVec.getD i ⟨0, 0, 0⟩) (gs i)) :
    (EcT.mulVecN e c xVec yVec n).2 = min n e.maxMulVecN ∧
    rd.R (EcT.mulVecN e c xVec yVec n).1
      (∑ i in Finset.range (min n e.maxMulVecN), (yVec.getD i 0 : ℤ) • gs i) := by
  unfold EcT.mulVecN
  simp only
  have hn' : (if n > e.maxMulVecN then e.maxMulVecN else n) = min n e.maxMulVecN := by
    split_ifs <;> omega
  rw [hn']
  refine ⟨rfl, ?_⟩
  set m := min n e.maxMulVecN with hm
  have hmn : m ≤ n := by omega
  set rows : List (List (EcT F)) := (List.range m).map (fun i =>
    mkTbl (fun t => EcT.add c t (EcT.dbl c (xVec.getD i ⟨0, 0, 0⟩))) (xVec.getD i ⟨0, 0, 0⟩)
      (2 ^ (5 - 2))) with hrows
  set naf : List (List ℤ) := (List.range m).map (fun i => e.getNAFwidth (yVec.getD i 0) 5)
    with hnafdef
  have hrowlen : ∀ r ∈ rows, r.length = 2 ^ (5 - 2) := by
    intro r hr
    obtain ⟨i, _, rfl⟩ := List.mem_map.1 hr
    exact mkTbl_length _ _ _
  have hflat : rows.flatten.length = m * 2 ^ (5 - 2) := by
    rw [flatten_length_const _ rows hrowlen]
    simp [hrows]
  rw [← hflat, EcT.normalizeVec_inplace e c hinv, List.map_flatten]
  have hrowlen' : ∀ r ∈ rows.map (List.map (EcT.normalize c)), r.length = 2 ^ (5 - 2) := by
    intro r hr
    obtain ⟨r0, hr0, rfl⟩ := List.mem_map.1 hr
    rw [List.length_map]
    exact hrowlen r0 hr0
  have hnafOf : ∀ j, j < m → naf.getD j [] = e.getNAFwidth (yVec.getD j 0) 5 := by
    intro j hj
    rw [List.getD_eq_getElem _ _ (by simpa [hnafdef] using hj)]
    simp [hnafdef]
  have htbl : ∀ j, j < m → ∀ k, k < 2 ^ (5 - 2) →
      rd.R ((((rows.map (List.map (EcT.normalize c))).flatten).drop (j * 2 ^ (5 - 2))).getD k
        ⟨0, 0, 0⟩) ((2 * (k : ℤ) + 1) • gs j) := by
    intro j hj k hk
    rw [flatten_drop_getD _ _ _ hrowlen' j (by simpa [hrows] using hj) k hk]
    have hj' : j < (rows.map (List.map (EcT.normalize c))).length := by simpa [hrows] using hj
    rw [List.getD_eq_getElem _ _ hj']
    have hk' : k < ((rows.map (List.map (EcT.normalize c)))[j]).length := by
      rw [hrowlen' _ (List.getElem_mem _)]
      exact hk
    rw [List.getD_eq_getElem _ _ hk']
    simp only [hrows, List.getElem_map, List.getElem_range]
    apply hnorm
    have hk2 : k < (mkTbl (fun t => EcT.add c t (EcT.dbl c (xVec.getD j ⟨0, 0, 0⟩)))
        (xVec.getD j ⟨0, 0, 0⟩) (2 ^ (5 - 2))).length := by
      rw [mkTbl_length]
      exact hk
    rw [← List.getD_eq_getElem _ ⟨0, 0, 0⟩ hk2, mkTbl_getD _ _ _ _ _ hk]
    exact rd.oddTbl_reads _ _ (gs j) (hx j (by omega))
      (rd.congr (rd.dbl _ _ (hx j (by omega))) (by rw [two_smul])) k
  have hdig : ∀ j, j < m → ∀ d ∈ naf.getD j [], d ≠ 0 →
      d % 2 = 1 ∧ d.natAbs < 2 ^ (5 - 1) := by
    intro j hj
    rw [hnafOf j hj]
    exact (hnaf _ 5 (by norm_num) le_rfl).2
  have hmax : ∀ j, j < m → (naf.getD j []).length ≤
      naf.foldl (fun maxBit l => if l.length > maxBit then l.length else maxBit) 0 := by
    intro j hj
    apply (foldl_max_length_le naf 0).2
    rw [List.getD_eq_getElem _ _ (by simpa [hnafdef] using hj)]
    exact List.getElem_mem _
  have hloop := rd.strausOuter_reads gs 5 (by norm_num) m
    (fun j => ((rows.map (List.map (EcT.normalize c))).flatten).drop (j * 2 ^ (5 - 2)))
    (fun j => naf.getD j []) htbl hdig _ hmax _ le_rfl
  refine rd.congr hloop ?_
  apply Finset.sum_congr rfl
  intro j hj
  simp only [Nat.sub_self, List.drop_zero]
  rw [hnafOf j (Finset.mem_range.1 hj), (hnaf _ 5 (by norm_num) le_rfl).1]

end GroupReading

theorem getD_drop {α : Type} (l : List α) (a i : Nat) (d : α) :
    (l.drop a).getD i d = l.getD (a + i) d := by
  simp [List.getD_eq_getElem?_getD, List.getElem?_drop]

namespace GroupReading

variable {c : Param F} {G : Type} [AddCommGroup G] (rd : GroupReading c G)

theorem mulVecLoop_reads (hnorm : ∀ P p, rd.R P p → rd.R (EcT.normalize c P) p) (e : Ext F)
    (hinv : InvOk e)
    (hnaf : ∀ (v : ℤ) (w : Nat), 3 ≤ w → w ≤ 5 → NafOk (e.getNAFwidth v w) v w) (n : Nat) :
    ∀ (r : EcT F) (rg : G) (xVec : List (EcT F)) (yVec : List Nat) (gs : Nat → G),
      rd.R r rg → (∀ i, i < n → rd.R (xVec.getD i ⟨0, 0, 0⟩) (gs i)) →
      rd.R (EcT.mulVecLoop e c r xVec yVec n)
        (rg + ∑ i in Finset.range n, (yVec.getD i 0 : ℤ) • gs i) := by
  induction n using Nat.strong_induction_on with
  | _ n ih =>
    intro r rg xVec yVec gs hr hx
    rw [EcT.mulVecLoop]
    split_ifs with h0
    · subst h0
      simpa using hr
    · obtain ⟨hcnt, hread⟩ := rd.mulVecN_reads hnorm e hinv hnaf xVec yVec n gs hx
      have hpos := e.maxMulVecN_pos
      simp only
      rw [hcnt]
      set done := min n e.maxMulVecN with hdone
      have hrec := ih (n - done) (by omega) (EcT.add c r (EcT.mulVecN e c xVec yVec n).1)
        _ (xVec.drop done) (yVec.drop done) (fun i => gs (done + i))
        (rd.add _ _ _ _ hr hread)
        (fun i hi => by rw [getD_drop]; exact hx _ (by omega))
      refine rd.congr hrec ?_
      have hsplit : n = done + (n - done) := by omega
      conv_rhs => rw [hsplit, Finset.sum_range_add]
      rw [add_assoc]
      congr 2
      apply Finset.sum_congr rfl
      intro i _
      rw [getD_drop]

theorem sumMul_reads (xVec : List (EcT F)) :
    ∀ (yVec : List Nat) (acc : EcT F) (ag : G) (gs : Nat → G), rd.R acc ag →
      xVec.length = yVec.length →
      (∀ i, i < xVec.length → rd.R (xVec.getD i ⟨0, 0, 0⟩) (gs i)) →
      rd.R ((List.zip xVec yVec).foldl
          (fun acc p => EcT.add c acc (scalarMul c (p.2 : Int) p.1)) acc)
        (ag + ∑ i in Finset.range xVec.length, (yVec.getD i 0 : ℤ) • gs i) := by
  induction xVec with
  | nil =>
    intro yVec acc ag gs hacc _ _
    simpa using hacc
  | cons x xs ih =>
    intro yVec acc ag gs hacc hlen hx
    cases yVec with
    | nil => simp at hlen
    | cons y ys =>
      simp only [List.zip_cons_cons, List.foldl_cons, List.length_cons]
      have h0 : rd.R x (gs 0) := by simpa using hx 0 (by simp)
      have hrec := ih ys _ _ (fun i => gs (i + 1))
        (rd.add _ _ _ _ hacc (rd.scalarMul_reads x (gs 0) h0 (y : ℤ)))
        (by simpa using hlen)
        (fun i hi => by simpa using hx (i + 1) (by simpa using hi))
      refine rd.congr hrec ?_
      rw [Finset.sum_range_succ', add_assoc]
      congr 1
      rw [add_comm]
      simp

theorem mulVec_reads (hnorm : ∀ P p, rd.R P p → rd.R (EcT.normalize c P) p) (e : Ext F)
    (hinv : InvOk e)
    (hnaf : ∀ (v : ℤ) (w : Nat), 3 ≤ w → w ≤ 5 → NafOk (e.getNAFwidth v w) v w)
    (hG : c.mulVecGLV = none) (hO : c.mulVecOpti = none)
    (xVec : List (EcT F)) (yVec : List Nat) (n b : Nat) (gs : Nat → G)
    (hx : ∀ i, i < n → rd.R (xVec.getD i ⟨0, 0, 0⟩) (gs i)) :
    rd.R (EcT.mulVec e c xVec yVec n b)
      (∑ i in Finset.range n, (yVec.getD i 0 : ℤ) • gs i) := by
  unfold EcT.mulVec
  by_cases h0 : n = 0
  · subst h0
    simpa using rd.clear
  · rw [if_neg h0, hG, hO, ite_self]
    have := rd.mulVecLoop_reads hnorm e hinv hnaf n (EcT.clear c) 0 xVec yVec gs rd.clear hx
    rwa [zero_add] at this

end GroupReading

theorem shortW_nonsingular_of_discr (a b x y : F) (h2 : (2 : F) ≠ 0)
    (hd : 4 * a ^ 3 + 27 * b ^ 2 ≠ 0) (he : y ^ 2 = x ^ 3 + a * x + b) :
    (shortW a b).toAffine.Nonsingular x y := by
  by_cases hy : y = 0
  · rw [WeierstrassCurve.Affine.nonsingular_iff']
    refine ⟨(shortW_equation a b x y).2 he, Or.inl ?_⟩
    simp only [shortW]
    intro h
    apply hd
    have ha : a = -(3 * x ^ 2) := by linear_combination -h
    have hb : b = 2 * x ^ 3 := by
      rw [hy] at he
      rw [ha] at he
      linear_combination -he
    rw [ha, hb]
    ring
  · exact shortW_nonsingular_of_y a b x y h2 he hy

theorem exists_curveReads_of_onCurve (c : Param F) (h2 : (2 : F) ≠ 0)
    (hd : 4 * c.a_ ^ 3 + 27 * c.b_ ^ 2 ≠ 0) (P : EcT F) (hP : OnCurve c P) :
    ∃ p, CurveReads c c.b_ P p := by
  by_cases hz : P.z = 0
  · exact ⟨0, Or.inl ⟨hz, rfl⟩⟩
  · have he : (affineOf c.mode_ P).y ^ 2 =
        (affineOf c.mode_ P).x ^ 3 + c.a_ * (affineOf c.mode_ P).x + c.b_ := by
      rcases hP with h | h
      · exact absurd h hz
      · exact h
    refine ⟨WeierstrassCurve.Affine.Point.some
      (shortW_nonsingular_of_discr c.a_ c.b_ _ _ h2 hd he), Or.inr ⟨hz, _, _, _, ?_, rfl⟩⟩
    have hz1 := affineOf_z c.mode_ P
    revert hz1
    generalize affineOf c.mode_ P = p
    obtain ⟨px, py, pz⟩ := p
    rintro rfl
    rfl

theorem samePoint_normalize (c : Param F) (P : EcT F) : SamePoint c (EcT.normalize c P) P := by
  by_cases hz : P.z = 0
  · rw [normalize_of_normal c P (Or.inl hz)]
    exact Or.inl ⟨hz, hz⟩
  · obtain ⟨h1, h2⟩ := affineOf_normalize c P hz
    exact Or.inr ⟨h1, hz, h2⟩

theorem exampleExt_invOk : InvOk exampleExt := by
  intro zs i hi _ _
  simp only [exampleExt]
  rw [List.getD_eq_getElem _ _ (by simpa using hi), List.getD_eq_getElem _ _ hi]
  simp

theorem exampleExtSmall_invOk : InvOk exampleExtSmall := by
  intro zs i hi _ _
  simp only [exampleExtSmall]
  rw [List.getD_eq_getElem _ _ (by simpa using hi), List.getD_eq_getElem _ _ hi]
  simp

/-- The readings of the points of the curve, with and without the form
invariant of Affine mode, both respected by `normalize`. -/
theorem exists_curveReadings (c : Param F) (h2 : (2 : F) ≠ 0) (hA : c.SpecialAOk) :
    ∃ rd rd' : GroupReading c (shortW c.a_ c.b_).toAffine.Point,
      rd.R = CurveReads c c.b_ ∧
      rd'.R = (fun P p => CurveReads c c.b_ P p ∧ AffineNormal c P) ∧
      (∀ P p, rd.R P p → rd.R (EcT.normalize c P) p) ∧
      (∀ P p, rd'.R P p → rd'.R (EcT.normalize c P) p) := by
  obtain ⟨rd, hrd⟩ := exists_curveReading c c.b_ h2 hA
  obtain ⟨rd', hrd'⟩ := rd.exists_normal
  refine ⟨rd, rd', hrd, by rw [hrd', hrd], ?_, ?_⟩
  · intro P p h
    rw [hrd] at h ⊢
    exact curveReads_normalize c c.b_ P p h
  · intro P p h
    rw [hrd', hrd] at h ⊢
    exact ⟨curveReads_normalize c c.b_ P p h.1, affineNormal_normalize c P h.2⟩

/-- **C5.** Multi-scalar multiplication equals the sum of the individual
multiples.  Over a field with `2 ≠ 0`, on a non-singular curve
(`4a^3 + 27b^2 ≠ 0`), with no `mulVecOpti` and no `mulVecGLV` hook, with digit
and batch-inversion routines that meet their contracts, for arrays `xVec`,
`yVec` of the same length `n` whose points are the identity or on the curve:
`mulVec(z, xVec, yVec, n)` stands for the same point as
`sum_{i<n} yVec[i] * xVec[i]` and compares equal to it under `operator==` (in
Affine mode for points with `z = 1` or the cleared identity); `n = 0` gives the
cleared identity; the result is the same point for any two batch bounds
`maxMulVecN ≥ 1`; a call of `mulVecN` consumes `min(n, N)` points, at least one
when `n ≥ 1`; a digit array shorter than the position asked for adds nothing;
and normalising the table in place is the entry-wise `normalize`, which keeps
the point of every entry. -/
theorem mulVec_sum_of_multiples (e e' : Ext F) (c : Param F) (h2 : (2 : F) ≠ 0)
    (hA : c.SpecialAOk) (hd : 4 * c.a_ ^ 3 + 27 * c.b_ ^ 2 ≠ 0)
    (hinv : InvOk e) (hinv' : InvOk e')
    (hnaf : ∀ (v : ℤ) (w : Nat), 3 ≤ w → w ≤ 5 → NafOk (e.getNAFwidth v w) v w)
    (hnaf' : ∀ (v : ℤ) (w : Nat), 3 ≤ w → w ≤ 5 → NafOk (e'.getNAFwidth v w) v w)
    (hG : c.mulVecGLV = none) (hO : c.mulVecOpti = none)
    (xVec : List (EcT F)) (yVec : List Nat) (hlen : xVec.length = yVec.length)
    (hon : ∀ P ∈ xVec, OnCurve c P) (b : Nat) :
    SamePoint c (EcT.mulVec e c xVec yVec xVec.length b) (sumMul c xVec yVec) ∧
    ((∀ P ∈ xVec, AffineNormal c P) →
      EcT.eq c (EcT.mulVec e c xVec yVec xVec.length b) (sumMul c xVec yVec) = true) ∧
    SamePoint c (EcT.mulVec e c xVec yVec xVec.length b)
      (EcT.mulVec e' c xVec yVec xVec.length b) ∧
    EcT.mulVec e c xVec yVec 0 b = EcT.clear c ∧
    (∀ n, (EcT.mulVecN e c xVec yVec n).2 = min n e.maxMulVecN ∧
      (0 < n → 0 < (EcT.mulVecN e c xVec yVec n).2)) ∧
    (∀ (Q : EcT F) (tbl : List (EcT F)) (naf : List ℤ) (i : Nat), naf.length ≤ i →
      addTbl c Q tbl naf i = Q) ∧
    (∀ P : List (EcT F), EcT.normalizeVec e c true P P P.length = P.map (EcT.normalize c) ∧
      ∀ Q ∈ P, SamePoint c (EcT.normalize c Q) Q) := by
  obtain ⟨rd, rd', hrd, hrd', hnorm, hnorm'⟩ := exists_curveReadings c h2 hA
  have hex : ∀ i, ∃ p, i < xVec.length → CurveReads c c.b_ (xVec.getD i ⟨0, 0, 0⟩) p := by
    intro i
    by_cases hi : i < xVec.length
    · obtain ⟨p, hp⟩ := exists_curveReads_of_onCurve c h2 hd (xVec.getD i ⟨0, 0, 0⟩)
        (hon _ (by rw [List.getD_eq_getElem _ _ hi]; exact List.getElem_mem _))
      exact ⟨p, fun _ => hp⟩
    · exact ⟨0, fun h => absurd h hi⟩
  choose gs hgs using hex
  have hx : ∀ i, i < xVec.length → rd.R (xVec.getD i ⟨0, 0, 0⟩) (gs i) := by
    intro i hi
    rw [hrd]
    exact hgs i hi
  have hsum := rd.sumMul_reads xVec yVec (EcT.clear c) 0 gs rd.clear hlen hx
  rw [zero_add] at hsum
  have hmul := rd.mulVec_reads hnorm e hinv hnaf hG hO xVec yVec xVec.length b gs hx
  have hmul' := rd.mulVec_reads hnorm e' hinv' hnaf' hG hO xVec yVec xVec.length b gs hx
  refine ⟨rd.same _ _ _ hmul hsum, ?_, rd.same _ _ _ hmul hmul', by simp [EcT.mulVec], ?_, ?_, ?_⟩
  · intro hN
    have hx' : ∀ i, i < xVec.length → rd'.R (xVec.getD i ⟨0, 0, 0⟩) (gs i) := by
      intro i hi
      rw [hrd']
      exact ⟨hgs i hi, hN _ (by rw [List.getD_eq_getElem _ _ hi]; exact List.getElem_mem _)⟩
    have hsum' := rd'.sumMul_reads xVec yVec (EcT.clear c) 0 gs rd'.clear hlen hx'
    rw [zero_add] at hsum'
    have hmul2 := rd'.mulVec_reads hnorm' e hinv hnaf hG hO xVec yVec xVec.length b gs hx'
    have hs := rd'.same _ _ _ hmul2 hsum'
    rw [hrd'] at hmul2 hsum'
    exact eq_of_samePoint c _ _ hs hmul2.2 hsum'.2
  · intro n
    have hpos := e.maxMulVecN_pos
    have hc : (EcT.mulVecN e c xVec yVec n).2 = min n e.maxMulVecN := by
      simp only [EcT.mulVecN]
      split_ifs <;> omega
    exact ⟨hc, fun hn => by rw [hc]; omega⟩
  · intro Q tbl naf i hi
    simp [addTbl, hi]
  · intro P
    exact ⟨EcT.normalizeVec_inplace e c hinv P, fun Q _ => samePoint_normalize c Q⟩

/-- Instance of `mulVec_sum_of_multiples` on `y^2 = x^3 - 3x + 3` over `ℚ` in
Jacobi mode: `3 * (1, 1) + 5 * (-2, 1)` with the batch bounds 32 and 1. -/
theorem mulVec_sum_of_multiples_witness :
    (2 : ℚ) ≠ 0 ∧ (exampleParam Mode.Jacobi).SpecialAOk ∧
    4 * (exampleParam Mode.Jacobi).a_ ^ 3 + 27 * (exampleParam Mode.Jacobi).b_ ^ 2 ≠ 0 ∧
    InvOk exampleExt ∧ InvOk exampleExtSmall ∧
    (∀ P ∈ [(⟨1, 1, 1⟩ : EcT ℚ), ⟨-8, 8, 2⟩], OnCurve (exampleParam Mode.Jacobi) P) ∧
    SamePoint (exampleParam Mode.Jacobi)
      (EcT.mulVec exampleExt (exampleParam Mode.Jacobi) [⟨1, 1, 1⟩, ⟨-8, 8, 2⟩] [3, 5]
        [(⟨1, 1, 1⟩ : EcT ℚ), ⟨-8, 8, 2⟩].length 0)
      (EcT.mulVec exampleExtSmall (exampleParam Mode.Jacobi) [⟨1, 1, 1⟩, ⟨-8, 8, 2⟩] [3, 5]
        [(⟨1, 1, 1⟩ : EcT ℚ), ⟨-8, 8, 2⟩].length 0) :=
  have hon : ∀ P ∈ [(⟨1, 1, 1⟩ : EcT ℚ), ⟨-8, 8, 2⟩], OnCurve (exampleParam Mode.Jacobi) P := by
    intro P hP
    simp only [List.mem_cons, List.mem_singleton, List.not_mem_nil, or_false] at hP
    rcases hP with rfl | rfl <;> right <;>
      norm_num [affineOf, affineOfJacobi, exampleParam]
  have hdisc : 4 * (exampleParam Mode.Jacobi).a_ ^ 3 +
      27 * (exampleParam Mode.Jacobi).b_ ^ 2 ≠ 0 := by
    norm_num [exampleParam]
  ⟨by norm_num, by simp [Param.SpecialAOk, exampleParam], hdisc,
    exampleExt_invOk, exampleExtSmall_invOk, hon,
    (mulVec_sum_of_multiples exampleExt exampleExtSmall (exampleParam Mode.Jacobi)
      (by norm_num) (by simp [Param.SpecialAOk, exampleParam]) hdisc
      exampleExt_invOk exampleExtSmall_invOk exampleNaf_ok exampleNaf_ok rfl rfl
      [⟨1, 1, 1⟩, ⟨-8, 8, 2⟩] [3, 5] rfl hon 0).2.2.1⟩

/-! ### Decoding -/

/-- The success condition shared by the formats of `load` that produce an
affine point: `z = 1`, the affine equation, and the order check when enabled. -/
theorem loadVerifyOrder_true (e : Ext F) (c : Param F) (P : EcT F)
    (h : (EcT.loadVerifyOrder e c P).1 = true) :
    (EcT.loadVerifyOrder e c P).2 = P ∧
      (c.verifyOrder_ = true → EcT.isValidOrder e c P = true) := by
  unfold EcT.loadVerifyOrder at h ⊢
  split_ifs at h ⊢ with h1
  refine ⟨rfl, fun hv => ?_⟩
  simp only [Bool.and_eq_true, Bool.not_eq_true', not_and, Bool.not_eq_false] at h1
  exact h1 hv

theorem isValidAffine_iff (c : Param F) (P : EcT F) :
    isValidAffine c P = true ↔ P.y ^ 2 = P.x ^ 3 + c.a_ * P.x + c.b_ := by
  simp only [isValidAffine, decide_eq_true_eq]
  constructor <;> intro h <;> linear_combination h

theorem loadVerifyValidAffine_true (e : Ext F) (c : Param F) (P : EcT F)
    (h : (EcT.loadVerifyValidAffine e c P).1 = true) :
    (EcT.loadVerifyValidAffine e c P).2 = P ∧
      P.y ^ 2 = P.x ^ 3 + c.a_ * P.x + c.b_ ∧
      (c.verifyOrder_ = true → EcT.isValidOrder e c P = true) := by
  unfold EcT.loadVerifyValidAffine at h ⊢
  split_ifs at h ⊢ with h1
  obtain ⟨h2, h3⟩ := loadVerifyOrder_true e c P h
  simp only [Bool.not_eq_true', Bool.not_eq_false] at h1
  exact ⟨h2, (isValidAffine_iff c P).1 h1, h3⟩

theorem getWeierstrass_eq (c : Param F) (x : F) :
    EcT.getWeierstrass c x = x ^ 3 + c.a_ * x + c.b_ := by
  simp only [EcT.getWeierstrass]
  ring

theorem getYfromX_true (fp : FpIo F) (c : Param F)
    (hsqrt : ∀ x y, fp.squareRoot x = some y → y * y = x) (x : F) (isYodd : Bool)
    (h : (EcT.getYfromX fp c x isYodd).1 = true) :
    (EcT.getYfromX fp c x isYodd).2 ^ 2 = x ^ 3 + c.a_ * x + c.b_ := by
  unfold EcT.getYfromX at h ⊢
  simp only at h ⊢
  cases hs : fp.squareRoot (EcT.getWeierstrass c x) with
  | none => simp [hs] at h
  | some y =>
    have hy := hsqrt _ _ hs
    rw [getWeierstrass_eq] at hy
    simp only [hs]
    split_ifs <;> simp only <;> linear_combination hy

theorem isValid_of_affine (e : Ext F) (c : Param F) (P : EcT F) (hz : P.z = 1)
    (he : P.y ^ 2 = P.x ^ 3 + c.a_ * P.x + c.b_)
    (ho : c.verifyOrder_ = true → EcT.isValidOrder e c P = true) :
    EcT.isValid e c P = true := by
  have hv := (isValidAffine_iff c P).2 he
  unfold EcT.isValid
  simp only [hz, one_ne_zero, if_false, if_true, hv, Bool.not_true, Bool.false_eq_true]
  split_ifs with h
  · exact ho h
  · rfl

theorem isValid_of_zero (e : Ext F) (c : Param F) (P : EcT F) (hz : P.z = 0) :
    EcT.isValid e c P = true := by
  simp [EcT.isValid, hz]

theorem loadSound_false (e : Ext F) (c : Param F) (T : Prop) (P : EcT F) :
    LoadSound e c T (false, P) := fun h => absurd h (by simp)

theorem loadSound_isValid (e : Ext F) (c : Param F) (T : Prop) (hT : T) (P : EcT F) :
    LoadSound e c T (EcT.isValid e c P, P) := fun h => Or.inr ⟨hT, h⟩

theorem loadSound_clear (e : Ext F) (c : Param F) (T : Prop) :
    LoadSound e c T (true, EcT.clear c) := fun _ => Or.inl (Or.inl (clear_z c))

theorem loadSound_verifyValidAffine (e : Ext F) (c : Param F) (T : Prop) (P : EcT F)
    (hz : P.z = 1) : LoadSound e c T (EcT.loadVerifyValidAffine e c P) := by
  intro h
  obtain ⟨h1, h2, h3⟩ := loadVerifyValidAffine_true e c P h
  rw [h1]
  exact Or.inl (Or.inr ⟨hz, h2, h3⟩)

theorem loadSound_verifyOrder (e : Ext F) (c : Param F) (T : Prop) (P : EcT F) (hz : P.z = 1)
    (he : P.y ^ 2 = P.x ^ 3 + c.a_ * P.x + c.b_) :
    LoadSound e c T (EcT.loadVerifyOrder e c P) := by
  intro h
  obtain ⟨h1, h3⟩ := loadVerifyOrder_true e c P h
  rw [h1]
  exact Or.inl (Or.inr ⟨hz, he, h3⟩)

theorem loadSound_getYfromX (fp : FpIo F) (e : Ext F) (c : Param F) (T : Prop)
    (hsqrt : ∀ x y, fp.squareRoot x = some y → y * y = x) (x z : F) (isYodd : Bool)
    (hz : z = 1) :
    LoadSound e c T
      (if (!(EcT.getYfromX fp c x isYodd).1) = true
        then (false, ⟨x, (EcT.getYfromX fp c x isYodd).2, z⟩)
        else EcT.loadVerifyOrder e c ⟨x, (EcT.getYfromX fp c x isYodd).2, z⟩) := by
  split_ifs with h4
  · exact loadSound_false e c T _
  · simp only [Bool.not_eq_true', Bool.not_eq_false] at h4
    exact loadSound_verifyOrder e c T _ hz (getYfromX_true fp c hsqrt _ _ h4)

theorem loadAffineSerialize_sound (fp : FpIo F) (e : Ext F) (c : Param F) (T : Prop)
    (P : EcT F) (is : List Nat) (hz : P.z = 1) :
    LoadSound e c T (EcT.loadAffineSerialize fp e c P is) := by
  unfold EcT.loadAffineSerialize
  split_ifs with h1
  · exact loadSound_false e c T _
  · split
    · exact loadSound_false e c T _
    · split
      · exact loadSound_false e c T _
      · split_ifs with h2
        · exact fun _ => Or.inl (Or.inl rfl)
        · exact loadSound_verifyValidAffine e c T _ hz

theorem loadETH_sound (fp : FpIo F) (e : Ext F) (c : Param F) (T : Prop) (P : EcT F)
    (hsqrt : ∀ x y, fp.squareRoot x = some y → y * y = x)
    (buf : List Nat) (hz : P.z = 1) :
    LoadSound e c T (EcT.loadETH fp e c P buf) := by
  unfold EcT.loadETH
  simp only
  split_ifs with h1 h2 h3 h4
  · exact loadSound_false e c T _
  · exact loadSound_false e c T _
  · exact loadSound_false e c T _
  · exact loadSound_clear e c T
  · split
    · exact loadSound_false e c T _
    · split
      · exact loadSound_false e c T _
      · rename_i x hx y hy
        have hy2 := hsqrt _ _ hy
        rw [getWeierstrass_eq] at hy2
        refine loadSound_verifyOrder e c T _ hz ?_
        simp only
        split_ifs <;> linear_combination hy2

theorem loadFixed_sound (fp : FpIo F) (e : Ext F) (c : Param F) (T : Prop) (P : EcT F)
    (hsqrt : ∀ x y, fp.squareRoot x = some y → y * y = x)
    (is : List Nat) (ioMode : IoMode) (hz : P.z = 1) :
    LoadSound e c T (EcT.loadFixed fp e c P is ioMode) := by
  unfold EcT.loadFixed
  simp only
  split_ifs
  all_goals repeat' first
    | exact loadSound_false e c T _
    | exact loadSound_clear e c T
    | exact loadETH_sound fp e c T P hsqrt _ hz
    | exact loadSound_getYfromX fp e c T hsqrt _ _ _ hz
    | split

theorem loadText_sound (fp : FpIo F) (e : Ext F) (c : Param F) (P : EcT F)
    (hsqrt : ∀ x y, fp.squareRoot x = some y → y * y = x)
    (is : List Nat) (ioMode : IoMode) (hz : P.z = 1) :
    LoadSound e c (∃ rest, fp.skipSpace is = some (52, rest))
      (EcT.loadText fp e c P is ioMode) := by
  unfold EcT.loadText
  split
  · exact loadSound_false e c _ _
  · rename_i ch is1 hsk
    simp only
    repeat' first
      | exact loadSound_false e c _ _
      | exact loadSound_clear e c _
      | exact loadSound_verifyValidAffine e c _ _ hz
      | exact loadSound_getYfromX fp e c _ hsqrt _ _ _ hz
      | split
      | (refine loadSound_isValid e c _ ?_ _; subst_vars; exact ⟨_, hsk⟩)

/-- The decode soundness of `load` in the form used below. -/
theorem load_loadSound (fp : FpIo F) (e : Ext F) (c : Param F) (self : EcT F)
    (hsqrt : ∀ x y, fp.squareRoot x = some y → y * y = x)
    (is : List Nat) (ioMode : IoMode) :
    LoadSound e c (ioMode.IoEcAffineSerialize = false ∧ ioMode.IoSerialize = false ∧
        ioMode.IoSerializeHexStr = false ∧ ∃ rest, fp.skipSpace is = some (52, rest))
      (EcT.load fp e c self is ioMode) := by
  unfold EcT.load
  simp only
  split_ifs with h1 h2
  · exact loadAffineSerialize_sound fp e c _ _ is rfl
  · exact loadFixed_sound fp e c _ _ hsqrt is ioMode rfl
  · intro h
    rcases loadText_sound fp e c _ hsqrt is ioMode rfl h with h3 | ⟨h3, h4⟩
    · exact Or.inl h3
    · simp only [Bool.or_eq_true, not_or, Bool.not_eq_true] at h1 h2
      exact Or.inr ⟨⟨h1, h2.1, h2.2, h3⟩, h4⟩

theorem isValidOrder_of_isValid (e : Ext F) (c : Param F) (P : EcT F)
    (h : EcT.isValid e c P = true) (hz : P.z ≠ 0) (hv : c.verifyOrder_ = true) :
    EcT.isValidOrder e c P = true := by
  unfold EcT.isValid at h
  rw [if_neg hz] at h
  split_ifs at h <;> exact h

theorem fp7_squareRoot_sound :
    ∀ x y : ZMod 7, fp7.squareRoot x = some y → y * y = x := by
  decide

/-- **C7.** Decode soundness.  With a `squareRoot` that returns a root when it
returns at all, for every stream, every io mode (affine-serialize,
fixed-width, ETH-style, text) and every earlier content of the target: if
`load` reports success, then the point it leaves is the identity (`z = 0`), or
has `z = 1` and satisfies `y^2 = x^3 + a*x + b`, or was read in text mode
after the tag `'4'`; in each case it passes `isValid`, and when it is finite
and subgroup verification is enabled it passes `isValidOrder`. -/
theorem load_sound (fp : FpIo F) (e : Ext F) (c : Param F) (self : EcT F)
    (hsqrt : ∀ x y, fp.squareRoot x = some y → y * y = x)
    (is : List Nat) (ioMode : IoMode)
    (h : (EcT.load fp e c self is ioMode).1 = true) :
    ((EcT.load fp e c self is ioMode).2.z = 0 ∨
      ((EcT.load fp e c self is ioMode).2.z = 1 ∧
        (EcT.load fp e c self is ioMode).2.y ^ 2 =
          (EcT.load fp e c self is ioMode).2.x ^ 3 +
            c.a_ * (EcT.load fp e c self is ioMode).2.x + c.b_) ∨
      (ioMode.IoEcAffineSerialize = false ∧ ioMode.IoSerialize = false ∧
        ioMode.IoSerializeHexStr = false ∧ ∃ rest, fp.skipSpace is = some (52, rest))) ∧
    EcT.isValid e c (EcT.load fp e c self is ioMode).2 = true ∧
    ((EcT.load fp e c self is ioMode).2.z ≠ 0 → c.verifyOrder_ = true →
      EcT.isValidOrder e c (EcT.load fp e c self is ioMode).2 = true) := by
  have hs := load_loadSound fp e c self hsqrt is ioMode h
  generalize (EcT.load fp e c self is ioMode).2 = P at hs ⊢
  rcases hs with (hz | ⟨hz, he, ho⟩) | ⟨ht, hv⟩
  · exact ⟨Or.inl hz, isValid_of_zero e c P hz, fun h1 => absurd hz h1⟩
  · exact ⟨Or.inr (Or.inl ⟨hz, he⟩), isValid_of_affine e c P hz he ho, fun _ => ho⟩
  · exact ⟨Or.inr (Or.inr ht), hv, fun h1 h2 => isValidOrder_of_isValid e c P hv h1 h2⟩

theorem load_sound_witness :
    (∀ x y : ZMod 7, fp7.squareRoot x = some y → y * y = x) ∧
    (EcT.load fp7 ext7 (param7 Mode.Jacobi) ⟨0, 0, 0⟩ [51, 0] IoMode.text).1 = true ∧
    EcT.isValid ext7 (param7 Mode.Jacobi)
      (EcT.load fp7 ext7 (param7 Mode.Jacobi) ⟨0, 0, 0⟩ [51, 0] IoMode.text).2 = true :=
  ⟨fp7_squareRoot_sound, by decide,
    (load_sound fp7 ext7 (param7 Mode.Jacobi) ⟨0, 0, 0⟩ fp7_squareRoot_sound [51, 0]
      IoMode.text (by decide)).2.1⟩

theorem set_failure_cleared (e : Ext F) (c : Param F) (x y : F) (verify : Bool)
    (h : (EcT.set e c x y verify).1 = false) :
    (EcT.set e c x y verify).2 = EcT.clear c := by
  unfold EcT.set at h ⊢
  simp only at h ⊢
  split_ifs at h ⊢
  rfl

/-- **C8.** On the curve `y^2 = x^3 + 4` over the field of 7 elements (Jacobi
mode, order check off) the text stream `'1' 1 1` names the pair `(1, 1)`,
which is off the curve (`1 ≠ 5`).  `load` reports failure and leaves the
target holding `(1, 1, 1)`: `isZero()` is false and the coordinates are the
rejected ones, not those of `clear()`; `set(pb, 1, 1, true)` on the same pair
reports failure and leaves the cleared point. -/
theorem load_failure_keeps_rejected_point :
    EcT.load fp7 ext7 (param7 Mode.Jacobi) (EcT.clear (param7 Mode.Jacobi)) [49, 1, 1]
        IoMode.text = (false, ⟨1, 1, 1⟩) ∧
      EcT.isZero (⟨1, 1, 1⟩ : EcT (ZMod 7)) = false ∧
      (⟨1, 1, 1⟩ : EcT (ZMod 7)) ≠ EcT.clear (param7 Mode.Jacobi) ∧
      EcT.set ext7 (param7 Mode.Jacobi) 1 1 true = (false, EcT.clear (param7 Mode.Jacobi)) := by
  decide

theorem byte_top_bit (b : Nat) (hb : b < 128) :
    (b ||| 128) >>> 7 ≠ 0 ∧ (b ||| 128) &&& 127 = b ∧ b >>> 7 = 0 ∧ b &&& 127 = b ∧
      b ||| 128 ≠ 0 := by
  interval_cases b <;> decide

theorem set_getD_self (l : List Nat) (i : Nat) (hi : i < l.length) :
    l.set i (l.getD i 0) = l := by
  apply List.ext_getElem (by simp)
  intro j h1 h2
  rw [List.getElem_set]
  split_ifs with h
  · subst h
    exact List.getD_eq_getElem _ _ hi
  · rfl

theorem getYfromX_recover (fp : FpIo F) (c : Param F)
    (hsqrt : ∀ x y : F, y * y = x → ∃ y0, fp.squareRoot x = some y0 ∧ y0 * y0 = x)
    (hodd : ∀ y : F, y ≠ 0 → fp.isOdd (-y) = !fp.isOdd y)
    (x y : F) (he : y ^ 2 = x ^ 3 + c.a_ * x + c.b_) :
    EcT.getYfromX fp c x (fp.isOdd y) = (true, y) := by
  obtain ⟨y0, h1, h2⟩ := hsqrt (EcT.getWeierstrass c x) y (by rw [getWeierstrass_eq, ← he]; ring)
  unfold EcT.getYfromX
  simp only [h1]
  rw [getWeierstrass_eq, ← he] at h2
  have h3 : (y0 - y) * (y0 + y) = 0 := by linear_combination h2
  rcases mul_eq_zero.1 h3 with h4 | h4
  · have : y0 = y := by linear_combination h4
    subst this
    simp
  · have hy : y0 = -y := by linear_combination h4
    by_cases h0 : y = 0
    · subst h0
      simp [hy]
    · subst hy
      rw [hodd y h0]
      simp

theorem loadVerifyOrder_ok (e : Ext F) (c : Param F) (P : EcT F)
    (h : c.verifyOrder_ = true → EcT.isValidOrder e c P = true) :
    EcT.loadVerifyOrder e c P = (true, P) := by
  unfold EcT.loadVerifyOrder
  split_ifs with h1
  · simp only [Bool.and_eq_true, Bool.not_eq_true'] at h1
    rw [h h1.1] at h1
    exact absurd h1.2 (by simp)
  · rfl

theorem affineOf_eq_normalize (c : Param F) (P : EcT F) (hz : P.z ≠ 0) :
    affineOf c.mode_ P = ⟨(EcT.normalize c P).x, (EcT.normalize c P).y, 1⟩ := by
  obtain ⟨h1, h2⟩ := affineOf_normalize c P hz
  rw [← h2]
  unfold EcT.normalize
  cases hm : c.mode_ <;> simp only [affineOf]
  · by_cases h : P.z = 1 <;>
      simp [normalizeJacobi, _normalizeJacobi, affineOfJacobi, hz, h]
  · by_cases h : P.z = 1 <;>
      simp [normalizeProj, _normalizeProj, affineOfProj, hz, h]

/-- A write that fills the window leaves the bytes written. -/
theorem saveToBuf_full (fp : FpIo F) (x : F) (n : Nat) (win bx : List Nat)
    (hs : fp.save x IoMode.serialize = some bx) (hl : bx.length = n) :
    saveToBuf fp x n win = some bx := by
  unfold saveToBuf
  simp only [hs, hl, le_refl, if_true, Option.some.injEq]
  rw [List.drop_eq_nil_of_le (by simp), List.append_nil]

/-- The window keeps its length. -/
theorem saveToBuf_length (fp : FpIo F) (x : F) (n : Nat) (win w : List Nat)
    (hw : n ≤ win.length) (h : saveToBuf fp x n win = some w) : w.length = n := by
  unfold saveToBuf at h
  split at h
  · exact absurd h (by simp)
  · split_ifs at h with hle
    simp only [Option.some.injEq] at h
    rw [← h, List.length_append, List.length_drop, List.length_take]
    omega

theorem saveFixedBuf_zero (buf0 : Nat → Nat) (fp : FpIo F) (c : Param F) (self P : EcT F)
    (heth : fp.getETHserialization = false) (hz : self.z = 0) :
    EcT.saveFixedBuf buf0 fp c self P =
      some (List.replicate (EcT.getSerializedByteSize fp c) 0) := by
  unfold EcT.saveFixedBuf EcT.getSerializedByteSize
  simp [heth, hz, EcT.isZero]

theorem saveFixedBuf_finite (buf0 : Nat → Nat) (fp : FpIo F) (c : Param F) (self P : EcT F)
    (heth : fp.getETHserialization = false) (hz : self.z ≠ 0) (bx : List Nat)
    (hs : fp.save P.x IoMode.serialize = some bx) (hl : bx.length = fp.getByteSize) :
    EcT.saveFixedBuf buf0 fp c self P =
      some (if EcT.isMSBserialize fp c then
          (if fp.isOdd P.y then
            bx.set (fp.getByteSize - 1) (bx.getD (fp.getByteSize - 1) 0 ||| 128) else bx)
        else (if fp.isOdd P.y then 3 else 2) :: bx) := by
  unfold EcT.saveFixedBuf
  by_cases hm : EcT.isMSBserialize fp c = true <;> by_cases ho : fp.isOdd P.y = true <;>
    simp [heth, hz, EcT.isZero, saveToBuf_full fp _ _ _ bx hs hl, hl, hm, ho]

theorem loadFixed_zero (fp : FpIo F) (e : Ext F) (c : Param F) (P : EcT F) (ioMode : IoMode)
    (hhex : ioMode.IoSerializeHexStr = false) (heth : fp.getETHserialization = false) :
    EcT.loadFixed fp e c P (List.replicate (EcT.getSerializedByteSize fp c) 0) ioMode =
      (true, EcT.clear c) := by
  unfold EcT.loadFixed EcT.getSerializedByteSize
  simp [hhex, heth]

theorem loadFixed_prefix (fp : FpIo F) (e : Ext F) (c : Param F) (P : EcT F) (ioMode : IoMode)
    (hhex : ioMode.IoSerializeHexStr = false) (heth : fp.getETHserialization = false)
    (hm : EcT.isMSBserialize fp c = false) (o : Bool) (bx : List Nat) (x : F)
    (hl : bx.length = fp.getByteSize) (hx : fp.setArray bx = some x) :
    EcT.loadFixed fp e c P ((if o then 3 else 2) :: bx) ioMode =
      if !(EcT.getYfromX fp c x o).1 then (false, ⟨x, (EcT.getYfromX fp c x o).2, P.z⟩)
      else EcT.loadVerifyOrder e c ⟨x, (EcT.getYfromX fp c x o).2, P.z⟩ := by
  unfold EcT.loadFixed
  cases o <;> simp [hhex, heth, hm, hl, List.take_of_length_le (le_of_eq hl), hx]

theorem loadFixed_msb (fp : FpIo F) (e : Ext F) (c : Param F) (P : EcT F) (ioMode : IoMode)
    (hhex : ioMode.IoSerializeHexStr = false) (heth : fp.getETHserialization = false)
    (hm : EcT.isMSBserialize fp c = true) (o : Bool) (bx : List Nat) (x : F)
    (hn : 0 < fp.getByteSize)
    (hl : bx.length = fp.getByteSize) (hx : fp.setArray bx = some x)
    (hb : bx.getD (fp.getByteSize - 1) 0 < 128)
    (hnz : o = true ∨ ¬ (bx.all (fun b => decide (b = 0)) = true)) :
    EcT.loadFixed fp e c P
        (if o then bx.set (fp.getByteSize - 1) (bx.getD (fp.getByteSize - 1) 0 ||| 128)
          else bx) ioMode =
      if !(EcT.getYfromX fp c x o).1 then (false, ⟨x, (EcT.getYfromX fp c x o).2, P.z⟩)
      else EcT.loadVerifyOrder e c ⟨x, (EcT.getYfromX fp c x o).2, P.z⟩ := by
  obtain ⟨t1, t2, t3, t4, t5⟩ := byte_top_bit _ hb
  have hi : fp.getByteSize - 1 < bx.length := by omega
  have htk : ∀ l : List Nat, l.length = fp.getByteSize → l.take fp.getByteSize = l :=
    fun l h => List.take_of_length_le (le_of_eq h)
  unfold EcT.loadFixed
  cases o
  · have hnz1 : (bx.all (fun b => decide (b = 0))) = false := by
      rcases hnz with h | h
      · exact absurd h (by simp)
      · simpa using h
    have hset : bx.set (fp.getByteSize - 1) (bx.getD (fp.getByteSize - 1) 0) = bx := by
      exact set_getD_self bx _ hi
    simp only [Bool.false_eq_true, if_false]
    simp only [hhex, heth, hm, if_true, hl, htk bx hl, add_zero,
      Bool.false_eq_true, if_false, ne_eq, not_true_eq_false, hnz1, t3, t4, decide_False,
      decide_True, decide_not, Bool.not_true, List.drop_zero, hset, hx, List.length_set]
  · have hget : (bx.set (fp.getByteSize - 1) (bx.getD (fp.getByteSize - 1) 0 ||| 128)).getD
        (fp.getByteSize - 1) 0 = bx.getD (fp.getByteSize - 1) 0 ||| 128 := by
      rw [List.getD_eq_getElem _ _ (by rw [List.length_set]; exact hi)]
      exact List.getElem_set_self _
    have hall : ((bx.set (fp.getByteSize - 1) (bx.getD (fp.getByteSize - 1) 0 ||| 128)).all
        fun b => decide (b = 0)) = false := by
      rw [Bool.eq_false_iff]
      intro h
      rw [List.all_eq_true] at h
      have hmem := h _ (List.getElem_mem (l := bx.set (fp.getByteSize - 1)
        (bx.getD (fp.getByteSize - 1) 0 ||| 128)) (by rw [List.length_set]; exact hi))
      rw [List.getElem_set_self] at hmem
      exact t5 (of_decide_eq_true hmem)
    simp only [if_true]
    simp only [hhex, heth, hm, if_true, hl, htk _ ((List.length_set _ _ _).trans hl), add_zero,
      Bool.false_eq_true, if_false, ne_eq, not_true_eq_false, t1, t2, decide_False,
      decide_True, decide_not, Bool.not_true, List.drop_zero, hx, List.length_set, hget, hall,
      List.set_set, set_getD_self bx _ hi, htk bx hl, Bool.not_false]

theorem save_fixed (buf0 : Nat → Nat) (fp : FpIo F) (c : Param F) (self : EcT F) (ioMode : IoMode)
    (hproj : ioMode.IoEcProj = false) (hafs : ioMode.IoEcAffineSerialize = false)
    (hser : ioMode.IoSerialize = true) (hhex : ioMode.IoSerializeHexStr = false) :
    EcT.save buf0 fp c self ioMode = EcT.saveFixedBuf buf0 fp c self (EcT.normalize c self) := by
  unfold EcT.save
  simp only [hproj, hafs, hser, hhex, Bool.false_eq_true, if_false, Bool.or_false, if_true]
  cases EcT.saveFixedBuf buf0 fp c self (EcT.normalize c self) <;> rfl

theorem load_fixed (fp : FpIo F) (e : Ext F) (c : Param F) (old : EcT F) (is : List Nat)
    (ioMode : IoMode) (hafs : ioMode.IoEcAffineSerialize = false)
    (hser : ioMode.IoSerialize = true) :
    EcT.load fp e c old is ioMode = EcT.loadFixed fp e c ⟨old.x, old.y, 1⟩ is ioMode := by
  unfold EcT.load
  simp only [hafs, hser, Bool.false_eq_true, if_false, Bool.true_or, if_true]

theorem round_trip_fixed (buf0 : Nat → Nat) (fp : FpIo F) (e : Ext F) (c : Param F)
    (self old : EcT F) (ioMode : IoMode)
    (hproj : ioMode.IoEcProj = false) (hafs : ioMode.IoEcAffineSerialize = false)
    (hser : ioMode.IoSerialize = true) (hhex : ioMode.IoSerializeHexStr = false)
    (heth : fp.getETHserialization = false) (hn : 0 < fp.getByteSize)
    (hsave : ∀ x, ∃ bx, fp.save x IoMode.serialize = some bx ∧ bx.length = fp.getByteSize ∧
      fp.setArray bx = some x ∧
      (EcT.isMSBserialize fp c = true → bx.getD (fp.getByteSize - 1) 0 < 128))
    (hzero : fp.setArray (List.replicate fp.getByteSize 0) = some 0)
    (hsqrt : ∀ x y : F, y * y = x → ∃ y0, fp.squareRoot x = some y0 ∧ y0 * y0 = x)
    (hodd : ∀ y : F, y ≠ 0 → fp.isOdd (-y) = !fp.isOdd y)
    (hon : OnCurve c self)
    (hord : self.z ≠ 0 → c.verifyOrder_ = true →
      EcT.isValidOrder e c (affineOf c.mode_ self) = true)
    (hexc : EcT.isMSBserialize fp c = true → self.z ≠ 0 →
      (affineOf c.mode_ self).x = 0 → fp.isOdd (affineOf c.mode_ self).y = true) :
    ∃ bytes, EcT.save buf0 fp c self ioMode = some bytes ∧
      bytes.length = EcT.getSerializedByteSize fp c ∧
      EcT.load fp e c old bytes ioMode =
        (true, if self.z = 0 then EcT.clear c else affineOf c.mode_ self) := by
  rw [save_fixed buf0 fp c self ioMode hproj hafs hser hhex]
  by_cases hz : self.z = 0
  · refine ⟨_, saveFixedBuf_zero buf0 fp c self _ heth hz, List.length_replicate _ _, ?_⟩
    rw [load_fixed fp e c old _ ioMode hafs hser, loadFixed_zero fp e c _ ioMode hhex heth, if_pos hz]
  · obtain ⟨bx, hs, hl, hx, hb⟩ := hsave (EcT.normalize c self).x
    have ha := affineOf_eq_normalize c self hz
    have he : (EcT.normalize c self).y ^ 2 = (EcT.normalize c self).x ^ 3 +
        c.a_ * (EcT.normalize c self).x + c.b_ := by
      rcases hon with h | h
      · exact absurd h hz
      · rw [ha] at h
        exact h
    have hy := getYfromX_recover fp c hsqrt hodd _ _ he
    have hv := loadVerifyOrder_ok e c (affineOf c.mode_ self) (hord hz)
    rw [ha] at hv hexc
    rw [if_neg hz, ha]
    refine ⟨_, saveFixedBuf_finite buf0 fp c self _ heth hz bx hs hl, ?_, ?_⟩
    · unfold EcT.getSerializedByteSize
      split_ifs <;> simp [hl]
    · rw [load_fixed fp e c old _ ioMode hafs hser]
      by_cases hm : EcT.isMSBserialize fp c = true
      · rw [if_pos hm, loadFixed_msb fp e c _ ioMode hhex heth hm _ bx _ hn hl hx (hb hm), hy]
        · exact hv
        · by_cases ho : fp.isOdd (EcT.normalize c self).y = true
          · exact Or.inl ho
          · right
            intro hall
            have hbz : bx = List.replicate fp.getByteSize 0 := by
              rw [List.eq_replicate_iff]
              refine ⟨hl, fun b hb1 => ?_⟩
              rw [List.all_eq_true] at hall
              exact of_decide_eq_true (hall b hb1)
            rw [hbz, hzero] at hx
            exact ho (hexc hm hz (Option.some.inj hx).symm)
      · simp only [Bool.not_eq_true] at hm
        rw [if_neg (by simp [hm]), loadFixed_prefix fp e c _ ioMode hhex heth hm _ bx _ hl hx, hy]
        exact hv

theorem fp7_save_setArray (x : ZMod 7) :
    ∃ bx, fp7.save x IoMode.serialize = some bx ∧ bx.length = fp7.getByteSize ∧
      fp7.setArray bx = some x ∧
      (EcT.isMSBserialize fp7 (param7 Mode.Jacobi) = true →
        bx.getD (fp7.getByteSize - 1) 0 < 128) := by
  refine ⟨[x.val], rfl, rfl, ?_, ?_⟩
  · revert x
    decide
  · revert x
    decide

theorem affineOf_one (m : Mode) (x y : F) : affineOf m ⟨x, y, 1⟩ = ⟨x, y, 1⟩ := by
  cases m <;> simp [affineOf, affineOfJacobi, affineOfProj]

theorem fp7_squareRoot_complete :
    ∀ x y : ZMod 7, y * y = x → ∃ y0, fp7.squareRoot x = some y0 ∧ y0 * y0 = x := by
  decide

theorem fp7_isOdd_neg : ∀ y : ZMod 7, y ≠ 0 → fp7.isOdd (-y) = !fp7.isOdd y := by
  decide

/-- **C6.** Fixed-width compressed round trip (binary `IoSerialize`, not the
ETH style), in both layouts.  Assume of the field: `save` writes `N` bytes that
`setArray` reads back (with the top bit of the last byte free in the `N`-byte
layout), `N` zero bytes read as 0, `squareRoot` returns a root when one
exists, and negation flips `isOdd` of a non-zero element.  For the identity
and for every finite point `P` on the curve (any representative, any mode;
order check off or accepted for the affine image of `P`), except in the
`N`-byte layout a point with `x = 0` and even `y`: `save` succeeds and writes
`N + adj` bytes, and `load` of these bytes succeeds and leaves `clear()` for
the identity and `(x, y, 1)`, the affine image of `P`, otherwise.  The result
stands for the same point as `P` and compares equal to it under `operator==`
(in Affine mode when `P` has `z = 1` or is the cleared identity). -/
theorem save_load_round_trip (buf0 : Nat → Nat) (fp : FpIo F) (e : Ext F) (c : Param F)
    (self old : EcT F) (ioMode : IoMode)
    (hproj : ioMode.IoEcProj = false) (hafs : ioMode.IoEcAffineSerialize = false)
    (hser : ioMode.IoSerialize = true) (hhex : ioMode.IoSerializeHexStr = false)
    (heth : fp.getETHserialization = false) (hn : 0 < fp.getByteSize)
    (hsave : ∀ x, ∃ bx, fp.save x IoMode.serialize = some bx ∧ bx.length = fp.getByteSize ∧
      fp.setArray bx = some x ∧
      (EcT.isMSBserialize fp c = true → bx.getD (fp.getByteSize - 1) 0 < 128))
    (hzero : fp.setArray (List.replicate fp.getByteSize 0) = some 0)
    (hsqrt : ∀ x y : F, y * y = x → ∃ y0, fp.squareRoot x = some y0 ∧ y0 * y0 = x)
    (hodd : ∀ y : F, y ≠ 0 → fp.isOdd (-y) = !fp.isOdd y)
    (hon : OnCurve c self)
    (hord : self.z ≠ 0 → c.verifyOrder_ = true →
      EcT.isValidOrder e c (affineOf c.mode_ self) = true)
    (hexc : EcT.isMSBserialize fp c = true → self.z ≠ 0 →
      (affineOf c.mode_ self).x = 0 → fp.isOdd (affineOf c.mode_ self).y = true) :
    ∃ bytes, EcT.save buf0 fp c self ioMode = some bytes ∧
      bytes.length = EcT.getSerializedByteSize fp c ∧
      EcT.load fp e c old bytes ioMode =
        (true, if self.z = 0 then EcT.clear c else affineOf c.mode_ self) ∧
      SamePoint c (EcT.load fp e c old bytes ioMode).2 self ∧
      (AffineNormal c self → EcT.eq c (EcT.load fp e c old bytes ioMode).2 self = true) := by
  obtain ⟨bytes, h1, h2, h3⟩ := round_trip_fixed buf0 fp e c self old ioMode hproj hafs hser hhex
    heth hn hsave hzero hsqrt hodd hon hord hexc
  have hsame : SamePoint c (if self.z = 0 then EcT.clear c else affineOf c.mode_ self) self := by
    split_ifs with hz
    · exact Or.inl ⟨clear_z c, hz⟩
    · have ha := affineOf_eq_normalize c self hz
      refine Or.inr ⟨by rw [ha]; exact one_ne_zero, hz, ?_⟩
      rw [ha, affineOf_one]
  have hnorm : AffineNormal c (if self.z = 0 then EcT.clear c else affineOf c.mode_ self) := by
    split_ifs with hz
    · exact affineNormal_clear c
    · intro _
      left
      rw [affineOf_eq_normalize c self hz]
  refine ⟨bytes, h1, h2, h3, ?_, ?_⟩
  · rw [h3]
    exact hsame
  · intro hN
    rw [h3]
    exact eq_of_samePoint c _ _ hsame hnorm hN

theorem save_load_round_trip_witness :
    OnCurve (param7 Mode.Jacobi) ⟨0, 5, 1⟩ ∧
    fp7.isOdd (affineOf (param7 Mode.Jacobi).mode_ ⟨0, 5, 1⟩).y = true ∧
    ∃ bytes, EcT.save (fun _ => 0) fp7 (param7 Mode.Jacobi) ⟨0, 5, 1⟩ IoMode.serialize =
        some bytes ∧
      bytes.length = EcT.getSerializedByteSize fp7 (param7 Mode.Jacobi) ∧
      EcT.load fp7 ext7 (param7 Mode.Jacobi) ⟨0, 0, 0⟩ bytes IoMode.serialize =
        (true, if (⟨0, 5, 1⟩ : EcT (ZMod 7)).z = 0 then EcT.clear (param7 Mode.Jacobi)
          else affineOf (param7 Mode.Jacobi).mode_ ⟨0, 5, 1⟩) ∧
      SamePoint (param7 Mode.Jacobi)
        (EcT.load fp7 ext7 (param7 Mode.Jacobi) ⟨0, 0, 0⟩ bytes IoMode.serialize).2
        ⟨0, 5, 1⟩ ∧
      (AffineNormal (param7 Mode.Jacobi) ⟨0, 5, 1⟩ →
        EcT.eq (param7 Mode.Jacobi)
          (EcT.load fp7 ext7 (param7 Mode.Jacobi) ⟨0, 0, 0⟩ bytes IoMode.serialize).2
          ⟨0, 5, 1⟩ = true) :=
  ⟨Or.inr (by rw [affineOf_one]; decide), by rw [affineOf_one]; decide,
    save_load_round_trip (fun _ => 0) fp7 ext7 (param7 Mode.Jacobi) ⟨0, 5, 1⟩ ⟨0, 0, 0⟩ IoMode.serialize
      rfl rfl rfl rfl rfl (by decide) fp7_save_setArray (by decide) fp7_squareRoot_complete
      fp7_isOdd_neg (Or.inr (by rw [affineOf_one]; decide)) (fun _ h => absurd h (by decide))
      (fun _ _ _ => by rw [affineOf_one]; decide)⟩

/-- **C6, counterexample.** The field of 7 elements (3 bits, one byte per
element, `isOdd` the parity of the value in `0..6`) meets the assumptions of
the claim, and `b = 4 ≠ 0` with 3 bits selects the `N`-byte layout.  The point
`(0, 2)` is on `y^2 = x^3 + 4` and has even `y`: `save` writes the single byte
0, which `load` reads as the identity, not equal to `(0, 2, 1)`. -/
theorem round_trip_counterexample :
    fp7.getETHserialization = false ∧
    EcT.isMSBserialize fp7 (param7 Mode.Jacobi) = true ∧
    (∀ x : ZMod 7, fp7.save x IoMode.serialize = some [x.val] ∧
      fp7.setArray [x.val] = some x) ∧
    (∀ x y : ZMod 7, y * y = x → ∃ y0, fp7.squareRoot x = some y0 ∧ y0 * y0 = x) ∧
    (∀ y : ZMod 7, y ≠ 0 → fp7.isOdd (-y) = !fp7.isOdd y) ∧
    (param7 Mode.Jacobi).verifyOrder_ = false ∧
    ec.isValidJacobi (param7 Mode.Jacobi) ⟨0, 2, 1⟩ = true ∧
    EcT.isZero (⟨0, 2, 1⟩ : EcT (ZMod 7)) = false ∧
    (∀ buf0 : Nat → Nat,
      EcT.save buf0 fp7 (param7 Mode.Jacobi) ⟨0, 2, 1⟩ IoMode.serialize = some [0]) ∧
    EcT.load fp7 ext7 (param7 Mode.Jacobi) ⟨0, 0, 0⟩ [0] IoMode.serialize =
      (true, ⟨0, 0, 0⟩) ∧
    EcT.eq (param7 Mode.Jacobi) ⟨0, 0, 0⟩ ⟨0, 2, 1⟩ = false := by
  refine ⟨by decide, by decide, by decide, by decide, by decide, by decide, by decide,
    by decide, fun buf0 => rfl, by decide, by decide⟩

/-- **C9.** Affine mode on `y^2 = x^3 + 4` over the field of 7 elements
(characteristic 7, discriminant not 0).  `P = (0, 2, 1)` and `Q = (0, 5, 1)`
are opposite finite points of the curve and `R = (0, 0, 0)` is the identity
in the representation that `load` yields for the all-zero affine-serialize
encoding; all three pass `isValid`.  `(P + Q) + R` is `R = (0, 0, 0)`,
`P + (Q + R)` is `clear() = (0, 1, 0)`, both are the identity, and
`operator==` says that they differ. -/
theorem add_assoc_affine_identity :
    (4 * (param7 Mode.Affine).a_ ^ 3 + 27 * (param7 Mode.Affine).b_ ^ 2 ≠ 0) ∧
    EcT.isValid ext7 (param7 Mode.Affine) ⟨0, 2, 1⟩ = true ∧
    EcT.isValid ext7 (param7 Mode.Affine) ⟨0, 5, 1⟩ = true ∧
    EcT.isValid ext7 (param7 Mode.Affine) ⟨0, 0, 0⟩ = true ∧
    EcT.load fp7 ext7 (param7 Mode.Affine) ⟨0, 1, 0⟩ [0, 0]
      ⟨false, true, false, false, false, 0⟩ = (true, ⟨0, 0, 0⟩) ∧
    EcT.add (param7 Mode.Affine) (EcT.add (param7 Mode.Affine) ⟨0, 2, 1⟩ ⟨0, 5, 1⟩)
      ⟨0, 0, 0⟩ = ⟨0, 0, 0⟩ ∧
    EcT.add (param7 Mode.Affine) ⟨0, 2, 1⟩ (EcT.add (param7 Mode.Affine) ⟨0, 5, 1⟩
      ⟨0, 0, 0⟩) = ⟨0, 1, 0⟩ ∧
    EcT.eq (param7 Mode.Affine)
      (EcT.add (param7 Mode.Affine) (EcT.add (param7 Mode.Affine) ⟨0, 2, 1⟩ ⟨0, 5, 1⟩)
        ⟨0, 0, 0⟩)
      (EcT.add (param7 Mode.Affine) ⟨0, 2, 1⟩ (EcT.add (param7 Mode.Affine) ⟨0, 5, 1⟩
        ⟨0, 0, 0⟩)) = false := by
  decide

/-- **C10.** Affine mode, two representations of the identity: `P = (0, 0, 0)`
(what `load` yields for the all-zero affine-serialize encoding) and
`Q = clear() = (0, 1, 0)`.  `add(P, Q)` copies `Q`, `add(Q, P)` copies `P`,
and `operator==`, which compares the three coordinates in Affine mode, says
that the two sums differ. -/
theorem add_comm_affine_identity :
    EcT.isZero (⟨0, 0, 0⟩ : EcT (ZMod 7)) = true ∧
    EcT.clear (param7 Mode.Affine) = ⟨0, 1, 0⟩ ∧
    EcT.add (param7 Mode.Affine) ⟨0, 0, 0⟩ ⟨0, 1, 0⟩ = ⟨0, 1, 0⟩ ∧
    EcT.add (param7 Mode.Affine) ⟨0, 1, 0⟩ ⟨0, 0, 0⟩ = ⟨0, 0, 0⟩ ∧
    EcT.eq (param7 Mode.Affine) (EcT.add (param7 Mode.Affine) ⟨0, 0, 0⟩ ⟨0, 1, 0⟩)
      (EcT.add (param7 Mode.Affine) ⟨0, 1, 0⟩ ⟨0, 0, 0⟩) = false := by
  decide

/-- **C11.** Additive inverse.  Over a field with `2 ≠ 0`, in each coordinate
mode and for every triple `P` (on the curve or not, the identity and points
with `y = 0` included): `add(P, neg(P))` is the identity (`isZero()` holds);
`neg(P)` is `(x, -y, z)` for a finite `P` and the cleared identity for the
identity. -/
theorem add_neg_self (c : Param F) (h2 : (2 : F) ≠ 0) (P : EcT F) :
    (EcT.add c P (EcT.neg c P)).isZero = true ∧
    (P.z ≠ 0 → EcT.neg c P = ⟨P.x, -P.y, P.z⟩) ∧
    (P.z = 0 → EcT.neg c P = EcT.clear c) := by
  refine ⟨?_, fun h => by simp [EcT.neg, h], neg_zero c P⟩
  rw [isZero_iff]
  by_cases hz : P.z = 0
  · rw [add_zero_left c P _ hz, neg_zero c P hz]
    exact clear_z c
  · obtain ⟨hn, ha⟩ := neg_finite c P hz
    rw [add_same_x c P _ hz hn (by rw [ha])]
    split_ifs with hy
    · rw [ha] at hy
      have h0 : (affineOf c.mode_ P).y = 0 := by
        have h3 : (2 : F) * (affineOf c.mode_ P).y = 0 := by linear_combination hy
        exact (mul_eq_zero.1 h3).resolve_left h2
      exact dbl_y_zero c P ((affineOf_y_eq_zero_iff c.mode_ P hz).1 h0)
    · exact clear_z c

theorem add_neg_self_witness :
    (2 : ZMod 7) ≠ 0 ∧
    (EcT.add (param7 Mode.Jacobi) ⟨0, 2, 1⟩
      (EcT.neg (param7 Mode.Jacobi) ⟨0, 2, 1⟩)).isZero = true :=
  ⟨by decide, (add_neg_self (param7 Mode.Jacobi) (by decide) ⟨0, 2, 1⟩).1⟩

theorem add_self_finite (c : Param F) (P : EcT F) (hz : P.z ≠ 0) :
    EcT.add c P P = EcT.dbl c P := by
  rw [add_same_x c P P hz hz rfl, if_pos rfl]

/-- **C12.** Affine mode, `P = (0, 0, 0)`: the identity as `load` leaves it for
the all-zero affine-serialize encoding.  `add(P, P)` copies the second operand
and is `(0, 0, 0)`; `dbl(P)` is `clear() = (0, 1, 0)`; `operator==`, which
compares the three coordinates in Affine mode, says that they differ. -/
theorem add_self_affine_identity :
    EcT.load fp7 ext7 (param7 Mode.Affine) ⟨0, 1, 0⟩ [0, 0]
      ⟨false, true, false, false, false, 0⟩ = (true, ⟨0, 0, 0⟩) ∧
    EcT.isZero (⟨0, 0, 0⟩ : EcT (ZMod 7)) = true ∧
    EcT.add (param7 Mode.Affine) ⟨0, 0, 0⟩ ⟨0, 0, 0⟩ = ⟨0, 0, 0⟩ ∧
    EcT.dbl (param7 Mode.Affine) ⟨0, 0, 0⟩ = ⟨0, 1, 0⟩ ∧
    EcT.eq (param7 Mode.Affine) (EcT.add (param7 Mode.Affine) ⟨0, 0, 0⟩ ⟨0, 0, 0⟩)
      (EcT.dbl (param7 Mode.Affine) ⟨0, 0, 0⟩) = false := by
  decide

open WeierstrassCurve.Affine in
theorem addAffine_equation (c : Param F) {x1 y1 x2 y2 : F}
    (h₁ : y1 ^ 2 = x1 ^ 3 + c.a_ * x1 + c.b_) (h₂ : y2 ^ 2 = x2 ^ 3 + c.a_ * x2 + c.b_)
    (hx : x1 ≠ x2) :
    (addAffine c ⟨x1, y1, 1⟩ ⟨x2, y2, 1⟩).y ^ 2 =
      (addAffine c ⟨x1, y1, 1⟩ ⟨x2, y2, 1⟩).x ^ 3 +
        c.a_ * (addAffine c ⟨x1, y1, 1⟩ ⟨x2, y2, 1⟩).x + c.b_ := by
  have e := equation_add ((shortW_equation c.a_ c.b_ x1 y1).2 h₁)
    ((shortW_equation c.a_ c.b_ x2 y2).2 h₂) (fun h => (hx h).elim)
  rw [shortW_equation] at e
  have hd : x1 - x2 ≠ 0 := sub_ne_zero.2 hx
  have hd' : x2 - x1 ≠ 0 := sub_ne_zero.2 (Ne.symm hx)
  have hX : (addAffine c ⟨x1, y1, 1⟩ ⟨x2, y2, 1⟩).x =
      (shortW c.a_ c.b_).toAffine.addX x1 x2 ((shortW c.a_ c.b_).toAffine.slope x1 x2 y1 y2) := by
    rw [addAffine_chord c _ _ one_ne_zero one_ne_zero hx]
    simp only [slope_of_X_ne hx, addX, shortW]
    field_simp
    ring
  have hY : (addAffine c ⟨x1, y1, 1⟩ ⟨x2, y2, 1⟩).y =
      (shortW c.a_ c.b_).toAffine.addY x1 x2 y1 ((shortW c.a_ c.b_).toAffine.slope x1 x2 y1 y2) := by
    rw [addAffine_chord c _ _ one_ne_zero one_ne_zero hx]
    simp only [slope_of_X_ne hx, addX, addY, negAddY, negY, shortW]
    field_simp
    ring
  rw [hX, hY]
  exact e

open WeierstrassCurve.Affine in
theorem dblAffine_equation (c : Param F) (h2 : (2 : F) ≠ 0) {x1 y1 : F}
    (h₁ : y1 ^ 2 = x1 ^ 3 + c.a_ * x1 + c.b_) (hy : y1 ≠ 0) :
    (dblAffine c ⟨x1, y1, 1⟩).y ^ 2 =
      (dblAffine c ⟨x1, y1, 1⟩).x ^ 3 + c.a_ * (dblAffine c ⟨x1, y1, 1⟩).x + c.b_ := by
  have hne : y1 ≠ (shortW c.a_ c.b_).toAffine.negY x1 y1 := by
    simp only [negY, shortW]
    intro h
    apply mul_ne_zero h2 hy
    linear_combination h
  have e := equation_add ((shortW_equation c.a_ c.b_ x1 y1).2 h₁)
    ((shortW_equation c.a_ c.b_ x1 y1).2 h₁) (fun _ => hne)
  rw [shortW_equation] at e
  have hs : (shortW c.a_ c.b_).toAffine.slope x1 x1 y1 y1 = (3 * x1 ^ 2 + c.a_) / (2 * y1) := by
    rw [slope_of_Y_ne rfl hne]
    simp only [negY, shortW]
    congr 1 <;> ring
  have hX : (dblAffine c ⟨x1, y1, 1⟩).x =
      (shortW c.a_ c.b_).toAffine.addX x1 x1 ((shortW c.a_ c.b_).toAffine.slope x1 x1 y1 y1) := by
    rw [dblAffine_tangent c _ one_ne_zero hy, hs]
    simp only [addX, shortW]
    ring
  have hY : (dblAffine c ⟨x1, y1, 1⟩).y =
      (shortW c.a_ c.b_).toAffine.addY x1 x1 y1 ((shortW c.a_ c.b_).toAffine.slope x1 x1 y1 y1) := by
    rw [dblAffine_tangent c _ one_ne_zero hy, hs]
    simp only [addX, addY, negAddY, negY, shortW]
    ring
  rw [hX, hY]
  exact e

theorem affineOf_eta (m : Mode) (P : EcT F) :
    affineOf m P = ⟨(affineOf m P).x, (affineOf m P).y, 1⟩ := by
  cases m <;> rfl

theorem onCurve_of_samePoint (c : Param F) (P Q : EcT F) (h : SamePoint c P Q)
    (hQ : OnCurve c Q) : OnCurve c P := by
  rcases h with ⟨h1, _⟩ | ⟨h1, h2, h3⟩
  · exact Or.inl h1
  · rcases hQ with h | h
    · exact absurd h h2
    · right
      rw [h3]
      exact h

theorem onCurve_clear (c : Param F) : OnCurve c (EcT.clear c) := Or.inl (clear_z c)

theorem onCurve_dbl (c : Param F) (h2 : (2 : F) ≠ 0) (hA : c.SpecialAOk) (P : EcT F)
    (hP : OnCurve c P) : OnCurve c (EcT.dbl c P) := by
  by_cases hz : P.z = 0
  · rw [dbl_zero c P hz]
    exact onCurve_clear c
  · by_cases hy : P.y = 0
    · exact Or.inl (dbl_y_zero c P hy)
    · obtain ⟨_, h4⟩ := dbl_tangent c h2 hA P hz hy
      rcases hP with h | h
      · exact absurd h hz
      · right
        rw [h4, affineOf_eta c.mode_ P]
        exact dblAffine_equation c h2 h (fun h0 => hy ((affineOf_y_eq_zero_iff c.mode_ P hz).1 h0))

theorem onCurve_add (c : Param F) (h2 : (2 : F) ≠ 0) (hA : c.SpecialAOk) (P Q : EcT F)
    (hP : OnCurve c P) (hQ : OnCurve c Q) : OnCurve c (EcT.add c P Q) := by
  by_cases hz : P.z = 0
  · rw [add_zero_left c P Q hz]
    exact hQ
  by_cases hzq : Q.z = 0
  · rw [add_zero_right c P Q hz hzq]
    exact hP
  by_cases hx : (affineOf c.mode_ P).x = (affineOf c.mode_ Q).x
  · rw [add_same_x c P Q hz hzq hx]
    split_ifs
    · exact onCurve_dbl c h2 hA P hP
    · exact onCurve_clear c
  · obtain ⟨_, h4⟩ := add_chord c P Q hz hzq hx
    right
    rw [h4, affineOf_eta c.mode_ P, affineOf_eta c.mode_ Q]
    exact addAffine_equation c (hP.resolve_left hz) (hQ.resolve_left hzq) hx

theorem onCurve_neg (c : Param F) (P : EcT F) (hP : OnCurve c P) :
    OnCurve c (EcT.neg c P) := by
  by_cases hz : P.z = 0
  · rw [neg_zero c P hz]
    exact onCurve_clear c
  · obtain ⟨_, h4⟩ := neg_finite c P hz
    right
    rw [h4]
    simp only [neg_sq]
    exact hP.resolve_left hz

theorem onCurve_normalize (c : Param F) (P : EcT F) (hP : OnCurve c P) :
    OnCurve c (EcT.normalize c P) :=
  onCurve_of_samePoint c _ _ (samePoint_normalize c P) hP

theorem isValidJacobi_iff (c : Param F) (hB : c.SpecialBOk) (P : EcT F) :
    isValidJacobi c P = true ↔
      P.y ^ 2 = P.x * (P.x ^ 2 + c.a_ * P.z ^ 4) + c.b_ * P.z ^ 6 := by
  unfold Param.SpecialBOk at hB
  unfold isValidJacobi
  cases hs : c.specialB_ <;> rw [hs] at hB <;> simp only [mul4, decide_eq_true_eq] at hB ⊢
  · rw [hB]
    constructor <;> intro h <;> linear_combination h
  · rw [hB]
    constructor <;> intro h <;> linear_combination h
  · constructor <;> intro h <;> linear_combination h

theorem isValidProj_iff (c : Param F) (P : EcT F) :
    isValidProj c P = true ↔
      (P.y ^ 2 - c.b_ * P.z ^ 2) * P.z = P.x * (P.x ^ 2 + c.a_ * P.z ^ 2) := by
  simp only [isValidProj, decide_eq_true_eq]
  constructor <;> intro h <;> linear_combination h

theorem onCurve_jacobi_iff (c : Param F) (hm : c.mode_ = Mode.Jacobi) (P : EcT F)
    (hz : P.z ≠ 0) :
    OnCurve c P ↔ P.y ^ 2 = P.x * (P.x ^ 2 + c.a_ * P.z ^ 4) + c.b_ * P.z ^ 6 := by
  unfold OnCurve
  rw [hm]
  simp only [affineOf, affineOfJacobi, hz, false_or]
  have key : (P.y / P.z ^ 3) ^ 2 - ((P.x / P.z ^ 2) ^ 3 + c.a_ * (P.x / P.z ^ 2) + c.b_) =
      (P.y ^ 2 - (P.x * (P.x ^ 2 + c.a_ * P.z ^ 4) + c.b_ * P.z ^ 6)) / P.z ^ 6 := by
    field_simp
    ring
  rw [← sub_eq_zero, key, div_eq_zero_iff, or_iff_left (pow_ne_zero 6 hz), sub_eq_zero]

theorem onCurve_proj_iff (c : Param F) (hm : c.mode_ = Mode.Proj) (P : EcT F)
    (hz : P.z ≠ 0) :
    OnCurve c P ↔ (P.y ^ 2 - c.b_ * P.z ^ 2) * P.z = P.x * (P.x ^ 2 + c.a_ * P.z ^ 2) := by
  unfold OnCurve
  rw [hm]
  simp only [affineOf, affineOfProj, hz, false_or]
  have key : (P.y / P.z) ^ 2 - ((P.x / P.z) ^ 3 + c.a_ * (P.x / P.z) + c.b_) =
      ((P.y ^ 2 - c.b_ * P.z ^ 2) * P.z - P.x * (P.x ^ 2 + c.a_ * P.z ^ 2)) / P.z ^ 3 := by
    field_simp
    ring
  rw [← sub_eq_zero, key, div_eq_zero_iff, or_iff_left (pow_ne_zero 3 hz), sub_eq_zero]

theorem onCurve_one_iff (c : Param F) (P : EcT F) (hz : P.z = 1) :
    OnCurve c P ↔ P.y ^ 2 = (P.x ^ 2 + c.a_) * P.x + c.b_ := by
  have hP : P = ⟨P.x, P.y, 1⟩ := by rw [← hz]
  unfold OnCurve
  rw [hP, affineOf_one]
  simp only [one_ne_zero, false_or]
  constructor <;> intro h <;> linear_combination h

/-- The equation that `isValid` tests for a triple with `z ≠ 0`: the affine
one when `z = 1`, otherwise that of the mode, none in Affine mode. -/
theorem isValid_iff (e : Ext F) (c : Param F) (hB : c.SpecialBOk) (P : EcT F) :
    EcT.isValid e c P = true ↔
      P.z = 0 ∨
      (((P.z = 1 ∧ P.y ^ 2 = (P.x ^ 2 + c.a_) * P.x + c.b_) ∨
        (P.z ≠ 1 ∧ c.mode_ = Mode.Jacobi ∧
          P.y ^ 2 = P.x * (P.x ^ 2 + c.a_ * P.z ^ 4) + c.b_ * P.z ^ 6) ∨
        (P.z ≠ 1 ∧ c.mode_ = Mode.Proj ∧
          (P.y ^ 2 - c.b_ * P.z ^ 2) * P.z = P.x * (P.x ^ 2 + c.a_ * P.z ^ 2))) ∧
       (c.verifyOrder_ = true → EcT.isValidOrder e c P = true)) := by
  unfold EcT.isValid
  by_cases hz : P.z = 0
  · simp [hz]
  by_cases h1 : P.z = 1
  · have ha : isValidAffine c P = true ↔ P.y ^ 2 = (P.x ^ 2 + c.a_) * P.x + c.b_ := by
      simp only [isValidAffine, decide_eq_true_eq]
    by_cases hv : isValidAffine c P = true <;> by_cases ho : c.verifyOrder_ = true <;>
      simp [hz, h1, hv, ha.1, ← ha, ho]
  · have hj := isValidJacobi_iff c hB P
    have hp := isValidProj_iff c P
    cases hm : c.mode_
    · by_cases hv : isValidJacobi c P = true <;> by_cases ho : c.verifyOrder_ = true <;>
        simp [hz, h1, hv, ← hj, ho]
    · by_cases hv : isValidProj c P = true <;> by_cases ho : c.verifyOrder_ = true <;>
        simp [hz, h1, hv, ← hp, ho]
    · simp [hz, h1]

theorem isValid_iff_onCurve (e : Ext F) (c : Param F) (hB : c.SpecialBOk)
    (hv : c.verifyOrder_ = false) (P : EcT F) :
    EcT.isValid e c P = true ↔
      OnCurve c P ∧ (c.mode_ = Mode.Affine → P.z = 0 ∨ P.z = 1) := by
  rw [isValid_iff e c hB P]
  by_cases hz : P.z = 0
  · simp [hz, OnCurve]
  by_cases h1 : P.z = 1
  · simp [hz, h1, hv, onCurve_one_iff c P h1]
  · cases hm : c.mode_
    · simp [hz, h1, hv, onCurve_jacobi_iff c hm P hz]
    · simp [hz, h1, hv, onCurve_proj_iff c hm P hz]
    · simp [hz, h1, hv]

theorem zNormal_clear (c : Param F) : (EcT.clear c).z = 0 ∨ (EcT.clear c).z = 1 :=
  Or.inl (clear_z c)

theorem zNormal_dbl (c : Param F) (hm : c.mode_ = Mode.Affine) (P : EcT F) :
    (EcT.dbl c P).z = 0 ∨ (EcT.dbl c P).z = 1 := by
  simp only [EcT.dbl, hm, dblAffine]
  split_ifs
  · exact zNormal_clear c
  · exact zNormal_clear c
  · exact Or.inr rfl

theorem zNormal_add (c : Param F) (hm : c.mode_ = Mode.Affine) (P Q : EcT F)
    (hP : P.z = 0 ∨ P.z = 1) (hQ : Q.z = 0 ∨ Q.z = 1) :
    (EcT.add c P Q).z = 0 ∨ (EcT.add c P Q).z = 1 := by
  have hd := zNormal_dbl c hm P
  simp only [EcT.dbl, hm] at hd
  simp only [EcT.add, hm, addAffine]
  split_ifs
  · exact hQ
  · exact hP
  · exact hd
  · exact zNormal_clear c
  · exact Or.inr rfl

theorem zNormal_neg (c : Param F) (P : EcT F) (hP : P.z = 0 ∨ P.z = 1) :
    (EcT.neg c P).z = 0 ∨ (EcT.neg c P).z = 1 := by
  unfold EcT.neg
  split_ifs
  · exact zNormal_clear c
  · exact hP

theorem isValidJacobi_rescale (c : Param F) (P : EcT F) (l : F) (hl : l ≠ 0) :
    isValidJacobi c ⟨l ^ 2 * P.x, l ^ 3 * P.y, l * P.z⟩ = isValidJacobi c P := by
  have h6 : l ^ 6 ≠ 0 := pow_ne_zero 6 hl
  rw [Bool.eq_iff_iff]
  unfold isValidJacobi
  cases c.specialB_ <;> simp only [mul4, decide_eq_true_eq]
  all_goals
    constructor
    · intro h
      apply mul_left_cancel₀ h6
      linear_combination h
    · intro h
      linear_combination l ^ 6 * h

theorem isValidProj_rescale (c : Param F) (P : EcT F) (l : F) (hl : l ≠ 0) :
    isValidProj c ⟨l * P.x, l * P.y, l * P.z⟩ = isValidProj c P := by
  have h3 : l ^ 3 ≠ 0 := pow_ne_zero 3 hl
  rw [Bool.eq_iff_iff]
  simp only [isValidProj, decide_eq_true_eq]
  constructor
  · intro h
    apply mul_left_cancel₀ h3
    linear_combination h
  · intro h
    linear_combination l ^ 3 * h

/-- **C13.** Curve membership is an invariant of the arithmetic.  Over a
field with `2 ≠ 0`, with the classes of `a` and `b` as `init` sets them and
subgroup verification off, in each coordinate mode: if `P` and `Q` pass
`isValid`, then so do `add(P, Q)`, `sub(P, Q)`, `dbl(P)`, `neg(P)` and
`normalize(P)`; and `isValidJacobi` gives the same answer on
`(l^2 X, l^3 Y, l Z)` as on `(X, Y, Z)`, `isValidProj` the same on
`(l X, l Y, l Z)`, for every triple and every `l ≠ 0`. -/
theorem isValid_closed (e : Ext F) (c : Param F) (h2 : (2 : F) ≠ 0) (hA : c.SpecialAOk)
    (hB : c.SpecialBOk) (hv : c.verifyOrder_ = false) (P Q : EcT F)
    (hP : EcT.isValid e c P = true) (hQ : EcT.isValid e c Q = true) :
    EcT.isValid e c (EcT.add c P Q) = true ∧
    EcT.isValid e c (EcT.sub c P Q) = true ∧
    EcT.isValid e c (EcT.dbl c P) = true ∧
    EcT.isValid e c (EcT.neg c P) = true ∧
    EcT.isValid e c (EcT.normalize c P) = true ∧
    (∀ (R : EcT F) (l : F), l ≠ 0 →
      isValidJacobi c ⟨l ^ 2 * R.x, l ^ 3 * R.y, l * R.z⟩ = isValidJacobi c R) ∧
    (∀ (R : EcT F) (l : F), l ≠ 0 →
      isValidProj c ⟨l * R.x, l * R.y, l * R.z⟩ = isValidProj c R) := by
  rw [isValid_iff_onCurve e c hB hv] at hP hQ
  obtain ⟨hP1, hP2⟩ := hP
  obtain ⟨hQ1, hQ2⟩ := hQ
  simp only [isValid_iff_onCurve e c hB hv]
  refine ⟨⟨onCurve_add c h2 hA P Q hP1 hQ1, fun hm => zNormal_add c hm P Q (hP2 hm) (hQ2 hm)⟩,
    ⟨onCurve_add c h2 hA P _ hP1 (onCurve_neg c Q hQ1),
      fun hm => zNormal_add c hm P _ (hP2 hm) (zNormal_neg c Q (hQ2 hm))⟩,
    ⟨onCurve_dbl c h2 hA P hP1, fun hm => zNormal_dbl c hm P⟩,
    ⟨onCurve_neg c P hP1, fun hm => zNormal_neg c P (hP2 hm)⟩,
    ⟨onCurve_normalize c P hP1, fun hm => ?_⟩,
    fun R l hl => isValidJacobi_rescale c R l hl, fun R l hl => isValidProj_rescale c R l hl⟩
  have : EcT.normalize c P = P := by simp [EcT.normalize, hm]
  rw [this]
  exact hP2 hm

theorem param7_specialAOk (m : Mode) : (param7 m).SpecialAOk := by
  simp [Param.SpecialAOk, param7]

theorem param7_specialBOk (m : Mode) : (param7 m).SpecialBOk := by
  simp [Param.SpecialBOk, param7]

theorem isValid_closed_witness :
    (2 : ZMod 7) ≠ 0 ∧ (param7 Mode.Jacobi).SpecialAOk ∧ (param7 Mode.Jacobi).SpecialBOk ∧
    (param7 Mode.Jacobi).verifyOrder_ = false ∧
    EcT.isValid ext7 (param7 Mode.Jacobi) ⟨0, 2, 1⟩ = true ∧
    EcT.isValid ext7 (param7 Mode.Jacobi) ⟨0, 5, 1⟩ = true ∧
    EcT.isValid ext7 (param7 Mode.Jacobi)
      (EcT.add (param7 Mode.Jacobi) ⟨0, 2, 1⟩ ⟨0, 5, 1⟩) = true :=
  ⟨by decide, param7_specialAOk _, param7_specialBOk _, rfl, by decide, by decide,
    (isValid_closed ext7 (param7 Mode.Jacobi) (by decide) (param7_specialAOk _)
      (param7_specialBOk _) rfl ⟨0, 2, 1⟩ ⟨0, 5, 1⟩ (by decide) (by decide)).1⟩

theorem setOrder_ne_zero (c : Param F) (order : Int) (h : order ≠ 0) :
    EcT.setOrder c order = { c with verifyOrder_ := true, order_ := order } := by
  simp [EcT.setOrder, h]

theorem setOrder_zero (c : Param F) :
    EcT.setOrder c 0 = { c with verifyOrder_ := false } := by
  simp [EcT.setOrder]

theorem specialBOk_setOrder (c : Param F) (hB : c.SpecialBOk) (order : Int) :
    (EcT.setOrder c order).SpecialBOk := by
  unfold EcT.setOrder
  split_ifs <;> exact hB

/-- The units read little-endian: the first unit plus the base times the
value of the rest. -/
theorem unitsValue_cons (us a : Nat) (l : List Nat) (n : Nat) :
    unitsValue us (a :: l) (n + 1) = a + 2 ^ (8 * us) * unitsValue us l n := by
  induction n with
  | zero => simp [unitsValue]
  | succ n ih =>
    rw [unitsValue, ih, unitsValue, List.getD_cons_succ]
    have : 2 ^ (8 * us * (n + 1)) = 2 ^ (8 * us) * 2 ^ (8 * us * n) := by
      rw [← pow_add]
      congr 1
      ring
    rw [this]
    ring

/-- The value of a unit array is the value of its digits in base
`2^(8 * unitSize)`. -/
theorem unitsValue_eq_ofDigits (us : Nat) (y : List Nat) :
    unitsValue us y y.length = Nat.ofDigits (2 ^ (8 * us)) y := by
  induction y with
  | nil => rfl
  | cons a l ih =>
    rw [List.length_cons, unitsValue_cons, ih, Nat.ofDigits_cons]

/-- The units of `getUnit(y)` have the value `|y|`. -/
theorem unitsValue_getUnit (us : Nat) (k : ℤ) :
    unitsValue us (getUnit us k) (getUnit us k).length = k.natAbs := by
  rw [unitsValue_eq_ofDigits]
  exact Nat.ofDigits_digits _ _

/-- Under a group reading `mulGeneric(x, k)` reads as `k • g`. -/
theorem GroupReading.mulGeneric_reads {c : Param F} {G : Type} [AddCommGroup G]
    (rd : GroupReading c G) (e : Ext F)
    (hnaf : ∀ (v : ℤ) (w : Nat), 3 ≤ w → w ≤ 5 → NafOk (e.getNAFwidth v w) v w)
    (x : EcT F) (g : G) (hx : rd.R x g) (k : ℤ) :
    rd.R (EcT.mulGeneric e c x k) (k • g) := by
  have h := rd.mulArray_reads e hnaf x g hx (getUnit e.unitSize k) (decide (k < 0))
  rw [unitsValue_getUnit] at h
  refine rd.congr h ?_
  congr 1
  by_cases hk : k < 0
  · simp only [hk, decide_True, if_true]
    omega
  · simp only [hk, decide_False, Bool.false_eq_true, if_false]
    omega

/-- Without a hook, `mulGeneric(P, k)` stands for the same point as the
`|k|`-fold sum of `P`, negated for negative `k`. -/
theorem mulGeneric_samePoint (e : Ext F) (c : Param F) (h2 : (2 : F) ≠ 0)
    (hA : c.SpecialAOk)
    (hnaf : ∀ (v : ℤ) (w : Nat), 3 ≤ w → w ≤ 5 → NafOk (e.getNAFwidth v w) v w)
    (x : EcT F) (k : ℤ) :
    SamePoint c (EcT.mulGeneric e c x k) (scalarMul c k x) := by
  obtain ⟨G, _, rd, g, hx⟩ := exists_reading_of_point c h2 hA x
  exact rd.same _ _ _ (rd.mulGeneric_reads e hnaf x g hx k) (rd.scalarMul_reads x g hx k)

/-- Triples that stand for the same point are both the identity or both
finite. -/
theorem samePoint_z_iff (c : Param F) (P Q : EcT F) (h : SamePoint c P Q) :
    P.z = 0 ↔ Q.z = 0 := by
  rcases h with ⟨h1, h2⟩ | ⟨h1, h2, _⟩
  · exact ⟨fun _ => h2, fun _ => h1⟩
  · exact ⟨fun h => absurd h h1, fun h => absurd h h2⟩

/-- Without a hook, the order test holds exactly when `order_ * P` is the
identity. -/
theorem isValidOrder_iff_scalarMul (e : Ext F) (c : Param F) (h2 : (2 : F) ≠ 0)
    (hA : c.SpecialAOk)
    (hnaf : ∀ (v : ℤ) (w : Nat), 3 ≤ w → w ≤ 5 → NafOk (e.getNAFwidth v w) v w)
    (hf : c.isValidOrderFast = none) (P : EcT F) :
    EcT.isValidOrder e c P = true ↔ (scalarMul c c.order_ P).z = 0 := by
  have h : EcT.isValidOrder e c P = (EcT.mulGeneric e c P c.order_).isZero := by
    simp [EcT.isValidOrder, hf]
  rw [h, isZero_iff]
  exact samePoint_z_iff c _ _ (mulGeneric_samePoint e c h2 hA hnaf P c.order_)

/-- The repeated sum does not depend on the order setting. -/
theorem nfold_setOrder (c : Param F) (order : ℤ) (x : EcT F) (n : Nat) :
    nfold (EcT.setOrder c order) x n = nfold c x n := by
  have ha : EcT.add (EcT.setOrder c order) = EcT.add c := by
    unfold EcT.setOrder
    split_ifs <;> rfl
  have hc : EcT.clear (EcT.setOrder c order) = EcT.clear c := by
    unfold EcT.setOrder
    split_ifs <;> rfl
  induction n with
  | zero => exact hc
  | succ n ih => rw [nfold, nfold, ih, ha]

/-- The scalar multiple does not depend on the order setting. -/
theorem scalarMul_setOrder (c : Param F) (order k : ℤ) (x : EcT F) :
    scalarMul (EcT.setOrder c order) k x = scalarMul c k x := by
  have hn : EcT.neg (EcT.setOrder c order) = EcT.neg c := by
    unfold EcT.setOrder
    split_ifs <;> rfl
  unfold scalarMul
  rw [nfold_setOrder, hn]

/-- **C14.** What `isValid` decides.  With the class of `b` as `init` sets it:
`isValid(P)` is true exactly when `P.z = 0`, or `P` satisfies the equation of
its representation (`y^2 = (x^2 + a) x + b` when `z = 1`; otherwise
`Y^2 = X (X^2 + a Z^4) + b Z^6` in Jacobi mode and
`(Y^2 - b Z^2) Z = X (X^2 + a Z^2)` in Proj mode, nothing in Affine mode) and
`isValidOrder(P)` holds when `verifyOrder_` is set.  `isValidOrder` is the
installed hook when there is one, otherwise the test that
`mulGeneric(P, order_)` is the identity.  `isValidJacobi` is the Jacobi
equation with the true `b` (the `b = 1` and `b = 4` shortcuts agree with the
multiplication by `b`).  The identity is valid whatever the order setting.
`setOrder(order)` with `order ≠ 0` sets the flag and stores the order, and a
following `setOrder(0)` clears the flag and keeps `order_`; a finite point
that satisfies its equation and fails the order test is rejected after the
first and accepted after the second.

Without a hook, over a field with `2 ≠ 0`, with the class of `a` as `init`
sets it and a digit routine that meets its contract: the unit array
`getUnit(k)` has the value `|k|`; `mulGeneric(P, k)` stands for the same point
as `k * P`, the `|k|`-fold sum of `P` under `add`, negated for negative `k`;
the order test holds exactly when `order_ * P` is the identity (`z = 0`); and
a finite point that satisfies its equation is, after `setOrder(order)` with
`order ≠ 0`, rejected when `order * P` is not the identity and accepted when
it is, and accepted in both cases after a following `setOrder(0)`. -/
theorem isValid_spec (e : Ext F) (c : Param F) (hB : c.SpecialBOk) (P : EcT F) :
    (EcT.isValid e c P = true ↔
      P.z = 0 ∨
      (((P.z = 1 ∧ P.y ^ 2 = (P.x ^ 2 + c.a_) * P.x + c.b_) ∨
        (P.z ≠ 1 ∧ c.mode_ = Mode.Jacobi ∧
          P.y ^ 2 = P.x * (P.x ^ 2 + c.a_ * P.z ^ 4) + c.b_ * P.z ^ 6) ∨
        (P.z ≠ 1 ∧ c.mode_ = Mode.Proj ∧
          (P.y ^ 2 - c.b_ * P.z ^ 2) * P.z = P.x * (P.x ^ 2 + c.a_ * P.z ^ 2))) ∧
       (c.verifyOrder_ = true → EcT.isValidOrder e c P = true))) ∧
    (∀ f, c.isValidOrderFast = some f → EcT.isValidOrder e c P = f P) ∧
    (c.isValidOrderFast = none →
      EcT.isValidOrder e c P = (EcT.mulGeneric e c P c.order_).isZero) ∧
    (isValidJacobi c P = true ↔
      P.y ^ 2 = P.x * (P.x ^ 2 + c.a_ * P.z ^ 4) + c.b_ * P.z ^ 6) ∧
    (P.z = 0 → EcT.isValid e c P = true) ∧
    (∀ order : Int, order ≠ 0 →
      (EcT.setOrder c order).verifyOrder_ = true ∧
      (EcT.setOrder c order).order_ = order ∧
      (EcT.setOrder (EcT.setOrder c order) 0).verifyOrder_ = false ∧
      (EcT.setOrder (EcT.setOrder c order) 0).order_ = order ∧
      (P.z ≠ 0 → EcT.isValid e { c with verifyOrder_ := false } P = true →
        EcT.isValidOrder e (EcT.setOrder c order) P = false →
        EcT.isValid e (EcT.setOrder c order) P = false ∧
        EcT.isValid e (EcT.setOrder (EcT.setOrder c order) 0) P = true)) ∧
    (c.isValidOrderFast = none → (2 : F) ≠ 0 → c.SpecialAOk →
      (∀ (v : ℤ) (w : Nat), 3 ≤ w → w ≤ 5 → NafOk (e.getNAFwidth v w) v w) →
      (∀ k : ℤ, unitsValue e.unitSize (getUnit e.unitSize k) (getUnit e.unitSize k).length =
        k.natAbs) ∧
      (∀ k : ℤ, SamePoint c (EcT.mulGeneric e c P k) (scalarMul c k P)) ∧
      (EcT.isValidOrder e c P = true ↔ (scalarMul c c.order_ P).z = 0) ∧
      (∀ order : Int, order ≠ 0 → P.z ≠ 0 →
        EcT.isValid e { c with verifyOrder_ := false } P = true →
        ((scalarMul c order P).z ≠ 0 →
          EcT.isValid e (EcT.setOrder c order) P = false) ∧
        ((scalarMul c order P).z = 0 →
          EcT.isValid e (EcT.setOrder c order) P = true) ∧
        EcT.isValid e (EcT.setOrder (EcT.setOrder c order) 0) P = true)) := by
  have hoff : ∀ order : Int, order ≠ 0 →
      EcT.isValid e { c with verifyOrder_ := false } P = true →
      EcT.isValid e (EcT.setOrder (EcT.setOrder c order) 0) P = true := by
    intro order ho hval
    rw [setOrder_ne_zero c order ho, setOrder_zero]
    unfold EcT.isValid at hval ⊢
    simpa using hval
  refine ⟨isValid_iff e c hB P, fun f hf => by simp [EcT.isValidOrder, hf],
    fun hf => by simp [EcT.isValidOrder, hf], isValidJacobi_iff c hB P,
    isValid_of_zero e c P, fun order ho => ?_, fun hf h2 hA hnaf => ?_⟩
  · have hoff' := hoff order ho
    rw [setOrder_ne_zero c order ho, setOrder_zero] at hoff' ⊢
    refine ⟨rfl, rfl, rfl, rfl, fun hz hval hord => ⟨?_, hoff' hval⟩⟩
    rw [Bool.eq_false_iff]
    intro h
    have := isValidOrder_of_isValid e _ P h hz rfl
    rw [hord] at this
    exact absurd this (by simp)
  · refine ⟨unitsValue_getUnit e.unitSize, mulGeneric_samePoint e c h2 hA hnaf P,
      isValidOrder_iff_scalarMul e c h2 hA hnaf hf P, fun order ho hz hval => ?_⟩
    have hA' : (EcT.setOrder c order).SpecialAOk := by
      rw [setOrder_ne_zero c order ho]; exact hA
    have hf' : (EcT.setOrder c order).isValidOrderFast = none := by
      rw [setOrder_ne_zero c order ho]; exact hf
    have ho' : (EcT.setOrder c order).order_ = order := by
      rw [setOrder_ne_zero c order ho]
    have hiff := isValidOrder_iff_scalarMul e (EcT.setOrder c order) h2 hA' hnaf hf' P
    rw [ho', scalarMul_setOrder] at hiff
    have hval' : EcT.isValid e (EcT.setOrder c order) P = true ↔
        EcT.isValidOrder e (EcT.setOrder c order) P = true := by
      have h1 := (isValid_iff e _ (specialBOk_setOrder c hB 0) P).1
        (by rw [setOrder_zero]; exact hval)
      rw [isValid_iff e (EcT.setOrder c order) (specialBOk_setOrder c hB order) P]
      rw [setOrder_zero] at h1
      rw [setOrder_ne_zero c order ho]
      rcases h1 with h1 | ⟨h1, _⟩
      · exact absurd h1 hz
      · constructor
        · rintro (h | ⟨_, h⟩)
          · exact absurd h hz
          · exact h rfl
        · exact fun h => Or.inr ⟨h1, fun _ => h⟩
    refine ⟨fun hne => ?_, fun h0 => ?_, hoff order ho hval⟩
    · rw [Bool.eq_false_iff]
      exact fun h => hne (hiff.1 (hval'.1 h))
    · exact hval'.2 (hiff.2 h0)

theorem getUnit_two : getUnit 8 2 = [2] := by
  unfold getUnit
  norm_num

theorem isValidOrder_two_example :
    EcT.isValidOrder ext7 (EcT.setOrder (param7 Mode.Jacobi) 2) ⟨0, 2, 1⟩ = false := by
  have h : EcT.isValidOrder ext7 (EcT.setOrder (param7 Mode.Jacobi) 2) ⟨0, 2, 1⟩ =
      (EcT.mulArray ext7 (EcT.setOrder (param7 Mode.Jacobi) 2) ⟨0, 2, 1⟩ (getUnit 8 2)
        false false).isZero := rfl
  rw [h, getUnit_two]
  decide

/-- Instance of `isValid_spec` on `y^2 = x^3 + 4` over the field of 7
elements in Jacobi mode, for the point `P = (0, 2)` of order three: `2 * P` is
not the identity and `P` is rejected after `setOrder(2)`, accepted again
after `setOrder(0)`; `3 * P` is the identity and `P` is accepted after
`setOrder(3)`. -/
theorem isValid_spec_witness :
    (param7 Mode.Jacobi).SpecialBOk ∧
    EcT.isValid ext7 { param7 Mode.Jacobi with verifyOrder_ := false } ⟨0, 2, 1⟩ = true ∧
    EcT.isValidOrder ext7 (EcT.setOrder (param7 Mode.Jacobi) 2) ⟨0, 2, 1⟩ = false ∧
    EcT.isValid ext7 (EcT.setOrder (param7 Mode.Jacobi) 2) ⟨0, 2, 1⟩ = false ∧
    EcT.isValid ext7 (EcT.setOrder (EcT.setOrder (param7 Mode.Jacobi) 2) 0) ⟨0, 2, 1⟩ = true ∧
    (scalarMul (param7 Mode.Jacobi) 2 ⟨0, 2, 1⟩).z ≠ 0 ∧
    (scalarMul (param7 Mode.Jacobi) 3 ⟨0, 2, 1⟩).z = 0 ∧
    EcT.isValid ext7 (EcT.setOrder (param7 Mode.Jacobi) 3) ⟨0, 2, 1⟩ = true :=
  ⟨param7_specialBOk _, by decide, isValidOrder_two_example,
    (((isValid_spec ext7 (param7 Mode.Jacobi) (param7_specialBOk _) ⟨0, 2, 1⟩).2.2.2.2.2.2 rfl
      (by decide) (param7_specialAOk _) exampleNaf_ok).2.2.2 2 (by decide) (by decide)
      (by decide)).1 (by decide),
    (((isValid_spec ext7 (param7 Mode.Jacobi) (param7_specialBOk _) ⟨0, 2, 1⟩).2.2.2.2.2.2 rfl
      (by decide) (param7_specialAOk _) exampleNaf_ok).2.2.2 2 (by decide) (by decide)
      (by decide)).2.2, by decide, by decide,
    (((isValid_spec ext7 (param7 Mode.Jacobi) (param7_specialBOk _) ⟨0, 2, 1⟩).2.2.2.2.2.2 rfl
      (by decide) (param7_specialAOk _) exampleNaf_ok).2.2.2 3 (by decide) (by decide)
      (by decide)).2.1 (by decide)⟩

theorem normalize_z_one (c : Param F) (hm : c.mode_ ≠ Mode.Affine) (P : EcT F)
    (hz : P.z ≠ 0) : (EcT.normalize c P).z = 1 := by
  unfold EcT.normalize
  cases h : c.mode_
  · by_cases h1 : P.z = 1 <;> simp [normalizeJacobi, _normalizeJacobi, hz, h1]
  · by_cases h1 : P.z = 1 <;> simp [normalizeProj, _normalizeProj, hz, h1]
  · exact absurd h hm

theorem normalize_eq_affineOf (c : Param F) (hm : c.mode_ ≠ Mode.Affine) (P : EcT F)
    (hz : P.z ≠ 0) : EcT.normalize c P = affineOf c.mode_ P := by
  rw [affineOf_eq_normalize c P hz, ← normalize_z_one c hm P hz]

theorem affineNormal_of_mode (c : Param F) (hm : c.mode_ ≠ Mode.Affine) (P : EcT F) :
    AffineNormal c P := fun h => absurd h hm

/-- **C15.** What `normalize` returns in Jacobi and Proj mode.  For a finite
`P` (`z ≠ 0`) the result has `z = 1` and `(x, y)` the affine image of `P`,
`(X/Z^2, Y/Z^3)` resp. `(X/Z, Y/Z)`; it stands for the same point as `P` and
compares equal to it.  For `P.z = 0` the call returns at once and `P` keeps
its `x` and `y`: the result is `P` itself, an identity that compares equal to
`clear()`.  `normalize` is idempotent. -/
theorem normalize_canonical (c : Param F) (hm : c.mode_ ≠ Mode.Affine) (P : EcT F) :
    (P.z ≠ 0 →
      (c.mode_ = Mode.Jacobi →
        EcT.normalize c P = ⟨P.x / P.z ^ 2, P.y / P.z ^ 3, 1⟩) ∧
      (c.mode_ = Mode.Proj → EcT.normalize c P = ⟨P.x / P.z, P.y / P.z, 1⟩) ∧
      SamePoint c (EcT.normalize c P) P ∧
      EcT.eq c (EcT.normalize c P) P = true) ∧
    (P.z = 0 → EcT.normalize c P = P ∧ (EcT.normalize c P).isZero = true ∧
      EcT.eq c (EcT.normalize c P) (EcT.clear c) = true) ∧
    EcT.normalize c (EcT.normalize c P) = EcT.normalize c P := by
  refine ⟨fun hz => ⟨fun h => ?_, fun h => ?_, samePoint_normalize c P,
      eq_of_samePoint c _ _ (samePoint_normalize c P) (affineNormal_of_mode c hm _)
        (affineNormal_of_mode c hm _)⟩, fun hz => ?_, ?_⟩
  · rw [normalize_eq_affineOf c hm P hz, h]
    rfl
  · rw [normalize_eq_affineOf c hm P hz, h]
    rfl
  · have hn := normalize_of_normal c P (Or.inl hz)
    rw [hn]
    refine ⟨rfl, by simp [EcT.isZero, hz], ?_⟩
    exact eq_of_samePoint c _ _ (Or.inl ⟨hz, clear_z c⟩) (affineNormal_of_mode c hm _)
      (affineNormal_of_mode c hm _)
  · by_cases hz : P.z = 0
    · rw [normalize_of_normal c P (Or.inl hz), normalize_of_normal c P (Or.inl hz)]
    · exact normalize_of_normal c _ (Or.inr (normalize_z_one c hm P hz))

theorem normalize_canonical_witness :
    (param7 Mode.Jacobi).mode_ ≠ Mode.Affine ∧
    EcT.normalize (param7 Mode.Jacobi) (EcT.normalize (param7 Mode.Jacobi) ⟨1, 3, 2⟩) =
      EcT.normalize (param7 Mode.Jacobi) ⟨1, 3, 2⟩ :=
  ⟨by decide, (normalize_canonical (param7 Mode.Jacobi) (by decide) ⟨1, 3, 2⟩).2.2⟩

/-- **C15, counterexample.** In Jacobi mode over the field of 7 elements the
triple `(1, 1, 0)` is an identity; `normalize` returns it unchanged, not the
`(0, 0, 0)` that `clear()` writes; likewise in Proj mode `(1, 2, 0)` stays,
where `clear()` writes `(0, 1, 0)`. -/
theorem normalize_identity_counterexample :
    EcT.normalize (param7 Mode.Jacobi) ⟨1, 1, 0⟩ = ⟨1, 1, 0⟩ ∧
    EcT.clear (param7 Mode.Jacobi) = ⟨0, 0, 0⟩ ∧
    EcT.normalize (param7 Mode.Jacobi) ⟨1, 1, 0⟩ ≠ EcT.clear (param7 Mode.Jacobi) ∧
    EcT.normalize (param7 Mode.Proj) ⟨1, 2, 0⟩ = ⟨1, 2, 0⟩ ∧
    EcT.clear (param7 Mode.Proj) = ⟨0, 1, 0⟩ ∧
    EcT.normalize (param7 Mode.Proj) ⟨1, 2, 0⟩ ≠ EcT.clear (param7 Mode.Proj) := by
  decide

theorem normalizeChunk_eq (e : Ext F) (c : Param F) (hinv : InvOk e)
    (hm : c.mode_ ≠ Mode.Affine) (b : Bool) (Q P : List (EcT F)) (hQ : b = true → Q = P)
    (doneN : Nat) (hd : doneN ≤ P.length) :
    normalizeChunk c b Q P (e.invVecT ((P.take doneN).map (fun p => p.z))) doneN =
      (P.take doneN).map (EcT.normalize c) := by
  cases b
  · apply List.ext_getElem
    · simp [normalizeChunk, hd]
    · intro i h1 h2
      have hi : i < doneN := by simpa [normalizeChunk] using h1
      have hiP : i < P.length := by omega
      have hget : P.getD i ⟨0, 0, 0⟩ = P[i] := by
        simp [List.getD_eq_getElem?_getD, List.getElem?_eq_getElem hiP]
      simp only [normalizeChunk, List.getElem_map, List.getElem_range, hget, List.getElem_take,
        Bool.not_false, if_true]
      split_ifs with hz
      · exact (normalize_of_normal c _ hz).symm
      · push_neg at hz
        have hlen : i < ((P.take doneN).map (fun p => p.z)).length := by simp; omega
        have hzi : ((P.take doneN).map (fun p => p.z)).getD i 0 = P[i].z := by
          rw [List.getD_eq_getElem _ _ hlen]
          simp
        have := hinv _ i hlen (by rw [hzi]; exact hz.1) (by rw [hzi]; exact hz.2)
        rw [this, hzi]
        exact _normalize_eq_normalize c _ _ hm hz.1 hz.2
  · rw [hQ rfl]
    exact normalizeChunk_inplace e c hinv hm P doneN hd

theorem normalizeVecT_eq (e : Ext F) (c : Param F) (hinv : InvOk e)
    (hm : c.mode_ ≠ Mode.Affine) (b : Bool) (N : Nat) (hN : 0 < N) (n : Nat) :
    ∀ Q P : List (EcT F), P.length = n → (b = true → Q = P) →
      normalizeVecT e c b Q P n N hN = P.map (EcT.normalize c) := by
  induction n using Nat.strong_induction_on with
  | _ n ih =>
    intro Q P hP hQ
    rw [normalizeVecT]
    by_cases hn : n < N
    · simp only [hn, if_true, Nat.sub_self, dite_true]
      rw [normalizeChunk_eq e c hinv hm b Q P hQ n (by omega), ← hP, List.take_length]
    · simp only [hn, if_false]
      have hNn : N ≤ n := by omega
      rw [normalizeChunk_eq e c hinv hm b Q P hQ N (by omega)]
      split_ifs with h0
      · have : n = N := by omega
        subst this
        rw [← hP, List.take_length]
      · rw [ih (n - N) (by omega) (Q.drop N) (P.drop N) (by simp [hP])
          (fun hb => by rw [hQ hb]), ← List.map_append, List.take_append_drop]

theorem range_map_getD (P : List (EcT F)) :
    (List.range P.length).map (fun i => P.getD i ⟨0, 0, 0⟩) = P := by
  apply List.ext_getElem
  · simp
  · intro i h1 h2
    simp only [List.getElem_map, List.getElem_range]
    exact List.getD_eq_getElem _ _ h2

/-- **C16.** Batch normalisation is element-wise normalisation.  With a batch
inversion that meets its contract (`inv[i] = 1 / z_i` for every `z_i` of the
chunk that is neither 0 nor 1), for every array `P` (of any length `n ≥ 0`),
every chunk size `N ≥ 1` and every output array `Q`: `normalizeVecT` returns
and leaves `Q[i] = normalize(P[i])` for all `i < n`, coordinate for
coordinate, when `Q` is a separate array and when `Q` is `P`; so does
`EcT::normalizeVec` (chunk size 256) in every mode; entries with `z = 0` or
`z = 1` are unchanged; in Affine mode the result is a copy of `P`. -/
theorem normalizeVec_elementwise (e : Ext F) (c : Param F) (hinv : InvOk e)
    (Q P : List (EcT F)) (N : Nat) (hN : 0 < N) :
    (c.mode_ ≠ Mode.Affine →
      normalizeVecT e c false Q P P.length N hN = P.map (EcT.normalize c) ∧
      normalizeVecT e c true P P P.length N hN = P.map (EcT.normalize c)) ∧
    EcT.normalizeVec e c false Q P P.length = P.map (EcT.normalize c) ∧
    EcT.normalizeVec e c true P P P.length = P.map (EcT.normalize c) ∧
    (∀ p : EcT F, p.z = 0 ∨ p.z = 1 → EcT.normalize c p = p) ∧
    (c.mode_ = Mode.Affine →
      EcT.normalizeVec e c false Q P P.length = P ∧
      EcT.normalizeVec e c true P P P.length = P) := by
  have haff : c.mode_ = Mode.Affine → EcT.normalize c = id := by
    intro hm
    funext R
    simp [EcT.normalize, hm]
  have hsep : EcT.normalizeVec e c false Q P P.length = P.map (EcT.normalize c) := by
    unfold EcT.normalizeVec
    by_cases hm : c.mode_ = Mode.Affine
    · simp only [hm, if_true, Bool.false_eq_true, if_false]
      rw [range_map_getD, haff hm, List.map_id]
    · rw [if_neg hm]
      exact normalizeVecT_eq e c hinv hm false 256 (by decide) P.length Q P rfl
        (fun h => absurd h (by simp))
  refine ⟨fun hm => ⟨normalizeVecT_eq e c hinv hm false N hN P.length Q P rfl
      (fun h => absurd h (by simp)),
    normalizeVecT_eq e c hinv hm true N hN P.length P P rfl (fun _ => rfl)⟩,
    hsep, EcT.normalizeVec_inplace e c hinv P, normalize_of_normal c, fun hm => ?_⟩
  rw [hsep, EcT.normalizeVec_inplace e c hinv P, haff hm, List.map_id]
  exact ⟨rfl, rfl⟩

theorem normalizeVec_elementwise_witness :
    InvOk exampleExtSmall ∧
    normalizeVecT exampleExtSmall (exampleParam Mode.Jacobi) false []
        [⟨4, 8, 2⟩, ⟨1, 1, 1⟩, ⟨5, 7, 0⟩] [(⟨4, 8, 2⟩ : EcT ℚ), ⟨1, 1, 1⟩, ⟨5, 7, 0⟩].length 2
        (by decide) =
      [(⟨4, 8, 2⟩ : EcT ℚ), ⟨1, 1, 1⟩, ⟨5, 7, 0⟩].map
        (EcT.normalize (exampleParam Mode.Jacobi)) :=
  ⟨exampleExtSmall_invOk,
    ((normalizeVec_elementwise exampleExtSmall (exampleParam Mode.Jacobi)
      exampleExtSmall_invOk [] [⟨4, 8, 2⟩, ⟨1, 1, 1⟩, ⟨5, 7, 0⟩] 2 (by decide)).1
        (by simp [exampleParam])).1⟩

set_option maxRecDepth 8000

/-- **C17.** Affine mode over the field of 7 elements, `x = (0, 0, 0)` (the
identity as `load` leaves it for the all-zero affine-serialize encoding), the
one-unit scalar `y = [2]`, positive sign.  The variable-time path takes the
small-integer chain `2 * x = dbl(x) = clear() = (0, 1, 0)`.  The constant-time
path builds `tbl[2] = tbl[1] + x = (0, 0, 0)` (`add` copies its second operand
when the first is zero) and ends with `z + tbl[2] = (0, 0, 0)`.  Both results
are the identity and `operator==` says that they differ. -/
theorem mulArray_ct_affine_identity :
    EcT.mulArray ext7 (param7 Mode.Affine) ⟨0, 0, 0⟩ [2] false true = ⟨0, 0, 0⟩ ∧
    EcT.mulArray ext7 (param7 Mode.Affine) ⟨0, 0, 0⟩ [2] false false = ⟨0, 1, 0⟩ ∧
    EcT.eq (param7 Mode.Affine)
      (EcT.mulArray ext7 (param7 Mode.Affine) ⟨0, 0, 0⟩ [2] false true)
      (EcT.mulArray ext7 (param7 Mode.Affine) ⟨0, 0, 0⟩ [2] false false) = false := by
  decide

/-- **C18.** The small-integer chains.  Over a field with `2 ≠ 0` and the class
of `a` as `init` sets it, for every triple `x`, every `y` and either sign:
when `y ≤ 16`, `mulSmallInt` returns true, and its output stands for the same
point as `k * x` with `k = y` or `k = -y`; more generally, in every reading of
the triples in a commutative group under which `add`, `dbl` and `neg` are the
group operations (`dbl(t) = t + t`, `sub(s, t) = s + (-t)`), an `x` that
reads as `g` gives an output that reads as `k • g`.  `y = 0` gives the
cleared identity for either sign, `11 * x` is computed as `(8x + 2x) + x` and
`14 * x` as `2 * (8x - x)`.  When `y > 16` the function returns false and
writes nothing. -/
theorem mulSmallInt_chain (c : Param F) (h2 : (2 : F) ≠ 0) (hA : c.SpecialAOk) (x : EcT F)
    (y : Nat) (isNegative : Bool) :
    (y ≤ 16 → ∃ z, mulSmallInt c x y isNegative = some z ∧
      SamePoint c z (scalarMul c (if isNegative then -(y : ℤ) else (y : ℤ)) x) ∧
      ∀ (G : Type) [AddCommGroup G] (rd : GroupReading c G) (g : G), rd.R x g →
        rd.R z ((if isNegative then -(y : ℤ) else (y : ℤ)) • g)) ∧
    mulSmallInt c x 0 isNegative = some (EcT.clear c) ∧
    mulSmallInt c x 11 false =
      some (EcT.add c (EcT.add c (EcT.dbl c (EcT.dbl c (EcT.dbl c x))) (EcT.dbl c x)) x) ∧
    mulSmallInt c x 14 false =
      some (EcT.dbl c (EcT.sub c (EcT.dbl c (EcT.dbl c (EcT.dbl c x))) x)) ∧
    (16 < y → mulSmallInt c x y isNegative = none) := by
  refine ⟨fun hy => ?_, rfl, rfl, rfl, fun hy => mulSmallInt_none c x y hy isNegative⟩
  obtain ⟨G, _, rd, g, hx⟩ := exists_reading_of_point c h2 hA x
  obtain ⟨z, hz, hr⟩ := rd.mulSmallInt_reads x g hx y hy isNegative
  refine ⟨z, hz, rd.same _ _ _ hr (rd.scalarMul_reads x g hx _), ?_⟩
  intro G' _ rd' g' hx'
  obtain ⟨z', hz', hr'⟩ := rd'.mulSmallInt_reads x g' hx' y hy isNegative
  rw [hz] at hz'
  rw [Option.some.inj hz']
  exact hr'

theorem mulSmallInt_chain_witness :
    (2 : ZMod 7) ≠ 0 ∧ (param7 Mode.Jacobi).SpecialAOk ∧
    ∃ z, mulSmallInt (param7 Mode.Jacobi) ⟨0, 2, 1⟩ 11 false = some z ∧
      SamePoint (param7 Mode.Jacobi) z
        (scalarMul (param7 Mode.Jacobi) (if false then -((11 : ℕ) : ℤ) else ((11 : ℕ) : ℤ))
          ⟨0, 2, 1⟩) :=
  ⟨by decide, param7_specialAOk _,
    Exists.imp (fun _ h => ⟨h.1, h.2.1⟩)
      ((mulSmallInt_chain (param7 Mode.Jacobi) (by decide) (param7_specialAOk _) ⟨0, 2, 1⟩ 11
        false).1 (by decide))⟩

theorem mulB3_eq (c : Param F) (hb3 : c.b3_ = c.b_ * 3) (hB : c.SpecialBOk) (t : F) :
    mulB3 c t = 3 * c.b_ * t := by
  unfold Param.SpecialBOk at hB
  unfold mulB3
  cases hs : c.specialB_ <;> rw [hs] at hB <;> simp only [mul3, mul12, mul4] at hB ⊢
  · rw [hB]
    ring
  · rw [hB]
    ring
  · rw [hb3]
    ring

theorem addCTProj_param (c : Param F) (hb3 : c.b3_ = c.b_ * 3) (hB : c.SpecialBOk)
    (x1 y1 Z1 x2 y2 Z2 : F) :
    addCTProj c ⟨x1 * Z1, y1 * Z1, Z1⟩ ⟨x2 * Z2, y2 * Z2, Z2⟩ false =
      ⟨(Z1 * Z2) ^ 2 * ctX c.b_ x1 y1 x2 y2, (Z1 * Z2) ^ 2 * ctY c.b_ x1 y1 x2 y2,
        (Z1 * Z2) ^ 2 * ctZ c.b_ x1 y1 x2 y2⟩ := by
  simp only [addCTProj, mulB3_eq c hb3 hB, ctX, ctY, ctZ, Bool.false_eq_true, if_false,
    EcT.mk.injEq]
  refine ⟨?_, ?_, ?_⟩ <;> ring

theorem dblCTProj_param (c : Param F) (hb3 : c.b3_ = c.b_ * 3) (hB : c.SpecialBOk)
    (x y Z : F) :
    dblCTProj c ⟨x * Z, y * Z, Z⟩ =
      ⟨Z ^ 4 * (2 * x * y * (y ^ 2 - 9 * c.b_)),
        Z ^ 4 * ((y ^ 2 + 3 * c.b_) * (y ^ 2 - 9 * c.b_) + 24 * c.b_ * y ^ 2),
        Z ^ 4 * (8 * y ^ 3)⟩ := by
  simp only [dblCTProj, mulB3_eq c hb3 hB, EcT.mk.injEq]
  refine ⟨?_, ?_, ?_⟩ <;> ring

theorem ct_chord_x (b x1 y1 x2 y2 : F) (h1 : y1 ^ 2 = x1 ^ 3 + b) (h2 : y2 ^ 2 = x2 ^ 3 + b) :
    ctX b x1 y1 x2 y2 * (x2 - x1) ^ 2 =
      ctZ b x1 y1 x2 y2 * ((y2 - y1) ^ 2 - (x1 + x2) * (x2 - x1) ^ 2) := by
  obtain rfl : b = y1 ^ 2 - x1 ^ 3 := by linear_combination -h1
  simp only [ctX, ctZ]
  linear_combination (3 * x1 ^ 3 * y2 + 3 * x1 ^ 2 * y1 * x2 - 3 * x1 ^ 2 * x2 * y2 -
    3 * x1 * y1 * x2 ^ 2 + 3 * y1 ^ 3 - 2 * y1 ^ 2 * y2 - y1 * y2 ^ 2) * h2

theorem ct_chord_y (b x1 y1 x2 y2 : F) (h1 : y1 ^ 2 = x1 ^ 3 + b) (h2 : y2 ^ 2 = x2 ^ 3 + b) :
    ctY b x1 y1 x2 y2 * (x2 - x1) ^ 3 =
      ctZ b x1 y1 x2 y2 *
        ((y2 - y1) * (x1 * (x2 - x1) ^ 2 - ((y2 - y1) ^ 2 - (x1 + x2) * (x2 - x1) ^ 2)) -
          y1 * (x2 - x1) ^ 3) := by
  obtain rfl : b = y1 ^ 2 - x1 ^ 3 := by linear_combination -h1
  simp only [ctY, ctZ]
  linear_combination (9 * x1 ^ 6 - 18 * x1 ^ 5 * x2 + 9 * x1 ^ 4 * x2 ^ 2 -
    12 * x1 ^ 3 * y1 ^ 2 + 3 * x1 ^ 3 * y1 * y2 - 3 * x1 ^ 3 * y2 ^ 2 +
    27 * x1 ^ 2 * y1 ^ 2 * x2 - 6 * x1 ^ 2 * y1 * x2 * y2 + 3 * x1 ^ 2 * x2 * y2 ^ 2 -
    15 * x1 * y1 ^ 2 * x2 ^ 2 + 3 * x1 * y1 * x2 ^ 2 * y2 + 3 * y1 ^ 4 - 5 * y1 ^ 3 * y2 +
    y1 ^ 2 * y2 ^ 2 + y1 * y2 ^ 3) * h2

theorem ct_difference (b x1 y1 x2 y2 : F) (h1 : y1 ^ 2 = x1 ^ 3 + b)
    (h2 : y2 ^ 2 = x2 ^ 3 + b) :
    ctZ b x1 y1 x2 y2 =
      (-y2 - y1) * (x1 * (x2 - x1) ^ 2 - ((-y2 - y1) ^ 2 - (x1 + x2) * (x2 - x1) ^ 2)) -
        y1 * (x2 - x1) ^ 3 := by
  obtain rfl : b = y1 ^ 2 - x1 ^ 3 := by linear_combination -h1
  simp only [ctZ]
  linear_combination (-2 * y1 - y2) * h2

theorem ctZ_ne_zero (c : Param F) (ha : c.a_ = 0) (hno2 : ∀ x : F, x ^ 3 + c.b_ ≠ 0)
    (x1 y1 x2 y2 : F) (h1 : y1 ^ 2 = x1 ^ 3 + c.b_) (h2 : y2 ^ 2 = x2 ^ 3 + c.b_)
    (hx : x1 ≠ x2) : ctZ c.b_ x1 y1 x2 y2 ≠ 0 := by
  intro hZ
  have hd : x2 - x1 ≠ 0 := sub_ne_zero.2 (Ne.symm hx)
  have e := @addAffine_equation F _ _ c x1 y1 x2 (-y2)
    (by rw [ha]; linear_combination h1) (by rw [ha]; linear_combination h2) hx
  rw [addAffine_chord c _ _ one_ne_zero one_ne_zero hx] at e
  simp only [ha, zero_mul, add_zero] at e
  have hy : ((-y2 - y1) / (x2 - x1) * (x1 - (((-y2 - y1) / (x2 - x1)) ^ 2 - x1 - x2)) - y1) *
      (x2 - x1) ^ 3 = ctZ c.b_ x1 y1 x2 y2 := by
    rw [ct_difference c.b_ x1 y1 x2 y2 h1 h2]
    field_simp
    ring
  rw [hZ] at hy
  have h0 := (mul_eq_zero.1 hy).resolve_right (pow_ne_zero 3 hd)
  rw [h0] at e
  exact hno2 (((-y2 - y1) / (x2 - x1)) ^ 2 - x1 - x2) (by linear_combination -e)

theorem affineOfProj_scaled (s X Y Z x3 y3 : F) (hs : s ≠ 0) (hZ : Z ≠ 0)
    (hx : X = Z * x3) (hy : Y = Z * y3) :
    s * Z ≠ 0 ∧ affineOfProj ⟨s * X, s * Y, s * Z⟩ = ⟨x3, y3, 1⟩ := by
  refine ⟨mul_ne_zero hs hZ, ?_⟩
  simp only [affineOfProj, EcT.mk.injEq, and_true]
  constructor
  · rw [hx]
    field_simp
    ring
  · rw [hy]
    field_simp
    ring

theorem ct_tangent (b x y : F) (h1 : y ^ 2 = x ^ 3 + b) :
    ctZ b x y x y = 8 * y ^ 3 ∧
    ctX b x y x y * (2 * y) ^ 2 = ctZ b x y x y * ((3 * x ^ 2) ^ 2 - 2 * x * (2 * y) ^ 2) ∧
    ctY b x y x y * (2 * y) ^ 3 = ctZ b x y x y *
      (3 * x ^ 2 * (x * (2 * y) ^ 2 - ((3 * x ^ 2) ^ 2 - 2 * x * (2 * y) ^ 2)) -
        y * (2 * y) ^ 3) := by
  obtain rfl : b = y ^ 2 - x ^ 3 := by linear_combination -h1
  simp only [ctX, ctY, ctZ]
  refine ⟨?_, ?_, ?_⟩ <;> ring

theorem dblCT_tangent (b x y : F) (h1 : y ^ 2 = x ^ 3 + b) :
    2 * x * y * (y ^ 2 - 9 * b) * (2 * y) ^ 2 =
      8 * y ^ 3 * ((3 * x ^ 2) ^ 2 - 2 * x * (2 * y) ^ 2) ∧
    ((y ^ 2 + 3 * b) * (y ^ 2 - 9 * b) + 24 * b * y ^ 2) * (2 * y) ^ 3 = 8 * y ^ 3 *
      (3 * x ^ 2 * (x * (2 * y) ^ 2 - ((3 * x ^ 2) ^ 2 - 2 * x * (2 * y) ^ 2)) -
        y * (2 * y) ^ 3) := by
  obtain rfl : b = y ^ 2 - x ^ 3 := by linear_combination -h1
  refine ⟨?_, ?_⟩ <;> ring

theorem addCTProj_zero_left (c : Param F) (hb3 : c.b3_ = c.b_ * 3) (hB : c.SpecialBOk)
    (y1 : F) (Q : EcT F) :
    addCTProj c ⟨0, y1, 0⟩ Q false =
      ⟨y1 ^ 2 * Q.y * Q.x, y1 ^ 2 * Q.y * Q.y, y1 ^ 2 * Q.y * Q.z⟩ := by
  simp only [addCTProj, mulB3_eq c hb3 hB, Bool.false_eq_true, if_false, EcT.mk.injEq]
  refine ⟨?_, ?_, ?_⟩ <;> ring

theorem addCTProj_zero_right (c : Param F) (hb3 : c.b3_ = c.b_ * 3) (hB : c.SpecialBOk)
    (P : EcT F) (y2 : F) :
    addCTProj c P ⟨0, y2, 0⟩ false =
      ⟨y2 ^ 2 * P.y * P.x, y2 ^ 2 * P.y * P.y, y2 ^ 2 * P.y * P.z⟩ := by
  simp only [addCTProj, mulB3_eq c hb3 hB, Bool.false_eq_true, if_false, EcT.mk.injEq]
  refine ⟨?_, ?_, ?_⟩ <;> ring

theorem affineOfProj_scale (k : F) (hk : k ≠ 0) (P : EcT F) (hz : P.z ≠ 0) :
    k * P.z ≠ 0 ∧ affineOfProj ⟨k * P.x, k * P.y, k * P.z⟩ = affineOfProj P := by
  refine ⟨mul_ne_zero hk hz, ?_⟩
  simp only [affineOfProj, EcT.mk.injEq, and_true]
  constructor <;> field_simp <;> ring

/-- A valid projective triple with `z = 0` has `x = 0`. -/
theorem validProj_zero (c : Param F) (P : EcT F) (hP : isValidProj c P = true)
    (hz : P.z = 0) : P = ⟨0, P.y, 0⟩ := by
  rw [isValidProj_iff, hz] at hP
  have hx : P.x ^ 3 = 0 := by linear_combination -hP
  have hx0 : P.x = 0 := pow_eq_zero_iff (by norm_num) |>.1 hx
  obtain ⟨X, Y, Z⟩ := P
  simp only at hz hx0
  rw [hz, hx0]

/-- A valid finite projective triple is `(x Z, y Z, Z)` with `y^2 = x^3 + b`
(for `a = 0`). -/
theorem validProj_finite (c : Param F) (ha : c.a_ = 0) (P : EcT F)
    (hP : isValidProj c P = true) (hz : P.z ≠ 0) :
    ∃ x y : F, P = ⟨x * P.z, y * P.z, P.z⟩ ∧ affineOfProj P = ⟨x, y, 1⟩ ∧
      y ^ 2 = x ^ 3 + c.b_ := by
  obtain ⟨x, y, hPe, hPa⟩ := exists_proj_param P hz
  refine ⟨x, y, hPe, hPa, ?_⟩
  rw [isValidProj_iff, ha] at hP
  rw [hPe] at hP
  simp only at hP
  have h3 : P.z ^ 3 ≠ 0 := pow_ne_zero 3 hz
  apply mul_left_cancel₀ h3
  linear_combination hP

theorem eight_ne_zero (h2 : (2 : F) ≠ 0) : (8 : F) ≠ 0 := by
  have h : (8 : F) = 2 ^ 3 := by norm_num
  rw [h]
  exact pow_ne_zero 3 h2

theorem addCTProj_chord (c : Param F) (ha : c.a_ = 0) (hb3 : c.b3_ = c.b_ * 3)
    (hB : c.SpecialBOk) (hno2 : ∀ x : F, x ^ 3 + c.b_ ≠ 0)
    (x1 y1 Z1 x2 y2 Z2 : F) (hZ1 : Z1 ≠ 0) (hZ2 : Z2 ≠ 0)
    (h1 : y1 ^ 2 = x1 ^ 3 + c.b_) (h2 : y2 ^ 2 = x2 ^ 3 + c.b_) (hx : x1 ≠ x2) :
    (addCTProj c ⟨x1 * Z1, y1 * Z1, Z1⟩ ⟨x2 * Z2, y2 * Z2, Z2⟩ false).z ≠ 0 ∧
    affineOfProj (addCTProj c ⟨x1 * Z1, y1 * Z1, Z1⟩ ⟨x2 * Z2, y2 * Z2, Z2⟩ false) =
      addAffine c ⟨x1, y1, 1⟩ ⟨x2, y2, 1⟩ := by
  have hd : x2 - x1 ≠ 0 := sub_ne_zero.2 (Ne.symm hx)
  rw [addCTProj_param c hb3 hB, addAffine_chord c _ _ one_ne_zero one_ne_zero hx]
  apply affineOfProj_scaled _ _ _ _ _ _ (pow_ne_zero 2 (mul_ne_zero hZ1 hZ2))
    (ctZ_ne_zero c ha hno2 x1 y1 x2 y2 h1 h2 hx)
  · have e := ct_chord_x c.b_ x1 y1 x2 y2 h1 h2
    field_simp
    linear_combination e
  · have e := ct_chord_y c.b_ x1 y1 x2 y2 h1 h2
    field_simp
    linear_combination e

theorem addCTProj_tangent (c : Param F) (ha : c.a_ = 0) (hb3 : c.b3_ = c.b_ * 3)
    (hB : c.SpecialBOk) (h2 : (2 : F) ≠ 0)
    (x y Z1 Z2 : F) (hZ1 : Z1 ≠ 0) (hZ2 : Z2 ≠ 0)
    (h1 : y ^ 2 = x ^ 3 + c.b_) (hy : y ≠ 0) :
    (addCTProj c ⟨x * Z1, y * Z1, Z1⟩ ⟨x * Z2, y * Z2, Z2⟩ false).z ≠ 0 ∧
    affineOfProj (addCTProj c ⟨x * Z1, y * Z1, Z1⟩ ⟨x * Z2, y * Z2, Z2⟩ false) =
      dblAffine c ⟨x, y, 1⟩ := by
  obtain ⟨e1, e2, e3⟩ := ct_tangent c.b_ x y h1
  have h2y : 2 * y ≠ 0 := mul_ne_zero h2 hy
  have hz : ctZ c.b_ x y x y ≠ 0 := by
    rw [e1]
    exact mul_ne_zero (eight_ne_zero h2) (pow_ne_zero 3 hy)
  rw [addCTProj_param c hb3 hB, dblAffine_tangent c _ one_ne_zero hy, ha]
  apply affineOfProj_scaled _ _ _ _ _ _ (pow_ne_zero 2 (mul_ne_zero hZ1 hZ2)) hz
  · field_simp
    linear_combination e2
  · field_simp
    linear_combination e3

theorem dblCTProj_tangent (c : Param F) (ha : c.a_ = 0) (hb3 : c.b3_ = c.b_ * 3)
    (hB : c.SpecialBOk) (h2 : (2 : F) ≠ 0)
    (x y Z : F) (hZ : Z ≠ 0) (h1 : y ^ 2 = x ^ 3 + c.b_) (hy : y ≠ 0) :
    (dblCTProj c ⟨x * Z, y * Z, Z⟩).z ≠ 0 ∧
    affineOfProj (dblCTProj c ⟨x * Z, y * Z, Z⟩) = dblAffine c ⟨x, y, 1⟩ := by
  obtain ⟨e2, e3⟩ := dblCT_tangent c.b_ x y h1
  have h2y : 2 * y ≠ 0 := mul_ne_zero h2 hy
  have hz : 8 * y ^ 3 ≠ 0 := mul_ne_zero (eight_ne_zero h2) (pow_ne_zero 3 hy)
  rw [dblCTProj_param c hb3 hB, dblAffine_tangent c _ one_ne_zero hy, ha]
  apply affineOfProj_scaled _ _ _ _ _ _ (pow_ne_zero 4 hZ) hz
  · field_simp
    linear_combination e2
  · field_simp
    linear_combination e3

theorem y_ne_zero_of_no2 (c : Param F) (hno2 : ∀ x : F, x ^ 3 + c.b_ ≠ 0) (x y : F)
    (h1 : y ^ 2 = x ^ 3 + c.b_) : y ≠ 0 := by
  intro hy
  rw [hy] at h1
  exact hno2 x (by linear_combination -h1)

theorem dblCTProj_same (c : Param F) (ha : c.a_ = 0) (hb3 : c.b3_ = c.b_ * 3)
    (hA : c.SpecialAOk) (hB : c.SpecialBOk) (h2 : (2 : F) ≠ 0) (P : EcT F)
    (hP : isValidProj c P = true) :
    ((dblCTProj c P).z = 0 ∧ (dblProj c P).z = 0) ∨
    ((dblCTProj c P).z ≠ 0 ∧ (dblProj c P).z ≠ 0 ∧
      affineOfProj (dblCTProj c P) = affineOfProj (dblProj c P)) := by
  by_cases hz : P.z = 0
  · left
    refine ⟨by simp [dblCTProj, hz], ?_⟩
    simp only [dblProj, isZero_iff, hz, if_true]
    exact clear_z c
  · by_cases hy : P.y = 0
    · left
      exact ⟨by simp [dblCTProj, hy], dblProj_y_zero c P hy⟩
    · right
      obtain ⟨x, y, hPe, hPa, h1⟩ := validProj_finite c ha P hP hz
      obtain ⟨t1, t2⟩ := dblProj_tangent c h2 hA P hz hy
      rw [hPa] at t2
      have hy' : y ≠ 0 := by
        intro h0
        apply hy
        rw [hPe, h0, zero_mul]
      have key := dblCTProj_tangent c ha hb3 hB h2 x y P.z hz h1 hy'
      rw [← hPe] at key
      exact ⟨key.1, t1, by rw [key.2, t2]⟩

theorem addCTProj_same (c : Param F) (ha : c.a_ = 0) (hb3 : c.b3_ = c.b_ * 3)
    (hA : c.SpecialAOk) (hB : c.SpecialBOk) (h2 : (2 : F) ≠ 0)
    (hno2 : ∀ x : F, x ^ 3 + c.b_ ≠ 0) (P Q : EcT F)
    (hP : isValidProj c P = true) (hQ : isValidProj c Q = true)
    (hP0 : P.z = 0 → P.y ≠ 0) (hQ0 : Q.z = 0 → Q.y ≠ 0) :
    ((addCTProj c P Q false).z = 0 ∧ (addProj c P Q).z = 0) ∨
    ((addCTProj c P Q false).z ≠ 0 ∧ (addProj c P Q).z ≠ 0 ∧
      affineOfProj (addCTProj c P Q false) = affineOfProj (addProj c P Q)) := by
  by_cases hz : P.z = 0
  · have hadd : addProj c P Q = Q := by simp [addProj, hz]
    rw [hadd, validProj_zero c P hP hz, addCTProj_zero_left c hb3 hB]
    by_cases hzq : Q.z = 0
    · left
      exact ⟨by simp [hzq], hzq⟩
    · right
      obtain ⟨x2, y2, hQe, hQa, h2'⟩ := validProj_finite c ha Q hQ hzq
      have hy2 : Q.y ≠ 0 := by
        rw [hQe]
        exact mul_ne_zero (y_ne_zero_of_no2 c hno2 x2 y2 h2') hzq
      have hk : P.y ^ 2 * Q.y ≠ 0 := mul_ne_zero (pow_ne_zero 2 (hP0 hz)) hy2
      obtain ⟨k1, k2⟩ := affineOfProj_scale _ hk Q hzq
      exact ⟨k1, hzq, k2⟩
  · by_cases hzq : Q.z = 0
    · have hadd : addProj c P Q = P := by simp [addProj, hz, hzq]
      rw [hadd, validProj_zero c Q hQ hzq, addCTProj_zero_right c hb3 hB]
      right
      obtain ⟨x1, y1, hPe, hPa, h1⟩ := validProj_finite c ha P hP hz
      have hy1 : P.y ≠ 0 := by
        rw [hPe]
        exact mul_ne_zero (y_ne_zero_of_no2 c hno2 x1 y1 h1) hz
      have hk : Q.y ^ 2 * P.y ≠ 0 := mul_ne_zero (pow_ne_zero 2 (hQ0 hzq)) hy1
      obtain ⟨k1, k2⟩ := affineOfProj_scale _ hk P hz
      exact ⟨k1, hz, k2⟩
    · obtain ⟨x1, y1, hPe, hPa, h1⟩ := validProj_finite c ha P hP hz
      obtain ⟨x2, y2, hQe, hQa, h2'⟩ := validProj_finite c ha Q hQ hzq
      by_cases hx : x1 = x2
      · subst hx
        have hsame := addProj_same_x c P Q hz hzq (by rw [hPa, hQa])
        rw [hPa, hQa] at hsame
        simp only at hsame
        by_cases hy : y1 = y2
        · subst hy
          right
          rw [if_pos rfl] at hsame
          have hy1 := y_ne_zero_of_no2 c hno2 x1 y1 h1
          have hPy : P.y ≠ 0 := by
            rw [hPe]
            exact mul_ne_zero hy1 hz
          obtain ⟨t1, t2⟩ := dblProj_tangent c h2 hA P hz hPy
          rw [hPa] at t2
          have key := addCTProj_tangent c ha hb3 hB h2 x1 y1 P.z Q.z hz hzq h1 hy1
          rw [← hPe, ← hQe] at key
          rw [hsame]
          exact ⟨key.1, t1, by rw [key.2, t2]⟩
        · left
          rw [if_neg hy] at hsame
          have hneg : y2 = -y1 := by
            have h3 : (y2 - y1) * (y2 + y1) = 0 := by linear_combination h2' - h1
            rcases mul_eq_zero.1 h3 with h4 | h4
            · exact absurd (sub_eq_zero.1 h4).symm hy
            · linear_combination h4
          refine ⟨?_, by rw [hsame]; exact clear_z c⟩
          rw [hPe, hQe, addCTProj_param c hb3 hB, hneg]
          simp only [ctZ]
          ring
      · right
        have hch := addProj_chord c P Q hz hzq (by rw [hPa, hQa]; exact hx)
        rw [hPa, hQa] at hch
        have key := addCTProj_chord c ha hb3 hB hno2 x1 y1 P.z x2 y2 Q.z hz hzq h1 h2' hx
        rw [← hPe, ← hQe] at key
        exact ⟨key.1, hch.1, by rw [key.2, hch.2]⟩

/-- The negative of a finite triple. -/
theorem neg_of_ne (c : Param F) (Q : EcT F) (hz : Q.z ≠ 0) :
    EcT.neg c Q = ⟨Q.x, -Q.y, Q.z⟩ := by
  simp [EcT.neg, isZero_iff, hz]

/-- The affine image of the negated triple. -/
theorem affineOfProj_neg (Q : EcT F) (x2 y2 : F) (hQa : affineOfProj Q = ⟨x2, y2, 1⟩) :
    affineOfProj ⟨Q.x, -Q.y, Q.z⟩ = ⟨x2, -y2, 1⟩ := by
  simp only [affineOfProj, EcT.mk.injEq, and_true] at hQa ⊢
  exact ⟨hQa.1, by rw [neg_div, hQa.2]⟩

/-- For `x1 ≠ x2` the coordinate `Z3` of the complete addition is the
`y`-coordinate of the difference of the operands, times `(x2 - x1)^3`. -/
theorem ctZ_eq_diff (c : Param F) (x1 y1 x2 y2 : F) (h1 : y1 ^ 2 = x1 ^ 3 + c.b_)
    (h2 : y2 ^ 2 = x2 ^ 3 + c.b_) (hx : x1 ≠ x2) :
    ctZ c.b_ x1 y1 x2 y2 = (addAffine c ⟨x1, y1, 1⟩ ⟨x2, -y2, 1⟩).y * (x2 - x1) ^ 3 := by
  have hd : x2 - x1 ≠ 0 := sub_ne_zero.2 (Ne.symm hx)
  rw [addAffine_chord c _ _ one_ne_zero one_ne_zero hx, ct_difference c.b_ x1 y1 x2 y2 h1 h2]
  simp only
  field_simp
  ring

/-- For finite operands with different `x` the difference is of order two
exactly when `Z3` of the complete addition vanishes. -/
theorem diffOrderTwo_chord (c : Param F) (P Q : EcT F) (hz : P.z ≠ 0) (hzq : Q.z ≠ 0)
    (x1 y1 x2 y2 : F) (hPa : affineOfProj P = ⟨x1, y1, 1⟩) (hQa : affineOfProj Q = ⟨x2, y2, 1⟩)
    (h1 : y1 ^ 2 = x1 ^ 3 + c.b_) (h2 : y2 ^ 2 = x2 ^ 3 + c.b_) (hx : x1 ≠ x2) :
    DiffOrderTwo c P Q ↔ ctZ c.b_ x1 y1 x2 y2 = 0 := by
  have hd : x2 - x1 ≠ 0 := sub_ne_zero.2 (Ne.symm hx)
  have hna := affineOfProj_neg Q x2 y2 hQa
  obtain ⟨t1, t2⟩ := addProj_chord c P ⟨Q.x, -Q.y, Q.z⟩ hz hzq (by rw [hPa, hna]; exact hx)
  rw [hPa, hna] at t2
  unfold DiffOrderTwo
  rw [neg_of_ne c Q hzq, ctZ_eq_diff c x1 y1 x2 y2 h1 h2 hx, ← t2]
  simp only [affineOfProj]
  constructor
  · rintro ⟨_, h⟩
    rw [h]
    simp
  · intro h
    refine ⟨t1, ?_⟩
    rcases mul_eq_zero.1 h with h | h
    · exact (div_eq_zero_iff.1 h).resolve_right t1
    · exact absurd h (pow_ne_zero 3 hd)

/-- For `Q = -P` finite with `y ≠ 0`: when `P - Q = 2 P` is of order two, `Y3` of
the complete addition vanishes. -/
theorem diffOrderTwo_opposite (c : Param F) (ha : c.a_ = 0) (hA : c.SpecialAOk)
    (h2 : (2 : F) ≠ 0) (P Q : EcT F) (hz : P.z ≠ 0) (hzq : Q.z ≠ 0)
    (x y : F) (hPa : affineOfProj P = ⟨x, y, 1⟩) (hQa : affineOfProj Q = ⟨x, -y, 1⟩)
    (h1 : y ^ 2 = x ^ 3 + c.b_) (hy : y ≠ 0) (h : DiffOrderTwo c P Q) :
    ctY c.b_ x y x (-y) = 0 := by
  have hna := affineOfProj_neg Q x (-y) hQa
  rw [neg_neg] at hna
  have hPy : P.y ≠ 0 := by
    intro h0
    simp only [affineOfProj, EcT.mk.injEq, and_true] at hPa
    rw [h0, zero_div] at hPa
    exact hy hPa.2.symm
  have hs := addProj_same_x c P ⟨Q.x, -Q.y, Q.z⟩ hz hzq (by rw [hPa, hna])
  rw [hPa, hna, if_pos rfl] at hs
  obtain ⟨t1, t2⟩ := dblProj_tangent c h2 hA P hz hPy
  rw [hPa, dblAffine_tangent c _ one_ne_zero hy, ha] at t2
  unfold DiffOrderTwo at h
  rw [neg_of_ne c Q hzq, hs] at h
  have hy3 : (affineOfProj (dblProj c P)).y = 0 := by
    simp only [affineOfProj]
    rw [h.2, zero_div]
  rw [t2] at hy3
  simp only at hy3
  obtain ⟨_, e3⟩ := dblCT_tangent c.b_ x y h1
  have h2y : 2 * y ≠ 0 := mul_ne_zero h2 hy
  have h8 : (2 * y) ^ 3 ≠ 0 := pow_ne_zero 3 h2y
  have hnum : 3 * x ^ 2 * (x * (2 * y) ^ 2 - ((3 * x ^ 2) ^ 2 - 2 * x * (2 * y) ^ 2)) -
      y * (2 * y) ^ 3 = 0 := by
    have : (3 * x ^ 2 * (x * (2 * y) ^ 2 - ((3 * x ^ 2) ^ 2 - 2 * x * (2 * y) ^ 2)) -
        y * (2 * y) ^ 3) = ((3 * x ^ 2 + 0) / (2 * y) *
          (x - (((3 * x ^ 2 + 0) / (2 * y)) ^ 2 - 2 * x)) - y) * (2 * y) ^ 3 := by
      field_simp
      ring
    rw [this, hy3, zero_mul]
  rw [hnum, mul_zero] at e3
  have e4 := (mul_eq_zero.1 e3).resolve_right h8
  simp only [ctY]
  linear_combination e4 - 18 * c.b_ * h1

/-- When `P - Q` is a point of order two the complete addition returns
`(0, 0, 0)`. -/
theorem addCTProj_order_two (c : Param F) (ha : c.a_ = 0) (hb3 : c.b3_ = c.b_ * 3)
    (hA : c.SpecialAOk) (hB : c.SpecialBOk) (h2 : (2 : F) ≠ 0) (P Q : EcT F)
    (hP : isValidProj c P = true) (hQ : isValidProj c Q = true)
    (hT : DiffOrderTwo c P Q) :
    addCTProj c P Q false = ⟨0, 0, 0⟩ := by
  by_cases hz : P.z = 0
  · have hadd : addProj c P (EcT.neg c Q) = EcT.neg c Q := by simp [addProj, hz]
    unfold DiffOrderTwo at hT
    rw [hadd] at hT
    have hzq : Q.z ≠ 0 := by
      intro h0
      rw [neg_zero c Q h0] at hT
      exact hT.1 (clear_z c)
    rw [neg_of_ne c Q hzq] at hT
    have hy : Q.y = 0 := by simpa using hT.2
    rw [validProj_zero c P hP hz, addCTProj_zero_left c hb3 hB, hy]
    simp
  · by_cases hzq : Q.z = 0
    · have hadd : addProj c P (EcT.neg c Q) = P := by
        rw [neg_zero c Q hzq]
        simp [addProj, hz, clear_z c]
      unfold DiffOrderTwo at hT
      rw [hadd] at hT
      rw [validProj_zero c Q hQ hzq, addCTProj_zero_right c hb3 hB, hT.2]
      simp
    · obtain ⟨x1, y1, hPe, hPa, h1⟩ := validProj_finite c ha P hP hz
      obtain ⟨x2, y2, hQe, hQa, h2'⟩ := validProj_finite c ha Q hQ hzq
      by_cases hx : x1 = x2
      · subst hx
        have hyy : (y2 - y1) * (y2 + y1) = 0 := by linear_combination h2' - h1
        by_cases hy : y1 = y2
        · subst hy
          exfalso
          have hna := affineOfProj_neg Q x1 y1 hQa
          have hs := addProj_same_x c P ⟨Q.x, -Q.y, Q.z⟩ hz hzq (by rw [hPa, hna])
          rw [hPa, hna] at hs
          simp only at hs
          unfold DiffOrderTwo at hT
          rw [neg_of_ne c Q hzq, hs] at hT
          split_ifs at hT with h0
          · have hy0 : y1 = 0 := by
              have : (2 : F) * y1 = 0 := by linear_combination h0
              exact (mul_eq_zero.1 this).resolve_left h2
            have hPy : P.y = 0 := by rw [hPe, hy0, zero_mul]
            exact hT.1 (dblProj_y_zero c P hPy)
          · exact hT.1 (clear_z c)
        · have hneg : y2 = -y1 := by
            rcases mul_eq_zero.1 hyy with h4 | h4
            · exact absurd (sub_eq_zero.1 h4).symm hy
            · linear_combination h4
          subst hneg
          have hy1 : y1 ≠ 0 := by
            intro h0
            apply hy
            rw [h0]
            simp
          have hY := diffOrderTwo_opposite c ha hA h2 P Q hz hzq x1 y1 hPa hQa h1 hy1 hT
          rw [hPe, hQe, addCTProj_param c hb3 hB, hY]
          simp only [ctX, ctZ, EcT.mk.injEq]
          refine ⟨?_, ?_, ?_⟩ <;> ring
      · have hZ := (diffOrderTwo_chord c P Q hz hzq x1 y1 x2 y2 hPa hQa h1 h2' hx).1 hT
        have hd : x2 - x1 ≠ 0 := sub_ne_zero.2 (Ne.symm hx)
        have hX : ctX c.b_ x1 y1 x2 y2 = 0 := by
          have e := ct_chord_x c.b_ x1 y1 x2 y2 h1 h2'
          rw [hZ, zero_mul] at e
          exact (mul_eq_zero.1 e).resolve_right (pow_ne_zero 2 hd)
        have hY : ctY c.b_ x1 y1 x2 y2 = 0 := by
          have e := ct_chord_y c.b_ x1 y1 x2 y2 h1 h2'
          rw [hZ, zero_mul] at e
          exact (mul_eq_zero.1 e).resolve_right (pow_ne_zero 3 hd)
        rw [hPe, hQe, addCTProj_param c hb3 hB, hX, hY, hZ]
        simp

/-- The chord case of the complete addition, given `Z3 ≠ 0`. -/
theorem addCTProj_chord_of (c : Param F) (hb3 : c.b3_ = c.b_ * 3)
    (hB : c.SpecialBOk) (x1 y1 Z1 x2 y2 Z2 : F) (hZ1 : Z1 ≠ 0) (hZ2 : Z2 ≠ 0)
    (h1 : y1 ^ 2 = x1 ^ 3 + c.b_) (h2 : y2 ^ 2 = x2 ^ 3 + c.b_) (hx : x1 ≠ x2)
    (hZ : ctZ c.b_ x1 y1 x2 y2 ≠ 0) :
    (addCTProj c ⟨x1 * Z1, y1 * Z1, Z1⟩ ⟨x2 * Z2, y2 * Z2, Z2⟩ false).z ≠ 0 ∧
    affineOfProj (addCTProj c ⟨x1 * Z1, y1 * Z1, Z1⟩ ⟨x2 * Z2, y2 * Z2, Z2⟩ false) =
      addAffine c ⟨x1, y1, 1⟩ ⟨x2, y2, 1⟩ := by
  have hd : x2 - x1 ≠ 0 := sub_ne_zero.2 (Ne.symm hx)
  rw [addCTProj_param c hb3 hB, addAffine_chord c _ _ one_ne_zero one_ne_zero hx]
  apply affineOfProj_scaled _ _ _ _ _ _ (pow_ne_zero 2 (mul_ne_zero hZ1 hZ2)) hZ
  · have e := ct_chord_x c.b_ x1 y1 x2 y2 h1 h2
    field_simp
    linear_combination e
  · have e := ct_chord_y c.b_ x1 y1 x2 y2 h1 h2
    field_simp
    linear_combination e

/-- When `P - Q` is not a point of order two the complete addition returns
a representative of the point that `addProj` returns. -/
theorem addCTProj_same_of (c : Param F) (ha : c.a_ = 0) (hb3 : c.b3_ = c.b_ * 3)
    (hA : c.SpecialAOk) (hB : c.SpecialBOk) (h2 : (2 : F) ≠ 0) (P Q : EcT F)
    (hP : isValidProj c P = true) (hQ : isValidProj c Q = true)
    (hP0 : P.z = 0 → P.y ≠ 0) (hQ0 : Q.z = 0 → Q.y ≠ 0)
    (hT : ¬ DiffOrderTwo c P Q) :
    ((addCTProj c P Q false).z = 0 ∧ (addProj c P Q).z = 0) ∨
    ((addCTProj c P Q false).z ≠ 0 ∧ (addProj c P Q).z ≠ 0 ∧
      affineOfProj (addCTProj c P Q false) = affineOfProj (addProj c P Q)) := by
  by_cases hz : P.z = 0
  · have hadd : addProj c P Q = Q := by simp [addProj, hz]
    have hsub : addProj c P (EcT.neg c Q) = EcT.neg c Q := by simp [addProj, hz]
    rw [hadd, validProj_zero c P hP hz, addCTProj_zero_left c hb3 hB]
    by_cases hzq : Q.z = 0
    · left
      exact ⟨by simp [hzq], hzq⟩
    · right
      have hy2 : Q.y ≠ 0 := by
        intro h0
        apply hT
        unfold DiffOrderTwo
        rw [hsub, neg_of_ne c Q hzq]
        exact ⟨hzq, by simp [h0]⟩
      have hk : P.y ^ 2 * Q.y ≠ 0 := mul_ne_zero (pow_ne_zero 2 (hP0 hz)) hy2
      obtain ⟨k1, k2⟩ := affineOfProj_scale _ hk Q hzq
      exact ⟨k1, hzq, k2⟩
  · by_cases hzq : Q.z = 0
    · have hadd : addProj c P Q = P := by simp [addProj, hz, hzq]
      have hsub : addProj c P (EcT.neg c Q) = P := by
        rw [neg_zero c Q hzq]
        simp [addProj, hz, clear_z c]
      rw [hadd, validProj_zero c Q hQ hzq, addCTProj_zero_right c hb3 hB]
      right
      have hy1 : P.y ≠ 0 := by
        intro h0
        apply hT
        unfold DiffOrderTwo
        rw [hsub]
        exact ⟨hz, h0⟩
      have hk : Q.y ^ 2 * P.y ≠ 0 := mul_ne_zero (pow_ne_zero 2 (hQ0 hzq)) hy1
      obtain ⟨k1, k2⟩ := affineOfProj_scale _ hk P hz
      exact ⟨k1, hz, k2⟩
    · obtain ⟨x1, y1, hPe, hPa, h1⟩ := validProj_finite c ha P hP hz
      obtain ⟨x2, y2, hQe, hQa, h2'⟩ := validProj_finite c ha Q hQ hzq
      by_cases hx : x1 = x2
      · subst hx
        have hsame := addProj_same_x c P Q hz hzq (by rw [hPa, hQa])
        rw [hPa, hQa] at hsame
        simp only at hsame
        by_cases hy : y1 = y2
        · subst hy
          rw [if_pos rfl] at hsame
          by_cases hy1 : y1 = 0
          · left
            have hPy : P.y = 0 := by rw [hPe, hy1, zero_mul]
            refine ⟨?_, by rw [hsame]; exact dblProj_y_zero c P hPy⟩
            rw [hPe, hQe, addCTProj_param c hb3 hB, hy1]
            simp [ctZ]
          · right
            have hPy : P.y ≠ 0 := by
              rw [hPe]
              exact mul_ne_zero hy1 hz
            obtain ⟨t1, t2⟩ := dblProj_tangent c h2 hA P hz hPy
            rw [hPa] at t2
            have key := addCTProj_tangent c ha hb3 hB h2 x1 y1 P.z Q.z hz hzq h1 hy1
            rw [← hPe, ← hQe] at key
            rw [hsame]
            exact ⟨key.1, t1, by rw [key.2, t2]⟩
        · left
          rw [if_neg hy] at hsame
          have hneg : y2 = -y1 := by
            have h3 : (y2 - y1) * (y2 + y1) = 0 := by linear_combination h2' - h1
            rcases mul_eq_zero.1 h3 with h4 | h4
            · exact absurd (sub_eq_zero.1 h4).symm hy
            · linear_combination h4
          refine ⟨?_, by rw [hsame]; exact clear_z c⟩
          rw [hPe, hQe, addCTProj_param c hb3 hB, hneg]
          simp only [ctZ]
          ring
      · right
        have hch := addProj_chord c P Q hz hzq (by rw [hPa, hQa]; exact hx)
        rw [hPa, hQa] at hch
        have hZ : ctZ c.b_ x1 y1 x2 y2 ≠ 0 := fun h0 =>
          hT ((diffOrderTwo_chord c P Q hz hzq x1 y1 x2 y2 hPa hQa h1 h2' hx).2 h0)
        have key := addCTProj_chord_of c hb3 hB x1 y1 P.z x2 y2 Q.z hz hzq h1 h2' hx hZ
        rw [← hPe, ← hQe] at key
        exact ⟨key.1, hch.1, by rw [key.2, hch.2]⟩

theorem param7b1_specialAOk (m : Mode) : (param7b1 m).SpecialAOk := by
  simp [Param.SpecialAOk, param7b1]

theorem param7b1_specialBOk (m : Mode) : (param7b1 m).SpecialBOk := by
  simp [Param.SpecialBOk, param7b1]

/-- **C19.** The complete projective formulas.  Let `a = 0`, `b3 = 3 b`, the
classes of `a` and `b` as `init` sets them, and `2 ≠ 0`.  For every valid
projective `P` (`isValidProj`), `dblCTProj(P)` is equal as a projective point
to `dblProj(P)`: both have `z = 0`, or both are finite with the same affine
image; `isEqualProj` returns true.  If the curve has no point of order two
over the field (`x^3 + b ≠ 0` for every `x`), then for every pair of valid
projective points `P`, `Q` whose identity representatives are `(0, y, 0)`
with `y ≠ 0` (as `(0, 1, 0)`), `addCTProj(P, Q)` is equal as a projective
point to `addProj(P, Q)`; this covers `P = Q`, `Q = -P` and either operand
being the identity.  On every curve, with or without a point of order two:
when the difference `P - Q` (computed as `addProj(P, neg(Q))`) is a point of
order two, that is, finite with `y = 0`, `addCTProj(P, Q)` returns
`(0, 0, 0)`; for every other pair of valid points with identity
representatives as above it is equal as a projective point to
`addProj(P, Q)`.  For each class of `b` the multiplication by `b3` in the
formulas (`mul3` for `b = 1`, `mul12` for `b = 4`) is the field
multiplication by `3 b`. -/
theorem addCTProj_complete (c : Param F) (ha : c.a_ = 0) (hb3 : c.b3_ = c.b_ * 3)
    (hA : c.SpecialAOk) (hB : c.SpecialBOk) (h2 : (2 : F) ≠ 0) (P Q : EcT F)
    (hP : isValidProj c P = true) (hQ : isValidProj c Q = true) :
    isEqualProj (dblCTProj c P) (dblProj c P) = true ∧
    (((dblCTProj c P).z = 0 ∧ (dblProj c P).z = 0) ∨
      ((dblCTProj c P).z ≠ 0 ∧ (dblProj c P).z ≠ 0 ∧
        affineOfProj (dblCTProj c P) = affineOfProj (dblProj c P))) ∧
    ((∀ x : F, x ^ 3 + c.b_ ≠ 0) → (P.z = 0 → P.y ≠ 0) → (Q.z = 0 → Q.y ≠ 0) →
      isEqualProj (addCTProj c P Q false) (addProj c P Q) = true ∧
      (((addCTProj c P Q false).z = 0 ∧ (addProj c P Q).z = 0) ∨
        ((addCTProj c P Q false).z ≠ 0 ∧ (addProj c P Q).z ≠ 0 ∧
          affineOfProj (addCTProj c P Q false) = affineOfProj (addProj c P Q)))) ∧
    (DiffOrderTwo c P Q → addCTProj c P Q false = ⟨0, 0, 0⟩) ∧
    (¬ DiffOrderTwo c P Q → (P.z = 0 → P.y ≠ 0) → (Q.z = 0 → Q.y ≠ 0) →
      isEqualProj (addCTProj c P Q false) (addProj c P Q) = true ∧
      (((addCTProj c P Q false).z = 0 ∧ (addProj c P Q).z = 0) ∨
        ((addCTProj c P Q false).z ≠ 0 ∧ (addProj c P Q).z ≠ 0 ∧
          affineOfProj (addCTProj c P Q false) = affineOfProj (addProj c P Q)))) ∧
    (∀ t : F, mulB3 c t = t * c.b3_ ∧ mulB3 c t = 3 * c.b_ * t) := by
  have hd := dblCTProj_same c ha hb3 hA hB h2 P hP
  refine ⟨isEqualProj_of_same _ _ hd, hd, fun hno2 hP0 hQ0 => ?_,
    addCTProj_order_two c ha hb3 hA hB h2 P Q hP hQ, fun hT hP0 hQ0 => ?_, fun t => ?_⟩
  · have hs := addCTProj_same c ha hb3 hA hB h2 hno2 P Q hP hQ hP0 hQ0
    exact ⟨isEqualProj_of_same _ _ hs, hs⟩
  · have hs := addCTProj_same_of c ha hb3 hA hB h2 P Q hP hQ hP0 hQ0 hT
    exact ⟨isEqualProj_of_same _ _ hs, hs⟩
  · rw [mulB3_eq c hb3 hB, hb3]
    exact ⟨by ring, rfl⟩

/-- Instances of `addCTProj_complete` over the field of 7 elements in Proj
mode: on `y^2 = x^3 + 4`, which has no point of order two, the sum of
`(0, 2, 1)` and the identity `(0, 1, 0)`; on `y^2 = x^3 + 1` the point
`(3, 0, 1)` of order two and the identity, whose difference is of order two,
and the points `(0, 1, 1)` and `(2, 3, 1)`, whose difference is not. -/
theorem addCTProj_complete_witness :
    (param7 Mode.Proj).a_ = 0 ∧ (param7 Mode.Proj).b3_ = (param7 Mode.Proj).b_ * 3 ∧
    (param7 Mode.Proj).SpecialAOk ∧ (param7 Mode.Proj).SpecialBOk ∧ (2 : ZMod 7) ≠ 0 ∧
    isValidProj (param7 Mode.Proj) ⟨0, 2, 1⟩ = true ∧
    isValidProj (param7 Mode.Proj) ⟨0, 1, 0⟩ = true ∧
    (∀ x : ZMod 7, x ^ 3 + (param7 Mode.Proj).b_ ≠ 0) ∧
    isEqualProj (addCTProj (param7 Mode.Proj) ⟨0, 2, 1⟩ ⟨0, 1, 0⟩ false)
      (addProj (param7 Mode.Proj) ⟨0, 2, 1⟩ ⟨0, 1, 0⟩) = true ∧
    isValidProj (param7b1 Mode.Proj) ⟨3, 0, 1⟩ = true ∧
    isValidProj (param7b1 Mode.Proj) ⟨0, 1, 0⟩ = true ∧
    DiffOrderTwo (param7b1 Mode.Proj) ⟨3, 0, 1⟩ ⟨0, 1, 0⟩ ∧
    addCTProj (param7b1 Mode.Proj) ⟨3, 0, 1⟩ ⟨0, 1, 0⟩ false = ⟨0, 0, 0⟩ ∧
    isValidProj (param7b1 Mode.Proj) ⟨0, 1, 1⟩ = true ∧
    isValidProj (param7b1 Mode.Proj) ⟨2, 3, 1⟩ = true ∧
    ¬ DiffOrderTwo (param7b1 Mode.Proj) ⟨0, 1, 1⟩ ⟨2, 3, 1⟩ ∧
    isEqualProj (addCTProj (param7b1 Mode.Proj) ⟨0, 1, 1⟩ ⟨2, 3, 1⟩ false)
      (addProj (param7b1 Mode.Proj) ⟨0, 1, 1⟩ ⟨2, 3, 1⟩) = true :=
  ⟨rfl, by decide, param7_specialAOk _, param7_specialBOk _, by decide, by decide, by decide,
    by decide,
    ((addCTProj_complete (param7 Mode.Proj) rfl (by decide) (param7_specialAOk _)
      (param7_specialBOk _) (by decide) ⟨0, 2, 1⟩ ⟨0, 1, 0⟩ (by decide) (by decide)).2.2.1
        (by decide) (by decide) (by decide)).1,
    by decide, by decide, ⟨by decide, by decide⟩,
    (addCTProj_complete (param7b1 Mode.Proj) rfl (by decide) (param7b1_specialAOk _)
      (param7b1_specialBOk _) (by decide) ⟨3, 0, 1⟩ ⟨0, 1, 0⟩ (by decide)
      (by decide)).2.2.2.1 ⟨by decide, by decide⟩,
    by decide, by decide, fun h => absurd h.2 (by decide),
    ((addCTProj_complete (param7b1 Mode.Proj) rfl (by decide) (param7b1_specialAOk _)
      (param7b1_specialBOk _) (by decide) ⟨0, 1, 1⟩ ⟨2, 3, 1⟩ (by decide)
      (by decide)).2.2.2.2.1 (fun h => absurd h.2 (by decide)) (by decide) (by decide)).1⟩

/-- The tail of the fixed-width decoder once the parity flag and the bytes of
`x` are known. -/
theorem loadFixed_tail_iff (fp : FpIo F) (e : Ext F) (c : Param F) (P R : EcT F)
    (xb : List Nat) (isYodd : Bool) :
    (match fp.setArray xb with
      | none => (false, P)
      | some x =>
        if (!(EcT.getYfromX fp c x isYodd).1) = true then
          (false, ⟨x, (EcT.getYfromX fp c x isYodd).2, P.z⟩)
        else EcT.loadVerifyOrder e c ⟨x, (EcT.getYfromX fp c x isYodd).2, P.z⟩) = (true, R) ↔
      ∃ x y0, fp.setArray xb = some x ∧
        fp.squareRoot (EcT.getWeierstrass c x) = some y0 ∧
        (c.verifyOrder_ = true →
          EcT.isValidOrder e c ⟨x, if xor (fp.isOdd y0) isYodd then -y0 else y0, P.z⟩ = true) ∧
        R = ⟨x, if xor (fp.isOdd y0) isYodd then -y0 else y0, P.z⟩ := by
  cases hx : fp.setArray xb with
  | none => simp
  | some x =>
    simp only [Option.some.injEq, exists_and_left, exists_eq_left']
    cases hs : fp.squareRoot (EcT.getWeierstrass c x) with
    | none => simp [EcT.getYfromX, hs]
    | some y0 =>
      have hg : EcT.getYfromX fp c x isYodd =
          (true, if xor (fp.isOdd y0) isYodd then -y0 else y0) := by
        unfold EcT.getYfromX
        simp only [hs]
        split_ifs <;> rfl
      rw [hg]
      simp only [Bool.not_true, Bool.false_eq_true, if_false, Option.some.injEq, exists_eq_left']
      generalize (if xor (fp.isOdd y0) isYodd then -y0 else y0) = y
      unfold EcT.loadVerifyOrder
      by_cases hv : c.verifyOrder_ = true <;>
        by_cases ho : EcT.isValidOrder e c ⟨x, y, P.z⟩ = true <;>
        simp only [hv, ho, Bool.and_true, Bool.true_and, Bool.false_and, Bool.not_true,
          Bool.not_false, Bool.false_eq_true, if_false, if_true, Prod.mk.injEq, true_and,
          false_and, true_implies, not_true_eq_false, false_implies, implies_true,
          Bool.true_eq_false] <;>
        exact eq_comm

theorem loadFixed_eq_iff (fp : FpIo F) (e : Ext F) (c : Param F) (P R : EcT F)
    (is : List Nat)
    (ioMode : IoMode) (hhex : ioMode.IoSerializeHexStr = false)
    (heth : fp.getETHserialization = false) :
    EcT.loadFixed fp e c P is ioMode = (true, R) ↔
      (is.take (EcT.getSerializedByteSize fp c)).length = EcT.getSerializedByteSize fp c ∧
      (((is.take (EcT.getSerializedByteSize fp c)).all (fun b => decide (b = 0)) = true ∧
          R = EcT.clear c) ∨
        ((is.take (EcT.getSerializedByteSize fp c)).all (fun b => decide (b = 0)) = false ∧
        ∃ (isYodd : Bool) (xb : List Nat),
          ((EcT.isMSBserialize fp c = false ∧
              ((is.take (EcT.getSerializedByteSize fp c)).getD 0 0 = 2 ∨
                (is.take (EcT.getSerializedByteSize fp c)).getD 0 0 = 3) ∧
              isYodd = decide ((is.take (EcT.getSerializedByteSize fp c)).getD 0 0 = 3) ∧
              xb = ((is.take (EcT.getSerializedByteSize fp c)).drop 1).take fp.getByteSize) ∨
            (EcT.isMSBserialize fp c = true ∧
              isYodd = decide ((is.take (EcT.getSerializedByteSize fp c)).getD
                (fp.getByteSize - 1) 0 >>> 7 ≠ 0) ∧
              xb = ((is.take (EcT.getSerializedByteSize fp c)).set (fp.getByteSize - 1)
                ((is.take (EcT.getSerializedByteSize fp c)).getD (fp.getByteSize - 1) 0
                  &&& 0x7f)).take fp.getByteSize)) ∧
          ∃ x y0, fp.setArray xb = some x ∧
            fp.squareRoot (EcT.getWeierstrass c x) = some y0 ∧
            (c.verifyOrder_ = true →
              EcT.isValidOrder e c
                ⟨x, if xor (fp.isOdd y0) isYodd then -y0 else y0, P.z⟩ = true) ∧
            R = ⟨x, if xor (fp.isOdd y0) isYodd then -y0 else y0, P.z⟩)) := by
  unfold EcT.loadFixed EcT.getSerializedByteSize
  simp only [hhex, heth, Bool.false_eq_true, if_false]
  generalize hbuf : is.take (fp.getByteSize + if EcT.isMSBserialize fp c = true then 0 else 1)
    = buf
  by_cases hlen : buf.length = fp.getByteSize + if EcT.isMSBserialize fp c = true then 0 else 1
  swap
  · simp [hlen]
  by_cases hall : buf.all (fun b => decide (b = 0)) = true
  · simp only [hlen, hall, ne_eq, not_true_eq_false, if_false, if_true, true_and,
      Bool.true_eq_false, false_and, or_false, Prod.mk.injEq]
    exact eq_comm
  have hall' : buf.all (fun b => decide (b = 0)) = false := by simpa using hall
  simp only [hlen, hall, hall', ne_eq, not_true_eq_false, if_false, true_and, false_or,
    Bool.false_eq_true, false_and]
  by_cases hm : EcT.isMSBserialize fp c = true
  · simp only [hm, if_true, not_true_eq_false, if_false, Bool.true_eq_false, false_and,
      false_or, true_and, List.drop_zero]
    refine (loadFixed_tail_iff fp e c P R _ _).trans ?_
    constructor
    · rintro ⟨x, y0, h1, h2, h3⟩
      exact ⟨_, _, ⟨rfl, rfl⟩, x, y0, h1, h2, h3⟩
    · rintro ⟨_, _, ⟨rfl, rfl⟩, x, y0, h1, h2, h3⟩
      exact ⟨x, y0, h1, h2, h3⟩
  · simp only [Bool.not_eq_true] at hm
    simp only [hm, Bool.false_eq_true, if_false, one_ne_zero, not_false_eq_true, if_true,
      true_and, false_and, or_false]
    by_cases htag : buf.getD 0 0 ≠ 2 ∧ buf.getD 0 0 ≠ 3
    · rw [if_pos htag]
      constructor
      · intro h
        exact absurd (congrArg Prod.fst h) (by simp)
      · rintro ⟨_, _, ⟨h1 | h1, _⟩, _⟩
        · exact absurd h1 htag.1
        · exact absurd h1 htag.2
    · rw [if_neg htag]
      refine (loadFixed_tail_iff fp e c P R _ _).trans ?_
      have htag2 : buf.getD 0 0 = 2 ∨ buf.getD 0 0 = 3 := by
        by_contra h
        push_neg at h
        exact htag h
      constructor
      · rintro ⟨x, y0, h1, h2, h3⟩
        exact ⟨_, _, ⟨htag2, rfl, rfl⟩, x, y0, h1, h2, h3⟩
      · rintro ⟨_, _, ⟨_, rfl, rfl⟩, x, y0, h1, h2, h3⟩
        exact ⟨x, y0, h1, h2, h3⟩

theorem parity_of_root (fp : FpIo F) (hodd : ∀ y : F, y ≠ 0 → fp.isOdd (-y) = !fp.isOdd y)
    (y0 : F) (isYodd : Bool)
    (hy : (if xor (fp.isOdd y0) isYodd then -y0 else y0) ≠ 0) :
    fp.isOdd (if xor (fp.isOdd y0) isYodd then -y0 else y0) = isYodd := by
  split_ifs at hy ⊢ with h
  · have h0 : y0 ≠ 0 := fun h0 => hy (by simp [h0])
    rw [hodd y0 h0]
    revert h
    cases fp.isOdd y0 <;> cases isYodd <;> simp
  · revert h
    cases fp.isOdd y0 <;> cases isYodd <;> simp

/-- **C20.** Fixed-width decode (binary `IoSerialize`, not the ETH style).
With `N1 = getSerializedByteSize()`, `load` reads the first `N1` bytes of the
stream, and it reports success with the point `R` exactly when `N1` bytes
could be read and either they are all zero and `R` is `clear()`, or they are
not all zero and: in the `(N+1)`-byte layout the leading byte is 2 or 3 (3
asks for an odd `y`) and the `x` bytes are the next `N`; in the `N`-byte
layout the top bit of the last byte asks for the parity and is cleared in the
`x` bytes; the `x` bytes parse as a field element `x`; `squareRoot` returns a
root `y0` of `x^3 + a*x + b`; the order check passes when subgroup
verification is enabled; and `R = (x, y, 1)` with `y = y0`, or `y = -y0` when
the parity of `y0` is not the one asked for.  A stream shorter than `N1` is
rejected.  If negation flips `isOdd` of every non-zero element, a decoded
`y ≠ 0` has the parity asked for. -/
theorem load_fixed_wellformed (fp : FpIo F) (e : Ext F) (c : Param F) (self : EcT F)
    (is : List Nat) (ioMode : IoMode)
    (hafs : ioMode.IoEcAffineSerialize = false) (hser : ioMode.IoSerialize = true)
    (hhex : ioMode.IoSerializeHexStr = false) (heth : fp.getETHserialization = false) :
    (∀ R : EcT F, EcT.load fp e c self is ioMode = (true, R) ↔
      (is.take (EcT.getSerializedByteSize fp c)).length = EcT.getSerializedByteSize fp c ∧
      (((is.take (EcT.getSerializedByteSize fp c)).all (fun b => decide (b = 0)) = true ∧
          R = EcT.clear c) ∨
        ((is.take (EcT.getSerializedByteSize fp c)).all (fun b => decide (b = 0)) = false ∧
        ∃ (isYodd : Bool) (xb : List Nat),
          ((EcT.isMSBserialize fp c = false ∧
              ((is.take (EcT.getSerializedByteSize fp c)).getD 0 0 = 2 ∨
                (is.take (EcT.getSerializedByteSize fp c)).getD 0 0 = 3) ∧
              isYodd = decide ((is.take (EcT.getSerializedByteSize fp c)).getD 0 0 = 3) ∧
              xb = ((is.take (EcT.getSerializedByteSize fp c)).drop 1).take fp.getByteSize) ∨
            (EcT.isMSBserialize fp c = true ∧
              isYodd = decide ((is.take (EcT.getSerializedByteSize fp c)).getD
                (fp.getByteSize - 1) 0 >>> 7 ≠ 0) ∧
              xb = ((is.take (EcT.getSerializedByteSize fp c)).set (fp.getByteSize - 1)
                ((is.take (EcT.getSerializedByteSize fp c)).getD (fp.getByteSize - 1) 0
                  &&& 0x7f)).take fp.getByteSize)) ∧
          ∃ x y0, fp.setArray xb = some x ∧
            fp.squareRoot (EcT.getWeierstrass c x) = some y0 ∧
            (c.verifyOrder_ = true →
              EcT.isValidOrder e c
                ⟨x, if xor (fp.isOdd y0) isYodd then -y0 else y0, 1⟩ = true) ∧
            R = ⟨x, if xor (fp.isOdd y0) isYodd then -y0 else y0, 1⟩))) ∧
    ((EcT.load fp e c self is ioMode).1 = true →
      EcT.getSerializedByteSize fp c ≤ is.length) ∧
    (is.length < EcT.getSerializedByteSize fp c →
      (EcT.load fp e c self is ioMode).1 = false) ∧
    ((∀ y : F, y ≠ 0 → fp.isOdd (-y) = !fp.isOdd y) → ∀ (y0 : F) (isYodd : Bool),
      (if xor (fp.isOdd y0) isYodd then -y0 else y0) ≠ 0 →
      fp.isOdd (if xor (fp.isOdd y0) isYodd then -y0 else y0) = isYodd) := by
  rw [load_fixed fp e c self is ioMode hafs hser]
  have hA := fun R : EcT F =>
    loadFixed_eq_iff fp e c ⟨self.x, self.y, 1⟩ R is ioMode hhex heth
  have hlen : (EcT.loadFixed fp e c ⟨self.x, self.y, 1⟩ is ioMode).1 = true →
      EcT.getSerializedByteSize fp c ≤ is.length := by
    intro h
    have h1 := ((hA (EcT.loadFixed fp e c ⟨self.x, self.y, 1⟩ is ioMode).2).1
      (by rw [← h])).1
    rw [List.length_take] at h1
    omega
  refine ⟨hA, hlen, fun h => ?_, fun hodd y0 isYodd hy => parity_of_root fp hodd y0 isYodd hy⟩
  rw [Bool.eq_false_iff]
  intro h1
  exact absurd (hlen h1) (by omega)

theorem load_fixed_wellformed_witness :
    IoMode.serialize.IoEcAffineSerialize = false ∧ IoMode.serialize.IoSerialize = true ∧
    IoMode.serialize.IoSerializeHexStr = false ∧ fp7.getETHserialization = false ∧
    (EcT.load fp7 ext7 (param7 Mode.Jacobi) ⟨0, 0, 0⟩ [128] IoMode.serialize).1 = true ∧
    EcT.getSerializedByteSize fp7 (param7 Mode.Jacobi) ≤ [128].length :=
  ⟨rfl, rfl, rfl, rfl, by decide,
    (load_fixed_wellformed fp7 ext7 (param7 Mode.Jacobi) ⟨0, 0, 0⟩ [128] IoMode.serialize
      rfl rfl rfl rfl).2.1 (by decide)⟩

/-- **C20, counterexample.** The curve `y^2 = x^3 + 1` over the field of 7
elements, `N`-byte layout with `N1 = 1`.  The byte `0x83` carries `x = 3` and
a set top bit, which asks for an odd `y`; `x^3 + 1 = 0` has the only root 0,
and `load` reports success with `y = 0`, which is even (negation flips the
parity of every non-zero element of this field).  The three-byte stream
`0x83, 9, 9` has not the length `N1`, and `load` reports success on it as
well, reading the first byte only. -/
theorem load_fixed_counterexample :
    fp7.getETHserialization = false ∧
    EcT.isMSBserialize fp7 (param7b1 Mode.Jacobi) = true ∧
    EcT.getSerializedByteSize fp7 (param7b1 Mode.Jacobi) = 1 ∧
    (∀ y : ZMod 7, y ≠ 0 → fp7.isOdd (-y) = !fp7.isOdd y) ∧
    decide ((131 : Nat) >>> 7 ≠ 0) = true ∧
    EcT.load fp7 ext7 (param7b1 Mode.Jacobi) ⟨0, 0, 0⟩ [131] IoMode.serialize =
      (true, ⟨3, 0, 1⟩) ∧
    fp7.isOdd (0 : ZMod 7) = false ∧
    [131, 9, 9].length ≠ EcT.getSerializedByteSize fp7 (param7b1 Mode.Jacobi) ∧
    EcT.load fp7 ext7 (param7b1 Mode.Jacobi) ⟨0, 0, 0⟩ [131, 9, 9] IoMode.serialize =
      (true, ⟨3, 0, 1⟩) := by
  decide

/-- **C19, counterexample.** Proj mode on `y^2 = x^3 + 1` over the field of 7
elements (`a = 0`, `b = 1`, `b3 = 3`).  `P = (3, 0, 1)` is a valid finite
point (of order two) and `Q = (0, 1, 0)` is the identity.  `addProj(P, Q)`
is `P`; `addCTProj(P, Q)` is `(0, 0, 0)`, which `isEqualProj` does not equal
to `P`. -/
theorem addCTProj_counterexample :
    (param7b1 Mode.Proj).a_ = 0 ∧
    isValidProj (param7b1 Mode.Proj) ⟨3, 0, 1⟩ = true ∧
    isValidProj (param7b1 Mode.Proj) ⟨0, 1, 0⟩ = true ∧
    EcT.clear (param7b1 Mode.Proj) = ⟨0, 1, 0⟩ ∧
    addProj (param7b1 Mode.Proj) ⟨3, 0, 1⟩ ⟨0, 1, 0⟩ = ⟨3, 0, 1⟩ ∧
    addCTProj (param7b1 Mode.Proj) ⟨3, 0, 1⟩ ⟨0, 1, 0⟩ false = ⟨0, 0, 0⟩ ∧
    isEqualProj (addCTProj (param7b1 Mode.Proj) ⟨3, 0, 1⟩ ⟨0, 1, 0⟩ false)
      (addProj (param7b1 Mode.Proj) ⟨3, 0, 1⟩ ⟨0, 1, 0⟩) = false := by
  decide

/-- What does hold of associativity: on a non-singular curve over a field
with `2 ≠ 0`, the two bracketings of a sum of three points of the curve stand
for the same point, and `operator==` says so when, in Affine mode, the
operands are in the form the arithmetic produces. -/
theorem add_assoc_samePoint (c : Param F) (h2 : (2 : F) ≠ 0) (hA : c.SpecialAOk)
    (hd : 4 * c.a_ ^ 3 + 27 * c.b_ ^ 2 ≠ 0) (P Q R : EcT F)
    (hP : OnCurve c P) (hQ : OnCurve c Q) (hR : OnCurve c R) :
    SamePoint c (EcT.add c (EcT.add c P Q) R) (EcT.add c P (EcT.add c Q R)) ∧
    (AffineNormal c P → AffineNormal c Q → AffineNormal c R →
      EcT.eq c (EcT.add c (EcT.add c P Q) R) (EcT.add c P (EcT.add c Q R)) = true) := by
  obtain ⟨rd, hrd⟩ := exists_curveReading c c.b_ h2 hA
  obtain ⟨p, hp⟩ := exists_curveReads_of_onCurve c h2 hd P hP
  obtain ⟨q, hq⟩ := exists_curveReads_of_onCurve c h2 hd Q hQ
  obtain ⟨r, hr⟩ := exists_curveReads_of_onCurve c h2 hd R hR
  rw [← hrd] at hp hq hr
  have h1 := rd.add _ _ _ _ (rd.add _ _ _ _ hp hq) hr
  have h3 := rd.add _ _ _ _ hp (rd.add _ _ _ _ hq hr)
  rw [← add_assoc] at h3
  have hs := rd.same _ _ _ h1 h3
  exact ⟨hs, fun nP nQ nR => eq_of_samePoint c _ _ hs
    (affineNormal_add c _ _ (affineNormal_add c _ _ nP nQ) nR)
    (affineNormal_add c _ _ nP (affineNormal_add c _ _ nQ nR))⟩

theorem samePoint_refl (c : Param F) (P : EcT F) : SamePoint c P P := by
  by_cases hz : P.z = 0
  · exact Or.inl ⟨hz, hz⟩
  · exact Or.inr ⟨hz, hz, rfl⟩

theorem samePoint_symm (c : Param F) (P Q : EcT F) (h : SamePoint c P Q) :
    SamePoint c Q P := by
  rcases h with ⟨h1, h2⟩ | ⟨h1, h2, h3⟩
  · exact Or.inl ⟨h2, h1⟩
  · exact Or.inr ⟨h2, h1, h3.symm⟩

theorem samePoint_dbl (c : Param F) (h2 : (2 : F) ≠ 0) (hA : c.SpecialAOk) (P Q : EcT F)
    (h : SamePoint c P Q) : SamePoint c (EcT.dbl c P) (EcT.dbl c Q) := by
  rcases h with ⟨h1, h3⟩ | ⟨h1, h3, h4⟩
  · rw [dbl_zero c P h1, dbl_zero c Q h3]
    exact samePoint_refl c _
  · by_cases hy : P.y = 0
    · have hyq : Q.y = 0 := by
        rw [← affineOf_y_eq_zero_iff c.mode_ Q h3, ← h4, affineOf_y_eq_zero_iff c.mode_ P h1]
        exact hy
      exact Or.inl ⟨dbl_y_zero c P hy, dbl_y_zero c Q hyq⟩
    · have hyq : Q.y ≠ 0 := by
        rw [Ne, ← affineOf_y_eq_zero_iff c.mode_ Q h3, ← h4,
          affineOf_y_eq_zero_iff c.mode_ P h1]
        exact hy
      obtain ⟨a1, a2⟩ := dbl_tangent c h2 hA P h1 hy
      obtain ⟨b1, b2⟩ := dbl_tangent c h2 hA Q h3 hyq
      exact Or.inr ⟨a1, b1, by rw [a2, b2, h4]⟩

theorem addAffine_comm (c : Param F) (x1 y1 x2 y2 : F) (hx : x1 ≠ x2) :
    addAffine c ⟨x1, y1, 1⟩ ⟨x2, y2, 1⟩ = addAffine c ⟨x2, y2, 1⟩ ⟨x1, y1, 1⟩ := by
  rw [addAffine_chord c _ _ one_ne_zero one_ne_zero hx,
    addAffine_chord c _ _ one_ne_zero one_ne_zero (Ne.symm hx)]
  have hd : x2 - x1 ≠ 0 := sub_ne_zero.2 (Ne.symm hx)
  have hd' : x1 - x2 ≠ 0 := sub_ne_zero.2 hx
  simp only [EcT.mk.injEq, and_true]
  constructor
  · field_simp
    ring
  · field_simp
    ring

/-- What does hold of commutativity: over a field with `2 ≠ 0`, for all
triples `P` and `Q` (on the curve or not), `add(P, Q)` and `add(Q, P)` stand
for the same point, and `operator==` says so when, in Affine mode, the
operands are in the form the arithmetic produces. -/
theorem add_comm_samePoint (c : Param F) (h2 : (2 : F) ≠ 0) (hA : c.SpecialAOk)
    (P Q : EcT F) :
    SamePoint c (EcT.add c P Q) (EcT.add c Q P) ∧
    (AffineNormal c P → AffineNormal c Q →
      EcT.eq c (EcT.add c P Q) (EcT.add c Q P) = true) := by
  have hs : SamePoint c (EcT.add c P Q) (EcT.add c Q P) := by
    by_cases hz : P.z = 0
    · rw [add_zero_left c P Q hz]
      by_cases hzq : Q.z = 0
      · rw [add_zero_left c Q P hzq]
        exact Or.inl ⟨hzq, hz⟩
      · rw [add_zero_right c Q P hzq hz]
        exact samePoint_refl c Q
    by_cases hzq : Q.z = 0
    · rw [add_zero_right c P Q hz hzq, add_zero_left c Q P hzq]
      exact samePoint_refl c P
    by_cases hx : (affineOf c.mode_ P).x = (affineOf c.mode_ Q).x
    · rw [add_same_x c P Q hz hzq hx, add_same_x c Q P hzq hz hx.symm]
      by_cases hy : (affineOf c.mode_ P).y = (affineOf c.mode_ Q).y
      · rw [if_pos hy, if_pos hy.symm]
        apply samePoint_dbl c h2 hA
        refine Or.inr ⟨hz, hzq, ?_⟩
        rw [affineOf_eta c.mode_ P, affineOf_eta c.mode_ Q, hx, hy]
      · rw [if_neg hy, if_neg (fun h => hy h.symm)]
        exact samePoint_refl c _
    · obtain ⟨a1, a2⟩ := add_chord c P Q hz hzq hx
      obtain ⟨b1, b2⟩ := add_chord c Q P hzq hz (fun h => hx h.symm)
      refine Or.inr ⟨a1, b1, ?_⟩
      rw [a2, b2, affineOf_eta c.mode_ P, affineOf_eta c.mode_ Q]
      exact addAffine_comm c _ _ _ _ hx
  exact ⟨hs, fun nP nQ => eq_of_samePoint c _ _ hs (affineNormal_add c _ _ nP nQ)
    (affineNormal_add c _ _ nQ nP)⟩

/-- In Jacobi mode, with finite operands of different affine `x`, swapping the
operands turns the result `(X, Y, Z)` into `(X, -Y, -Z)`, a representative of
the same point. -/
theorem addJacobi_swap (c : Param F) (P Q : EcT F) (hP : P.z ≠ 0) (hQ : Q.z ≠ 0)
    (hx : (affineOfJacobi P).x ≠ (affineOfJacobi Q).x) :
    addJacobi c Q P =
      ⟨(addJacobi c P Q).x, -(addJacobi c P Q).y, -(addJacobi c P Q).z⟩ := by
  have hH : Q.x * P.z ^ 2 - P.x * Q.z ^ 2 ≠ 0 := by
    intro h
    apply hx
    simp only [affineOfJacobi]
    rw [div_eq_div_iff (pow_ne_zero 2 hP) (pow_ne_zero 2 hQ)]
    linear_combination -h
  have hH' : P.x * Q.z ^ 2 - Q.x * P.z ^ 2 ≠ 0 := by
    intro h
    apply hH
    linear_combination -h
  rw [addJacobi_of_ne c P Q hP hQ, addJacobi_of_ne c Q P hQ hP]
  simp only [addJacobiAux, Bool.false_eq_true, if_false, hH, hH', EcT.mk.injEq]
  refine ⟨?_, ?_, ?_⟩ <;> ring

theorem nibble_eq (v k : Nat) : (v >>> (k * 4)) &&& (2 ^ 4 - 1) = v / 16 ^ k % 16 := by
  rw [Nat.shiftRight_eq_div_pow, Nat.and_pow_two_sub_one_eq_mod, Nat.mul_comm k 4, pow_mul]
  norm_num

theorem mod_pow_step (w j : Nat) : w % 16 ^ (j + 1) = 16 * (w / 16 % 16 ^ j) + w % 16 := by
  rw [pow_succ', Nat.mod_mul, Nat.add_comm]

namespace GroupReading

variable {c : Param F} {G : Type} [AddCommGroup G] (rd : GroupReading c G)

theorem iterate_add_reads (x : EcT F) (g : G) (hx : rd.R x g) (k : Nat) :
    rd.R ((fun t => EcT.add c t x)^[k] x) (((k : ℤ) + 1) • g) := by
  induction k with
  | zero => simpa using hx
  | succ k ih =>
    rw [Function.iterate_succ_apply']
    refine rd.congr (rd.add _ _ _ _ ih hx) ?_
    push_cast
    rw [add_smul, add_smul, add_smul, one_smul]

theorem ctTbl_reads (x : EcT F) (g : G) (hx : rd.R x g) (i : Nat) (hi : i < 16) :
    rd.R ((EcT.clear c :: mkTbl (fun t => EcT.add c t x) x 15).getD i ⟨0, 0, 0⟩)
      ((i : ℤ) • g) := by
  cases i with
  | zero => simpa using rd.clear
  | succ i =>
    rw [List.getD_cons_succ, mkTbl_getD _ _ 15 x i (by omega)]
    exact rd.congr (rd.iterate_add_reads x g hx i) (by push_cast; rfl)

theorem dbl4_reads (z : EcT F) (a : ℤ) (g : G) (hz : rd.R z (a • g)) :
    rd.R ((List.range 4).foldl (fun z _ => EcT.dbl c z) z) ((16 * a) • g) := by
  have h1 := rd.dbl _ _ (rd.dbl _ _ (rd.dbl _ _ (rd.dbl _ _ hz)))
  refine rd.congr h1 ?_
  simp only [← add_smul]
  congr 1
  ring

theorem ctInner_reads (x : EcT F) (g : G) (hx : rd.R x g) (v m : Nat) (z : EcT F) (a : ℤ)
    (hz : rd.R z (a • g)) (k : Nat) (hk : k ≤ m) :
    rd.R ((List.range k).foldl (fun z j =>
        EcT.add c ((List.range 4).foldl (fun z _ => EcT.dbl c z) z)
          ((EcT.clear c :: mkTbl (fun t => EcT.add c t x) x (2 ^ 4 - 1)).getD
            ((v >>> ((m - 1 - j) * 4)) &&& (2 ^ 4 - 1)) ⟨0, 0, 0⟩)) z)
      ((a * 16 ^ k + ((v / 16 ^ (m - k) % 16 ^ k : Nat) : ℤ)) • g) := by
  induction k with
  | zero => simpa using hz
  | succ k ih =>
    rw [@List.range_succ k, List.foldl_append]
    simp only [List.foldl_cons, List.foldl_nil]
    have hlt : (v >>> ((m - 1 - k) * 4)) &&& (2 ^ 4 - 1) < 16 := by
      rw [nibble_eq]
      exact Nat.mod_lt _ (by norm_num)
    have ht := rd.ctTbl_reads x g hx _ hlt
    have hstep := rd.add _ _ _ _ (rd.dbl4_reads _ _ g (ih (by omega))) ht
    refine rd.congr hstep ?_
    rw [← add_smul]
    congr 1
    rw [nibble_eq]
    have e1 : m - k = (m - 1 - k) + 1 := by omega
    have e2 : m - (k + 1) = m - 1 - k := by omega
    rw [e1, e2, mod_pow_step (v / 16 ^ (m - 1 - k)) k, pow_succ, Nat.div_div_eq_div_mul]
    push_cast
    ring

theorem ctOuter_reads (e : Ext F) (x : EcT F) (g : G) (hx : rd.R x g) (y : List Nat)
    (hu : ∀ i, y.getD i 0 < 2 ^ (8 * e.unitSize)) (i : Nat) (hi : i ≤ y.length) :
    ∃ kval : Nat,
      rd.R ((List.range i).foldl (fun z i =>
        (List.range (e.unitSize * 8 / 4)).foldl (fun z j =>
          EcT.add c ((List.range 4).foldl (fun z _ => EcT.dbl c z) z)
            ((EcT.clear c :: mkTbl (fun t => EcT.add c t x) x (2 ^ 4 - 1)).getD
              ((y.getD (y.length - 1 - i) 0 >>> ((e.unitSize * 8 / 4 - 1 - j) * 4)) &&&
                (2 ^ 4 - 1)) ⟨0, 0, 0⟩)) z) (EcT.clear c)) ((kval : ℤ) • g) ∧
      unitsValue e.unitSize y y.length =
        unitsValue e.unitSize y (y.length - i) + 2 ^ (8 * e.unitSize * (y.length - i)) * kval := by
  have hm : e.unitSize * 8 / 4 = 2 * e.unitSize := by omega
  have hB : (16 : Nat) ^ (2 * e.unitSize) = 2 ^ (8 * e.unitSize) := by
    rw [show (16 : Nat) = 2 ^ 4 by norm_num, ← pow_mul]
    congr 1
    omega
  induction i with
  | zero => exact ⟨0, by simpa using rd.clear, by simp⟩
  | succ i ih =>
    obtain ⟨kval, h1, h2⟩ := ih (by omega)
    rw [@List.range_succ i, List.foldl_append]
    simp only [List.foldl_cons, List.foldl_nil]
    have hin := rd.ctInner_reads x g hx (y.getD (y.length - 1 - i) 0) (e.unitSize * 8 / 4) _ _
      h1 (e.unitSize * 8 / 4) le_rfl
    refine ⟨kval * 2 ^ (8 * e.unitSize) + y.getD (y.length - 1 - i) 0, ?_, ?_⟩
    · refine rd.congr hin ?_
      congr 1
      have hBz : (16 : ℤ) ^ (2 * e.unitSize) = 2 ^ (8 * e.unitSize) := by exact_mod_cast hB
      rw [Nat.sub_self, pow_zero, Nat.div_one, hm, hB, Nat.mod_eq_of_lt (hu _)]
      push_cast
      rw [hBz]
    · rw [h2]
      have e1 : y.length - i = (y.length - 1 - i) + 1 := by omega
      have e2 : y.length - (i + 1) = y.length - 1 - i := by omega
      rw [e1, e2, unitsValue]
      rw [show 8 * e.unitSize * (y.length - 1 - i + 1) =
        8 * e.unitSize * (y.length - 1 - i) + 8 * e.unitSize by ring, pow_add]
      ring

theorem mulArrayCT_reads (e : Ext F) (x : EcT F) (g : G) (hx : rd.R x g) (y : List Nat)
    (hu : ∀ i, y.getD i 0 < 2 ^ (8 * e.unitSize)) (isNegative : Bool) :
    rd.R (EcT.mulArrayCT e c x y isNegative)
      ((if isNegative then -(unitsValue e.unitSize y y.length : ℤ)
        else (unitsValue e.unitSize y y.length : ℤ)) • g) := by
  obtain ⟨kval, h1, h2⟩ := rd.ctOuter_reads e x g hx y hu y.length le_rfl
  have hk : unitsValue e.unitSize y y.length = kval := by
    rw [h2]
    simp [unitsValue]
  rw [hk]
  unfold EcT.mulArrayCT
  simp only
  cases isNegative
  · simpa using h1
  · simp only [if_true]
    have := rd.neg _ _ h1
    rwa [← neg_smul] at this

end GroupReading

/-- What does hold of the two multiplication routines: over a field with
`2 ≠ 0`, with the digit contract of `getNAFwidth` and units that fit their
width, for every triple `x` the constant-time and the variable-time result
stand for the same point, and `operator==` says so when, in Affine mode, `x`
has `z = 1` or is the cleared identity. -/
theorem mulArray_ct_samePoint (e : Ext F) (c : Param F) (h2 : (2 : F) ≠ 0)
    (hA : c.SpecialAOk)
    (hnaf : ∀ (v : ℤ) (w : Nat), 3 ≤ w → w ≤ 5 → NafOk (e.getNAFwidth v w) v w)
    (x : EcT F) (y : List Nat) (hu : ∀ i, y.getD i 0 < 2 ^ (8 * e.unitSize))
    (isNegative : Bool) :
    SamePoint c (EcT.mulArray e c x y isNegative true) (EcT.mulArray e c x y isNegative false) ∧
    (AffineNormal c x →
      EcT.eq c (EcT.mulArray e c x y isNegative true)
        (EcT.mulArray e c x y isNegative false) = true) := by
  have hct : EcT.mulArray e c x y isNegative true = EcT.mulArrayCT e c x y isNegative := by
    simp [EcT.mulArray]
  rw [hct]
  obtain ⟨G, _, rd, g, hx⟩ := exists_reading_of_point c h2 hA x
  have hs := rd.same _ _ _ (rd.mulArrayCT_reads e x g hx y hu isNegative)
    (rd.mulArray_reads e hnaf x g hx y isNegative)
  refine ⟨hs, fun hN => ?_⟩
  obtain ⟨rd', hrd'⟩ := rd.exists_normal
  have hx' : rd'.R x g := by rw [hrd']; exact ⟨hx, hN⟩
  have r1 := rd'.mulArrayCT_reads e x g hx' y hu isNegative
  have r2 := rd'.mulArray_reads e hnaf x g hx' y isNegative
  rw [hrd'] at r1 r2
  exact eq_of_samePoint c _ _ hs r1.2 r2.2

/-- **C30.** Affine mode on `y^2 = x^3 + 4` over the field of 7 elements.
`clear()` writes the identity as `(0, 1, 0)`; `load` of the all-zero
affine-serialize encoding reports success and leaves `(0, 0, 0)`; `add` with a
zero first operand returns the second operand unchanged.  All three are zero
(`isZero()` holds), and `operator==`, which compares the three coordinates in
Affine mode, tells the decoded identity and the one returned by `add` apart
from the cleared one. -/
theorem eq_affine_identity_representations :
    EcT.clear (param7 Mode.Affine) = ⟨0, 1, 0⟩ ∧
    EcT.load fp7 ext7 (param7 Mode.Affine) ⟨0, 0, 0⟩ [0, 0] IoMode.affineSerialize =
      (true, ⟨0, 0, 0⟩) ∧
    EcT.add (param7 Mode.Affine) (EcT.clear (param7 Mode.Affine)) ⟨0, 0, 0⟩ = ⟨0, 0, 0⟩ ∧
    EcT.isZero (EcT.clear (param7 Mode.Affine)) = true ∧
    EcT.isZero (⟨0, 0, 0⟩ : EcT (ZMod 7)) = true ∧
    EcT.eq (param7 Mode.Affine) (EcT.clear (param7 Mode.Affine))
      (EcT.load fp7 ext7 (param7 Mode.Affine) ⟨0, 0, 0⟩ [0, 0] IoMode.affineSerialize).2 =
        false ∧
    EcT.eq (param7 Mode.Affine)
      (EcT.add (param7 Mode.Affine) (EcT.clear (param7 Mode.Affine)) ⟨0, 0, 0⟩)
      (EcT.clear (param7 Mode.Affine)) = false := by
  decide

/-- In Jacobi and in Proj mode `operator==` holds of any two triples with
`z = 0`. -/
theorem eq_of_isZero (c : Param F) (hm : c.mode_ ≠ Mode.Affine) (P Q : EcT F)
    (hP : P.isZero = true) (hQ : Q.isZero = true) : EcT.eq c P Q = true := by
  unfold EcT.eq
  cases hc : c.mode_ with
  | Jacobi => simp [isEqualJacobi, hP, hQ]
  | Proj => simp [isEqualProj, hP, hQ]
  | Affine => exact absurd hc hm

/-- The length of the buffer that the fixed-width block of `save` hands to
the output. -/
theorem saveFixedBuf_length (buf0 : Nat → Nat) (fp : FpIo F) (c : Param F) (self P : EcT F)
    (buf : List Nat) (h : EcT.saveFixedBuf buf0 fp c self P = some buf) :
    buf.length = EcT.getSerializedByteSize fp c := by
  have hsz : EcT.getSerializedByteSize fp c =
      fp.getByteSize + (if EcT.isMSBserialize fp c then 0 else 1) := rfl
  rw [hsz]
  unfold EcT.saveFixedBuf at h
  simp only [] at h
  generalize hadj : (if EcT.isMSBserialize fp c = true then 0 else 1) = adj at h ⊢
  have hadj1 : adj ≤ 1 := by rw [← hadj]; split_ifs <;> omega
  split at h
  · exact absurd h (by simp)
  · rename_i b hb
    simp only [Option.some.injEq] at h
    rw [← h, List.length_take]
    suffices hlen : fp.getByteSize + adj ≤ b.length by omega
    by_cases he : fp.getETHserialization = true
    · by_cases hz : P.isZero = true
      · simp only [he, hz, if_true, Option.some.injEq] at hb
        rw [← hb]
        simp only [List.length_append, List.length_cons, List.length_nil,
          List.length_replicate, List.length_drop, List.length_map, List.length_range]
        omega
      · simp only [he, hz, if_true, if_false, Bool.false_eq_true] at hb
        cases hw : saveToBuf fp P.x fp.getByteSize
            (List.take fp.getByteSize (List.map buf0 (List.range (fp.getByteSize + adj)))) with
        | none => rw [hw] at hb; exact absurd hb (by simp)
        | some w =>
          rw [hw] at hb
          simp only [Option.some.injEq] at hb
          have := saveToBuf_length fp _ _ _ w (by simp) hw
          rw [← hb]
          simp only [List.length_set, List.length_append, List.length_drop, List.length_map,
            List.length_range, this]
          omega
    · by_cases hz : self.isZero = true
      · simp only [he, hz, if_true, if_false, Bool.false_eq_true, Option.some.injEq] at hb
        rw [← hb, List.length_replicate]
      · simp only [he, hz, if_false, Bool.false_eq_true] at hb
        cases hw : saveToBuf fp P.x fp.getByteSize
            (List.drop adj (List.map buf0 (List.range (fp.getByteSize + adj)))) with
        | none => rw [hw] at hb; exact absurd hb (by simp)
        | some w =>
          rw [hw] at hb
          have := saveToBuf_length fp _ _ _ w (by simp) hw
          simp only [] at hb
          split_ifs at hb <;> simp only [Option.some.injEq] at hb <;> rw [← hb] <;>
            simp only [List.length_cons, List.length_set, this] <;> omega

/-- The fixed-width block of `load` rejects a read that does not fill `N1`
bytes. -/
theorem loadFixed_length (fp : FpIo F) (e : Ext F) (c : Param F) (P : EcT F) (is : List Nat)
    (ioMode : IoMode) (h : (EcT.loadFixed fp e c P is ioMode).1 = true) :
    (if ioMode.IoSerializeHexStr then fp.readHexStr (EcT.getSerializedByteSize fp c) is
      else is.take (EcT.getSerializedByteSize fp c)).length =
        EcT.getSerializedByteSize fp c := by
  by_contra hne
  unfold EcT.loadFixed at h
  simp only [] at h
  rw [if_pos (by simpa [EcT.getSerializedByteSize] using hne)] at h
  exact absurd h (by simp)

/-- The fixed-width block of `load` reads the first `N1` bytes of a binary
stream and nothing else. -/
theorem loadFixed_take (fp : FpIo F) (e : Ext F) (c : Param F) (P : EcT F) (is : List Nat)
    (ioMode : IoMode) (hhex : ioMode.IoSerializeHexStr = false) :
    EcT.loadFixed fp e c P is ioMode =
      EcT.loadFixed fp e c P (is.take (EcT.getSerializedByteSize fp c)) ioMode := by
  unfold EcT.loadFixed
  simp only [hhex, Bool.false_eq_true, if_false, EcT.getSerializedByteSize, List.take_take,
    min_self]

/-- **C21.** Serialized size.  `getSerializedByteSize()` is `N + adj` with `N`
the byte size of the field and `adj = 1` exactly when `b = 0` or the bit size
of the field IS a multiple of 8 (then no bit of the `N` bytes is free for the
parity of `y`), and `adj = 0` otherwise.  In the fixed-width format `save`
hands a buffer of this length to the output (and writes this number of bytes
when the output is binary), `load` fails unless its read fills a buffer of
this length, and on a binary stream `load` fails on fewer bytes and reads the
first `getSerializedByteSize()` bytes only. -/
theorem getSerializedByteSize_spec (buf0 : Nat → Nat) (fp : FpIo F) (e : Ext F) (c : Param F) (self old : EcT F)
    (is : List Nat) (ioMode : IoMode)
    (hproj : ioMode.IoEcProj = false) (hafs : ioMode.IoEcAffineSerialize = false)
    (hfix : (ioMode.IoSerialize || ioMode.IoSerializeHexStr) = true) :
    EcT.getSerializedByteSize fp c =
      fp.getByteSize + (if c.b_ = 0 ∨ fp.getBitSize % 8 = 0 then 1 else 0) ∧
    (∀ bytes, EcT.save buf0 fp c self ioMode = some bytes →
      ∃ buf, EcT.saveFixedBuf buf0 fp c self (EcT.normalize c self) = some buf ∧
        buf.length = EcT.getSerializedByteSize fp c ∧
        (ioMode.IoSerializeHexStr = false → bytes = buf) ∧
        (ioMode.IoSerializeHexStr = true → fp.writeHexStr buf = some bytes)) ∧
    ((EcT.load fp e c old is ioMode).1 = true →
      (if ioMode.IoSerializeHexStr then fp.readHexStr (EcT.getSerializedByteSize fp c) is
        else is.take (EcT.getSerializedByteSize fp c)).length =
          EcT.getSerializedByteSize fp c) ∧
    (ioMode.IoSerializeHexStr = false →
      (is.length < EcT.getSerializedByteSize fp c →
        (EcT.load fp e c old is ioMode).1 = false) ∧
      EcT.load fp e c old is ioMode =
        EcT.load fp e c old (is.take (EcT.getSerializedByteSize fp c)) ioMode) := by
  have hload : ∀ is, EcT.load fp e c old is ioMode =
      EcT.loadFixed fp e c ⟨old.x, old.y, 1⟩ is ioMode := by
    intro is
    unfold EcT.load
    simp only [hafs, hfix, Bool.false_eq_true, if_false, if_true]
  refine ⟨?_, ?_, ?_, ?_⟩
  · have h7 : fp.getBitSize &&& 7 = fp.getBitSize % 8 :=
      Nat.and_pow_two_sub_one_eq_mod fp.getBitSize 3
    unfold EcT.getSerializedByteSize EcT.isMSBserialize
    rw [h7]
    by_cases hb : c.b_ = 0 <;> by_cases h8 : fp.getBitSize % 8 = 0 <;> simp [hb, h8]
  · intro bytes hs
    unfold EcT.save at hs
    simp only [hproj, hafs, hfix, Bool.false_eq_true, if_false, if_true] at hs
    split at hs
    · exact absurd hs (by simp)
    · rename_i out hout
      refine ⟨out, hout, saveFixedBuf_length buf0 fp c self _ out hout, ?_, ?_⟩
      · intro hhex
        rw [hhex] at hs
        simpa using hs.symm
      · intro hhex
        rw [hhex] at hs
        simpa using hs
  · rw [hload]
    exact loadFixed_length fp e c _ is ioMode
  · intro hhex
    refine ⟨fun hlt => ?_, ?_⟩
    · rw [hload]
      by_contra h
      have h1 := loadFixed_length fp e c ⟨old.x, old.y, 1⟩ is ioMode (by simpa using h)
      rw [hhex] at h1
      simp only [Bool.false_eq_true, if_false, List.length_take] at h1
      omega
    · rw [hload, hload]
      exact loadFixed_take fp e c _ is ioMode hhex

/-- **C21, witness.** The field of 7 elements (3 bits, one byte) with `b = 4`. -/
theorem getSerializedByteSize_spec_witness :
    (IoMode.serialize.IoSerialize || IoMode.serialize.IoSerializeHexStr) = true ∧
    EcT.getSerializedByteSize fp7 (param7 Mode.Jacobi) =
      fp7.getByteSize + (if (param7 Mode.Jacobi).b_ = 0 ∨ fp7.getBitSize % 8 = 0 then 1 else 0) :=
  ⟨rfl, (getSerializedByteSize_spec (fun _ => 0) fp7 ext7 (param7 Mode.Jacobi) ⟨0, 5, 1⟩ ⟨0, 0, 0⟩ [128]
    IoMode.serialize rfl rfl rfl).1⟩

/-- **C21, counterexample.** The field of 7 elements has the bit size 3, not
a multiple of 8, and the byte size `N = 1`; on `y^2 = x^3 + 4`
`getSerializedByteSize()` is 1, that is `N` and not `N + 1`, `save` of the
point `(0, 5)` writes the single byte `0x80`, and `load` accepts it. -/
theorem getSerializedByteSize_counterexample :
    fp7.getBitSize % 8 ≠ 0 ∧ fp7.getByteSize = 1 ∧
    EcT.getSerializedByteSize fp7 (param7 Mode.Jacobi) = 1 ∧
    (∀ buf0 : Nat → Nat,
      EcT.save buf0 fp7 (param7 Mode.Jacobi) ⟨0, 5, 1⟩ IoMode.serialize = some [128]) ∧
    EcT.load fp7 ext7 (param7 Mode.Jacobi) ⟨0, 0, 0⟩ [128] IoMode.serialize =
      (true, ⟨0, 5, 1⟩) := by
  refine ⟨by decide, by decide, by decide, fun buf0 => ?_, by decide⟩
  rw [save_fixed buf0 fp7 (param7 Mode.Jacobi) ⟨0, 5, 1⟩ IoMode.serialize rfl rfl rfl rfl,
    saveFixedBuf_finite buf0 fp7 (param7 Mode.Jacobi) ⟨0, 5, 1⟩ _ rfl (by decide) [0]
      (by decide) rfl]
  decide

/-- The text block of `load` on the tag `'4'` followed by three parseable
field elements. -/
theorem loadText_tag4 (fp : FpIo F) (e : Ext F) (c : Param F) (P : EcT F) (is : List Nat)
    (ioMode : IoMode) (x y z : F) (r0 r1 r2 r3 : List Nat)
    (hskip : fp.skipSpace is = some (52, r0))
    (hx : fp.load ioMode r0 = some (x, r1))
    (hy : fp.load ioMode r1 = some (y, r2))
    (hz : fp.load ioMode r2 = some (z, r3)) :
    EcT.loadText fp e c P is ioMode =
      (if c.mode_ = Mode.Affine ∧ z ≠ 0 ∧ z ≠ 1 then false else EcT.isValid e c ⟨x, y, z⟩,
        ⟨x, y, z⟩) := by
  unfold EcT.loadText
  simp only [hskip, hx, hy, hz]
  rw [if_pos trivial]
  by_cases h : c.mode_ = Mode.Affine ∧ z ≠ 0 ∧ z ≠ 1
  · rw [if_pos h, if_pos h, if_neg (by decide), if_neg (by decide), if_neg (by decide)]
  · rw [if_neg h, if_neg h, if_neg (by decide), if_neg (by decide), if_neg (by decide)]

/-- **C25.** Raw-projective decoding (text `load`, tag `'4'`).  For every
input that consists of the tag `'4'` and three parseable field elements
`x, y, z`, `load` stores exactly `(x, y, z)`, and it reports what `isValid()`
says of this triple (curve equation in the mode of the curve, and the subgroup
check when enabled), after rejecting in Affine mode every `z` other than 0 and
1: the triple is validated, and success is not unconditional.  If the field
reads back what it writes (after the separator, if any), `save` with
`IoEcProj` followed by `load` returns the three coordinates of `P` for every
point `P` whose coordinates can be written, with the same verdict of
`isValid()`. -/
theorem load_raw_projective (buf0 : Nat → Nat) (fp : FpIo F) (e : Ext F) (c : Param F) (old : EcT F)
    (ioMode : IoMode)
    (hafs : ioMode.IoEcAffineSerialize = false)
    (hfix : (ioMode.IoSerialize || ioMode.IoSerializeHexStr) = false) :
    (∀ (is : List Nat) (x y z : F) (r0 r1 r2 r3 : List Nat),
      fp.skipSpace is = some (52, r0) → fp.load ioMode r0 = some (x, r1) →
      fp.load ioMode r1 = some (y, r2) → fp.load ioMode r2 = some (z, r3) →
      EcT.load fp e c old is ioMode =
        (if c.mode_ = Mode.Affine ∧ z ≠ 0 ∧ z ≠ 1 then false else EcT.isValid e c ⟨x, y, z⟩,
          ⟨x, y, z⟩)) ∧
    (ioMode.IoEcProj = true →
      (∀ rest, fp.skipSpace (52 :: rest) = some (52, rest)) →
      (∀ (v : F) (bv rest : List Nat), fp.save v ioMode = some bv →
        fp.load ioMode ((if fp.getIoSeparator ioMode ≠ 0 then [fp.getIoSeparator ioMode]
          else []) ++ bv ++ rest) = some (v, rest)) →
      ∀ (P : EcT F) (bx by1 bz : List Nat), fp.save P.x ioMode = some bx →
        fp.save P.y ioMode = some by1 → fp.save P.z ioMode = some bz →
        ∃ bytes, EcT.save buf0 fp c P ioMode = some bytes ∧
          EcT.load fp e c old bytes ioMode =
            (if c.mode_ = Mode.Affine ∧ P.z ≠ 0 ∧ P.z ≠ 1 then false else EcT.isValid e c P,
              P)) := by
  have hload : ∀ is, EcT.load fp e c old is ioMode =
      EcT.loadText fp e c ⟨old.x, old.y, 1⟩ is ioMode := by
    intro is
    unfold EcT.load
    simp only [hafs, hfix, Bool.false_eq_true, if_false]
  refine ⟨?_, ?_⟩
  · intro is x y z r0 r1 r2 r3 hskip hx hy hz
    rw [hload]
    exact loadText_tag4 fp e c _ is ioMode x y z r0 r1 r2 r3 hskip hx hy hz
  · intro hproj hsk hrt P bx by1 bz hbx hby hbz
    refine ⟨[52] ++ (if fp.getIoSeparator ioMode ≠ 0 then [fp.getIoSeparator ioMode] else []) ++
      bx ++ (if fp.getIoSeparator ioMode ≠ 0 then [fp.getIoSeparator ioMode] else []) ++ by1 ++
      (if fp.getIoSeparator ioMode ≠ 0 then [fp.getIoSeparator ioMode] else []) ++ bz, ?_, ?_⟩
    · unfold EcT.save
      simp only [hproj, if_true, hbx, hby, hbz]
    · rw [hload]
      have h := loadText_tag4 fp e c ⟨old.x, old.y, 1⟩
        (52 :: ((if fp.getIoSeparator ioMode ≠ 0 then [fp.getIoSeparator ioMode] else []) ++
          bx ++ ((if fp.getIoSeparator ioMode ≠ 0 then [fp.getIoSeparator ioMode] else []) ++
          by1 ++ ((if fp.getIoSeparator ioMode ≠ 0 then [fp.getIoSeparator ioMode] else []) ++
          bz ++ [])))) ioMode P.x P.y P.z _ _ _ _ (hsk _) (hrt _ _ _ hbx) (hrt _ _ _ hby)
        (hrt _ _ _ hbz)
      simp only [List.append_nil, List.append_assoc, List.singleton_append,
        List.cons_append, List.nil_append] at h ⊢
      exact h

/-- **C25, witness.** The field of 7 elements, Jacobi mode. -/
theorem load_raw_projective_witness :
    IoMode.text.IoEcAffineSerialize = false ∧
    (IoMode.text.IoSerialize || IoMode.text.IoSerializeHexStr) = false ∧
    EcT.load fp7 ext7 (param7 Mode.Jacobi) ⟨0, 0, 0⟩ [52, 0, 2, 1] IoMode.text =
      (if (param7 Mode.Jacobi).mode_ = Mode.Affine ∧ (1 : ZMod 7) ≠ 0 ∧ (1 : ZMod 7) ≠ 1
        then false else EcT.isValid ext7 (param7 Mode.Jacobi) ⟨0, 2, 1⟩, ⟨0, 2, 1⟩) :=
  ⟨rfl, rfl, (load_raw_projective (fun _ => 0) fp7 ext7 (param7 Mode.Jacobi) ⟨0, 0, 0⟩ IoMode.text
    rfl rfl).1 [52, 0, 2, 1] 0 2 1 [0, 2, 1] [2, 1] [1] [] rfl rfl rfl rfl⟩

/-- **C25, counterexample.** On `y^2 = x^3 + 4` over the field of 7 elements
the triple `(1, 1, 1)` is not on the curve (`1 ≠ 5`).  The text input `'4'`,
1, 1, 1 consists of the tag and three parseable elements; `load` stores
`(1, 1, 1)` and reports failure, in Jacobi mode and after `save` with
`IoEcProj` as well.  In Affine mode it reports failure for `z = 2`. -/
theorem load_raw_projective_counterexample :
    EcT.load fp7 ext7 (param7 Mode.Jacobi) ⟨0, 0, 0⟩ [52, 1, 1, 1] IoMode.text =
      (false, ⟨1, 1, 1⟩) ∧
    (∀ buf0 : Nat → Nat,
      EcT.save buf0 fp7 (param7 Mode.Jacobi) ⟨1, 1, 1⟩ IoMode.proj = some [52, 1, 1, 1]) ∧
    EcT.load fp7 ext7 (param7 Mode.Jacobi) ⟨0, 0, 0⟩ [52, 1, 1, 1] IoMode.proj =
      (false, ⟨1, 1, 1⟩) ∧
    EcT.load fp7 ext7 (param7 Mode.Affine) ⟨0, 0, 0⟩ [52, 0, 2, 2] IoMode.text =
      (false, ⟨0, 2, 2⟩) := by
  refine ⟨by decide, fun buf0 => rfl, by decide, by decide⟩

/-- **C26.** ETH serialization with `N = 3` bytes per field element, on
`y^2 = x^3 + 4` over the field of 7 elements.  `save` of the identity writes
`0xC0, 0, 0`.  The buffer `0xC0, 0, 5` has the infinity flag set and a last
byte that is not zero: the loop of `load` runs over `1 ≤ i < N - 1` and never
reads `buf[N - 1]`, so `load` reports success and yields the identity.  A
non-zero byte before the last one, as in `0xC0, 5, 0`, is rejected. -/
theorem loadETH_infinity_last_byte :
    fp7eth.getETHserialization = true ∧
    EcT.getSerializedByteSize fp7eth (param7 Mode.Jacobi) = 3 ∧
    (∀ buf0 : Nat → Nat,
      EcT.save buf0 fp7eth (param7 Mode.Jacobi) (EcT.clear (param7 Mode.Jacobi))
        IoMode.serialize = some [0xC0, 0, 0]) ∧
    (0xC0 : Nat) &&& 0x40 ≠ 0 ∧
    EcT.load fp7eth ext7 (param7 Mode.Jacobi) ⟨1, 1, 1⟩ [0xC0, 0, 5] IoMode.serialize =
      (true, EcT.clear (param7 Mode.Jacobi)) ∧
    EcT.load fp7eth ext7 (param7 Mode.Jacobi) ⟨1, 1, 1⟩ [0xC0, 5, 0] IoMode.serialize =
      (false, ⟨1, 1, 1⟩) := by
  refine ⟨by decide, by decide, fun buf0 => rfl, by decide, by decide, by decide⟩

/-- The ETH block of `load` on a buffer with the compressed flag clear. -/
theorem loadETH_not_compressed (fp : FpIo F) (e : Ext F) (c : Param F) (P : EcT F)
    (buf : List Nat) (h7 : buf.getD 0 0 &&& 0x80 = 0) :
    EcT.loadETH fp e c P buf = (false, P) := by
  unfold EcT.loadETH
  simp only []
  rw [if_pos h7]

/-- What the ETH block of `load` does check of a buffer with the compressed
and the infinity flag set: the first byte is `0xC0` and the bytes
`buf[1 .. N - 2]` are zero; `buf[N - 1]` is not read. -/
theorem loadETH_infinity (fp : FpIo F) (e : Ext F) (c : Param F) (P : EcT F)
    (buf : List Nat) (h7 : buf.getD 0 0 &&& 0x80 ≠ 0) (h6 : buf.getD 0 0 &&& 0x40 ≠ 0) :
    ((buf.getD 0 0 = 0xC0 ∧ ∀ i, 1 ≤ i → i < fp.getByteSize - 1 → buf.getD i 0 = 0) ∧
      EcT.loadETH fp e c P buf = (true, EcT.clear c)) ∨
    (¬ (buf.getD 0 0 = 0xC0 ∧ ∀ i, 1 ≤ i → i < fp.getByteSize - 1 → buf.getD i 0 = 0) ∧
      EcT.loadETH fp e c P buf = (false, P)) := by
  unfold EcT.loadETH
  simp only []
  rw [if_neg h7, if_pos h6]
  by_cases h0 : buf.getD 0 0 = 0xC0
  · have h0' : ¬ (buf.getD 0 0 ≠ 0x80 ||| 0x40) := by
      rw [h0]; decide
    rw [if_neg h0']
    by_cases hall : ∀ i, 1 ≤ i → i < fp.getByteSize - 1 → buf.getD i 0 = 0
    · refine Or.inl ⟨⟨h0, hall⟩, ?_⟩
      rw [if_neg]
      rw [List.any_eq_true]
      rintro ⟨i, hi, hne⟩
      rw [List.mem_range'_1] at hi
      have := hall i hi.1 (by omega)
      rw [this] at hne
      exact absurd hne (by decide)
    · refine Or.inr ⟨fun h => hall h.2, ?_⟩
      rw [if_pos]
      rw [List.any_eq_true]
      push_neg at hall
      obtain ⟨i, h1, h2, h3⟩ := hall
      exact ⟨i, by rw [List.mem_range'_1]; omega, by simpa using h3⟩
  · have h0' : buf.getD 0 0 ≠ 0x80 ||| 0x40 := by
      intro h; exact h0 (by rw [h]; decide)
    exact Or.inr ⟨fun h => h0 h.1, by rw [if_pos h0']⟩

/-- **C24.** `init(a, b, mode)` stores `a`, `b`, `b3 = 3 * b` and the mode,
classifies `a` as `Zero` when `a = 0`, as `Minus3` when `a ≠ 0` and `a = -3`,
as `GenericA` otherwise, classifies `b` as `Plus1` when `b = 1`, as `Plus4`
when `b ≠ 1` and `b = 4` (so whenever `b = 4` in a field where `4 ≠ 1`), as
`GenericB` otherwise, and resets `ioMode_`, `verifyOrder_`, `order_` and the
four hooks.  The string form reports failure and leaves every static member
as it was when one of the two strings fails to parse, and is `init` of the
parsed coefficients otherwise. -/
theorem init_spec (c : Param F) (a b : F) (mode : Mode) (setStr : List Nat → Option F)
    (astr bstr : List Nat) :
    (EcT.init c a b mode).a_ = a ∧ (EcT.init c a b mode).b_ = b ∧
    (EcT.init c a b mode).b3_ = 3 * b ∧ (EcT.init c a b mode).mode_ = mode ∧
    (EcT.init c a b mode).specialA_ =
      (if a = 0 then ModeCoeffA.Zero else if a = -3 then ModeCoeffA.Minus3
        else ModeCoeffA.GenericA) ∧
    (EcT.init c a b mode).specialB_ =
      (if b = 1 then ModeCoeffB.Plus1 else if b = 4 then ModeCoeffB.Plus4
        else ModeCoeffB.GenericB) ∧
    ((4 : F) ≠ 1 → b = 4 → (EcT.init c a b mode).specialB_ = ModeCoeffB.Plus4) ∧
    (EcT.init c a b mode).ioMode_ = 0 ∧ (EcT.init c a b mode).verifyOrder_ = false ∧
    (EcT.init c a b mode).order_ = 0 ∧
    (EcT.init c a b mode).mulVecGLV = none ∧ (EcT.init c a b mode).mulVecOpti = none ∧
    (EcT.init c a b mode).mulEachOpti = none ∧
    (EcT.init c a b mode).isValidOrderFast = none ∧
    ((setStr astr = none ∨ setStr bstr = none) →
      EcT.initStr setStr c astr bstr mode = (false, c)) ∧
    (∀ a0 b0, setStr astr = some a0 → setStr bstr = some b0 →
      EcT.initStr setStr c astr bstr mode = (true, EcT.init c a0 b0 mode)) := by
  refine ⟨rfl, rfl, mul_comm b 3, rfl, rfl, rfl, ?_, rfl, rfl, rfl, rfl, rfl, rfl, rfl, ?_, ?_⟩
  · intro h41 hb
    subst hb
    simp [EcT.init, h41]
  · intro h
    unfold EcT.initStr
    rcases h with h | h
    · rw [h]
    · rw [h]
      cases setStr astr <;> rfl
  · intro a0 b0 ha hb
    unfold EcT.initStr
    rw [ha, hb]

/-- One unit is its own value. -/
theorem unitsValue_one (us : Nat) (y : List Nat) : unitsValue us y 1 = y.getD 0 0 := by
  simp [unitsValue]

/-- Units that fit their width give a value below `2^(width * n)`. -/
theorem unitsValue_lt (us : Nat) (y : List Nat) (hfit : ∀ i, y.getD i 0 < 2 ^ (8 * us)) :
    ∀ n, unitsValue us y n < 2 ^ (8 * us * n) := by
  intro n
  induction n with
  | zero => simp [unitsValue]
  | succ n ih =>
    have h1 : y.getD n 0 + 1 ≤ 2 ^ (8 * us) := hfit n
    have h2 : (y.getD n 0 + 1) * 2 ^ (8 * us * n) ≤ 2 ^ (8 * us) * 2 ^ (8 * us * n) :=
      Nat.mul_le_mul_right _ h1
    have h3 : 2 ^ (8 * us * (n + 1)) = 2 ^ (8 * us) * 2 ^ (8 * us * n) := by
      rw [← pow_add]; congr 1; ring
    simp only [unitsValue]
    rw [h3]
    nlinarith

/-- A non-zero top unit makes the value at least its weight. -/
theorem unitsValue_ge (us : Nat) (y : List Nat) (n : Nat) (h : y.getD n 0 ≠ 0) :
    2 ^ (8 * us * n) ≤ unitsValue us y (n + 1) := by
  simp only [unitsValue]
  have : 1 ≤ y.getD n 0 := Nat.one_le_iff_ne_zero.mpr h
  nlinarith [Nat.zero_le (unitsValue us y n), Nat.mul_le_mul_right (2 ^ (8 * us * n)) this]

/-- After `getRealSize` the top unit is not zero, unless one unit is left. -/
theorem getRealSize_top (y : List Nat) :
    ∀ n, 2 ≤ getRealSize y n → y.getD (getRealSize y n - 1) 0 ≠ 0 := by
  intro n
  induction n with
  | zero => intro h; simp [getRealSize] at h
  | succ n ih =>
    intro h
    simp only [getRealSize] at h ⊢
    split_ifs at h ⊢ with h0
    · simpa using h0
    · exact ih h

/-- On its windowed-NAF path `mulArray` runs the digit loop with the width
`mulArrayW` and a table of `2^(w - 2)` entries. -/
theorem mulArray_naf_path (e : Ext F) (c : Param F) (x : EcT F) (y : List Nat)
    (isNegative : Bool) (hlen : y.length ≠ 0)
    (hpath : (if getRealSize y y.length ≤ 1 then mulSmallInt c x (y.getD 0 0) isNegative
      else none) = none) :
    EcT.mulArray e c x y isNegative false =
      (List.range (e.getNAFwidth
          (if isNegative then -(unitsValue e.unitSize y (getRealSize y y.length) : ℤ)
            else (unitsValue e.unitSize y (getRealSize y y.length) : ℤ))
          (EcT.mulArrayW e y)).length).foldl
        (fun z i => addTbl c (EcT.dbl c z)
          (mkTbl (fun t => EcT.add c t (EcT.dbl c x)) x (2 ^ (EcT.mulArrayW e y - 2)))
          (e.getNAFwidth
            (if isNegative then -(unitsValue e.unitSize y (getRealSize y y.length) : ℤ)
              else (unitsValue e.unitSize y (getRealSize y y.length) : ℤ))
            (EcT.mulArrayW e y))
          ((e.getNAFwidth
            (if isNegative then -(unitsValue e.unitSize y (getRealSize y y.length) : ℤ)
              else (unitsValue e.unitSize y (getRealSize y y.length) : ℤ))
            (EcT.mulArrayW e y)).length - 1 - i)) (EcT.clear c) := by
  unfold EcT.mulArray
  simp only [Bool.false_eq_true, if_false, if_neg hlen]
  rw [hpath]
  rfl

/-- The real size and the value of the scalar: one unit is left exactly when
the value fits one unit, and the value is at least `2^128` exactly when more
than 16 bytes of units are left (units of 4 or 8 bytes). -/
theorem getRealSize_value (us : Nat) (y : List Nat) (hus : us = 4 ∨ us = 8)
    (hfit : ∀ i, y.getD i 0 < 2 ^ (8 * us)) :
    (getRealSize y y.length = 1 →
      unitsValue us y (getRealSize y y.length) = y.getD 0 0 ∧ y.getD 0 0 < 2 ^ (8 * us)) ∧
    (getRealSize y y.length ≠ 1 → 2 ^ (8 * us) ≤ unitsValue us y (getRealSize y y.length)) ∧
    (getRealSize y y.length * us > 16 ↔
      2 ^ 128 ≤ unitsValue us y (getRealSize y y.length)) := by
  have hpos := getRealSize_pos y y.length
  have hlt := unitsValue_lt us y hfit (getRealSize y y.length)
  have hge : 2 ≤ getRealSize y y.length →
      2 ^ (8 * us * (getRealSize y y.length - 1)) ≤
        unitsValue us y (getRealSize y y.length) := by
    intro h2
    have ht := getRealSize_top y y.length h2
    have := unitsValue_ge us y (getRealSize y y.length - 1) ht
    rwa [Nat.sub_add_cancel hpos] at this
  generalize getRealSize y y.length = yn at hpos hlt hge ⊢
  refine ⟨?_, ?_, ?_⟩
  · intro h1
    subst h1
    exact ⟨unitsValue_one us y, hfit 0⟩
  · intro h1
    have h2 : 2 ≤ yn := by omega
    refine le_trans (Nat.pow_le_pow_right (by norm_num) ?_) (hge h2)
    have : 1 ≤ yn - 1 := by omega
    nlinarith
  · constructor
    · intro h
      have h2 : 2 ≤ yn := by rcases hus with h | h <;> subst h <;> omega
      refine le_trans (Nat.pow_le_pow_right (by norm_num) ?_) (hge h2)
      rcases hus with h | h <;> subst h <;> omega
    · intro h
      by_contra hn
      have : 2 ^ (8 * us * yn) ≤ 2 ^ 128 :=
        Nat.pow_le_pow_right (by norm_num) (by rcases hus with h | h <;> subst h <;> omega)
      omega

/-- **C27.** Window width of `mulArray` on its windowed-NAF path, for units of
4 or 8 bytes that fit their width.  With `v` the absolute value of the scalar
(the units left after `getRealSize`): `w = 3` exactly when the bit length of
`v` is below 33 or, with 8-byte units, `v` is `2^32` itself (bit length 33:
the test is `*y <= 2^32` on a single unit); `w = 5` exactly when the bit
length of `v` is above 128; `w = 4` otherwise.  So `w` is 3, 4 or 5, and the
table of `2^(w - 2)` entries fits the array of `maxTblSize = 8` entries.  On
the windowed-NAF path `mulArray` runs with this `w`. -/
theorem mulArray_width (e : Ext F) (c : Param F) (x : EcT F) (y : List Nat)
    (isNegative : Bool) (hus : e.unitSize = 4 ∨ e.unitSize = 8)
    (hfit : ∀ i, y.getD i 0 < 2 ^ (8 * e.unitSize)) :
    (EcT.mulArrayW e y = 3 ↔
      Nat.size (unitsValue e.unitSize y (getRealSize y y.length)) < 33 ∨
      (e.unitSize = 8 ∧ unitsValue e.unitSize y (getRealSize y y.length) = 2 ^ 32)) ∧
    (EcT.mulArrayW e y = 5 ↔
      128 < Nat.size (unitsValue e.unitSize y (getRealSize y y.length))) ∧
    (EcT.mulArrayW e y = 3 ∨ EcT.mulArrayW e y = 4 ∨ EcT.mulArrayW e y = 5) ∧
    2 ^ (EcT.mulArrayW e y - 2) ≤ EcT.maxTblSize ∧
    (mkTbl (fun t => EcT.add c t (EcT.dbl c x)) x (2 ^ (EcT.mulArrayW e y - 2))).length ≤
      EcT.maxTblSize ∧
    (y.length ≠ 0 →
      (if getRealSize y y.length ≤ 1 then mulSmallInt c x (y.getD 0 0) isNegative
        else none) = none →
      EcT.mulArray e c x y isNegative false =
        (List.range (e.getNAFwidth
            (if isNegative then -(unitsValue e.unitSize y (getRealSize y y.length) : ℤ)
              else (unitsValue e.unitSize y (getRealSize y y.length) : ℤ))
            (EcT.mulArrayW e y)).length).foldl
          (fun z i => addTbl c (EcT.dbl c z)
            (mkTbl (fun t => EcT.add c t (EcT.dbl c x)) x (2 ^ (EcT.mulArrayW e y - 2)))
            (e.getNAFwidth
              (if isNegative then -(unitsValue e.unitSize y (getRealSize y y.length) : ℤ)
                else (unitsValue e.unitSize y (getRealSize y y.length) : ℤ))
              (EcT.mulArrayW e y))
            ((e.getNAFwidth
              (if isNegative then -(unitsValue e.unitSize y (getRealSize y y.length) : ℤ)
                else (unitsValue e.unitSize y (getRealSize y y.length) : ℤ))
              (EcT.mulArrayW e y)).length - 1 - i)) (EcT.clear c)) := by
  obtain ⟨h1, h2, h3⟩ := getRealSize_value e.unitSize y hus hfit
  have hw : EcT.mulArrayW e y =
      if getRealSize y y.length = 1 ∧ y.getD 0 0 ≤ 2 ^ 32 then 3
      else if getRealSize y y.length * e.unitSize > 16 then 5 else 4 := rfl
  have hsz3 : Nat.size (unitsValue e.unitSize y (getRealSize y y.length)) < 33 ↔
      unitsValue e.unitSize y (getRealSize y y.length) < 2 ^ 32 := by
    rw [Nat.lt_succ_iff, Nat.size_le]
  have hsz5 : 128 < Nat.size (unitsValue e.unitSize y (getRealSize y y.length)) ↔
      2 ^ 128 ≤ unitsValue e.unitSize y (getRealSize y y.length) := Nat.lt_size
  have hw345 : EcT.mulArrayW e y = 3 ∨ EcT.mulArrayW e y = 4 ∨ EcT.mulArrayW e y = 5 := by
    rw [hw]; split_ifs <;> simp
  have hp32 : (2 : Nat) ^ 32 ≤ 2 ^ (8 * e.unitSize) :=
    Nat.pow_le_pow_right (by norm_num) (by rcases hus with h | h <;> omega)
  have hp128 : (2 : Nat) ^ 32 < 2 ^ 128 := by norm_num
  have htbl : 2 ^ (EcT.mulArrayW e y - 2) ≤ EcT.maxTblSize := by
    rcases hw345 with h | h | h <;> rw [h] <;> decide
  refine ⟨?_, ?_, hw345, htbl, ?_, mulArray_naf_path e c x y isNegative⟩
  · rw [hsz3, hw]
    generalize unitsValue e.unitSize y (getRealSize y y.length) = v at h1 h2 h3
    by_cases hyn : getRealSize y y.length = 1
    · obtain ⟨hv, hv2⟩ := h1 hyn
      rw [← hv] at hv2 ⊢
      have h64 : e.unitSize = 4 → v < 2 ^ 32 := by
        intro h; rw [h] at hv2; exact hv2
      by_cases hle : v ≤ 2 ^ 32
      · rw [if_pos ⟨hyn, hle⟩]
        refine ⟨fun _ => ?_, fun _ => rfl⟩
        rcases hus with h | h
        · exact Or.inl (h64 h)
        · rcases Nat.lt_or_eq_of_le hle with h' | h'
          · exact Or.inl h'
          · exact Or.inr ⟨h, h'⟩
      · rw [if_neg (fun h => hle h.2)]
        constructor
        · intro h; split_ifs at h <;> exact absurd h (by decide)
        · rintro (h | ⟨_, h⟩) <;> omega
    · have hv := h2 hyn
      rw [if_neg (fun h => hyn h.1)]
      constructor
      · intro h; split_ifs at h <;> exact absurd h (by decide)
      · rintro (h | ⟨h8, h⟩)
        · omega
        · rw [h8] at hv
          have : (2 : Nat) ^ 32 < 2 ^ (8 * 8) := by norm_num
          omega
  · rw [hsz5, hw, ← h3]
    by_cases hyn : getRealSize y y.length = 1
    · have hnot : ¬ getRealSize y y.length * e.unitSize > 16 := by
        rw [hyn]; rcases hus with h | h <;> omega
      split_ifs <;> simp_all
    · rw [if_neg (fun h => hyn h.1)]
      split_ifs with h <;> simp [h]
  · rw [mkTbl_length]
    exact htbl

/-- **C27, witness.** A scalar of 17 with 8-byte units. -/
theorem mulArray_width_witness :
    (ext7.unitSize = 4 ∨ ext7.unitSize = 8) ∧
    (EcT.mulArrayW ext7 [17] = 3 ∨ EcT.mulArrayW ext7 [17] = 4 ∨ EcT.mulArrayW ext7 [17] = 5) :=
  ⟨Or.inr rfl, (mulArray_width ext7 (param7 Mode.Jacobi) ⟨0, 2, 1⟩ [17] false (Or.inr rfl)
    (fun i => by
      rcases i with _ | i
      · show (17 : Nat) < 2 ^ (8 * 8)
        norm_num
      · show (0 : Nat) < 2 ^ (8 * 8)
        norm_num)).2.2.1⟩

/-- **C27, counterexample.** The scalar `2^32` with 8-byte units: one unit,
larger than 16, so `mulSmallInt` declines and `mulArray` takes the
windowed-NAF path; the bit length of `2^32` is 33, not below 33, and the
width is 3, not 4. -/
theorem mulArray_width_counterexample :
    ext7.unitSize = 8 ∧ getRealSize [2 ^ 32] [2 ^ 32].length = 1 ∧
    unitsValue ext7.unitSize [2 ^ 32] 1 = 2 ^ 32 ∧
    mulSmallInt (param7 Mode.Jacobi) ⟨0, 2, 1⟩ ([2 ^ 32].getD 0 0) false = none ∧
    Nat.size (2 ^ 32) = 33 ∧
    EcT.mulArrayW ext7 [2 ^ 32] = 3 := by
  refine ⟨rfl, by decide, by simp [unitsValue], ?_, Nat.size_pow, by decide⟩
  exact mulSmallInt_none _ _ _ (by norm_num) _

/-- **C23.** Affine mode on `y^2 = x^3 + 4` over the field of 7 elements,
with the two representations of the identity `P = clear() = (0, 1, 0)` and
`Q = (0, 0, 0)` (what `load` leaves for the all-zero affine-serialize
encoding).  Both are zero; `P == Q` is false and `P == neg(Q)` is true, and
`isEqualOrMinus(P, Q)` returns 0: not 1, as for two identities, and not -1, as
for `P != Q` and `P == neg(Q)`.  In Jacobi and in Proj mode the same two
triples give 1. -/
theorem isEqualOrMinus_affine_identity :
    EcT.isZero (⟨0, 1, 0⟩ : EcT (ZMod 7)) = true ∧
    EcT.isZero (⟨0, 0, 0⟩ : EcT (ZMod 7)) = true ∧
    EcT.eq (param7 Mode.Affine) ⟨0, 1, 0⟩ ⟨0, 0, 0⟩ = false ∧
    EcT.neg (param7 Mode.Affine) ⟨0, 0, 0⟩ = ⟨0, 1, 0⟩ ∧
    EcT.eq (param7 Mode.Affine) ⟨0, 1, 0⟩ (EcT.neg (param7 Mode.Affine) ⟨0, 0, 0⟩) = true ∧
    EcT.isEqualOrMinus (param7 Mode.Affine) ⟨0, 1, 0⟩ ⟨0, 0, 0⟩ = 0 ∧
    EcT.isEqualOrMinus (param7 Mode.Jacobi) ⟨0, 1, 0⟩ ⟨0, 0, 0⟩ = 1 ∧
    EcT.isEqualOrMinus (param7 Mode.Proj) ⟨0, 1, 0⟩ ⟨0, 0, 0⟩ = 1 := by
  decide

/-- The function `isEqualJacobi` decides equality of the represented points. -/
theorem isEqualJacobi_iff (P Q : EcT F) :
    isEqualJacobi P Q = true ↔
      (P.z = 0 ∧ Q.z = 0) ∨ (P.z ≠ 0 ∧ Q.z ≠ 0 ∧ affineOfJacobi P = affineOfJacobi Q) := by
  refine ⟨fun h => ?_, isEqualJacobi_of_same P Q⟩
  unfold isEqualJacobi at h
  simp only [isZero_iff] at h
  by_cases hP : P.z = 0
  · simp only [hP, if_true, decide_eq_true_eq] at h
    exact Or.inl ⟨hP, by simpa using h⟩
  · by_cases hQ : Q.z = 0
    · simp [hP, hQ] at h
    · simp only [hP, hQ, decide_False, Bool.false_eq_true, if_false] at h
      refine Or.inr ⟨hP, hQ, ?_⟩
      split_ifs at h with hx
      simp only [decide_eq_true_eq] at h
      simp only [affineOfJacobi, EcT.mk.injEq, and_true]
      push_neg at hx
      constructor
      · rw [div_eq_div_iff (pow_ne_zero 2 hP) (pow_ne_zero 2 hQ)]
        exact hx
      · rw [div_eq_div_iff (pow_ne_zero 3 hP) (pow_ne_zero 3 hQ)]
        linear_combination h

/-- The function `isEqualProj` decides equality of the represented points. -/
theorem isEqualProj_iff (P Q : EcT F) :
    isEqualProj P Q = true ↔
      (P.z = 0 ∧ Q.z = 0) ∨ (P.z ≠ 0 ∧ Q.z ≠ 0 ∧ affineOfProj P = affineOfProj Q) := by
  refine ⟨fun h => ?_, isEqualProj_of_same P Q⟩
  unfold isEqualProj at h
  simp only [isZero_iff] at h
  by_cases hP : P.z = 0
  · simp only [hP, if_true, decide_eq_true_eq] at h
    exact Or.inl ⟨hP, by simpa using h⟩
  · by_cases hQ : Q.z = 0
    · simp [hP, hQ] at h
    · simp only [hP, hQ, decide_False, Bool.false_eq_true, if_false] at h
      refine Or.inr ⟨hP, hQ, ?_⟩
      split_ifs at h with hx
      simp only [decide_eq_true_eq] at h
      simp only [affineOfProj, EcT.mk.injEq, and_true]
      push_neg at hx
      constructor
      · rw [div_eq_div_iff hP hQ]
        exact hx
      · rw [div_eq_div_iff hP hQ]
        exact h

/-- In Jacobi and in Proj mode `operator==` holds exactly of two triples that
stand for the same point; it is reflexive, symmetric and transitive. -/
theorem eq_iff_samePoint (c : Param F) (hm : c.mode_ ≠ Mode.Affine) (P Q : EcT F) :
    (EcT.eq c P Q = true ↔ SamePoint c P Q) ∧ EcT.eq c P P = true ∧
    (EcT.eq c P Q = true → EcT.eq c Q P = true) ∧
    (∀ R, EcT.eq c P Q = true → EcT.eq c Q R = true → EcT.eq c P R = true) := by
  have key : ∀ P Q : EcT F, EcT.eq c P Q = true ↔ SamePoint c P Q := by
    intro P Q
    unfold EcT.eq SamePoint
    cases hc : c.mode_ with
    | Jacobi => exact isEqualJacobi_iff P Q
    | Proj => exact isEqualProj_iff P Q
    | Affine => exact absurd hc hm
  refine ⟨key P Q, (key P P).2 (samePoint_refl c P),
    fun h => (key Q P).2 (samePoint_symm c P Q ((key P Q).1 h)), fun R h1 h2 => ?_⟩
  rw [key] at h1 h2 ⊢
  rcases h1 with ⟨a, b⟩ | ⟨a, b, h1⟩
  · rcases h2 with ⟨_, d⟩ | ⟨d, _, _⟩
    · exact Or.inl ⟨a, d⟩
    · exact absurd b d
  · rcases h2 with ⟨d, _⟩ | ⟨_, d, h2⟩
    · exact absurd d b
    · exact Or.inr ⟨a, d, h1.trans h2⟩

/-- The three-way test of Jacobi mode against `isEqualJacobi` and `neg`. -/
theorem isEqualOrMinusJacobi_spec (c : Param F) (P Q : EcT F) :
    (isEqualOrMinusJacobi P Q = 1 ↔ isEqualJacobi P Q = true) ∧
    (isEqualOrMinusJacobi P Q = -1 ↔
      isEqualJacobi P Q = false ∧ isEqualJacobi P (EcT.neg c Q) = true) := by
  have hc := clear_z c
  by_cases hP : P.z = 0
  · by_cases hQ : Q.z = 0
    · simp [isEqualOrMinusJacobi, isEqualJacobi, EcT.neg, isZero_iff, hP, hQ]
    · simp [isEqualOrMinusJacobi, isEqualJacobi, EcT.neg, isZero_iff, hP, hQ]
  · by_cases hQ : Q.z = 0
    · simp [isEqualOrMinusJacobi, isEqualJacobi, EcT.neg, isZero_iff, hP, hQ, hc]
    · simp only [isEqualOrMinusJacobi, isEqualJacobi, EcT.neg, isZero_iff, hP, hQ,
        decide_False, Bool.false_eq_true, if_false]
      by_cases hx : P.x * Q.z ^ 2 = Q.x * P.z ^ 2
      · simp only [hx, ne_eq, not_true_eq_false, if_false]
        by_cases hy : P.y * Q.z ^ 2 * Q.z = Q.y * P.z ^ 2 * P.z
        · simp [hy]
        · have hiff : -(P.y * Q.z ^ 2 * Q.z) = Q.y * P.z ^ 2 * P.z ↔
              P.y * Q.z ^ 2 * Q.z = -(Q.y * P.z ^ 2 * P.z) := by
            constructor <;> intro h <;> linear_combination -h
          by_cases hn : -(P.y * Q.z ^ 2 * Q.z) = Q.y * P.z ^ 2 * P.z
          · simp [hy, hn, hiff.1 hn]
          · have hn2 := fun h => hn (hiff.2 h)
            simp [hy, hn]
            exact hn2
      · simp [hx]

/-- The three-way test of Proj mode against `isEqualProj` and `neg`. -/
theorem isEqualOrMinusProj_spec (c : Param F) (P Q : EcT F) :
    (isEqualOrMinusProj P Q = 1 ↔ isEqualProj P Q = true) ∧
    (isEqualOrMinusProj P Q = -1 ↔
      isEqualProj P Q = false ∧ isEqualProj P (EcT.neg c Q) = true) := by
  have hc := clear_z c
  by_cases hP : P.z = 0
  · by_cases hQ : Q.z = 0
    · simp [isEqualOrMinusProj, isEqualProj, EcT.neg, isZero_iff, hP, hQ]
    · simp [isEqualOrMinusProj, isEqualProj, EcT.neg, isZero_iff, hP, hQ]
  · by_cases hQ : Q.z = 0
    · simp [isEqualOrMinusProj, isEqualProj, EcT.neg, isZero_iff, hP, hQ, hc]
    · simp only [isEqualOrMinusProj, isEqualProj, EcT.neg, isZero_iff, hP, hQ,
        decide_False, Bool.false_eq_true, if_false]
      by_cases hx : P.x * Q.z = Q.x * P.z
      · simp only [hx, ne_eq, not_true_eq_false, if_false]
        by_cases hy : P.y * Q.z = Q.y * P.z
        · simp [hy]
        · have hiff : -(P.y * Q.z) = Q.y * P.z ↔ P.y * Q.z = -(Q.y * P.z) := by
            constructor <;> intro h <;> linear_combination -h
          by_cases hn : -(P.y * Q.z) = Q.y * P.z
          · simp [hy, hn, hiff.1 hn]
          · have hn2 := fun h => hn (hiff.2 h)
            simp [hy, hn]
            exact hn2
      · simp [hx]

/-- What does hold of `isEqualOrMinus`: in Jacobi and in Proj mode for all
triples, in Affine mode for triples with `z = 1` or equal to the cleared
identity, it returns 1 exactly when `P == Q`, -1 exactly when `P != Q` and
`P == neg(Q)`, and 0 otherwise. -/
theorem isEqualOrMinus_spec (c : Param F) (P Q : EcT F) (hP : AffineNormal c P)
    (hQ : AffineNormal c Q) :
    (EcT.isEqualOrMinus c P Q = 1 ↔ EcT.eq c P Q = true) ∧
    (EcT.isEqualOrMinus c P Q = -1 ↔
      EcT.eq c P Q = false ∧ EcT.eq c P (EcT.neg c Q) = true) ∧
    (EcT.isEqualOrMinus c P Q = 1 ∨ EcT.isEqualOrMinus c P Q = -1 ∨
      EcT.isEqualOrMinus c P Q = 0) := by
  have h3 : EcT.isEqualOrMinus c P Q = 1 ∨ EcT.isEqualOrMinus c P Q = -1 ∨
      EcT.isEqualOrMinus c P Q = 0 := by
    unfold EcT.isEqualOrMinus isEqualOrMinusJacobi isEqualOrMinusProj
    cases c.mode_ <;> simp only [] <;> split_ifs <;> simp
  refine ⟨?_, ?_, h3⟩
  · unfold EcT.isEqualOrMinus EcT.eq
    cases hm : c.mode_ with
    | Jacobi => exact (isEqualOrMinusJacobi_spec c P Q).1
    | Proj => exact (isEqualOrMinusProj_spec c P Q).1
    | Affine =>
      simp only []
      split_ifs <;> simp_all
  · cases hm : c.mode_ with
    | Jacobi =>
      have := (isEqualOrMinusJacobi_spec c P Q).2
      simpa only [EcT.isEqualOrMinus, EcT.eq, hm] using this
    | Proj =>
      have := (isEqualOrMinusProj_spec c P Q).2
      simpa only [EcT.isEqualOrMinus, EcT.eq, hm] using this
    | Affine =>
      have hcl : EcT.clear c = ⟨0, 1, 0⟩ := by simp [EcT.clear, hm]
      have h1 : (1 : F) ≠ 0 := one_ne_zero
      rcases hP hm with hP | hP <;> rcases hQ hm with hQ | hQ
      · simp only [EcT.isEqualOrMinus, EcT.eq, hm, EcT.neg, isZero_iff, hQ, h1, if_false, hP]
        split_ifs <;> simp_all
      · subst hQ
        simp only [EcT.isEqualOrMinus, EcT.eq, hm, EcT.neg, isZero_iff, hcl, if_true, hP]
        simp [h1]
      · subst hP
        simp only [EcT.isEqualOrMinus, EcT.eq, hm, EcT.neg, isZero_iff, hQ, h1, if_false, hcl]
        simp [h1, eq_comm]
      · subst hP; subst hQ
        simp [EcT.isEqualOrMinus, EcT.eq, hm, EcT.neg, isZero_iff, hcl]

/-- A loop that threads a log of calls beside its data computes the data of
the plain loop and appends the calls of every round. -/
theorem foldl_logged {α ι κ : Type} (f : α → ι → α) (t : ι → List κ) (l : List ι) :
    ∀ (z : α) (log : List κ),
      l.foldl (fun (zs : α × List κ) i => (f zs.1 i, zs.2 ++ t i)) (z, log) =
        (l.foldl f z, log ++ l.flatMap t) := by
  induction l with
  | nil => intro z log; simp
  | cons a l ih =>
    intro z log
    simp only [List.foldl_cons, List.flatMap_cons, ih, List.append_assoc]

/-- The table that the logged loop builds is the table of `mulArrayCT`, and
its calls are `tblAdd 2, ..., tblAdd 15`. -/
theorem ctTbl_logged (c : Param F) (x : EcT F) :
    (List.range' 2 (2 ^ 4 - 2)).foldl (fun (st : List (EcT F) × List CTCall) i =>
      (st.1 ++ [EcT.add c (st.1.getD (i - 1) ⟨0, 0, 0⟩) x], st.2 ++ [CTCall.tblAdd i]))
      ([EcT.clear c, x], []) =
    (EcT.clear c :: mkTbl (fun t => EcT.add c t x) x (2 ^ 4 - 1),
      (List.range' 2 14).map CTCall.tblAdd) := by
  rfl

/-- The same for a loop whose round is shown to have this form. -/
theorem foldl_logged_of {α ι κ : Type} (step : α × List κ → ι → α × List κ)
    (f : α → ι → α) (t : ι → List κ)
    (h : ∀ zs i, step zs i = (f zs.1 i, zs.2 ++ t i)) (l : List ι) (zs : α × List κ) :
    l.foldl step zs = (l.foldl f zs.1, zs.2 ++ l.flatMap t) := by
  have hs : step = fun zs i => (f zs.1 i, zs.2 ++ t i) := funext fun zs => funext (h zs)
  subst hs
  obtain ⟨z, log⟩ := zs
  exact foldl_logged f t l z log

/-- The logged `mulArrayCT` returns the point of `mulArrayCT`, and its calls
are: the 14 additions `tblAdd 2, ..., tblAdd 15`; for every unit, from the
last one down, and for every nibble of it, from the top one down, four
doublings and the addition of the table entry that the nibble selects; and
one negation at the end when `isNegative` is set. -/
theorem mulArrayCTCalls_eq (e : Ext F) (c : Param F) (x : EcT F) (y : List Nat)
    (isNegative : Bool) :
    EcT.mulArrayCTCalls e c x y isNegative =
      (EcT.mulArrayCT e c x y isNegative,
        (List.range' 2 14).map CTCall.tblAdd ++
        (List.range y.length).flatMap (fun i =>
          (List.range (e.unitSize * 8 / 4)).flatMap (fun j =>
            List.replicate 4 CTCall.dbl ++
              [CTCall.addTbl ((y.getD (y.length - 1 - i) 0 >>>
                ((e.unitSize * 8 / 4 - 1 - j) * 4)) &&& (2 ^ 4 - 1))])) ++
        (if isNegative then [CTCall.neg] else [])) := by
  unfold EcT.mulArrayCTCalls EcT.mulArrayCT
  simp only []
  rw [ctTbl_logged]
  simp only []
  have inner : ∀ zs : EcT F × List CTCall,
      (List.range 4).foldl (fun zs _ => (EcT.dbl c zs.1, zs.2 ++ [CTCall.dbl])) zs =
        ((List.range 4).foldl (fun z _ => EcT.dbl c z) zs.1,
          zs.2 ++ List.replicate 4 CTCall.dbl) := by
    intro zs
    rw [foldl_logged_of _ (fun z _ => EcT.dbl c z) (fun _ => [CTCall.dbl]) (fun _ _ => rfl)]
    rfl
  have middle : ∀ (v : Nat) (zs : EcT F × List CTCall),
      (List.range (e.unitSize * 8 / 4)).foldl (fun zs j =>
        (EcT.add c ((List.range 4).foldl (fun zs _ =>
            (EcT.dbl c zs.1, zs.2 ++ [CTCall.dbl])) zs).1
          ((EcT.clear c :: mkTbl (fun t => EcT.add c t x) x (2 ^ 4 - 1)).getD
            ((v >>> ((e.unitSize * 8 / 4 - 1 - j) * 4)) &&& (2 ^ 4 - 1)) ⟨0, 0, 0⟩),
         ((List.range 4).foldl (fun zs _ =>
            (EcT.dbl c zs.1, zs.2 ++ [CTCall.dbl])) zs).2 ++
          [CTCall.addTbl ((v >>> ((e.unitSize * 8 / 4 - 1 - j) * 4)) &&& (2 ^ 4 - 1))])) zs =
      ((List.range (e.unitSize * 8 / 4)).foldl (fun z j =>
          EcT.add c ((List.range 4).foldl (fun z _ => EcT.dbl c z) z)
            ((EcT.clear c :: mkTbl (fun t => EcT.add c t x) x (2 ^ 4 - 1)).getD
              ((v >>> ((e.unitSize * 8 / 4 - 1 - j) * 4)) &&& (2 ^ 4 - 1)) ⟨0, 0, 0⟩)) zs.1,
        zs.2 ++ (List.range (e.unitSize * 8 / 4)).flatMap (fun j =>
          List.replicate 4 CTCall.dbl ++
            [CTCall.addTbl ((v >>> ((e.unitSize * 8 / 4 - 1 - j) * 4)) &&& (2 ^ 4 - 1))])) := by
    intro v zs
    refine foldl_logged_of _ _ _ (fun zs j => ?_) _ zs
    rw [inner, List.append_assoc]
  have outer := foldl_logged_of
    (fun (zs : EcT F × List CTCall) i =>
      (List.range (e.unitSize * 8 / 4)).foldl (fun zs j =>
        (EcT.add c ((List.range 4).foldl (fun zs _ =>
            (EcT.dbl c zs.1, zs.2 ++ [CTCall.dbl])) zs).1
          ((EcT.clear c :: mkTbl (fun t => EcT.add c t x) x (2 ^ 4 - 1)).getD
            ((y.getD (y.length - 1 - i) 0 >>> ((e.unitSize * 8 / 4 - 1 - j) * 4)) &&&
              (2 ^ 4 - 1)) ⟨0, 0, 0⟩),
         ((List.range 4).foldl (fun zs _ =>
            (EcT.dbl c zs.1, zs.2 ++ [CTCall.dbl])) zs).2 ++
          [CTCall.addTbl ((y.getD (y.length - 1 - i) 0 >>>
            ((e.unitSize * 8 / 4 - 1 - j) * 4)) &&& (2 ^ 4 - 1))])) zs)
    (fun z i => (List.range (e.unitSize * 8 / 4)).foldl (fun z j =>
          EcT.add c ((List.range 4).foldl (fun z _ => EcT.dbl c z) z)
            ((EcT.clear c :: mkTbl (fun t => EcT.add c t x) x (2 ^ 4 - 1)).getD
              ((y.getD (y.length - 1 - i) 0 >>> ((e.unitSize * 8 / 4 - 1 - j) * 4)) &&&
                (2 ^ 4 - 1)) ⟨0, 0, 0⟩)) z)
    (fun i => (List.range (e.unitSize * 8 / 4)).flatMap (fun j =>
          List.replicate 4 CTCall.dbl ++
            [CTCall.addTbl ((y.getD (y.length - 1 - i) 0 >>>
              ((e.unitSize * 8 / 4 - 1 - j) * 4)) &&& (2 ^ 4 - 1))]))
    (fun zs i => middle _ zs) (List.range y.length)
    (EcT.clear c, (List.range' 2 14).map CTCall.tblAdd)
  rw [outer]
  cases isNegative <;> simp

/-- **C28.** The sequence of group operations of the constant-time multiply
does not depend on the scalar.  The logged `mulArrayCT` returns the point of
`mulArrayCT`; its calls are the 14 additions that fill `tbl[2 .. 15]`, then
for each of the `yn * (unitBits / 4)` nibbles, from the most significant one
down (zero nibbles and leading zero units included), exactly 4 doublings
followed by one addition of the table entry selected by the nibble, and
finally one negation when `isNegative` is set, whatever the units are; so for
two unit arrays `y`, `y'` of the same length and the same sign flag the two
sequences have the same length and differ only in the table index of the
additions. -/
theorem mulArrayCT_call_sequence (e : Ext F) (c : Param F) (x : EcT F) (y y' : List Nat)
    (isNegative : Bool) (hlen : y.length = y'.length) :
    (EcT.mulArrayCTCalls e c x y isNegative).1 = EcT.mulArrayCT e c x y isNegative ∧
    (EcT.mulArrayCTCalls e c x y isNegative).2 =
      (List.range' 2 14).map CTCall.tblAdd ++
      (List.range y.length).flatMap (fun i =>
        (List.range (e.unitSize * 8 / 4)).flatMap (fun j =>
          List.replicate 4 CTCall.dbl ++
            [CTCall.addTbl ((y.getD (y.length - 1 - i) 0 >>>
              ((e.unitSize * 8 / 4 - 1 - j) * 4)) &&& (2 ^ 4 - 1))])) ++
      (if isNegative then [CTCall.neg] else []) ∧
    (EcT.mulArrayCTCalls e c x y isNegative).2.map CTCall.shape =
      (List.range' 2 14).map CTCall.tblAdd ++
      (List.replicate (y.length * (e.unitSize * 8 / 4))
        (List.replicate 4 CTCall.dbl ++ [CTCall.addTbl 0])).flatten ++
      (if isNegative then [CTCall.neg] else []) ∧
    (EcT.mulArrayCTCalls e c x y isNegative).2.map CTCall.shape =
      (EcT.mulArrayCTCalls e c x y' isNegative).2.map CTCall.shape ∧
    (EcT.mulArrayCTCalls e c x y isNegative).2.length =
      (EcT.mulArrayCTCalls e c x y' isNegative).2.length := by
  have hshape : ∀ y : List Nat, (EcT.mulArrayCTCalls e c x y isNegative).2.map CTCall.shape =
      (List.range' 2 14).map CTCall.tblAdd ++
      (List.replicate (y.length * (e.unitSize * 8 / 4))
        (List.replicate 4 CTCall.dbl ++ [CTCall.addTbl 0])).flatten ++
      (if isNegative then [CTCall.neg] else []) := by
    intro y
    rw [mulArrayCTCalls_eq]
    simp only [List.map_append, List.map_flatMap, List.map_map]
    have h2 : ∀ k : Nat, List.map CTCall.shape (List.replicate 4 CTCall.dbl) ++
        List.map CTCall.shape [CTCall.addTbl k] =
          List.replicate 4 CTCall.dbl ++ [CTCall.addTbl 0] := fun _ => rfl
    have h3 : List.map CTCall.shape (if isNegative then [CTCall.neg] else []) =
        (if isNegative then [CTCall.neg] else []) := by cases isNegative <;> rfl
    have h4 : ∀ (n : Nat) (l : List CTCall),
        (List.range n).flatMap (fun _ => l) = (List.replicate n l).flatten := by
      intro n l
      induction n with
      | zero => rfl
      | succ n ih =>
        rw [List.range_succ, List.flatMap_append, ih, List.replicate_succ']
        simp
    have h5 : ∀ (a b : Nat) (l : List CTCall),
        (List.replicate a (List.replicate b l).flatten).flatten =
          (List.replicate (a * b) l).flatten := by
      intro a b l
      induction a with
      | zero => simp
      | succ a ih =>
        rw [List.replicate_succ, List.flatten_cons, ih, Nat.succ_mul, Nat.add_comm (a * b) b,
          List.replicate_add, List.flatten_append]
    have h1' : List.map (fun x => (CTCall.tblAdd x).shape) (List.range' 2 14) =
        List.map CTCall.tblAdd (List.range' 2 14) := rfl
    simp only [h2, h3, h4, h5, Function.comp_def, h1']
  refine ⟨by rw [mulArrayCTCalls_eq], by rw [mulArrayCTCalls_eq], hshape y, ?_, ?_⟩
  · rw [hshape y, hshape y', hlen]
  · have := congrArg List.length ((hshape y).trans ((hlen ▸ (hshape y').symm)))
    simpa using this

/-- **C28, witness.** The scalars 5 and 9, one 8-byte unit each, on
`y^2 = x^3 + 4` over the field of 7 elements. -/
theorem mulArrayCT_call_sequence_witness :
    [5].length = [9].length ∧
    (EcT.mulArrayCTCalls ext7 (param7 Mode.Jacobi) ⟨0, 2, 1⟩ [5] false).2.map CTCall.shape =
      (EcT.mulArrayCTCalls ext7 (param7 Mode.Jacobi) ⟨0, 2, 1⟩ [9] false).2.map CTCall.shape :=
  ⟨rfl, (mulArrayCT_call_sequence ext7 (param7 Mode.Jacobi) ⟨0, 2, 1⟩ [5] [9] false
    rfl).2.2.2.1⟩

/-- The next slice starts where the slice of worker `i` ends. -/
theorem mulVecMTadj_succ (q r i : Nat) :
    EcT.mulVecMTadj q r (i + 1) = EcT.mulVecMTadj q r i + EcT.mulVecMTlen q r i := by
  unfold EcT.mulVecMTadj EcT.mulVecMTlen
  rw [Nat.mul_succ]
  split_ifs <;> omega

/-- The offsets of the slices do not decrease. -/
theorem mulVecMTadj_mono (q r : Nat) {i j : Nat} (h : i ≤ j) :
    EcT.mulVecMTadj q r i ≤ EcT.mulVecMTadj q r j := by
  unfold EcT.mulVecMTadj
  have := Nat.mul_le_mul_left q h
  omega

/-- The slices of `cpuN` workers end at `n`. -/
theorem mulVecMTadj_last (n cpuN : Nat) (h : 0 < cpuN) :
    EcT.mulVecMTadj (n / cpuN) (n % cpuN) cpuN = n := by
  unfold EcT.mulVecMTadj
  have h1 := Nat.mod_lt n h
  have h2 := Nat.div_add_mod n cpuN
  rw [Nat.mul_comm] at h2
  omega

/-- The slices of `mulVecMT` are a partition of `0 .. n - 1` into non-empty
intervals in index order. -/
theorem mulVecMT_slices (n cpuN : Nat) (h2 : 2 ≤ cpuN) (hn : cpuN < n) :
    (∀ i, i < cpuN → 0 < EcT.mulVecMTlen (n / cpuN) (n % cpuN) i) ∧
    EcT.mulVecMTadj (n / cpuN) (n % cpuN) 0 = 0 ∧
    (∀ i, i < cpuN → EcT.mulVecMTadj (n / cpuN) (n % cpuN) (i + 1) =
      EcT.mulVecMTadj (n / cpuN) (n % cpuN) i + EcT.mulVecMTlen (n / cpuN) (n % cpuN) i) ∧
    EcT.mulVecMTadj (n / cpuN) (n % cpuN) cpuN = n ∧
    (∀ k, k < n → ∃! i, i < cpuN ∧ EcT.mulVecMTadj (n / cpuN) (n % cpuN) i ≤ k ∧
      k < EcT.mulVecMTadj (n / cpuN) (n % cpuN) i + EcT.mulVecMTlen (n / cpuN) (n % cpuN) i) := by
  have hq : 0 < n / cpuN := Nat.div_pos (le_of_lt hn) (by omega)
  have hlast := mulVecMTadj_last n cpuN (by omega)
  refine ⟨fun i _ => ?_, by simp [EcT.mulVecMTadj], fun i _ => mulVecMTadj_succ _ _ i, hlast,
    fun k hk => ?_⟩
  · unfold EcT.mulVecMTlen; omega
  · have hex : ∀ m, k < EcT.mulVecMTadj (n / cpuN) (n % cpuN) m →
        ∃ i, i < m ∧ EcT.mulVecMTadj (n / cpuN) (n % cpuN) i ≤ k ∧
          k < EcT.mulVecMTadj (n / cpuN) (n % cpuN) (i + 1) := by
      intro m
      induction m with
      | zero => intro h; simp [EcT.mulVecMTadj] at h
      | succ m ih =>
        intro h
        by_cases hm : k < EcT.mulVecMTadj (n / cpuN) (n % cpuN) m
        · obtain ⟨i, hi, h1, h2⟩ := ih hm
          exact ⟨i, by omega, h1, h2⟩
        · exact ⟨m, by omega, by omega, h⟩
    obtain ⟨i, hi, h1, h2⟩ := hex cpuN (by rw [hlast]; exact hk)
    refine ⟨i, ⟨hi, h1, by rw [← mulVecMTadj_succ]; exact h2⟩, ?_⟩
    rintro j ⟨_, hj1, hj2⟩
    rw [← mulVecMTadj_succ] at hj2
    by_contra hne
    rcases Nat.lt_or_gt_of_ne hne with hlt | hgt
    · have := mulVecMTadj_mono (n / cpuN) (n % cpuN) (show j + 1 ≤ i by omega)
      omega
    · have := mulVecMTadj_mono (n / cpuN) (n % cpuN) (show i + 1 ≤ j by omega)
      omega

namespace GroupReading

variable {c : Param F} {G : Type} [AddCommGroup G] (rd : GroupReading c G)

/-- The second loop of `mulVecMT` after `m` rounds holds the sum over the
first `m` slices. -/
theorem mulVecMT_fold_reads (hnorm : ∀ P p, rd.R P p → rd.R (EcT.normalize c P) p) (e : Ext F)
    (hinv : InvOk e)
    (hnaf : ∀ (v : ℤ) (w : Nat), 3 ≤ w → w ≤ 5 → NafOk (e.getNAFwidth v w) v w)
    (hG : c.mulVecGLV = none) (hO : c.mulVecOpti = none)
    (xVec : List (EcT F)) (yVec : List Nat) (n cpuN : Nat) (hc : 0 < cpuN) (gs : Nat → G)
    (hx : ∀ i, i < n → rd.R (xVec.getD i ⟨0, 0, 0⟩) (gs i)) :
    ∀ m, m ≤ cpuN →
      rd.R ((List.range m).foldl (fun z i => EcT.add c z
          (((List.range cpuN).map (fun i =>
            EcT.mulVec e c (xVec.drop (EcT.mulVecMTadj (n / cpuN) (n % cpuN) i))
              (yVec.drop (EcT.mulVecMTadj (n / cpuN) (n % cpuN) i))
              (EcT.mulVecMTlen (n / cpuN) (n % cpuN) i) 0)).getD i ⟨0, 0, 0⟩)) (EcT.clear c))
        (∑ k in Finset.range (EcT.mulVecMTadj (n / cpuN) (n % cpuN) m),
          (yVec.getD k 0 : ℤ) • gs k) := by
  intro m
  induction m with
  | zero =>
    intro _
    simpa [EcT.mulVecMTadj] using rd.clear
  | succ m ih =>
    intro hm
    rw [List.range_succ, List.foldl_append, mulVecMTadj_succ, Finset.sum_range_add]
    simp only [List.foldl_cons, List.foldl_nil]
    refine rd.add _ _ _ _ (ih (by omega)) ?_
    have hget : ((List.range cpuN).map (fun i =>
        EcT.mulVec e c (xVec.drop (EcT.mulVecMTadj (n / cpuN) (n % cpuN) i))
          (yVec.drop (EcT.mulVecMTadj (n / cpuN) (n % cpuN) i))
          (EcT.mulVecMTlen (n / cpuN) (n % cpuN) i) 0)).getD m ⟨0, 0, 0⟩ =
        EcT.mulVec e c (xVec.drop (EcT.mulVecMTadj (n / cpuN) (n % cpuN) m))
          (yVec.drop (EcT.mulVecMTadj (n / cpuN) (n % cpuN) m))
          (EcT.mulVecMTlen (n / cpuN) (n % cpuN) m) 0 := by
      rw [List.getD_eq_getElem _ _ (by simp; omega)]
      simp
    rw [hget]
    have hle : EcT.mulVecMTadj (n / cpuN) (n % cpuN) (m + 1) ≤ n := by
      have := mulVecMTadj_mono (n / cpuN) (n % cpuN) hm
      rwa [mulVecMTadj_last n cpuN hc] at this
    rw [mulVecMTadj_succ] at hle
    have := rd.mulVec_reads hnorm e hinv hnaf hG hO
      (xVec.drop (EcT.mulVecMTadj (n / cpuN) (n % cpuN) m))
      (yVec.drop (EcT.mulVecMTadj (n / cpuN) (n % cpuN) m))
      (EcT.mulVecMTlen (n / cpuN) (n % cpuN) m) 0
      (fun j => gs (EcT.mulVecMTadj (n / cpuN) (n % cpuN) m + j))
      (fun j hj => by rw [getD_drop]; exact hx _ (by omega))
    simpa only [getD_drop] using this

/-- The result of `mulVecMT` reads as the sum of the multiples. -/
theorem mulVecMT_reads (hnorm : ∀ P p, rd.R P p → rd.R (EcT.normalize c P) p) (e : Ext F)
    (hinv : InvOk e)
    (hnaf : ∀ (v : ℤ) (w : Nat), 3 ≤ w → w ≤ 5 → NafOk (e.getNAFwidth v w) v w)
    (hG : c.mulVecGLV = none) (hO : c.mulVecOpti = none) (useOmp : Bool) (numProcs : Nat)
    (xVec : List (EcT F)) (yVec : List Nat) (n cpuN : Nat) (gs : Nat → G)
    (hx : ∀ i, i < n → rd.R (xVec.getD i ⟨0, 0, 0⟩) (gs i)) :
    rd.R (EcT.mulVecMT e c useOmp numProcs xVec yVec n cpuN)
      (∑ i in Finset.range n, (yVec.getD i 0 : ℤ) • gs i) := by
  have hmul := rd.mulVec_reads hnorm e hinv hnaf hG hO xVec yVec n 0 gs hx
  have key : ∀ k, ¬ (k ≤ 1 ∨ n ≤ k) →
      rd.R ((List.range k).foldl (fun z i => EcT.add c z
          (((List.range k).map (fun i =>
            EcT.mulVec e c (xVec.drop (EcT.mulVecMTadj (n / k) (n % k) i))
              (yVec.drop (EcT.mulVecMTadj (n / k) (n % k) i))
              (EcT.mulVecMTlen (n / k) (n % k) i) 0)).getD i ⟨0, 0, 0⟩)) (EcT.clear c))
        (∑ i in Finset.range n, (yVec.getD i 0 : ℤ) • gs i) := by
    intro k hk
    push_neg at hk
    have hk0 : 0 < k := by omega
    have := rd.mulVecMT_fold_reads hnorm e hinv hnaf hG hO xVec yVec n k hk0 gs hx k le_rfl
    rwa [mulVecMTadj_last n k hk0] at this
  unfold EcT.mulVecMT
  simp only []
  split_ifs with h1 h2 h3 h4 h5 h6
  all_goals first
    | exact hmul
    | exact key _ ‹_›

end GroupReading

/-- The worker count `(n + minN - 1) / minN` is the least `k` with
`n ≤ k * minN`. -/
theorem ceil_div_spec (n N : Nat) (hN : 0 < N) :
    n ≤ (n + N - 1) / N * N ∧ ∀ j, n ≤ j * N → (n + N - 1) / N ≤ j := by
  constructor
  · have h1 := Nat.div_add_mod (n + N - 1) N
    have h2 := Nat.mod_lt (n + N - 1) hN
    rw [Nat.mul_comm] at h1
    omega
  · intro j hj
    rw [← Nat.lt_succ_iff, Nat.div_lt_iff_lt_mul hN, Nat.succ_mul]
    omega

/-- **C29.** The parallel multi-scalar multiply.  With `q = n / cpuN` and
`r = n mod cpuN`, for `2 ≤ cpuN < n` the slices that start at
`q * i + min(i, r)` and have the length `q + (1 if i < r else 0)`, for
`i < cpuN`, are non-empty, start at 0, each start where the one before ends,
end at `n`, and every index below `n` is in exactly one of them; `mulVecMT`
is the sum, in index order from the cleared identity, of `mulVec` on these
slices.  Over a field with `2 ≠ 0`, on a non-singular curve without the
`mulVecOpti` and `mulVecGLV` hooks, with digit and batch-inversion routines
that meet their contracts and points that are the identity or on the curve,
the result of `mulVecMT` stands for the same point as `mulVec` on the whole
input and compares equal to it under `operator==` (in Affine mode for points
with `z = 1` or the cleared identity), for every worker count.  A worker
count `cpuN ≥ 1` with `cpuN ≤ 1` or `n ≤ cpuN` calls `mulVec` directly; the
count 0 is replaced by `omp_get_num_procs()`, or by `ceil(n / maxMulVecN)`
when `n < maxMulVecN * omp_get_num_procs()`; without `MCL_USE_OMP` the
function is `mulVec`. -/
theorem mulVecMT_partition (e : Ext F) (c : Param F) (h2 : (2 : F) ≠ 0)
    (hA : c.SpecialAOk) (hd : 4 * c.a_ ^ 3 + 27 * c.b_ ^ 2 ≠ 0) (hinv : InvOk e)
    (hnaf : ∀ (v : ℤ) (w : Nat), 3 ≤ w → w ≤ 5 → NafOk (e.getNAFwidth v w) v w)
    (hG : c.mulVecGLV = none) (hO : c.mulVecOpti = none)
    (xVec : List (EcT F)) (yVec : List Nat) (hon : ∀ P ∈ xVec, OnCurve c P)
    (useOmp : Bool) (numProcs cpuN : Nat) :
    SamePoint c (EcT.mulVecMT e c useOmp numProcs xVec yVec xVec.length cpuN)
      (EcT.mulVec e c xVec yVec xVec.length 0) ∧
    ((∀ P ∈ xVec, AffineNormal c P) →
      EcT.eq c (EcT.mulVecMT e c useOmp numProcs xVec yVec xVec.length cpuN)
        (EcT.mulVec e c xVec yVec xVec.length 0) = true) ∧
    (2 ≤ cpuN → cpuN < xVec.length →
      ((∀ i, i < cpuN →
          0 < EcT.mulVecMTlen (xVec.length / cpuN) (xVec.length % cpuN) i) ∧
        EcT.mulVecMTadj (xVec.length / cpuN) (xVec.length % cpuN) 0 = 0 ∧
        (∀ i, i < cpuN →
          EcT.mulVecMTadj (xVec.length / cpuN) (xVec.length % cpuN) (i + 1) =
            EcT.mulVecMTadj (xVec.length / cpuN) (xVec.length % cpuN) i +
              EcT.mulVecMTlen (xVec.length / cpuN) (xVec.length % cpuN) i) ∧
        EcT.mulVecMTadj (xVec.length / cpuN) (xVec.length % cpuN) cpuN = xVec.length ∧
        (∀ k, k < xVec.length → ∃! i, i < cpuN ∧
          EcT.mulVecMTadj (xVec.length / cpuN) (xVec.length % cpuN) i ≤ k ∧
          k < EcT.mulVecMTadj (xVec.length / cpuN) (xVec.length % cpuN) i +
            EcT.mulVecMTlen (xVec.length / cpuN) (xVec.length % cpuN) i)) ∧
      EcT.mulVecMT e c true numProcs xVec yVec xVec.length cpuN =
        (List.range cpuN).foldl (fun z i => EcT.add c z
          (EcT.mulVec e c
            (xVec.drop (EcT.mulVecMTadj (xVec.length / cpuN) (xVec.length % cpuN) i))
            (yVec.drop (EcT.mulVecMTadj (xVec.length / cpuN) (xVec.length % cpuN) i))
            (EcT.mulVecMTlen (xVec.length / cpuN) (xVec.length % cpuN) i) 0))
          (EcT.clear c)) ∧
    (cpuN ≠ 0 → (cpuN ≤ 1 ∨ xVec.length ≤ cpuN) →
      EcT.mulVecMT e c true numProcs xVec yVec xVec.length cpuN =
        EcT.mulVec e c xVec yVec xVec.length 0) ∧
    EcT.mulVecMT e c true numProcs xVec yVec xVec.length 0 =
      (if (if xVec.length < e.maxMulVecN * numProcs
            then (xVec.length + e.maxMulVecN - 1) / e.maxMulVecN else numProcs) ≤ 1 ∨
          xVec.length ≤ (if xVec.length < e.maxMulVecN * numProcs
            then (xVec.length + e.maxMulVecN - 1) / e.maxMulVecN else numProcs)
        then EcT.mulVec e c xVec yVec xVec.length 0
        else EcT.mulVecMT e c true numProcs xVec yVec xVec.length
          (if xVec.length < e.maxMulVecN * numProcs
            then (xVec.length + e.maxMulVecN - 1) / e.maxMulVecN else numProcs)) ∧
    (xVec.length ≤ (xVec.length + e.maxMulVecN - 1) / e.maxMulVecN * e.maxMulVecN ∧
      ∀ j, xVec.length ≤ j * e.maxMulVecN →
        (xVec.length + e.maxMulVecN - 1) / e.maxMulVecN ≤ j) ∧
    EcT.mulVecMT e c false numProcs xVec yVec xVec.length cpuN =
      EcT.mulVec e c xVec yVec xVec.length 0 := by
  obtain ⟨rd, rd', hrd, hrd', hnorm, hnorm'⟩ := exists_curveReadings c h2 hA
  have hex : ∀ i, ∃ p, i < xVec.length → CurveReads c c.b_ (xVec.getD i ⟨0, 0, 0⟩) p := by
    intro i
    by_cases hi : i < xVec.length
    · obtain ⟨p, hp⟩ := exists_curveReads_of_onCurve c h2 hd (xVec.getD i ⟨0, 0, 0⟩)
        (hon _ (by rw [List.getD_eq_getElem _ _ hi]; exact List.getElem_mem _))
      exact ⟨p, fun _ => hp⟩
    · exact ⟨0, fun h => absurd h hi⟩
  choose gs hgs using hex
  have hx : ∀ i, i < xVec.length → rd.R (xVec.getD i ⟨0, 0, 0⟩) (gs i) := by
    intro i hi
    rw [hrd]
    exact hgs i hi
  have hmul := rd.mulVec_reads hnorm e hinv hnaf hG hO xVec yVec xVec.length 0 gs hx
  have hmt := rd.mulVecMT_reads hnorm e hinv hnaf hG hO useOmp numProcs xVec yVec
    xVec.length cpuN gs hx
  refine ⟨rd.same _ _ _ hmt hmul, ?_, ?_, ?_, ?_, ceil_div_spec _ _ e.maxMulVecN_pos, ?_⟩
  · intro hN
    have hx' : ∀ i, i < xVec.length → rd'.R (xVec.getD i ⟨0, 0, 0⟩) (gs i) := by
      intro i hi
      rw [hrd']
      exact ⟨hgs i hi, hN _ (by rw [List.getD_eq_getElem _ _ hi]; exact List.getElem_mem _)⟩
    have hmul2 := rd'.mulVec_reads hnorm' e hinv hnaf hG hO xVec yVec xVec.length 0 gs hx'
    have hmt2 := rd'.mulVecMT_reads hnorm' e hinv hnaf hG hO useOmp numProcs xVec yVec
      xVec.length cpuN gs hx'
    have hs := rd'.same _ _ _ hmt2 hmul2
    rw [hrd'] at hmul2 hmt2
    exact eq_of_samePoint c _ _ hs hmt2.2 hmul2.2
  · intro hc2 hcn
    refine ⟨mulVecMT_slices xVec.length cpuN hc2 hcn, ?_⟩
    unfold EcT.mulVecMT
    simp only [if_true]
    rw [if_neg (show cpuN ≠ 0 by omega),
      if_neg (show ¬ (cpuN ≤ 1 ∨ xVec.length ≤ cpuN) by omega)]
    refine List.foldl_ext _ _ _ (fun z i hi => ?_)
    rw [List.mem_range] at hi
    rw [List.getD_eq_getElem _ _ (by simpa using hi)]
    simp
  · intro hc0 hdir
    unfold EcT.mulVecMT
    simp only [if_true]
    rw [if_neg hc0, if_pos hdir]
  · generalize hk : (if xVec.length < e.maxMulVecN * numProcs
        then (xVec.length + e.maxMulVecN - 1) / e.maxMulVecN else numProcs) = k
    by_cases hdir : k ≤ 1 ∨ xVec.length ≤ k
    · rw [if_pos hdir]
      unfold EcT.mulVecMT
      simp only [if_true]
      rw [hk, if_pos hdir]
    · rw [if_neg hdir]
      have hk0 : k ≠ 0 := by omega
      unfold EcT.mulVecMT
      simp only [if_true]
      rw [hk, if_neg hk0]
  · unfold EcT.mulVecMT
    simp

/-- **C29, witness.** Three points of `y^2 = x^3 - 3x + 3` over `ℚ` in Jacobi
mode and two workers. -/
theorem mulVecMT_partition_witness :
    (2 : ℚ) ≠ 0 ∧ (exampleParam Mode.Jacobi).SpecialAOk ∧
    4 * (exampleParam Mode.Jacobi).a_ ^ 3 + 27 * (exampleParam Mode.Jacobi).b_ ^ 2 ≠ 0 ∧
    InvOk exampleExt ∧
    (∀ P ∈ [(⟨1, 1, 1⟩ : EcT ℚ), ⟨-8, 8, 2⟩, ⟨1, -1, 1⟩],
      OnCurve (exampleParam Mode.Jacobi) P) ∧
    SamePoint (exampleParam Mode.Jacobi)
      (EcT.mulVecMT exampleExt (exampleParam Mode.Jacobi) true 8
        [⟨1, 1, 1⟩, ⟨-8, 8, 2⟩, ⟨1, -1, 1⟩] [3, 5, 2]
        [(⟨1, 1, 1⟩ : EcT ℚ), ⟨-8, 8, 2⟩, ⟨1, -1, 1⟩].length 2)
      (EcT.mulVec exampleExt (exampleParam Mode.Jacobi)
        [⟨1, 1, 1⟩, ⟨-8, 8, 2⟩, ⟨1, -1, 1⟩] [3, 5, 2]
        [(⟨1, 1, 1⟩ : EcT ℚ), ⟨-8, 8, 2⟩, ⟨1, -1, 1⟩].length 0) :=
  have hon : ∀ P ∈ [(⟨1, 1, 1⟩ : EcT ℚ), ⟨-8, 8, 2⟩, ⟨1, -1, 1⟩],
      OnCurve (exampleParam Mode.Jacobi) P := by
    intro P hP
    simp only [List.mem_cons, List.mem_singleton, List.not_mem_nil, or_false] at hP
    rcases hP with rfl | rfl | rfl <;> right <;>
      norm_num [affineOf, affineOfJacobi, exampleParam]
  have hdisc : 4 * (exampleParam Mode.Jacobi).a_ ^ 3 +
      27 * (exampleParam Mode.Jacobi).b_ ^ 2 ≠ 0 := by
    norm_num [exampleParam]
  ⟨by norm_num, by simp [Param.SpecialAOk, exampleParam], hdisc, exampleExt_invOk, hon,
    (mulVecMT_partition exampleExt (exampleParam Mode.Jacobi)
      (by norm_num) (by simp [Param.SpecialAOk, exampleParam]) hdisc
      exampleExt_invOk exampleNaf_ok rfl rfl
      [⟨1, 1, 1⟩, ⟨-8, 8, 2⟩, ⟨1, -1, 1⟩] [3, 5, 2] hon true 8 2).1⟩

/-- The flag bits of the first byte of the ETH encoding: with a byte below 32,
bit 7 is set, bit 6 is clear, bit 5 is the flag, and the low five bits are the
byte. -/
theorem eth_bits (b : Nat) (hb : b < 32) (f : Bool) :
    (b ||| (if f then 0x80 ||| 0x20 else 0x80)) &&& 0x80 ≠ 0 ∧
    (b ||| (if f then 0x80 ||| 0x20 else 0x80)) &&& 0x40 = 0 ∧
    decide ((b ||| (if f then 0x80 ||| 0x20 else 0x80)) &&& 0x20 ≠ 0) = f ∧
    (b ||| (if f then 0x80 ||| 0x20 else 0x80)) &&& 0x1f = b := by
  interval_cases b <;> cases f <;> decide

/-- The unassigned tail of the buffer: nothing in the `N`-byte layout, the
byte `buf[N]` in the `(N+1)`-byte layout. -/
theorem saveTail_eq (buf0 : Nat → Nat) (fp : FpIo F) (c : Param F) :
    EcT.saveTail buf0 fp c =
      if EcT.isMSBserialize fp c then [] else [buf0 fp.getByteSize] := by
  unfold EcT.saveTail EcT.getSerializedByteSize
  simp only []
  split_ifs with h
  · rw [Nat.add_zero]
    exact List.drop_eq_nil_of_le (by simp)
  · rw [List.range_succ, List.map_append, List.drop_append_of_le_length (by simp),
      List.drop_eq_nil_of_le (by simp)]
    rfl

/-- The ETH buffer of the identity. -/
theorem saveFixedBuf_eth_zero (buf0 : Nat → Nat) (fp : FpIo F) (c : Param F) (self P : EcT F)
    (heth : fp.getETHserialization = true) (hn : 0 < fp.getByteSize) (hz : P.z = 0) :
    EcT.saveFixedBuf buf0 fp c self P =
      some (0xC0 :: List.replicate (fp.getByteSize - 1) 0 ++ EcT.saveTail buf0 fp c) := by
  have hsz : EcT.getSerializedByteSize fp c =
      fp.getByteSize + (if EcT.isMSBserialize fp c then 0 else 1) := rfl
  unfold EcT.saveFixedBuf EcT.saveTail
  rw [hsz]
  simp only [heth, if_true, isZero_iff, hz, decide_True, List.singleton_append,
    Option.some.injEq]
  rw [List.take_of_length_le]
  · rfl
  · simp only [List.length_append, List.length_cons, List.length_replicate, List.length_drop,
      List.length_map, List.length_range]
    omega

/-- The ETH buffer of a finite point. -/
theorem saveFixedBuf_eth_finite (buf0 : Nat → Nat) (fp : FpIo F) (c : Param F)
    (self P : EcT F)
    (heth : fp.getETHserialization = true) (hn : 0 < fp.getByteSize) (hz : P.z ≠ 0)
    (bx : List Nat)
    (hs : fp.save P.x IoMode.serialize = some bx) (hl : bx.length = fp.getByteSize) :
    EcT.saveFixedBuf buf0 fp c self P =
      some (bx.set 0 (bx.getD 0 0 ||| (if get_a_flag fp P.y then 0x80 ||| 0x20 else 0x80)) ++
        EcT.saveTail buf0 fp c) := by
  have hsz : EcT.getSerializedByteSize fp c =
      fp.getByteSize + (if EcT.isMSBserialize fp c then 0 else 1) := rfl
  unfold EcT.saveFixedBuf EcT.saveTail
  rw [hsz]
  simp only [heth, if_true, isZero_iff, hz, decide_False, Bool.false_eq_true, if_false,
    saveToBuf_full fp _ _ _ bx hs hl, Option.some.injEq]
  rcases bx with _ | ⟨b0, tl⟩
  · simp at hl; omega
  · simp only [List.cons_append, List.getD_cons_zero, List.set_cons_zero]
    rw [List.take_of_length_le]
    simp only [List.length_cons, List.length_append, List.length_drop, List.length_map,
      List.length_range]
    simp only [List.length_cons] at hl
    omega

/-- With the ETH serialization the fixed-width block of `load` hands a buffer
of `N1` bytes to the ETH block. -/
theorem loadFixed_eth (fp : FpIo F) (e : Ext F) (c : Param F) (P : EcT F) (buf : List Nat)
    (ioMode : IoMode) (hhex : ioMode.IoSerializeHexStr = false)
    (heth : fp.getETHserialization = true)
    (hl : buf.length = EcT.getSerializedByteSize fp c) :
    EcT.loadFixed fp e c P buf ioMode = EcT.loadETH fp e c P buf := by
  have hl' : buf.length = fp.getByteSize + (if EcT.isMSBserialize fp c then 0 else 1) := hl
  unfold EcT.loadFixed
  simp only [hhex, Bool.false_eq_true, if_false, heth, if_true]
  rw [List.take_of_length_le (by omega), if_neg (by simpa using hl')]

/-- The ETH block of `load` on the encoding of a finite point: `x` is read
back, and `y` is the root of `x^3 + a*x + b` whose flag is the transmitted
bit. -/
theorem loadETH_finite (fp : FpIo F) (e : Ext F) (c : Param F) (P : EcT F) (bx pad : List Nat)
    (f : Bool) (x : F) (hn : 0 < fp.getByteSize) (hl : bx.length = fp.getByteSize)
    (hb : bx.getD 0 0 < 32) (hx : fp.setArray bx.reverse = some x) :
    EcT.loadETH fp e c P
        (bx.set 0 (bx.getD 0 0 ||| (if f then 0x80 ||| 0x20 else 0x80)) ++ pad) =
      match fp.squareRoot (EcT.getWeierstrass c x) with
      | none => (false, ⟨x, EcT.getWeierstrass c x, P.z⟩)
      | some y =>
        EcT.loadVerifyOrder e c ⟨x, if xor (get_a_flag fp y) f then -y else y, P.z⟩ := by
  obtain ⟨h7, h6, h5, h1f⟩ := eth_bits (bx.getD 0 0) hb f
  rcases bx with _ | ⟨b0, tl⟩
  · simp at hl; omega
  · simp only [List.getD_cons_zero, List.set_cons_zero, List.cons_append] at h7 h6 h5 h1f hx ⊢
    unfold EcT.loadETH
    simp only [List.getD_cons_zero, List.set_cons_zero]
    rw [if_neg h7, if_neg (by simpa using h6)]
    simp only [h5, h1f]
    have ht : (b0 :: (tl ++ pad)).take fp.getByteSize = b0 :: tl := by
      rw [← List.cons_append, List.take_left' hl]
    simp only [ht, List.take_left' (List.length_reverse (b0 :: tl) ▸ hl), hx]

/-- The root whose flag is the transmitted bit is the encoded `y`, when
negation flips the flag of every non-zero element. -/
theorem eth_y_recover (fp : FpIo F)
    (hneg : ∀ y : F, y ≠ 0 → fp.isNegative (-y) = !fp.isNegative y) (y y0 : F)
    (h : y0 * y0 = y * y) :
    (if xor (get_a_flag fp y0) (get_a_flag fp y) then -y0 else y0) = y := by
  unfold get_a_flag
  have h3 : (y0 - y) * (y0 + y) = 0 := by linear_combination h
  rcases mul_eq_zero.1 h3 with h4 | h4
  · have : y0 = y := by linear_combination h4
    subst this
    simp
  · have hy0 : y0 = -y := by linear_combination h4
    subst hy0
    by_cases hy : y = 0
    · subst hy
      simp
    · rw [hneg y hy]
      cases fp.isNegative y <;> simp

/-- The ETH round trip at the level of bytes: what `save` writes and what
`load` makes of it. -/
theorem eth_round_trip_aux (buf0 : Nat → Nat) (fp : FpIo F) (e : Ext F) (c : Param F)
    (self old : EcT F) (ioMode : IoMode)
    (hproj : ioMode.IoEcProj = false) (hafs : ioMode.IoEcAffineSerialize = false)
    (hser : ioMode.IoSerialize = true) (hhex : ioMode.IoSerializeHexStr = false)
    (heth : fp.getETHserialization = true) (hn : 0 < fp.getByteSize)
    (hsave : ∀ x, ∃ bx, fp.save x IoMode.serialize = some bx ∧ bx.length = fp.getByteSize ∧
      bx.getD 0 0 < 32 ∧ fp.setArray bx.reverse = some x)
    (hsqrt : ∀ x y : F, y * y = x → ∃ y0, fp.squareRoot x = some y0 ∧ y0 * y0 = x)
    (hneg : ∀ y : F, y ≠ 0 → fp.isNegative (-y) = !fp.isNegative y)
    (hon : OnCurve c self)
    (hord : self.z ≠ 0 → c.verifyOrder_ = true →
      EcT.isValidOrder e c (affineOf c.mode_ self) = true) :
    (self.z = 0 → EcT.save buf0 fp c self ioMode =
      some (0xC0 :: List.replicate (fp.getByteSize - 1) 0 ++ EcT.saveTail buf0 fp c)) ∧
    (self.z ≠ 0 → ∃ bx, fp.save (affineOf c.mode_ self).x IoMode.serialize = some bx ∧
      EcT.save buf0 fp c self ioMode =
        some (bx.set 0 (bx.getD 0 0 |||
            (if get_a_flag fp (affineOf c.mode_ self).y then 0x80 ||| 0x20 else 0x80)) ++
          EcT.saveTail buf0 fp c)) ∧
    ∃ bytes, EcT.save buf0 fp c self ioMode = some bytes ∧
      bytes.length = EcT.getSerializedByteSize fp c ∧
      EcT.load fp e c old bytes ioMode =
        (true, if self.z = 0 then EcT.clear c else affineOf c.mode_ self) := by
  rw [save_fixed buf0 fp c self ioMode hproj hafs hser hhex]
  have hsz : EcT.getSerializedByteSize fp c =
      fp.getByteSize + (if EcT.isMSBserialize fp c then 0 else 1) := rfl
  have htl : (EcT.saveTail buf0 fp c).length = (if EcT.isMSBserialize fp c then 0 else 1) := by
    rw [saveTail_eq]
    split_ifs <;> rfl
  by_cases hz : self.z = 0
  · have hzn : (EcT.normalize c self).z = 0 := by
      rw [normalize_of_normal c self (Or.inl hz)]; exact hz
    have hs := saveFixedBuf_eth_zero buf0 fp c self _ heth hn hzn
    have hlen : (0xC0 :: List.replicate (fp.getByteSize - 1) 0 ++
        EcT.saveTail buf0 fp c).length = EcT.getSerializedByteSize fp c := by
      simp only [List.length_append, List.length_cons, List.length_replicate, htl, hsz]; omega
    refine ⟨fun _ => hs, fun h => absurd hz h, _, hs, hlen, ?_⟩
    rw [load_fixed fp e c old _ ioMode hafs hser, loadFixed_eth fp e c _ _ ioMode hhex heth hlen,
      if_pos hz]
    rcases loadETH_infinity fp e c ⟨old.x, old.y, 1⟩
      (0xC0 :: List.replicate (fp.getByteSize - 1) 0 ++ EcT.saveTail buf0 fp c)
      (by simp) (by simp) with ⟨_, h⟩ | ⟨h, _⟩
    · exact h
    · exfalso
      apply h
      refine ⟨by simp, fun i h1 h2 => ?_⟩
      obtain ⟨j, rfl⟩ : ∃ j, i = j + 1 := ⟨i - 1, by omega⟩
      have hj : j < (List.replicate (fp.getByteSize - 1) 0).length := by
        rw [List.length_replicate]; omega
      rw [List.cons_append, List.getD_cons_succ, List.getD_eq_getElem?_getD,
        List.getElem?_append_left hj,
        List.getElem?_replicate_of_lt (by omega)]
      rfl
  · obtain ⟨bx, hs, hl, hb, hx⟩ := hsave (EcT.normalize c self).x
    have ha := affineOf_eq_normalize c self hz
    have hzn := (affineOf_normalize c self hz).1
    have he : (EcT.normalize c self).y ^ 2 = (EcT.normalize c self).x ^ 3 +
        c.a_ * (EcT.normalize c self).x + c.b_ := by
      rcases hon with h | h
      · exact absurd h hz
      · rw [ha] at h
        exact h
    have hv := loadVerifyOrder_ok e c (affineOf c.mode_ self) (hord hz)
    have hsv := saveFixedBuf_eth_finite buf0 fp c self _ heth hn hzn bx hs hl
    rw [ha] at hv
    rw [if_neg hz, ha]
    refine ⟨fun h => absurd h hz, fun _ => ⟨bx, hs, hsv⟩, _, hsv, ?_, ?_⟩
    · rw [List.length_append, List.length_set, htl, hl, hsz]
    · rw [load_fixed fp e c old _ ioMode hafs hser,
        loadFixed_eth fp e c _ _ ioMode hhex heth
          (by rw [List.length_append, List.length_set, htl, hl, hsz]),
        loadETH_finite fp e c _ bx _ _ _ hn hl hb hx]
      obtain ⟨y0, h1, h2⟩ := hsqrt (EcT.getWeierstrass c (EcT.normalize c self).x)
        (EcT.normalize c self).y (by rw [getWeierstrass_eq, ← he]; ring)
      simp only [h1]
      rw [eth_y_recover fp hneg _ y0 (by rw [h2, getWeierstrass_eq, ← he]; ring)]
      exact hv

/-- What holds of the ETH-style round trip (binary `IoSerialize` with the ETH
serialization enabled).  Assume of the field: `save` writes the `N` bytes of
the big-endian encoding, whose first byte is below 32 (top three bits zero)
and which `setArray` reads back after the byte swap; `squareRoot` returns a
root when one exists; negation flips `isNegative` of a non-zero element.
Then the first `N` bytes that `save` writes are `0xC0` and zeros for the
identity and, for a finite point `P` on the curve, the encoding of the affine
`x` with, in the first byte, bit 7 set, bit 6 clear and bit 5 equal to
`get_a_flag(y)`; they are followed by the bytes of `buf` that the ETH branch
does not assign (`buf[N]` when `getSerializedByteSize()` is `N + 1`); and
`load` of the bytes written succeeds (order check off or accepted for the
affine image of `P`) and leaves `clear()` for the identity and `(x, y, 1)`
otherwise, which stands for the same point as `P` and compares equal to it
under `operator==` (in Affine mode when `P` has `z = 1` or is the cleared
identity). -/
theorem eth_save_load_round_trip (buf0 : Nat → Nat) (fp : FpIo F) (e : Ext F) (c : Param F)
    (self old : EcT F) (ioMode : IoMode)
    (hproj : ioMode.IoEcProj = false) (hafs : ioMode.IoEcAffineSerialize = false)
    (hser : ioMode.IoSerialize = true) (hhex : ioMode.IoSerializeHexStr = false)
    (heth : fp.getETHserialization = true) (hn : 0 < fp.getByteSize)
    (hsave : ∀ x, ∃ bx, fp.save x IoMode.serialize = some bx ∧ bx.length = fp.getByteSize ∧
      bx.getD 0 0 < 32 ∧ fp.setArray bx.reverse = some x)
    (hsqrt : ∀ x y : F, y * y = x → ∃ y0, fp.squareRoot x = some y0 ∧ y0 * y0 = x)
    (hneg : ∀ y : F, y ≠ 0 → fp.isNegative (-y) = !fp.isNegative y)
    (hon : OnCurve c self)
    (hord : self.z ≠ 0 → c.verifyOrder_ = true →
      EcT.isValidOrder e c (affineOf c.mode_ self) = true) :
    (self.z = 0 → EcT.save buf0 fp c self ioMode =
      some (0xC0 :: List.replicate (fp.getByteSize - 1) 0 ++ EcT.saveTail buf0 fp c)) ∧
    (self.z ≠ 0 → ∃ bx, fp.save (affineOf c.mode_ self).x IoMode.serialize = some bx ∧
      EcT.save buf0 fp c self ioMode =
        some (bx.set 0 (bx.getD 0 0 |||
            (if get_a_flag fp (affineOf c.mode_ self).y then 0x80 ||| 0x20 else 0x80)) ++
          EcT.saveTail buf0 fp c) ∧
      (bx.getD 0 0 |||
        (if get_a_flag fp (affineOf c.mode_ self).y then 0x80 ||| 0x20 else 0x80)) &&&
          0x80 ≠ 0 ∧
      (bx.getD 0 0 |||
        (if get_a_flag fp (affineOf c.mode_ self).y then 0x80 ||| 0x20 else 0x80)) &&&
          0x40 = 0 ∧
      decide ((bx.getD 0 0 |||
        (if get_a_flag fp (affineOf c.mode_ self).y then 0x80 ||| 0x20 else 0x80)) &&&
          0x20 ≠ 0) = get_a_flag fp (affineOf c.mode_ self).y ∧
      (bx.getD 0 0 |||
        (if get_a_flag fp (affineOf c.mode_ self).y then 0x80 ||| 0x20 else 0x80)) &&&
          0x1f = bx.getD 0 0) ∧
    ∃ bytes, EcT.save buf0 fp c self ioMode = some bytes ∧
      bytes.length = EcT.getSerializedByteSize fp c ∧
      EcT.load fp e c old bytes ioMode =
        (true, if self.z = 0 then EcT.clear c else affineOf c.mode_ self) ∧
      SamePoint c (EcT.load fp e c old bytes ioMode).2 self ∧
      (AffineNormal c self → EcT.eq c (EcT.load fp e c old bytes ioMode).2 self = true) := by
  obtain ⟨hA, hB, bytes, h1, h2, h3⟩ := eth_round_trip_aux buf0 fp e c self old ioMode hproj
    hafs hser hhex heth hn hsave hsqrt hneg hon hord
  have hsame : SamePoint c (if self.z = 0 then EcT.clear c else affineOf c.mode_ self) self := by
    split_ifs with hz
    · exact Or.inl ⟨clear_z c, hz⟩
    · have ha := affineOf_eq_normalize c self hz
      refine Or.inr ⟨by rw [ha]; exact one_ne_zero, hz, ?_⟩
      rw [ha, affineOf_one]
  have hnorm : AffineNormal c (if self.z = 0 then EcT.clear c else affineOf c.mode_ self) := by
    split_ifs with hz
    · exact affineNormal_clear c
    · intro _
      left
      rw [affineOf_eq_normalize c self hz]
  refine ⟨hA, fun hz => ?_, bytes, h1, h2, h3, ?_, ?_⟩
  · obtain ⟨bx, hs, hsv⟩ := hB hz
    obtain ⟨bx', hs', _, hb, _⟩ := hsave (affineOf c.mode_ self).x
    have hbx : bx = bx' := Option.some.inj (hs.symm.trans hs')
    subst hbx
    exact ⟨bx, hs, hsv, eth_bits _ hb _⟩
  · rw [h3]
    exact hsame
  · intro hN
    rw [h3]
    exact eq_of_samePoint c _ _ hsame hnorm hN

/-- Instance of `eth_save_load_round_trip`: the point `(0, 5)` of
`y^2 = x^3 + 4` over the field of 7 elements, with the three-byte ETH field
I/O. -/
theorem eth_save_load_round_trip_witness :
    fp7eth.getETHserialization = true ∧
    OnCurve (param7 Mode.Jacobi) ⟨0, 5, 1⟩ ∧
    ∃ bytes, EcT.save (fun _ => 0) fp7eth (param7 Mode.Jacobi) ⟨0, 5, 1⟩ IoMode.serialize =
        some bytes ∧
      bytes.length = EcT.getSerializedByteSize fp7eth (param7 Mode.Jacobi) ∧
      EcT.load fp7eth ext7 (param7 Mode.Jacobi) ⟨0, 0, 0⟩ bytes IoMode.serialize =
        (true, if (⟨0, 5, 1⟩ : EcT (ZMod 7)).z = 0 then EcT.clear (param7 Mode.Jacobi)
          else affineOf (param7 Mode.Jacobi).mode_ ⟨0, 5, 1⟩) ∧
      SamePoint (param7 Mode.Jacobi)
        (EcT.load fp7eth ext7 (param7 Mode.Jacobi) ⟨0, 0, 0⟩ bytes IoMode.serialize).2
        ⟨0, 5, 1⟩ ∧
      (AffineNormal (param7 Mode.Jacobi) ⟨0, 5, 1⟩ →
        EcT.eq (param7 Mode.Jacobi)
          (EcT.load fp7eth ext7 (param7 Mode.Jacobi) ⟨0, 0, 0⟩ bytes IoMode.serialize).2
          ⟨0, 5, 1⟩ = true) :=
  ⟨rfl, Or.inr (by rw [affineOf_one]; decide),
    (eth_save_load_round_trip (fun _ => 0) fp7eth ext7 (param7 Mode.Jacobi) ⟨0, 5, 1⟩
      ⟨0, 0, 0⟩ IoMode.serialize rfl rfl rfl rfl rfl (by decide)
      (fun x => ⟨[0, 0, x.val], rfl, rfl, by simp, by revert x; decide⟩)
      (by decide) (by decide) (Or.inr (by rw [affineOf_one]; decide))
      (fun _ h => absurd h (by decide))).2.2⟩

/-- **C22.** ETH serialization with `N = 3` bytes per field element on the
curve `y^2 = x^3 + x` over the field of 7 elements, where `b = 0`, so that
`isMSBserialize()` is false and `getSerializedByteSize()` is `N + 1 = 4`.
The ETH branch of `save` assigns `buf[0 .. N - 1]` only and then writes
`N + 1` bytes: whatever the local array `buf` held at index 3 (`buf0 3`) is
the fourth byte of the output.  For the identity the output is
`0xC0, 0, 0, buf0 3`, which is not `0xC0` followed by zero bytes once that
byte is not zero (`0xAA` below); for the valid point `(1, 4)` it is
`0xA0, 0, 1, buf0 3`.  The branch without the ETH serialization (`fp7`, one
byte per element) assigns all `N + 1` bytes on the same curve.  `load` does
not look at the fourth byte, and reads the identity and `(1, 4, 1)` back. -/
theorem eth_save_unassigned_byte :
    fp7eth.getETHserialization = true ∧
    EcT.isMSBserialize fp7eth (param7b0 Mode.Jacobi) = false ∧
    EcT.getSerializedByteSize fp7eth (param7b0 Mode.Jacobi) = 4 ∧
    EcT.isValid ext7 (param7b0 Mode.Jacobi) ⟨1, 4, 1⟩ = true ∧
    (∀ buf0 : Nat → Nat,
      EcT.save buf0 fp7eth (param7b0 Mode.Jacobi) (EcT.clear (param7b0 Mode.Jacobi))
        IoMode.serialize = some [0xC0, 0, 0, buf0 3]) ∧
    EcT.save (fun _ => 0xAA) fp7eth (param7b0 Mode.Jacobi) (EcT.clear (param7b0 Mode.Jacobi))
      IoMode.serialize = some [0xC0, 0, 0, 0xAA] ∧
    (∀ buf0 : Nat → Nat,
      EcT.save buf0 fp7eth (param7b0 Mode.Jacobi) ⟨1, 4, 1⟩ IoMode.serialize =
        some [0xA0, 0, 1, buf0 3]) ∧
    (∀ buf0 : Nat → Nat,
      EcT.save buf0 fp7 (param7b0 Mode.Jacobi) (EcT.clear (param7b0 Mode.Jacobi))
        IoMode.serialize = some [0, 0] ∧
      EcT.save buf0 fp7 (param7b0 Mode.Jacobi) ⟨1, 4, 1⟩ IoMode.serialize = some [2, 1]) ∧
    EcT.load fp7eth ext7 (param7b0 Mode.Jacobi) ⟨1, 4, 1⟩ [0xC0, 0, 0, 0xAA] IoMode.serialize =
      (true, EcT.clear (param7b0 Mode.Jacobi)) ∧
    EcT.load fp7eth ext7 (param7b0 Mode.Jacobi) ⟨0, 0, 0⟩ [0xA0, 0, 1, 0xAA] IoMode.serialize =
      (true, ⟨1, 4, 1⟩) := by
  refine ⟨by decide, by decide, by decide, by decide, fun buf0 => rfl, by decide, fun buf0 => ?_,
    fun buf0 => ⟨rfl, rfl⟩, by decide, by decide⟩
  rw [save_fixed buf0 fp7eth (param7b0 Mode.Jacobi) ⟨1, 4, 1⟩ IoMode.serialize rfl rfl rfl rfl,
    saveFixedBuf_eth_finite buf0 fp7eth (param7b0 Mode.Jacobi) ⟨1, 4, 1⟩
      (EcT.normalize (param7b0 Mode.Jacobi) ⟨1, 4, 1⟩) rfl (by decide)
      (by decide) [0, 0, 1] rfl rfl, saveTail_eq,
    if_pos (by decide), if_neg (by decide)]
  rfl

/-- In a prime field with an odd number of elements negation flips the sign
of every non-zero element. -/
theorem isNegativeSpec_neg (p : Nat) [NeZero p] (hodd : p % 2 = 1) (y : ZMod p) (hy : y ≠ 0) :
    isNegativeSpec p (-y) = !isNegativeSpec p y := by
  unfold isNegativeSpec
  rw [ZMod.neg_val, if_neg hy]
  have h1 := ZMod.val_lt y
  have h2 : y.val ≠ 0 := fun h => hy ((ZMod.val_eq_zero y).1 h)
  by_cases h : (p + 1) / 2 ≤ y.val
  · have : ¬ (p + 1) / 2 ≤ p - y.val := by omega
    simp [h, this]
  · have : (p + 1) / 2 ≤ p - y.val := by omega
    simp [h, this]

/-- The decoder's choice between a root and its negative returns the encoded
`y` when the flag tells `y` and `-y` apart. -/
theorem eth_y_recover_at (fp : FpIo F) (y y0 : F) (h : y0 * y0 = y * y)
    (hsep : y ≠ 0 → get_a_flag fp (-y) ≠ get_a_flag fp y) :
    (if xor (get_a_flag fp y0) (get_a_flag fp y) then -y0 else y0) = y := by
  have h3 : (y0 - y) * (y0 + y) = 0 := by linear_combination h
  rcases mul_eq_zero.1 h3 with h4 | h4
  · have : y0 = y := by linear_combination h4
    subst this
    simp
  · have hy0 : y0 = -y := by linear_combination h4
    subst hy0
    by_cases hy : y = 0
    · subst hy
      simp
    · have := hsep hy
      revert this
      cases get_a_flag fp (-y) <;> cases get_a_flag fp y <;> simp

/-- Two finite points with the same `x` and opposite `y` whose flags agree
have the same ETH encoding. -/
theorem saveFixedBuf_eth_same (buf0 : Nat → Nat) (fp : FpIo F) (c : Param F)
    (self self' : EcT F) (x y : F)
    (heth : fp.getETHserialization = true)
    (hflag : get_a_flag fp (-y) = get_a_flag fp y) :
    EcT.saveFixedBuf buf0 fp c self ⟨x, -y, 1⟩ = EcT.saveFixedBuf buf0 fp c self' ⟨x, y, 1⟩ := by
  unfold EcT.saveFixedBuf
  simp only [heth, if_true, hflag, isZero_iff]

/-- **C31.** The ETH sign flag and the two square roots.  In the base field,
a prime field with an odd number `p` of elements whose `isNegative` is the
sign `(p + 1) / 2 ≤ x`, `get_a_flag(-y) != get_a_flag(y)` for every non-zero
`y`.  In the quadratic extension, where the flag of `y = a + b*i` is that of
the component `b`, `get_a_flag(-y) != get_a_flag(y)` for every `y` with
`b ≠ 0`, and the two flags are equal for every `y` with `b = 0`.  Over any
coordinate field, when the flag tells `y` and `-y` apart (or `y = 0`), the
decoder's rule, negate the recovered root if its flag differs from the
transmitted bit, returns the encoded `y` from either root. -/
theorem get_a_flag_separates (p : Nat) [NeZero p] (hodd : p % 2 = 1) (fp : FpIo (ZMod p))
    (hfp : ∀ x, fp.isNegative x = isNegativeSpec p x) :
    (∀ y : ZMod p, y ≠ 0 → get_a_flag fp (-y) ≠ get_a_flag fp y) ∧
    (∀ y : Fp2 (ZMod p), y.b ≠ 0 → get_a_flag_Fp2 fp (-y) ≠ get_a_flag_Fp2 fp y) ∧
    (∀ y : Fp2 (ZMod p), y.b = 0 → get_a_flag_Fp2 fp (-y) = get_a_flag_Fp2 fp y) ∧
    (∀ (K : Type) [Field K] [DecidableEq K] (fpK : FpIo K) (y y0 : K), y0 * y0 = y * y →
      (y ≠ 0 → get_a_flag fpK (-y) ≠ get_a_flag fpK y) →
      (if xor (get_a_flag fpK y0) (get_a_flag fpK y) then -y0 else y0) = y) := by
  have hbase : ∀ y : ZMod p, y ≠ 0 → get_a_flag fp (-y) ≠ get_a_flag fp y := by
    intro y hy
    unfold get_a_flag
    rw [hfp, hfp, isNegativeSpec_neg p hodd y hy]
    cases isNegativeSpec p y <;> simp
  refine ⟨hbase, fun y hy => hbase y.b hy, fun y hy => ?_, ?_⟩
  · show get_a_flag fp (-y.b) = get_a_flag fp y.b
    rw [hy, neg_eq_zero.mpr rfl]
  · intro K _ _ fpK y y0 h hsep
    exact eth_y_recover_at fpK y y0 h hsep

/-- **C31, witness.** The field of 7 elements, whose `isNegative` is
`4 ≤ x`. -/
theorem get_a_flag_separates_witness :
    7 % 2 = 1 ∧ (∀ x, fp7.isNegative x = isNegativeSpec 7 x) ∧
    ∀ y : ZMod 7, y ≠ 0 → get_a_flag fp7 (-y) ≠ get_a_flag fp7 y :=
  ⟨rfl, by decide, (get_a_flag_separates 7 rfl fp7 (by decide)).1⟩

/-- **C31, counterexample.** The quadratic extension of the field of 7
elements: `y = 1 + 0*i` is not zero, `-y = 6 + 0*i`, and both have the flag of
the component `b = 0`, so `get_a_flag(-y) == get_a_flag(y)`. -/
theorem get_a_flag_Fp2_counterexample :
    (⟨1, 0⟩ : Fp2 (ZMod 7)) ≠ 0 ∧
    (∀ x, fp7.isNegative x = isNegativeSpec 7 x) ∧
    -(⟨1, 0⟩ : Fp2 (ZMod 7)) = ⟨6, 0⟩ ∧
    get_a_flag_Fp2 fp7 (-(⟨1, 0⟩ : Fp2 (ZMod 7))) = get_a_flag_Fp2 fp7 ⟨1, 0⟩ := by
  decide

end mcl
